import Mathlib

/-!
Virayeshgar: the editor core as Lean definitions.

The Go sources under `editor/`, `editor/syntax/`, `editor/keys/`, `editor/modes/`
and `tools/` are embedded as pure functions on an explicit `Editor` state.

Conventions of the embedding.

* Go `int` is `Int`; a `rune` is a `Char` (a Unicode scalar value); a Go `string`
  or `[]rune` is a `List Char` (the sequence of its code points).  Byte lengths
  and byte offsets of strings are computed with `byteLen`.
* A function that can panic returns `Except Fault _`; the fault says which panic.
* `Rows []*Row` is a list of row values.  A row that the undo stack refers to
  through `beforeRows` is never reachable from `Rows` at the same time (a cut row
  has left `Rows`, an edit snapshot is a fresh struct copy), so storing the row
  value at the moment of the push is what a later `Undo` reads, with one
  exception: the struct copy of an edit snapshot shares the backing array of
  `chars` with the live row, and the edits of the Insert session write into that
  array.  The section on rune slices in memory embeds `SetMode`, the edit
  functions and `Undo` with the rune arrays kept in a heap; the value embedding is
  exact for the rows of the document as long as no edit snapshot is restored.
  The field `afterRows` of an undo node is left out: the source writes it (a fresh
  empty row for a cut, the pointer `e.Rows[at]` for a paste) and never reads it.
* Functions of the Go standard library and of `go-runewidth` are the fields of
  `Lib` and `Unicode`; the general theorems hold for every `Lib` and `Unicode`.
* The keys that `readKey` returns inside `Prompt` are a list given to `Prompt` and to
  its callers `Find`, `Save` and `ProcessKeyCommandMode`; the file system that `Save`
  writes to is a function from the file name and the text.
* `runewidth.StringWidth` and `runewidth.Truncate` are defined from `RuneWidth`, as
  the library computes them on strings whose grapheme clusters are single runes.
* Of `drawRows` the computation of the visible text of a row and of its highlight
  classes is embedded (`visibleRow`); the escape sequences written are left out.
* Terminal output, logging and the clock are left out.
-/

namespace Virayeshgar

/-! ## Faults -/

/-- Run-time failures of the program, kept apart by cause. -/
inductive Fault
  | indexOutOfRange
  | nilDereference
  | negativeLen
  | unreachable
  | outOfFuel
  deriving DecidableEq, Repr

deriving instance DecidableEq for Except

/-- A Go string or rune slice, as the sequence of its code points. -/
abbrev Str := List Char

/-- Length in bytes of the UTF-8 encoding of a string: Go's `len(s)` for a string. -/
def byteLen (s : Str) : Nat := (s.map fun c => c.utf8Size).sum

/-- Element `i` of a slice, `xs[i]` in Go, with the range check of the runtime. -/
def index {α : Type} (xs : List α) (i : Int) : Except Fault α :=
  if 0 ≤ i then
    match xs[i.toNat]? with
    | some x => .ok x
    | none => .error .indexOutOfRange
  else .error .indexOutOfRange

/-- Library functions the editor calls: `runewidth.RuneWidth`, `unicode.IsSpace`,
`unicode.IsDigit`. -/
structure Lib where
  RuneWidth : Char → Int
  IsSpace : Char → Bool
  IsDigit : Char → Bool

/-- A concrete library, exact on the code points below U+0080 (control characters
have width 0, the others width 1; white space and digits as in Go); above that
range every rune has width 1, white space follows Go and no rune is a digit. -/
def stdLib : Lib where
  RuneWidth := fun c => if c.toNat < 32 ∨ (127 ≤ c.toNat ∧ c.toNat < 160) then 0 else 1
  IsSpace := fun c =>
    c.toNat ∈ [9, 10, 11, 12, 13, 32, 0x85, 0xA0, 0x1680, 0x2028, 0x2029, 0x202f, 0x205f, 0x3000]
      ∨ (0x2000 ≤ c.toNat ∧ c.toNat ≤ 0x200a)
  IsDigit := fun c => 48 ≤ c.toNat ∧ c.toNat ≤ 57

/-! ## tools/tools.go -/

/-- Transcription of `tools.InsertToSlice`. -/
def InsertToSlice {α : Type} (s : List α) (value : α) (i : Int) : List α :=
  if 0 ≤ i ∧ i ≤ s.length then s.take i.toNat ++ value :: s.drop i.toNat else s

/-- Transcription of `tools.RemoveFromSlice`.  With `at` in `[0, len(s)]` the source
makes a slice of length `len(s)-1`: that panics for the empty slice, and
`newSlice[:at]` panics for `at = len(s)`. -/
def RemoveFromSlice {α : Type} (s : List α) (i : Int) : Except Fault (List α) :=
  if 0 ≤ i ∧ i ≤ s.length then
    if s.length = 0 then .error .negativeLen
    else if i = s.length then .error .indexOutOfRange
    else .ok (s.take i.toNat ++ s.drop (i.toNat + 1))
  else .ok s

/-- Transcription of `tools.IsSeparator`. -/
def IsSeparator (L : Lib) (r : Char) : Bool :=
  L.IsSpace r || decide (r ∈ ",.()+-/*=~%<>[]{}:;".toList)

/-! ## editor/syntax -/

def HlNormal : Nat := 0
def HlComment : Nat := 1
def HlMlComment : Nat := 2
def HlKeyword1 : Nat := 3
def HlKeyword2 : Nat := 4
def HlString : Nat := 5
def HlNumber : Nat := 6
def HlMatch : Nat := 7

def HL_HIGHLIGHT_NUMBERS : Nat := 1
def HL_HIGHLIGHT_STRINGS : Nat := 2

/-- Transcription of `syntax.EditorSyntax`. -/
structure EditorSyntax where
  Filetype : Str
  Filematch : List Str
  Keywords : List Str
  Scs : Str
  Mcs : Str
  Mce : Str
  Flags : Nat
  Tabstop : Int
  deriving DecidableEq, Repr

def syntaxGo : EditorSyntax where
  Filetype := "go".toList
  Filematch := [".go".toList]
  Keywords := [
    "break", "default", "func", "interface", "select", "case", "defer",
    "go", "map", "struct", "chan", "else", "goto", "package", "switch",
    "const", "fallthrough", "if", "range", "type", "continue", "for",
    "import", "return", "var",
    "append|", "bool|", "byte|", "cap|", "close|", "complex|",
    "complex64|", "complex128|", "error|", "uint16|", "copy|", "false|",
    "float32|", "float64|", "imag|", "int|", "int8|", "int16|",
    "uint32|", "int32|", "int64|", "iota|", "len|", "make|", "new|",
    "nil|", "panic|", "uint64|", "print|", "println|", "real|",
    "recover|", "rune|", "string|", "true|", "uint|", "uint8|",
    "uintptr|", "any|"].map String.toList
  Scs := "//".toList
  Mcs := "/*".toList
  Mce := "*/".toList
  Flags := HL_HIGHLIGHT_NUMBERS ||| HL_HIGHLIGHT_STRINGS
  Tabstop := 4

def syntaxLua : EditorSyntax where
  Filetype := "lua".toList
  Filematch := [".lua".toList]
  Keywords := [
    "end", "in", "repeat", "break", "local", "return", "do", "for",
    "then", "else", "function", "elseif", "if", "until", "while",
    "and|", "false|", "nil|", "not|", "true|", "or|"].map String.toList
  Scs := "--".toList
  Mcs := "--[[".toList
  Mce := "--]]".toList
  Flags := HL_HIGHLIGHT_NUMBERS ||| HL_HIGHLIGHT_STRINGS
  Tabstop := 2

def syntaxPython : EditorSyntax where
  Filetype := "python".toList
  Filematch := [".py".toList]
  Keywords := [
    "as", "assert", "break", "class", "continue", "def", "del",
    "elif", "else", "except", "finally", "for", "from", "global",
    "if", "import", "in", "lambda", "nonlocal", "pass", "raise",
    "return", "try", "while", "with", "yield",
    "and|", "False|", "is|", "None|", "not|", "or|", "True|",
    "int|", "float|", "bool|", "str|", "abs|", "all|", "any|",
    "ascii|", "bin|", "bytearray|", "bytes|", "callable|", "chr|",
    "classmethod|", "compile|", "complex|", "delattr|", "dict|",
    "dir|", "divmod|", "enumerate|", "eval|", "exec|", "filter|",
    "format|", "frozenset|", "getattr|", "globals|", "hasattr|",
    "hash|", "help|", "hex|", "id|", "input|", "isinstance|",
    "issubclass|", "iter|", "len|", "list|", "locals|", "map|",
    "max|", "memoryview|", "min|", "next|", "object|", "oct|",
    "open|", "ord|", "pow|", "print|", "property|", "range|",
    "repr|", "reversed|", "round|", "set|", "setattr|", "slice|",
    "sorted|", "staticmethod|", "sum|", "super|", "tuple|", "type|",
    "vars|", "zip|"].map String.toList
  Scs := "#".toList
  Mcs := []
  Mce := []
  Flags := HL_HIGHLIGHT_NUMBERS ||| HL_HIGHLIGHT_STRINGS
  Tabstop := 4

/-- The profile table `syntax.HLDB`. -/
def HLDB : List EditorSyntax := [syntaxGo, syntaxLua, syntaxPython]

/-! ## editor/modes, editor/actions, editor/keys -/

/-- Transcription of `modes.Mode`. -/
structure Mode where
  Name : Str
  StatusMessage : Str
  deriving DecidableEq, Repr

def NormalMode : Mode := ⟨"normal".toList, "-- NORMAL --".toList⟩
def InsertMode : Mode := ⟨"insert".toList, "-- INSERT --".toList⟩
def CommandMode : Mode := ⟨"command".toList, []⟩

/-- Modelled from the spec: the package `editor/actions` is imported by `editor.go`
and is not among the sources; the spec gives the undo node as the tagged variant
`{Cut, Paste, Edit}`. -/
inductive Action
  | Cut
  | Paste
  | Edit
  deriving DecidableEq, Repr

/-- A key event, `keys.Key` (an `int32`). -/
abbrev Key := Int

def NavKeyH : Key := 104
def NavKeyJ : Key := 106
def NavKeyK : Key := 107
def NavKeyL : Key := 108
def NavKeyLeftCurly : Key := 123
def NavKeyRightCurly : Key := 125
def NavKeyGg : Key := 103
def NavKeyCapitalG : Key := 71
def EscKey : Key := 27
def ModeKeyI : Key := 105
def ModeKeySmallA : Key := 97
def ModeKeyCapitalA : Key := 65
def ModeKeySmallO : Key := 111
def ModeKeyCapitalO : Key := 79
def ModeKeyCol : Key := 58
def ModeKeySearch : Key := 47
def ModeKeyU : Key := 117
def ModeKeyX : Key := 120
def MotionKeyD : Key := 100
def MotionKeyY : Key := 121
def MotionKeySmallP : Key := 112
def MotionKeyCapitalP : Key := 80
def KeyEnter : Key := 10
def KeyBackspace : Key := 127
/-- The constant is `iota + 1000` on the third line of its `const` block. -/
def KeyArrowLeft : Key := 1002
def KeyArrowRight : Key := 1003
def KeyArrowUp : Key := 1004
def KeyArrowDown : Key := 1005
def KeyDelete : Key := 1006
def KeyPageUp : Key := 1007
def KeyPageDown : Key := 1008
def KeyHome : Key := 1009
def KeyEnd : Key := 1010

/-- Transcription of `keys.KeySequenceEqual`. -/
def KeySequenceEqual (a b : List Key) : Bool := decide (a = b)

/-! ## editor/editor.go: the state -/

/-- The constant `tabstop`. -/
def tabstop : Int := 8

/-- Transcription of `Row`. -/
structure Row where
  idx : Int
  chars : Str
  render : Str
  hl : List Nat
  hasUnclosedComment : Bool
  deriving DecidableEq, Repr

/-- The zero row `&Row{}`. -/
def Row.zero : Row := ⟨0, [], [], [], false⟩

/-- Transcription of `UndoNode`, without the write-only field `afterRows`. -/
structure UndoNode where
  undoType : Action
  beforeRows : List Row
  fromIdx : Int
  toIdx : Int
  deriving DecidableEq, Repr

/-- Transcription of `Editor`, without the terminal handle, the logger and the
time stamp of the status message. -/
structure Editor where
  cx : Int
  cy : Int
  rx : Int
  rowOffset : Int
  colOffset : Int
  screenRows : Int
  screenCols : Int
  Rows : List Row
  dirty : Int
  quitCounter : Int
  filename : Str
  statusmsg : Str
  syn : Option EditorSyntax
  mode : Mode
  command : Str
  motionRegister : List Key
  yankRegister : Str
  undoPath : List UndoNode
  deriving DecidableEq, Repr

/-- Transcription of `SetStatusMessage` for a message without formatting verbs. -/
def SetStatusMessage (e : Editor) (msg : Str) : Editor := { e with statusmsg := msg }

/-! ## Cursor movement -/

/-- The closing clamp of `MoveCursor`: a cursor past the end of its line goes to the
end of the line. -/
def clampCx (e : Editor) : Except Fault Editor := do
  let linelen ← if e.cy < e.Rows.length then (index e.Rows e.cy).map fun r => (r.chars.length : Int)
    else pure 0
  pure (if e.cx > linelen then { e with cx := linelen } else e)

/-- Transcription of `Editor.MoveCursor`. -/
def MoveCursor (e : Editor) (k : Key) : Except Fault Editor :=
  if k = NavKeyK ∨ k = KeyArrowUp ∨ k = NavKeyLeftCurly then
    clampCx (if e.cy ≠ 0 then { e with cy := e.cy - 1 } else e)
  else if k = NavKeyJ ∨ k = KeyArrowDown ∨ k = NavKeyRightCurly then
    clampCx (if e.cy < e.Rows.length then { e with cy := e.cy + 1 } else e)
  else if k = NavKeyH ∨ k = KeyArrowLeft then
    if e.cx ≠ 0 then clampCx { e with cx := e.cx - 1 }
    else if e.cy > 0 then do
      let r ← index e.Rows (e.cy - 1)
      clampCx { e with cy := e.cy - 1, cx := r.chars.length }
    else clampCx e
  else if k = NavKeyL ∨ k = KeyArrowRight then do
    let linelen ← if e.cy < e.Rows.length then
        (index e.Rows e.cy).map fun r => (r.chars.length : Int)
      else pure (-1)
    if linelen ≥ 0 ∧ e.cx < linelen then clampCx { e with cx := e.cx + 1 }
    else if linelen ≥ 0 ∧ e.cx = linelen then clampCx { e with cy := e.cy + 1, cx := 0 }
    else clampCx e
  else clampCx e

/-- The loop of `JumpParagraph` over the rows of `targetSlice`. -/
def jumpLoop (k : Key) : List Row → Editor → Except Fault Editor
  | [], e => .ok e
  | rowFinder :: rest, e => do
    let e1 ← MoveCursor e k
    if rowFinder.render = [] then pure e1 else jumpLoop k rest e1

/-- Transcription of `Editor.JumpParagraph`.  The slice bounds are checked against the
length of `e.Rows`.  Go checks the upper bound of `e.Rows[:row]` against the capacity,
which is the length after `Undo` has rebuilt the slice with `InsertToSlice` or
`RemoveFromSlice`, and can exceed it after `InsertRow`, `CutRow` and `DeleteRow`. -/
def JumpParagraph (e : Editor) (k : Key) : Except Fault Editor :=
  let row := e.cy
  if (row = 0 ∧ k = NavKeyLeftCurly) ∨ (row = e.Rows.length ∧ k = NavKeyRightCurly) then .ok e
  else if k = NavKeyLeftCurly then
    if 0 ≤ row ∧ row ≤ e.Rows.length then jumpLoop k (e.Rows.take row.toNat).reverse e
    else .error .indexOutOfRange
  else if k = NavKeyRightCurly then
    if 0 ≤ row + 1 ∧ row + 1 ≤ e.Rows.length then jumpLoop k (e.Rows.drop (row + 1).toNat) e
    else .error .indexOutOfRange
  else .ok e

/-! ## The highlight scan of `updateHighlight` -/

/-- The local variables of the scan loop of `updateHighlight`; `strQuote` is the
NUL rune outside a string. -/
structure Scan where
  idx : Nat
  hl : List Nat
  prevSep : Bool
  strQuote : Char
  inComment : Bool
  deriving DecidableEq, Repr

/-- How one pass through the loop body ends: `continue` (or the end of the body),
or `break`. -/
inductive Flow
  | next (s : Scan)
  | stop (s : Scan)
  deriving DecidableEq, Repr

/-- The assignment `row.hl[i] = v`. -/
def hlSet (hl : List Nat) (i : Nat) (v : Nat) : Except Fault (List Nat) :=
  if i < hl.length then .ok (hl.set i v) else .error .indexOutOfRange

/-- A run of `n` times `row.hl[idx] = v; idx++`. -/
def markN : Nat → Nat → List Nat → Nat → Except Fault (Nat × List Nat)
  | 0, idx, hl, _ => .ok (idx, hl)
  | n + 1, idx, hl, v => do
    let hl1 ← hlSet hl idx v
    markN n (idx + 1) hl1 v

/-- The test `strings.HasSuffix(kw, "|")` that marks a keyword of the second class. -/
def isKeyword2 (kw : Str) : Bool := decide (kw.getLast? = some '|')

/-- The keyword text compared with the row: `strings.TrimSuffix(kw, "|")` for a
keyword of the second class. -/
def keywordText (kw : Str) : Str := if isKeyword2 kw then kw.dropLast else kw

/-- The `range e.syntax.Keywords` loop: the end and the class of the first keyword
that matches at `idx`. -/
def findKeyword (L : Lib) (runes : Str) (idx : Nat) : List Str → Option (Nat × Nat)
  | [] => none
  | kw0 :: rest =>
    let kw := keywordText kw0
    let e := idx + kw.length
    if e ≤ runes.length ∧ kw = (runes.drop idx).take kw.length ∧
        (e = runes.length ∨ (runes[e]?.map (IsSeparator L)) = some true) then
      some (e, if isKeyword2 kw0 then HlKeyword2 else HlKeyword1)
    else findKeyword L runes idx rest

/-- The end of the loop body: `prevSep = tools.IsSeparator(r); idx++`. -/
def stageDefault (L : Lib) (r : Char) (s : Scan) : Except Fault Flow :=
  .ok (.next { s with prevSep := IsSeparator L r, idx := s.idx + 1 })

/-- The keyword part of the loop body. -/
def stageKeyword (L : Lib) (sx : EditorSyntax) (runes : Str) (r : Char) (s : Scan) :
    Except Fault Flow :=
  if s.prevSep then
    match findKeyword L runes s.idx sx.Keywords with
    | some (e, cls) => do
      let (i, hl1) ← markN (e - s.idx) s.idx s.hl cls
      pure (.next { s with idx := i, hl := hl1, prevSep := false })
    | none => stageDefault L r s
  else stageDefault L r s

/-- The number part of the loop body. -/
def stageNumber (L : Lib) (sx : EditorSyntax) (runes : Str) (r : Char) (prevHl : Nat)
    (s : Scan) : Except Fault Flow :=
  if sx.Flags &&& HL_HIGHLIGHT_NUMBERS ≠ 0 ∧
      ((L.IsDigit r = true ∧ (s.prevSep = true ∨ prevHl = HlNumber)) ∨
        (r = '.' ∧ prevHl = HlNumber)) then do
    let hl1 ← hlSet s.hl s.idx HlNumber
    pure (.next { s with hl := hl1, idx := s.idx + 1, prevSep := false })
  else stageKeyword L sx runes r s

/-- The string part of the loop body. -/
def stageString (L : Lib) (sx : EditorSyntax) (runes : Str) (r : Char) (prevHl : Nat)
    (s : Scan) : Except Fault Flow :=
  if sx.Flags &&& HL_HIGHLIGHT_STRINGS ≠ 0 then
    if s.strQuote ≠ '\x00' then do
      let hl1 ← hlSet s.hl s.idx HlString
      if r = '\\' ∧ s.idx + 1 < runes.length then do
        let hl2 ← hlSet hl1 (s.idx + 1) HlString
        pure (.next { s with hl := hl2, idx := s.idx + 2 })
      else
        pure (.next { s with hl := hl1,
                             strQuote := if r = s.strQuote then '\x00' else s.strQuote,
                             idx := s.idx + 1, prevSep := true })
    else if r = '"' ∨ r = '\'' then do
      let hl1 ← hlSet s.hl s.idx HlString
      pure (.next { s with strQuote := r, hl := hl1, idx := s.idx + 1 })
    else stageNumber L sx runes r prevHl s
  else stageNumber L sx runes r prevHl s

/-- The single-line comment part of the loop body. -/
def stageScs (L : Lib) (sx : EditorSyntax) (runes : Str) (r : Char) (prevHl : Nat)
    (s : Scan) : Except Fault Flow :=
  if sx.Scs ≠ [] ∧ s.strQuote = '\x00' ∧ s.inComment = false ∧
      sx.Scs.isPrefixOf (runes.drop s.idx) = true then do
    let (i, hl1) ← markN (runes.length - s.idx) s.idx s.hl HlComment
    pure (.stop { s with idx := i, hl := hl1 })
  else stageString L sx runes r prevHl s

/-- The multi-line comment part of the loop body; `len(e.syntax.Mce)` and
`len(e.syntax.Mcs)` are byte lengths. -/
def stageMl (L : Lib) (sx : EditorSyntax) (runes : Str) (r : Char) (prevHl : Nat)
    (s : Scan) : Except Fault Flow :=
  if sx.Mcs ≠ [] ∧ sx.Mce ≠ [] ∧ s.strQuote = '\x00' then
    if s.inComment then do
      let hl1 ← hlSet s.hl s.idx HlMlComment
      if sx.Mce.isPrefixOf (runes.drop s.idx) then do
        let (i, hl2) ← markN (byteLen sx.Mce) s.idx hl1 HlMlComment
        pure (.next { s with idx := i, hl := hl2, inComment := false, prevSep := true })
      else pure (.next { s with hl := hl1, idx := s.idx + 1 })
    else if sx.Mcs.isPrefixOf (runes.drop s.idx) then do
      let (i, hl1) ← markN (byteLen sx.Mcs) s.idx s.hl HlMlComment
      pure (.next { s with idx := i, hl := hl1, inComment := true })
    else stageScs L sx runes r prevHl s
  else stageScs L sx runes r prevHl s

/-- One pass through the body of the scan loop, entered with `idx < len(runes)`. -/
def scanStep (L : Lib) (sx : EditorSyntax) (runes : Str) (s : Scan) : Except Fault Flow := do
  let r ← index runes s.idx
  let prevHl ← if s.idx > 0 then index s.hl ((s.idx : Int) - 1) else pure HlNormal
  stageMl L sx runes r prevHl s

/-- The loop `for idx < len(runes)`. -/
def scanLoop (L : Lib) (sx : EditorSyntax) (runes : Str) : Nat → Scan → Except Fault Scan
  | 0, s => if s.idx < runes.length then .error .outOfFuel else .ok s
  | fuel + 1, s =>
    if s.idx < runes.length then do
      match ← scanStep L sx runes s with
      | .next s1 => scanLoop L sx runes fuel s1
      | .stop s1 => pure s1
    else .ok s

/-- The scan of one render string under a profile, from the comment state `inComment`
of the previous row: the highlight classes and the comment state at the end of the
row.  Every pass but one after an empty keyword advances `idx`, so `2 * len + 2`
passes are enough. -/
def scanRender (L : Lib) (sx : EditorSyntax) (render : Str) (inComment : Bool) :
    Except Fault (List Nat × Bool) := do
  let s ← scanLoop L sx render (2 * render.length + 2)
    { idx := 0, hl := List.replicate render.length HlNormal, prevSep := true,
      strQuote := '\x00', inComment := inComment }
  pure (s.hl, s.inComment)

/-! ## Rendering and highlighting of rows -/

/-- The loop `for col%currentTabstop != 0 { b.WriteRune(' '); col++ }` of `updateRow`;
`%` is Go's truncated remainder. -/
def padLoop (ts : Int) : Nat → Int → Str → Except Fault (Int × Str)
  | 0, col, b => if col.tmod ts ≠ 0 then .error .outOfFuel else .ok (col, b)
  | fuel + 1, col, b =>
    if col.tmod ts ≠ 0 then padLoop ts fuel (col + 1) (b ++ [' ']) else .ok (col, b)

/-- The loop over `row.chars` of `updateRow`, building the render string in `b`.
`col` counts the spaces written for tabs only, as in the source.  Reading
`e.syntax.Tabstop` through the nil profile is a nil dereference. -/
def renderLoop (syn : Option EditorSyntax) : Str → Int → Str → Except Fault Str
  | [], _, b => .ok b
  | r :: rest, col, b =>
    if r = '\t' then
      match syn with
      | none => .error .nilDereference
      | some sx => do
        let currentTabstop := if sx.Tabstop ≠ 0 then sx.Tabstop else tabstop
        let (col1, b1) ← padLoop currentTabstop (currentTabstop.natAbs + 1) (col + 1) (b ++ [' '])
        renderLoop syn rest col1 b1
    else renderLoop syn rest col (b ++ [r])

/-- The render string that `updateRow` computes for `chars`. -/
def renderOf (syn : Option EditorSyntax) (chars : Str) : Except Fault Str :=
  renderLoop syn chars 0 []

/-- The flag of the row before index `i`, read as `e.Rows[i-1].hasUnclosedComment`
when `i > 0`, and `false` otherwise. -/
def prevFlag (e : Editor) (i : Int) : Except Fault Bool :=
  if i > 0 then (index e.Rows (i - 1)).map fun r => r.hasUnclosedComment
  else pure false

/-- The initial value of `inComment` in `updateHighlight`:
`row.idx > 0 && e.Rows[row.idx-1].hasUnclosedComment`. -/
def incomingFlag (e : Editor) (row : Row) : Except Fault Bool := prevFlag e row.idx

/-- The body of `updateHighlight` on one row, up to the assignment of
`hasUnclosedComment`: the row with its new highlight classes and flag, and whether
the flag `changed`.  `e.Rows` is the row store at entry. -/
def highlightRow (L : Lib) (e : Editor) (row : Row) : Except Fault (Row × Bool) :=
  match e.syn with
  | none => .ok ({ row with hl := List.replicate row.render.length HlNormal }, false)
  | some sx => do
    let inComment ← incomingFlag e row
    let (hl, inc) ← scanRender L sx row.render inComment
    pure ({ row with hl := hl, hasUnclosedComment := inc }, row.hasUnclosedComment != inc)

/-- `updateHighlight(e.Rows[pos])`: the row at position `pos` is re-highlighted in
place, and when its flag changed the call recurses on `e.Rows[row.idx+1]`.  One unit
of fuel is spent per call. -/
def updateHighlightAt (L : Lib) : Nat → Editor → Nat → Except Fault Editor
  | 0, _, _ => .error .outOfFuel
  | fuel + 1, e, pos => do
    let row ← index e.Rows pos
    let (row1, changed) ← highlightRow L e row
    let e1 := { e with Rows := e.Rows.set pos row1 }
    if changed = true ∧ row1.idx + 1 < e1.Rows.length then
      if 0 ≤ row1.idx + 1 then updateHighlightAt L fuel e1 (row1.idx + 1).toNat
      else .error .indexOutOfRange
    else pure e1

/-- `updateHighlight` on a row of the store.  With contiguous indices the recursion
visits each later row at most once, so `len(Rows) + 1` calls are enough. -/
def updateHighlight (L : Lib) (e : Editor) (pos : Nat) : Except Fault Editor :=
  updateHighlightAt L (e.Rows.length + 1) e pos

/-- `updateHighlight` on a row that is not (yet) in the store, as `InsertRow` calls it
through `updateRow`: the recursion, if any, runs on the store as it is. -/
def updateHighlightNew (L : Lib) (e : Editor) (row : Row) : Except Fault (Row × Editor) := do
  let (row1, changed) ← highlightRow L e row
  if changed = true ∧ row1.idx + 1 < e.Rows.length then
    if 0 ≤ row1.idx + 1 then do
      let e1 ← updateHighlight L e (row1.idx + 1).toNat
      pure (row1, e1)
    else .error .indexOutOfRange
  else pure (row1, e)

/-- Transcription of `Editor.updateRow` on the row at position `pos` of the store. -/
def updateRow (L : Lib) (e : Editor) (pos : Nat) : Except Fault Editor := do
  let row ← index e.Rows pos
  let render ← renderOf e.syn row.chars
  updateHighlight L { e with Rows := e.Rows.set pos { row with render := render } } pos

/-- Transcription of `Editor.updateRow` on a row that is not in the store. -/
def updateRowNew (L : Lib) (e : Editor) (row : Row) : Except Fault (Row × Editor) := do
  let render ← renderOf e.syn row.chars
  updateHighlightNew L e { row with render := render }

/-! ## Row store operations -/

def Row.incIdx (r : Row) : Row := { r with idx := r.idx + 1 }
def Row.decIdx (r : Row) : Row := { r with idx := r.idx - 1 }

/-- Transcription of `Editor.InsertRow`. -/
def InsertRow (L : Lib) (e : Editor) (i : Int) (chars : Str) : Except Fault Editor :=
  if i < 0 ∨ i > e.Rows.length then .ok e
  else do
    let flag ← prevFlag e i
    let row0 : Row := { idx := i, chars := chars, render := [], hl := [],
                        hasUnclosedComment := flag }
    let (row, e1) ← updateRowNew L e row0
    pure { e1 with
      Rows := e1.Rows.take i.toNat ++ row :: (e1.Rows.drop i.toNat).map Row.incIdx }

/-- Transcription of `Editor.DeleteRow`. -/
def DeleteRow (e : Editor) (i : Int) : Editor :=
  if i < 0 ∨ i ≥ e.Rows.length then e
  else { e with
    Rows := e.Rows.take i.toNat ++ (e.Rows.drop (i.toNat + 1)).map Row.decIdx
    dirty := e.dirty + 1 }

/-- Transcription of `Editor.CutRow`. -/
def CutRow (e : Editor) : Except Fault Editor := do
  let row ← index e.Rows e.cy
  pure { e with
    dirty := e.dirty + 1
    yankRegister := row.render
    undoPath := e.undoPath ++ [⟨.Cut, [row], e.cy, e.cy⟩]
    Rows := e.Rows.take e.cy.toNat ++ (e.Rows.drop (e.cy.toNat + 1)).map Row.decIdx }

/-- Transcription of `Editor.YankRow`. -/
def YankRow (e : Editor) : Except Fault Editor := do
  let row ← index e.Rows e.cy
  pure { e with dirty := e.dirty + 1, yankRegister := row.render }

/-- Transcription of `Editor.PasteRow`.  The undo node is built from `e.Rows[at]`,
read before the insertion: the read is kept for its range check. -/
def PasteRow (L : Lib) (e : Editor) (i : Int) : Except Fault Editor := do
  let _ ← index e.Rows i
  let e1 := { e with
    dirty := e.dirty + 1
    undoPath := e.undoPath ++ [⟨.Paste, [Row.zero], i, i⟩] }
  let e2 ← InsertRow L e1 i e1.yankRegister
  pure { e2 with yankRegister := [] }

/-- Transcription of `Editor.InsertNewline`. -/
def InsertNewline (L : Lib) (e : Editor) : Except Fault Editor := do
  let e0 := { e with dirty := e.dirty + 1 }
  let e3 ← if e0.cx = 0 then InsertRow L e0 e0.cy []
    else do
      let row ← index e0.Rows e0.cy
      if e0.cx < 0 ∨ e0.cx > row.chars.length then throw Fault.indexOutOfRange
      let e1 ← InsertRow L e0 (e0.cy + 1) (row.chars.drop e0.cx.toNat)
      let row1 ← index e1.Rows e1.cy
      let e2 := { e1 with
        Rows := e1.Rows.set e1.cy.toNat { row1 with chars := row1.chars.take e1.cx.toNat } }
      updateRow L e2 e2.cy.toNat
  pure { e3 with cy := e3.cy + 1, cx := 0 }

/-- Transcription of `Row.insertChar`. -/
def Row.insertChar (row : Row) (i : Int) (c : Char) : Row :=
  let j : Int := if i < 0 ∨ i > row.chars.length then row.chars.length else i
  { row with chars := row.chars.take j.toNat ++ c :: row.chars.drop j.toNat }

/-- Transcription of `Row.appendChars`. -/
def Row.appendChars (row : Row) (chars : Str) : Row := { row with chars := row.chars ++ chars }

/-- Transcription of `Row.deleteChar`. -/
def Row.deleteChar (row : Row) (i : Int) : Row :=
  if i < 0 ∨ i ≥ row.chars.length then row
  else { row with chars := row.chars.take i.toNat ++ row.chars.drop (i.toNat + 1) }

/-- Transcription of `Editor.InsertChar`. -/
def InsertChar (L : Lib) (e : Editor) (c : Char) : Except Fault Editor := do
  let e1 ← if e.cy = e.Rows.length then InsertRow L e e.Rows.length [] else pure e
  let row ← index e1.Rows e1.cy
  let e2 := { e1 with Rows := e1.Rows.set e1.cy.toNat (row.insertChar e1.cx c) }
  let e3 ← updateRow L e2 e2.cy.toNat
  pure { e3 with cx := e3.cx + 1, dirty := e3.dirty + 1 }

/-- Transcription of `Editor.DeleteChar`. -/
def DeleteChar (L : Lib) (e : Editor) : Except Fault Editor :=
  if e.cy = e.Rows.length then .ok e
  else if e.cx = 0 ∧ e.cy = 0 then .ok e
  else do
    let row ← index e.Rows e.cy
    if e.cx > 0 then do
      let e1 := { e with Rows := e.Rows.set e.cy.toNat (row.deleteChar (e.cx - 1)) }
      let e2 ← updateRow L e1 e1.cy.toNat
      pure { e2 with cx := e2.cx - 1, dirty := e2.dirty + 1 }
    else do
      let prevRow ← index e.Rows (e.cy - 1)
      let e1 := { e with
        cx := prevRow.chars.length
        Rows := e.Rows.set (e.cy - 1).toNat (prevRow.appendChars row.chars) }
      let e2 ← updateRow L e1 (e1.cy - 1).toNat
      let e3 := DeleteRow e2 e2.cy
      pure { e3 with cy := e3.cy - 1 }

/-! ## Modes and undo -/

/-- Transcription of `Editor.SetMode`.  The status message is the mode's label (the
three modes have labels without formatting verbs).  The snapshot `newRow` is a struct
copy of the cursor row: this value is exact for its `idx`, `render` and flag; the Go
copy shares the backing arrays of `chars` and `hl` with the live row. -/
def SetMode (e : Editor) (mode : Mode) : Except Fault Editor :=
  let e1 := SetStatusMessage { e with mode := mode } mode.StatusMessage
  if mode = InsertMode then do
    let newRow ← index e1.Rows e1.cy
    pure { e1 with undoPath := e1.undoPath ++ [⟨.Edit, [newRow], e1.cy, e1.cy⟩] }
  else pure e1

/-- The `actions.Cut` loop of `Undo`: `n` more rounds from counter `i`. -/
def undoCut (node : UndoNode) : Nat → Int → List Row → Except Fault (List Row)
  | 0, _, rows => .ok rows
  | n + 1, i, rows => do
    let r ← index node.beforeRows i
    undoCut node n (i + 1) (InsertToSlice rows r (node.fromIdx + i))

/-- The `actions.Paste` loop of `Undo`. -/
def undoPaste (node : UndoNode) : Nat → Int → List Row → Except Fault (List Row)
  | 0, _, rows => .ok rows
  | n + 1, i, rows => do
    let rows1 ← RemoveFromSlice rows (node.fromIdx + i)
    undoPaste node n (i + 1) rows1

/-- The `actions.Edit` loop of `Undo`. -/
def undoEdit (node : UndoNode) : Nat → Int → List Row → Except Fault (List Row)
  | 0, _, rows => .ok rows
  | n + 1, i, rows => do
    let r ← index node.beforeRows i
    let _ ← index rows (node.fromIdx + i)
    undoEdit node n (i + 1) (rows.set (node.fromIdx + i).toNat r)

/-- Transcription of `Editor.Undo`. -/
def Undo (e : Editor) : Except Fault Editor :=
  match e.undoPath.getLast? with
  | none => .ok (SetStatusMessage e "oldest version".toList)
  | some lastUndoNode => do
    let e1 := { e with undoPath := e.undoPath.dropLast }
    let n := (lastUndoNode.toIdx - lastUndoNode.fromIdx + 1).toNat
    match lastUndoNode.undoType with
    | .Cut => do
      let rows ← undoCut lastUndoNode n 0 e1.Rows
      pure { e1 with Rows := rows }
    | .Paste => do
      let rows ← undoPaste lastUndoNode n 0 e1.Rows
      pure { e1 with Rows := rows }
    | .Edit => do
      let _ ← index lastUndoNode.beforeRows 0
      let rows ← undoEdit lastUndoNode n 0 e1.Rows
      pure { e1 with Rows := rows }

/-! ## Commands -/

/-- The error values of the editor. -/
inductive GoError
  | ErrQuitEditor
  | ErrUnknownMode
  | ErrUnknownCommand
  | ErrUnkownMotion
  | ErrPromptCanceled
  | other (msg : Str)
  deriving DecidableEq, Repr

/-- The method `Error()` of the error values. -/
def GoError.Error : GoError → Str
  | .ErrQuitEditor => "quit editor".toList
  | .ErrUnknownMode => "unknown mode".toList
  | .ErrUnknownCommand => "unknown command".toList
  | .ErrUnkownMotion => "unknown motion".toList
  | .ErrPromptCanceled => "user canceled the input prompt".toList
  | .other msg => msg

/-- What `Editor.Save` does is input and output: the editor after the call, the
number of bytes, and the error (if any), as a function of the editor and the
arguments. -/
abbrev SaveFn := Editor → List Str → Except Fault (Editor × Int × Option GoError)

/-- The status message set after a `Save`. -/
def saveMessage (n : Int) : Option GoError → Str
  | some .ErrPromptCanceled => "Save aborted".toList
  | some err => "Can't save! I/O error: ".toList ++ err.Error
  | none => (toString n).toList ++ " bytes written to disk".toList

/-- The loop `for _, row := range e.Rows { e.updateHighlight(row) }`: `n` more rows
from position `pos`. -/
def highlightAll (L : Lib) : Nat → Nat → Editor → Except Fault Editor
  | 0, _, e => .ok e
  | n + 1, pos, e => do
    let e1 ← updateHighlight L e pos
    highlightAll L n (pos + 1) e1

/-- The loop over `syntax.HLDB` of the command `syntax`; `arg` is `commandParts[1]`,
read in every round. -/
def selectByName (L : Lib) (parts : List Str) : List EditorSyntax → Editor → Except Fault Editor
  | [], e => .ok e
  | sx :: rest, e => do
    let arg ← index parts 1
    let e1 ← if sx.Filetype = arg then
        highlightAll L e.Rows.length 0 { e with syn := some sx }
      else pure e
    selectByName L parts rest e1

/-- Transcription of `Editor.ExecuteCommand`: the editor afterwards and the error
returned (`none` for `nil`). -/
def ExecuteCommand (L : Lib) (save : SaveFn) (e : Editor) :
    Except Fault (Editor × Option GoError) := do
  let commandParts := e.command.splitOn ' '
  let e1 ← SetMode e NormalMode
  let word ← index commandParts 0
  if word = "w".toList then do
    let (e2, n, err) ← save e1 (commandParts.drop 1)
    pure ({ SetStatusMessage e2 (saveMessage n err) with command := [] }, none)
  else if word = "q".toList then
    if e1.dirty > 0 then
      pure ({ SetStatusMessage e1 "ERROR!!! File has unsaved changes".toList with command := [] },
        none)
    else pure (e1, some .ErrQuitEditor)
  else if word = "q!".toList then pure (e1, some .ErrQuitEditor)
  else if word = "wq".toList then do
    let (e2, n, err) ← save e1 []
    pure (SetStatusMessage e2 (saveMessage n err), some .ErrQuitEditor)
  else if word = "syntax".toList then do
    let e2 ← selectByName L commandParts HLDB e1
    pure ({ e2 with command := [] }, none)
  else
    pure ({ SetStatusMessage e1 GoError.ErrUnknownCommand.Error with command := [] }, none)

/-! ## Search -/

/-- Go's `strings.Index(s, q)`: the byte offset of the first occurrence of `q` in
`s`, or `-1`. -/
def strIndex (q : Str) : Str → Int
  | [] => if q = [] then 0 else -1
  | c :: t =>
    if q.isPrefixOf (c :: t) then 0
    else
      let k := strIndex q t
      if k = -1 then -1 else k + c.utf8Size

/-- The width that `rowCxToRx` and `rowRxToCx` add for the rune `r` at display
column `rx`. -/
def advance (L : Lib) (syn : Option EditorSyntax) (rx : Int) (r : Char) : Except Fault Int :=
  if r = '\t' then
    match syn with
    | none => .error .nilDereference
    | some sx =>
      if sx.Tabstop ≠ 0 then .ok (rx + (sx.Tabstop - rx.tmod sx.Tabstop))
      else .ok (rx + (tabstop - rx.tmod tabstop))
  else .ok (rx + L.RuneWidth r)

/-- The loop of `rowRxToCx` over the remaining runes, at index `i` and column `curRx`. -/
def rxToCxLoop (L : Lib) (syn : Option EditorSyntax) (rx : Int) : Str → Int → Int → Except Fault Int
  | [], _, _ => .error .unreachable
  | r :: rest, i, curRx => do
    let c ← advance L syn curRx r
    if c > rx then pure i else rxToCxLoop L syn rx rest (i + 1) c

/-- Transcription of `Editor.rowRxToCx`. -/
def rowRxToCx (L : Lib) (e : Editor) (row : Row) (rx : Int) : Except Fault Int :=
  rxToCxLoop L e.syn rx row.chars 0 0

/-- The variables that the closure `onKeyPress` of `Find` captures. -/
structure FindState where
  lastMatchRowIndex : Int
  searchDirection : Int
  savedHlRowIndex : Int
  savedHl : List Nat
  deriving DecidableEq, Repr

/-- Go's `copy(dst, src)` on slices: the resulting contents of `dst`. -/
def copySlice {α : Type} (dst src : List α) : List α :=
  src.take dst.length ++ dst.drop src.length

/-- The row the search loop visits after `current`: `current += searchDirection`,
then the `switch` that wraps `-1` to the last row and `len(e.Rows)` to row 0. -/
def nextRow (e : Editor) (d current : Int) : Int :=
  let c0 := current + d
  if c0 = -1 then (e.Rows.length : Int) - 1 else if c0 = e.Rows.length then 0 else c0

/-- The search loop of `onKeyPress`: `n` more rounds, the last row visited being
`current`. -/
def searchLoop (L : Lib) (query : Str) (d : Int) :
    Nat → Int → Editor → FindState → Except Fault (Editor × FindState)
  | 0, _, e, st => .ok (e, st)
  | n + 1, current, e, st => do
    let c := nextRow e d current
    let row ← index e.Rows c
    let rx := strIndex query row.render
    if rx ≠ -1 then do
      let cx ← rowRxToCx L e row rx
      let (_, hl1) ← markN query.length rx.toNat row.hl HlMatch
      let row1 : Row := { row with hl := hl1 }
      pure ({ e with cy := c, cx := cx, rowOffset := e.Rows.length,
                     Rows := e.Rows.set c.toNat row1 },
            { st with lastMatchRowIndex := c, savedHlRowIndex := c, savedHl := row.hl })
    else searchLoop L query d n c e st

/-- The part of `onKeyPress` after the `switch`: the direction is forced forward
without a last match, then the rows are searched. -/
def searchStep (L : Lib) (query : Str) (e : Editor) (st : FindState) :
    Except Fault (Editor × FindState) :=
  let d := if st.lastMatchRowIndex = -1 then 1 else st.searchDirection
  searchLoop L query d e.Rows.length st.lastMatchRowIndex e { st with searchDirection := d }

/-- Transcription of the closure `onKeyPress` of `Find`. -/
def onKeyPress (L : Lib) (query : Str) (k : Key) (e : Editor) (st : FindState) :
    Except Fault (Editor × FindState) := do
  let (e1, st1) ← if st.savedHl.length > 0 then do
      let row ← index e.Rows st.savedHlRowIndex
      let row1 : Row := { row with hl := copySlice row.hl st.savedHl }
      pure ({ e with Rows := e.Rows.set st.savedHlRowIndex.toNat row1 },
            { st with savedHl := [] })
    else pure (e, st)
  if k = KeyEnter ∨ k = 27 then
    pure (e1, { st1 with lastMatchRowIndex := -1, searchDirection := 1 })
  else if k = KeyArrowRight ∨ k = KeyArrowDown then
    searchStep L query e1 { st1 with searchDirection := 1 }
  else if k = KeyArrowLeft ∨ k = KeyArrowUp then
    searchStep L query e1 { st1 with searchDirection := -1 }
  else searchStep L query e1 { st1 with lastMatchRowIndex := -1, searchDirection := 1 }

/-! ## Predicates of the specification -/

/-- The content of a row: its characters, render string and highlight classes. -/
def Row.content (r : Row) : Str × Str × List Nat := (r.chars, r.render, r.hl)

/-- The index invariant of the document: `rows[i].idx = i`. -/
def Contiguous (rows : List Row) : Prop := ∀ (i : Nat) (r : Row), rows[i]? = some r → r.idx = i

/-- Length of the line under the cursor, 0 on the line after the last row. -/
def lineLen (e : Editor) : Int :=
  match e.Rows[e.cy.toNat]? with
  | some r => r.chars.length
  | none => 0

/-- The cursor invariant: `0 ≤ cy ≤ len(rows)` and `0 ≤ cx ≤ len(rows[cy].chars)`. -/
def CursorOK (e : Editor) : Prop :=
  0 ≤ e.cy ∧ e.cy ≤ e.Rows.length ∧ 0 ≤ e.cx ∧ e.cx ≤ lineLen e

/-- The comment state that row `i` starts in: the flag of row `i - 1`, `false` for
row 0. -/
def flagBefore (rows : List Row) (i : Nat) : Bool :=
  if i = 0 then false
  else match rows[i - 1]? with
    | some r => r.hasUnclosedComment
    | none => false

/-- Row `i` carries the highlight classes and the flag that the scan of its render
string produces from the comment state left by the previous row. -/
def RowScanned (L : Lib) (sx : EditorSyntax) (rows : List Row) (i : Nat) : Prop :=
  ∀ r, rows[i]? = some r →
    scanRender L sx r.render (flagBefore rows i) = .ok (r.hl, r.hasUnclosedComment)

/-- The document is highlight-consistent under the profile `sx`. -/
def HighlightConsistent (L : Lib) (sx : EditorSyntax) (rows : List Row) : Prop :=
  ∀ i, RowScanned L sx rows i

/-- Row consistency of the whole document: every render string is the one
`updateRow` computes from the characters, and the highlight classes (and, under a
profile, the flags) are those of a recomputation from the top. -/
def Consistent (L : Lib) (e : Editor) : Prop :=
  (∀ (i : Nat) (r : Row), e.Rows[i]? = some r → renderOf e.syn r.chars = .ok r.render) ∧
  match e.syn with
  | none => ∀ (i : Nat) (r : Row), e.Rows[i]? = some r →
      r.hl = List.replicate r.render.length HlNormal
  | some sx => HighlightConsistent L sx e.Rows

/-- A profile on which the scan cannot fail: the comment markers are ASCII, no
keyword is empty once its marker is stripped, and the tab stop is not negative. -/
def ProfileOK (sx : EditorSyntax) : Prop :=
  byteLen sx.Mcs = sx.Mcs.length ∧ byteLen sx.Mce = sx.Mce.length ∧
  (∀ kw ∈ sx.Keywords, keywordText kw ≠ []) ∧
  0 ≤ sx.Tabstop

/-! ## Concrete states -/

/-- An editor as `Init` leaves it on a 24 by 80 terminal, with no rows and no profile. -/
def Editor.blank : Editor :=
  { cx := 0, cy := 0, rx := 0, rowOffset := 0, colOffset := 0, screenRows := 24,
    screenCols := 80, Rows := [], dirty := 0, quitCounter := 0, filename := [],
    statusmsg := [], syn := none, mode := NormalMode, command := [], motionRegister := [],
    yankRegister := [], undoPath := [] }

/-- A row without tabs, plainly highlighted. -/
def plainRow (i : Int) (s : String) : Row :=
  ⟨i, s.toList, s.toList, List.replicate s.length HlNormal, false⟩

/-- The document `["a","b","c"]` with the cursor on `"b"`. -/
def exAbc : Editor := { Editor.blank with Rows := [plainRow 0 "a", plainRow 1 "b", plainRow 2 "c"], cy := 1 }

/-- The document `["ab"]` with the cursor at column 5 of row 0. -/
def exWide : Editor := { Editor.blank with Rows := [plainRow 0 "ab"], cx := 5 }

/-- The document `["ab", "", "cd"]` with the cursor at the end of row 2. -/
def exPara : Editor :=
  { Editor.blank with Rows := [plainRow 0 "ab", plainRow 1 "", plainRow 2 "cd"], cx := 2, cy := 2 }

/-- What a pass of the loop body must achieve for the loop to end: the index
advances, stays within the row, and the class slice keeps its length. -/
def Advances (runes : Str) (s : Scan) : Flow → Prop
  | .next s1 => s.idx < s1.idx ∧ s1.idx ≤ runes.length ∧ s1.hl.length = runes.length
  | .stop s1 => s.idx < s1.idx ∧ s1.idx ≤ runes.length ∧ s1.hl.length = runes.length

/-- The part of a row that highlighting leaves alone: index, characters, render. -/
def Row.text (r : Row) : Int × Str × Str := (r.idx, r.chars, r.render)

/-- Boolean check of the index invariant, counting from `k`. -/
def contiguousFrom : Int → List Row → Bool
  | _, [] => true
  | k, r :: rest => decide (r.idx = k) && contiguousFrom (k + 1) rest

/-- Boolean check of highlight consistency: every row is the scan of its render from
the flag `f` of the row before it. -/
def scannedFrom (L : Lib) (sx : EditorSyntax) : Bool → List Row → Bool
  | _, [] => true
  | f, r :: rest =>
    decide (scanRender L sx r.render f = .ok (r.hl, r.hasUnclosedComment)) &&
      scannedFrom L sx r.hasUnclosedComment rest

/-- Boolean check of `Consistent`. -/
def consistentCheck (L : Lib) (e : Editor) : Bool :=
  e.Rows.all (fun r => decide (renderOf e.syn r.chars = .ok r.render)) &&
  match e.syn with
  | none => e.Rows.all fun r => decide (r.hl = List.replicate r.render.length HlNormal)
  | some sx => scannedFrom L sx false e.Rows

/-- A row given by its fields. -/
def mkRow (i : Int) (chars render : String) (hl : List Nat) (flag : Bool) : Row :=
  ⟨i, chars.toList, render.toList, hl, flag⟩

/-- No profile; rows `["\t", "a"]`, the first rendered under a tab stop of 4; cursor
at column 0 of row 1. -/
def exTabNil : Editor :=
  { Editor.blank with
    Rows := [mkRow 0 "\t" "    " [0, 0, 0, 0] false, plainRow 1 "a"]
    cx := 0
    cy := 1 }

/-- Go profile; rows `["/*", "x"]`, both inside the comment; cursor on row 0. -/
def exComment : Editor :=
  { Editor.blank with
    syn := some syntaxGo
    Rows := [mkRow 0 "/*" "/*" [2, 2] true, mkRow 1 "x" "x" [2] true] }

/-- Go profile; the single row `"a\tb"` with its render `"a    b"`. -/
def exTabGo : Editor :=
  { Editor.blank with
    syn := some syntaxGo
    Rows := [mkRow 0 "a\tb" "a    b" [0, 0, 0, 0, 0, 0] false] }

/-- Go profile; rows `["\t", "x"]`; cursor on row 0. -/
def exTabTwo : Editor :=
  { Editor.blank with
    syn := some syntaxGo
    Rows := [mkRow 0 "\t" "    " [0, 0, 0, 0] false, plainRow 1 "x"] }

/-- Go profile; rows `["a/", "cd", "*/"]`; cursor after the `/` of row 0. -/
def exSlash : Editor :=
  { Editor.blank with
    syn := some syntaxGo
    Rows := [plainRow 0 "a/", plainRow 1 "cd", plainRow 2 "*/"]
    cx := 2 }

/-- The state after `dd` on row 1 of `["a","b","c"]`. -/
def exCut : Editor :=
  { Editor.blank with
    Rows := [plainRow 0 "a", plainRow 1 "c"]
    cy := 1
    dirty := 1
    yankRegister := "b".toList
    undoPath := [⟨.Cut, [plainRow 1 "b"], 1, 1⟩] }

/-- A `Save` that writes nothing and reports no error. -/
def saveNothing : SaveFn := fun e _ => .ok (e, 0, none)

/-- An editor with unsaved changes and the command `q`. -/
def exQuitDirty : Editor := { exAbc with command := "q".toList, dirty := 1 }

/-- An editor without unsaved changes and the command `q`. -/
def exQuitClean : Editor := { exAbc with command := "q".toList }

/-- An editor with unsaved changes and the command `q!`. -/
def exQuitBang : Editor := { exAbc with command := "q!".toList, dirty := 3 }

/-- The index and the characters of a row. -/
def Row.key (r : Row) : Int × Str := (r.idx, r.chars)

/-- The rows the search loop visits in `n` rounds after `current`, in order. -/
def scanOrder (e : Editor) (d : Int) : Nat → Int → List Int
  | 0, _ => []
  | n + 1, current => nextRow e d current :: scanOrder e d n (nextRow e d current)

/-- Row `c` exists and its render contains the query. -/
def rowMatches (e : Editor) (query : Str) (c : Int) : Bool :=
  match index e.Rows c with
  | .ok row => strIndex query row.render != -1
  | .error _ => false

/-! ## Display columns and scrolling -/

/-- The loop of `rowCxToRx` over `row.chars[:idx]`, from display column `rx`. -/
def cxToRxLoop (L : Lib) (syn : Option EditorSyntax) : Str → Int → Except Fault Int
  | [], rx => .ok rx
  | r :: rest, rx => do
    let rx1 ← advance L syn rx r
    cxToRxLoop L syn rest rx1

/-- Transcription of `Editor.rowCxToRx`.  The slice `row.chars[:idx]` is out of range
for a negative `idx`. -/
def rowCxToRx (L : Lib) (e : Editor) (row : Row) (cx : Int) : Except Fault Int :=
  let idx : Int := if cx > row.chars.length then (row.chars.length : Int) - 1 else cx
  if idx < 0 then .error .indexOutOfRange
  else cxToRxLoop L e.syn (row.chars.take idx.toNat) 0

/-- The four `if`s of `scroll` that move the window, once `rx` is computed. -/
def scrollWindow (e1 : Editor) : Editor :=
  let e2 := if e1.cy < e1.rowOffset then { e1 with rowOffset := e1.cy } else e1
  let e3 := if e2.cy ≥ e2.rowOffset + e2.screenRows then
      { e2 with rowOffset := e2.cy - e2.screenRows + 1 }
    else e2
  let e4 := if e3.rx < e3.colOffset then { e3 with colOffset := e3.rx } else e3
  if e4.rx ≥ e4.colOffset + e4.screenCols then
    { e4 with colOffset := e4.rx - e4.screenCols + 1 }
  else e4

/-- Transcription of `Editor.scroll`. -/
def scroll (L : Lib) (e : Editor) : Except Fault Editor := do
  let e0 := { e with rx := 0 }
  let e1 ← if e0.cy < e0.Rows.length then do
      let row ← index e0.Rows e0.cy
      let rx ← rowCxToRx L e0 row e0.cx
      pure { e0 with rx := rx }
    else pure e0
  pure (scrollWindow e1)

/-! ## Normal mode -/

/-- What `Editor.Find` does is a dialogue with the terminal: the editor after the call
and the error returned (`none` for `nil`), as a function of the editor. -/
abbrev FindFn := Editor → Except Fault (Editor × Option GoError)

/-- Transcription of `Editor.ExecuteMotion`: the editor afterwards and the error
returned. -/
def ExecuteMotion (L : Lib) (e : Editor) : Except Fault (Editor × Option GoError) :=
  if e.motionRegister.length > 3 then
    .ok ({ e with motionRegister := [] }, some .ErrUnkownMotion)
  else if KeySequenceEqual e.motionRegister [MotionKeyD, MotionKeyD] = true then do
    let e1 ← CutRow e
    pure ({ e1 with motionRegister := [] }, none)
  else if KeySequenceEqual e.motionRegister [MotionKeySmallP] = true then do
    let e1 ← PasteRow L e (e.cy + 1)
    pure ({ e1 with motionRegister := [] }, none)
  else if KeySequenceEqual e.motionRegister [MotionKeyCapitalP] = true then do
    let e1 ← PasteRow L e e.cy
    pure ({ e1 with motionRegister := [] }, none)
  else if KeySequenceEqual e.motionRegister [MotionKeyY, MotionKeyY] = true then do
    let e1 ← YankRow e
    pure ({ e1 with motionRegister := [] }, none)
  else .ok (e, none)

/-- The assignment `e.cx = len(e.Rows[e.cy].chars)` under the guard
`e.cy < len(e.Rows)`, as the handlers of `A` and `o` make it. -/
def cxToLineEnd (e : Editor) : Except Fault Editor :=
  if e.cy < e.Rows.length then do
    let row ← index e.Rows e.cy
    pure { e with cx := row.chars.length }
  else pure e

/-- The `switch k` of `ProcessKeyNormalMode`.  The error is `some` only where the
source leaves the function with `return err` from inside the switch. -/
def normalKey (L : Lib) (find : FindFn) (e : Editor) (k : Key) :
    Except Fault (Editor × Option GoError) :=
  if k = NavKeyH ∨ k = NavKeyJ ∨ k = NavKeyK ∨ k = NavKeyL then do
    let e1 ← MoveCursor e k
    pure (e1, none)
  else if k = NavKeyLeftCurly ∨ k = NavKeyRightCurly then do
    let e1 ← JumpParagraph e k
    pure (e1, none)
  else if k = NavKeyGg then pure ({ e with cy := 0 }, none)
  else if k = NavKeyCapitalG then pure ({ e with cy := (e.Rows.length : Int) - 1 }, none)
  else if k = ModeKeyI then do
    let e1 ← SetMode e InsertMode
    pure (e1, none)
  else if k = ModeKeyCol then
    pure (SetStatusMessage { e with mode := CommandMode, command := [] } [], none)
  else if k = ModeKeySmallA then do
    let e1 ← MoveCursor e NavKeyL
    let e2 ← SetMode e1 InsertMode
    pure (e2, none)
  else if k = ModeKeyCapitalA then do
    let e1 ← cxToLineEnd e
    let e2 ← SetMode e1 InsertMode
    pure (e2, none)
  else if k = ModeKeySmallO then do
    let e1 ← cxToLineEnd e
    let e2 ← InsertNewline L e1
    let e3 ← SetMode e2 InsertMode
    pure (e3, none)
  else if k = ModeKeyCapitalO then do
    let e1 := if e.cy < e.Rows.length then { e with cx := 0 } else e
    let e2 ← InsertNewline L e1
    let e3 ← MoveCursor e2 NavKeyK
    let e4 ← SetMode e3 InsertMode
    pure (e4, none)
  else if k = ModeKeySearch then do
    let (e1, err) ← find e
    match err with
    | none => pure (e1, none)
    | some .ErrPromptCanceled => pure (SetStatusMessage e1 [], none)
    | some err => pure (e1, some err)
  else if k = ModeKeyU then do
    let e1 ← Undo e
    pure (e1, none)
  else if k = ModeKeyX then do
    let atEnd ← if e.cy = (e.Rows.length : Int) - 1 then do
        let row ← index e.Rows e.cy
        pure (decide (e.cx = row.chars.length))
      else pure false
    if atEnd = true then pure (e, none)
    else do
      let e1 ← MoveCursor e KeyArrowRight
      let e2 ← DeleteChar L e1
      pure (e2, none)
  else if k = EscKey then pure ({ e with motionRegister := [] }, none)
  else do
    let (e1, err) ← ExecuteMotion L { e with motionRegister := e.motionRegister ++ [k] }
    match err with
    | some err => pure (SetStatusMessage e1 err.Error, none)
    | none => pure (e1, none)

/-- Transcription of `Editor.ProcessKeyNormalMode` for the key `k` that `readKey`
returned: the editor afterwards and the error returned. -/
def ProcessKeyNormalMode (L : Lib) (find : FindFn) (e : Editor) (k : Key) :
    Except Fault (Editor × Option GoError) := do
  let (e1, err) ← normalKey L find (SetStatusMessage e "-- NORMAL --".toList) k
  match err with
  | some err => pure (e1, some err)
  | none => pure ({ e1 with quitCounter := 0 }, none)

/-- The main loop on keys that are all read in Normal mode: before each key the
screen is rendered, which calls `scroll`; the loop ends at the first error that
`ProcessKeyNormalMode` returns.  What `Render` writes to the terminal is left out. -/
def normalKeys (L : Lib) (find : FindFn) : List Key → Editor → Except Fault Editor
  | [], e => .ok e
  | k :: ks, e => do
    let e0 ← scroll L e
    let (e1, err) ← ProcessKeyNormalMode L find e0 k
    match err with
    | some _ => pure e1
    | none => normalKeys L find ks e1

/-! ## Rune slices in memory

The `chars` of a row is a slice: a window on a backing array.  `SetMode` copies the
row struct, so the copy has the same window on the same array, and `Row.insertChar`
and `Row.deleteChar` move runes inside that array.  The definitions below keep the
arrays in a heap and the rows as slice headers; the render string and the highlight
classes stay values, because `updateRow` and `updateHighlight` assign a fresh string
and a fresh slice at every call. -/

/-- The rune arrays of the program by address, each with all its elements up to its
capacity. -/
abbrev RuneHeap := List (List Char)

/-- A `[]rune` value: the address of its backing array, the position of its first
element in the array, and its length.  The capacity runs to the end of the array. -/
structure RuneSlice where
  addr : Nat
  off : Nat
  len : Nat
  deriving DecidableEq, Repr

/-- The backing array of a slice. -/
def RuneSlice.array (s : RuneSlice) (h : RuneHeap) : List Char := h.getD s.addr []

/-- The runes a slice shows. -/
def RuneSlice.runes (s : RuneSlice) (h : RuneHeap) : Str := ((s.array h).drop s.off).take s.len

/-- Go's `cap(s)`. -/
def RuneSlice.cap (s : RuneSlice) (h : RuneHeap) : Nat := (s.array h).length - s.off

/-- Go's `s[lo:]`, for `lo ≤ len(s)`. -/
def RuneSlice.drop (s : RuneSlice) (lo : Nat) : RuneSlice := ⟨s.addr, s.off + lo, s.len - lo⟩

/-- Go's `s[:hi]`, for `hi ≤ cap(s)`. -/
def RuneSlice.take (s : RuneSlice) (hi : Nat) : RuneSlice := ⟨s.addr, s.off, hi⟩

/-- The heap after the runes `vs` are stored in array `a` from position `p` on. -/
def writeRunes (h : RuneHeap) (a p : Nat) (vs : Str) : RuneHeap :=
  h.set a ((h.getD a []).take p ++ vs ++ (h.getD a []).drop (p + vs.length))

/-- Go's `copy(dst, src)`: the first `min(len(dst), len(src))` runes of `src`, read
before any is written, go to the start of `dst`. -/
def copyRunes (h : RuneHeap) (dst src : RuneSlice) : RuneHeap :=
  writeRunes h dst.addr dst.off ((src.runes h).take dst.len)

/-- Go's `append(s, vs...)`, the runes `vs` read before any is written.  Within the
capacity the runes go to the array of `s`, after its last element; otherwise a new
array is made, of the capacity `grow n` that the runtime chooses for `n` runes (at
least `n`). -/
def appendRunes (grow : Nat → Nat) (h : RuneHeap) (s : RuneSlice) (vs : Str) :
    RuneHeap × RuneSlice :=
  if s.len + vs.length ≤ s.cap h then
    (writeRunes h s.addr (s.off + s.len) vs, { s with len := s.len + vs.length })
  else
    (h ++ [s.runes h ++ vs ++
        List.replicate (grow (s.len + vs.length) - (s.len + vs.length)) '\x00'],
      ⟨h.length, 0, s.len + vs.length⟩)

/-- A `Row` struct in memory: `chars` is a slice header, the other fields are values. -/
structure MemRow where
  idx : Int
  chars : RuneSlice
  render : Str
  hl : List Nat
  hasUnclosedComment : Bool
  deriving DecidableEq, Repr

/-- An `UndoNode` in memory. -/
structure MemUndoNode where
  undoType : Action
  beforeRows : List MemRow
  fromIdx : Int
  toIdx : Int
  deriving DecidableEq, Repr

/-- The editor with its rune memory.  `Rows` and `undoPath` are held here; `ed` holds
the other fields of `Editor` (its own `Rows` and `undoPath` are not used). -/
structure MemEditor where
  heap : RuneHeap
  Rows : List MemRow
  undoPath : List MemUndoNode
  ed : Editor
  deriving DecidableEq, Repr

/-- The row as a value: its `chars` read from the heap. -/
def MemRow.value (h : RuneHeap) (r : MemRow) : Row :=
  ⟨r.idx, r.chars.runes h, r.render, r.hl, r.hasUnclosedComment⟩

/-- The undo node as a value. -/
def MemUndoNode.value (h : RuneHeap) (n : MemUndoNode) : UndoNode :=
  ⟨n.undoType, n.beforeRows.map (MemRow.value h), n.fromIdx, n.toIdx⟩

/-- The editor as a value: every `chars` read from the heap. -/
def MemEditor.value (m : MemEditor) : Editor :=
  { m.ed with
    Rows := m.Rows.map (MemRow.value m.heap)
    undoPath := m.undoPath.map (MemUndoNode.value m.heap) }

/-- The fields of a row that `updateRow`, `updateHighlight` and the renumbering loops
assign, taken from the row value `v`. -/
def MemRow.assign (r : MemRow) (v : Row) : MemRow :=
  { r with idx := v.idx, render := v.render, hl := v.hl, hasUnclosedComment := v.hasUnclosedComment }

/-- The state in memory after a step that wrote no rune: the rows keep their slice
headers and take their other fields from the editor value `e`, as do the fields of
the editor. -/
def MemEditor.assign (m : MemEditor) (e : Editor) : MemEditor :=
  { m with
    Rows := List.zipWith MemRow.assign m.Rows e.Rows
    ed := { e with Rows := [], undoPath := [] } }

namespace Mem

/-- `Editor.updateRow` in memory: it reads the runes of the rows and writes none. -/
def updateRow (L : Lib) (m : MemEditor) (pos : Nat) : Except Fault MemEditor := do
  let e1 ← Virayeshgar.updateRow L m.value pos
  pure (m.assign e1)

/-- `Row.insertChar` in memory, on the slice `row.chars`: the heap and the new value
of `row.chars`. -/
def insertChar (grow : Nat → Nat) (h : RuneHeap) (chars : RuneSlice) (i : Int) (c : Char) :
    RuneHeap × RuneSlice :=
  let j : Nat := if i < 0 ∨ i > chars.len then chars.len else i.toNat
  let (h1, s1) := appendRunes grow h chars ['\x00']
  let h2 := copyRunes h1 (s1.drop (j + 1)) (s1.drop j)
  (writeRunes h2 s1.addr (s1.off + j) [c], s1)

/-- `Row.deleteChar` in memory. -/
def deleteChar (grow : Nat → Nat) (h : RuneHeap) (chars : RuneSlice) (i : Int) :
    RuneHeap × RuneSlice :=
  if i < 0 ∨ i ≥ chars.len then (h, chars)
  else appendRunes grow h (chars.take i.toNat) ((chars.drop (i.toNat + 1)).runes h)

/-- `Row.appendChars` in memory. -/
def appendChars (grow : Nat → Nat) (h : RuneHeap) (chars : RuneSlice) (vs : Str) :
    RuneHeap × RuneSlice :=
  appendRunes grow h chars vs

/-- `Editor.InsertRow` in memory: `[]rune(chars)` is a new array. -/
def InsertRow (L : Lib) (grow : Nat → Nat) (m : MemEditor) (i : Int) (chars : Str) :
    Except Fault MemEditor :=
  if i < 0 ∨ i > m.Rows.length then .ok m
  else do
    let e1 ← Virayeshgar.InsertRow L m.value i chars
    let row : MemRow := ⟨i, ⟨m.heap.length, 0, chars.length⟩, [], [], false⟩
    let m1 : MemEditor := { m with
      heap := m.heap ++ [chars ++ List.replicate (grow chars.length - chars.length) '\x00']
      Rows := m.Rows.take i.toNat ++ row :: m.Rows.drop i.toNat }
    pure (m1.assign e1)

/-- `Editor.DeleteRow` in memory. -/
def DeleteRow (m : MemEditor) (i : Int) : MemEditor :=
  if i < 0 ∨ i ≥ m.Rows.length then m
  else { m with
    Rows := m.Rows.take i.toNat ++
      (m.Rows.drop (i.toNat + 1)).map fun r => { r with idx := r.idx - 1 }
    ed := { m.ed with dirty := m.ed.dirty + 1 } }

/-- `Editor.InsertChar` in memory. -/
def InsertChar (L : Lib) (grow : Nat → Nat) (m : MemEditor) (c : Char) :
    Except Fault MemEditor := do
  let m1 ← if m.ed.cy = m.Rows.length then InsertRow L grow m m.Rows.length [] else pure m
  let row ← index m1.Rows m1.ed.cy
  let (h1, s1) := insertChar grow m1.heap row.chars m1.ed.cx c
  let m2 : MemEditor := { m1 with
    heap := h1
    Rows := m1.Rows.set m1.ed.cy.toNat { row with chars := s1 } }
  let m3 ← updateRow L m2 m2.ed.cy.toNat
  pure { m3 with ed := { m3.ed with cx := m3.ed.cx + 1, dirty := m3.ed.dirty + 1 } }

/-- `Editor.DeleteChar` in memory. -/
def DeleteChar (L : Lib) (grow : Nat → Nat) (m : MemEditor) : Except Fault MemEditor :=
  if m.ed.cy = m.Rows.length then .ok m
  else if m.ed.cx = 0 ∧ m.ed.cy = 0 then .ok m
  else do
    let row ← index m.Rows m.ed.cy
    if m.ed.cx > 0 then do
      let (h1, s1) := deleteChar grow m.heap row.chars (m.ed.cx - 1)
      let m1 : MemEditor := { m with
        heap := h1
        Rows := m.Rows.set m.ed.cy.toNat { row with chars := s1 } }
      let m2 ← updateRow L m1 m1.ed.cy.toNat
      pure { m2 with ed := { m2.ed with cx := m2.ed.cx - 1, dirty := m2.ed.dirty + 1 } }
    else do
      let prevRow ← index m.Rows (m.ed.cy - 1)
      let (h1, s1) := appendChars grow m.heap prevRow.chars (row.chars.runes m.heap)
      let m1 : MemEditor := { m with
        heap := h1
        Rows := m.Rows.set (m.ed.cy - 1).toNat { prevRow with chars := s1 }
        ed := { m.ed with cx := prevRow.chars.len } }
      let m2 ← updateRow L m1 (m1.ed.cy - 1).toNat
      let m3 := DeleteRow m2 m2.ed.cy
      pure { m3 with ed := { m3.ed with cy := m3.ed.cy - 1 } }

/-- `Editor.SetMode` in memory: `newRow := *e.Rows[e.cy]` copies the struct, the slice
header of `chars` with it. -/
def SetMode (m : MemEditor) (mode : Mode) : Except Fault MemEditor :=
  let m1 : MemEditor := { m with ed := SetStatusMessage { m.ed with mode := mode } mode.StatusMessage }
  if mode = InsertMode then do
    let newRow ← index m1.Rows m1.ed.cy
    pure { m1 with undoPath := m1.undoPath ++ [⟨.Edit, [newRow], m1.ed.cy, m1.ed.cy⟩] }
  else pure m1

/-- The loops of `Editor.Undo` in memory: `n` more rounds from counter `i`. -/
def undoLoop (node : MemUndoNode) : Nat → Int → List MemRow → Except Fault (List MemRow)
  | 0, _, rows => .ok rows
  | n + 1, i, rows => do
    let rows1 ← match node.undoType with
      | .Cut => do
        let r ← index node.beforeRows i
        pure (InsertToSlice rows r (node.fromIdx + i))
      | .Paste => RemoveFromSlice rows (node.fromIdx + i)
      | .Edit => do
        let r ← index node.beforeRows i
        let _ ← index rows (node.fromIdx + i)
        pure (rows.set (node.fromIdx + i).toNat r)
    undoLoop node n (i + 1) rows1

/-- `Editor.Undo` in memory. -/
def Undo (m : MemEditor) : Except Fault MemEditor :=
  match m.undoPath.getLast? with
  | none => .ok { m with ed := SetStatusMessage m.ed "oldest version".toList }
  | some lastUndoNode => do
    let m1 : MemEditor := { m with undoPath := m.undoPath.dropLast }
    let n := (lastUndoNode.toIdx - lastUndoNode.fromIdx + 1).toNat
    match lastUndoNode.undoType with
    | .Edit => do
      let _ ← index lastUndoNode.beforeRows 0
      let rows ← undoLoop lastUndoNode n 0 m1.Rows
      pure { m1 with Rows := rows }
    | _ => do
      let rows ← undoLoop lastUndoNode n 0 m1.Rows
      pure { m1 with Rows := rows }

end Mem

/-! ## Tab expansion in the words of the specification -/

/-- The render string as the specification describes it: each tab becomes the `k`
spaces, `1 ≤ k ≤ T`, that bring the display column to the next multiple of `T`; the
column counts every codepoint rendered so far. -/
def expandTabsSpec (T : Nat) : Str → Nat → Str
  | [], _ => []
  | c :: rest, col =>
    if c = '\t' then
      List.replicate (T - col % T) ' ' ++ expandTabsSpec T rest (col + (T - col % T))
    else c :: expandTabsSpec T rest (col + 1)

/-! ## Further concrete states -/

/-- The cursor invariant can be decided. -/
instance (e : Editor) : Decidable (CursorOK e) := by
  unfold CursorOK
  infer_instance

/-- The editor as `main` leaves it without a file: one empty row, no profile. -/
def exOneEmpty : Editor := { Editor.blank with Rows := [Row.zero] }

/-- No profile; the single row `"\t"` as `Row.insertChar` leaves it, not yet rendered. -/
def exTabTyped : Editor := { Editor.blank with Rows := [mkRow 0 "\t" "" [] false], cx := 0 }

/-- No profile; rows `["\t", "a"]`, the first rendered under a tab stop of 4; cursor
after the tab of row 0. -/
def exTabCursor : Editor := { exTabNil with cx := 1, cy := 0 }

/-- No profile; the single row `"a\t"`, rendered under a tab stop of 4; cursor between
the `a` and the tab. -/
def exSplitNil : Editor :=
  { Editor.blank with Rows := [mkRow 0 "a\t" "a    " [0, 0, 0, 0, 0] false], cx := 1 }

/-- The document `["", "abc", ""]` with the cursor at the end of row 1. -/
def exRagged : Editor :=
  { Editor.blank with Rows := [plainRow 0 "", plainRow 1 "abc", plainRow 2 ""], cx := 3, cy := 1 }

/-- The document `["a","b","c"]` with the cursor on the line after the last row. -/
def exPastEnd : Editor := { exAbc with cy := 3 }

/-- The document `["a","b","c"]` with the cursor on the last row. -/
def exLastRow : Editor := { exAbc with cy := 2 }

/-- A `Find` that the user cancels at once. -/
def findCanceled : FindFn := fun e => .ok (e, some .ErrPromptCanceled)

/-- The row `"abc"` in memory, in an array of exactly three runes, no profile, the
cursor after the `a`. -/
def memAbc : MemEditor :=
  { heap := ["abc".toList]
    Rows := [⟨0, ⟨0, 0, 3⟩, "abc".toList, [0, 0, 0], false⟩]
    undoPath := []
    ed := { Editor.blank with cx := 1 } }

/-- The same row in an array with room for a fourth rune. -/
def memAbcRoom : MemEditor := { memAbc with heap := ["abc\x00".toList] }

/-- Go profile; rows `["/*", "*/", "x"]` as `OpenFile` leaves them; cursor at `(0, 0)`. -/
def exClose : Editor :=
  { Editor.blank with
    syn := some syntaxGo
    Rows := [mkRow 0 "/*" "/*" [2, 2] true, mkRow 1 "*/" "*/" [2, 2] false, plainRow 2 "x"] }

/-- The state of `exClose` after the keys `j yy P u yy P u yy`: the rows are the same,
with the indices 0, 3, 4, and `"*/"` is in the yank register. -/
def exStale : Editor :=
  { exClose with
    Rows := [mkRow 0 "/*" "/*" [2, 2] true, mkRow 3 "*/" "*/" [2, 2] false, plainRow 4 "x"]
    cy := 1
    dirty := 5
    statusmsg := "-- NORMAL --".toList
    yankRegister := "*/".toList }

/-- Go profile; rows `["a", "b"]`; cursor at `(0, 0)`. -/
def exGoAB : Editor :=
  { Editor.blank with syn := some syntaxGo, Rows := [plainRow 0 "a", plainRow 1 "b"] }

/-! ## The prompt -/

/-- Library functions that `Prompt` calls on the rune of a key: `unicode.IsControl`
and `unicode.IsPrint`. -/
structure Unicode where
  IsControl : Char → Bool
  IsPrint : Char → Bool

/-- A concrete instance, exact on the code points below U+0100 (the runes of the keys
that `readKey` makes of a byte); above that range no rune is a control character and
every rune counts as printable. -/
def stdUnicode : Unicode where
  IsControl := fun c => c.toNat < 32 ∨ (127 ≤ c.toNat ∧ c.toNat < 160)
  IsPrint := fun c => (32 ≤ c.toNat ∧ c.toNat < 127) ∨ (161 ≤ c.toNat ∧ c.toNat ≠ 173)

/-- Transcription of `keys.Ctrl`, on the code of the character. -/
def Ctrl (char : Nat) : Nat := char &&& 0x1f

/-- Transcription of `keys.IsArrowKey`. -/
def IsArrowKey (k : Key) : Bool :=
  decide (k = KeyArrowUp ∨ k = KeyArrowRight ∨ k = KeyArrowDown ∨ k = KeyArrowLeft)

/-- The conversion `rune(k)` of a key that `readKey` returned: such a key is a byte or
one of the constants from 1002 to 1010, all of them code points. -/
def keyRune (k : Key) : Char := Char.ofNat k.toNat

/-- The callback of `Prompt`, a closure over variables of type `σ`: from the query, the
key, the editor and the captured variables to the editor and the variables afterwards. -/
abbrev PromptCb (σ : Type) := Str → Key → Editor → σ → Except Fault (Editor × σ)

/-- The call `cb(b.String(), k)` under the guard `cb != nil`. -/
def callCb {σ : Type} (cb : Option (PromptCb σ)) (b : Str) (k : Key) (e : Editor) (s : σ) :
    Except Fault (Editor × σ) :=
  match cb with
  | none => .ok (e, s)
  | some f => f b k e s

/-- Transcription of `Editor.Prompt`.  The prompt text is `pre ++ "%s" ++ post`, so the
status message of each round is `pre ++ b ++ post`; `b` is the content of the string
builder.  `Render` is its call of `scroll`.  The keys that `readKey` returns are read
from a list: when the list is exhausted the program waits in `readKey`, and the run of
the definition ends with `outOfFuel`.  The result is the editor, the variables of the
callback, the string and the error returned, and the keys not read. -/
def Prompt {σ : Type} (L : Lib) (U : Unicode) (pre post : Str) (cb : Option (PromptCb σ)) :
    List Key → Str → Editor → σ → Except Fault (Editor × σ × Str × Option GoError × List Key)
  | [], b, e, _ => do
    let _ ← scroll L (SetStatusMessage e (pre ++ b ++ post))
    throw Fault.outOfFuel
  | k :: rest, b, e, s => do
    let e1 ← scroll L (SetStatusMessage e (pre ++ b ++ post))
    if k = KeyDelete ∨ k = KeyBackspace ∨ k = (Ctrl 104 : Nat) then do
      let b1 := if b.length > 0 then b.dropLast else b
      let (e2, s2) ← callCb cb b1 k e1 s
      Prompt L U pre post cb rest b1 e2 s2
    else if k = 27 then do
      let (e2, s2) ← callCb cb b k (SetStatusMessage e1 []) s
      pure (e2, s2, [], some .ErrPromptCanceled, rest)
    else if k = KeyEnter then
      if b.length > 0 then do
        let (e2, s2) ← callCb cb b k (SetStatusMessage e1 []) s
        pure (e2, s2, b, none, rest)
      else do
        let (e2, s2) ← callCb cb b k e1 s
        Prompt L U pre post cb rest b e2 s2
    else do
      let b1 := if (!U.IsControl (keyRune k) && !IsArrowKey k && U.IsPrint (keyRune k)) = true
        then b ++ [keyRune k] else b
      let (e2, s2) ← callCb cb b1 k e1 s
      Prompt L U pre post cb rest b1 e2 s2

/-- What the loop of `main` does after `ProcessKey` returned. -/
inductive LoopAction
  | next
  | quit
  | die (err : GoError)
  deriving DecidableEq, Repr

/-- The body of the loop of `main` after `ProcessKey`: `nil` goes on to the next round,
`ErrQuitEditor` leaves the loop, every other error goes to `Die`. -/
def loopAction : Option GoError → LoopAction
  | none => .next
  | some .ErrQuitEditor => .quit
  | some err => .die err

/-! ## Save -/

/-- What the file system does in `Save`, `os.OpenFile` and `WriteString`: the number of
bytes written or the error, as a function of the file name and the text. -/
abbrev WriteFn := Str → Str → Except GoError Int

/-- Transcription of `Editor.rowsToString`. -/
def rowsToString (e : Editor) : Str := e.Rows.flatMap fun row => row.chars ++ ['\n']

/-- Go's `filepath.Ext` with the separator `/`: the part of the last path element from
its last dot on, or the empty string. -/
def filepathExt (path : Str) : Str :=
  let last := path.reverse.takeWhile fun c => c ≠ '/'
  if '.' ∈ last then '.' :: (last.takeWhile fun c => c ≠ '.').reverse else []

/-- The test of one pattern in `selectSyntaxHighlight`. -/
def patternMatches (filename : Str) (pattern : Str) : Bool :=
  let isExt := ['.'].isPrefixOf pattern
  (isExt && decide (pattern = filepathExt filename)) ||
    (!isExt && decide (strIndex pattern filename ≠ -1))

/-- Transcription of `Editor.selectSyntaxHighlight`: the first profile of `HLDB` with a
matching pattern is selected and every row is highlighted again. -/
def selectSyntaxHighlight (L : Lib) (e : Editor) : Except Fault Editor :=
  let e0 := { e with syn := none }
  if e0.filename = [] then .ok e0
  else
    match HLDB.find? fun sx => sx.Filematch.any (patternMatches e0.filename) with
    | some sx => highlightAll L e0.Rows.length 0 { e0 with syn := some sx }
    | none => .ok e0

/-- Transcription of `Editor.Save`, with the keys typed at its prompt. -/
def Save (L : Lib) (U : Unicode) (write : WriteFn) (keys : List Key) : SaveFn := fun e opts => do
  let e1 := match opts with
    | o :: _ => { e with filename := o }
    | [] => e
  let (e2, err) ← if e1.filename = [] then do
      let (e2, _, fname, err, _) ← Prompt L U "Save as: ".toList " (ESC to cancel)".toList
        (none : Option (PromptCb Unit)) keys [] e1 ()
      match err with
      | some err => pure (e2, some err)
      | none => do
        let e3 ← selectSyntaxHighlight L { e2 with filename := fname }
        pure (e3, none)
    else pure (e1, none)
  match err with
  | some err => pure (e2, 0, some err)
  | none =>
    match write e2.filename (rowsToString e2) with
    | .error err => pure (e2, 0, some err)
    | .ok n => pure ({ e2 with dirty := 0 }, n, none)

/-! ## Command mode and search -/

/-- Transcription of `Editor.ProcessKeyCommandMode`, with the keys typed at its prompt:
the editor afterwards and the error returned. -/
def ProcessKeyCommandMode (L : Lib) (U : Unicode) (save : SaveFn) (keys : List Key)
    (e : Editor) : Except Fault (Editor × Option GoError) := do
  let (e1, _, command, err, _) ← Prompt L U ":".toList [] (none : Option (PromptCb Unit))
    keys [] e ()
  let e2 := { e1 with command := command }
  match err with
  | some err => pure (e2, some err)
  | none => if e2.command ≠ [] then ExecuteCommand L save e2 else pure (e2, none)

/-- Transcription of `Editor.Find`, with the keys typed at its prompt. -/
def Find (L : Lib) (U : Unicode) (keys : List Key) : FindFn := fun e => do
  let (e1, _, _, err, _) ← Prompt L U "Search: ".toList
    " (ESC = cancel | Enter = confirm | Arrows = prev/next)".toList
    (some (onKeyPress L)) keys [] e (⟨-1, 1, -1, []⟩ : FindState)
  match err with
  | some .ErrPromptCanceled =>
    pure ({ e1 with cx := e.cx, cy := e.cy, colOffset := e.colOffset,
                    rowOffset := e.rowOffset }, err)
  | _ => pure (e1, err)

/-! ## States and predicates for the commands, the search and the motion register -/

/-- The state of `exAbc` after the key `:` in Normal mode. -/
def exColon : Editor := { exAbc with mode := CommandMode }

/-- A file system that refuses to open the file. -/
def writeDenied : WriteFn := fun _ _ => .error (.other "permission denied".toList)

/-- The first step of `onKeyPress`: the rows after `copy(e.Rows[savedHlRowIndex].hl,
savedHl)` under the guard `len(savedHl) > 0`. -/
def restoreHl (rows : List Row) (st : FindState) : Except Fault (List Row) :=
  if st.savedHl.length > 0 then do
    let row ← index rows st.savedHlRowIndex
    pure (rows.set st.savedHlRowIndex.toNat { row with hl := copySlice row.hl st.savedHl })
  else pure rows

/-- The keys with a case of their own in the `switch` of `ProcessKeyNormalMode`; every
other key goes to the `default` case. -/
def handledKey (k : Key) : Bool :=
  decide (k ∈ [NavKeyH, NavKeyJ, NavKeyK, NavKeyL, NavKeyLeftCurly, NavKeyRightCurly, NavKeyGg,
    NavKeyCapitalG, ModeKeyI, ModeKeyCol, ModeKeySmallA, ModeKeyCapitalA, ModeKeySmallO,
    ModeKeyCapitalO, ModeKeySearch, ModeKeyU, ModeKeyX, EscKey])

/-- The key sequences that `ExecuteMotion` recognises. -/
def recognised (keys : List Key) : Bool :=
  decide (keys ∈ [[MotionKeyD, MotionKeyD], [MotionKeySmallP], [MotionKeyCapitalP],
    [MotionKeyY, MotionKeyY]])

/-- No profile; the single row `"öab"`, whose first rune takes two bytes. -/
def exUmlaut : Editor := { Editor.blank with Rows := [plainRow 0 "öab"] }

/-- Go profile; the single row `"a\tbcd"` with its render `"a    bcd"`. -/
def exTabWord : Editor :=
  { Editor.blank with
    syn := some syntaxGo
    Rows := [mkRow 0 "a\tbcd" "a    bcd" [0, 0, 0, 0, 0, 0, 0, 0] false] }

/-- The document `["a","b","c"]` with the key `d` in the motion register. -/
def exOneD : Editor := { exAbc with motionRegister := [MotionKeyD] }

/-- The document `["a","b","c"]` with three keys `z` in the motion register. -/
def exThreeZ : Editor := { exAbc with motionRegister := [122, 122, 122] }

/-- Row `j` exists and its render string is empty. -/
def BlankRow (rows : List Row) (j : Nat) : Prop := ∃ r, rows[j]? = some r ∧ r.render = []

/-- Go profile; rows `["a", "x", "*/", "y"]` whose first two flags and the classes of
row 1 are those of a document that began with `/*`. -/
def exStaleFlag : Editor :=
  { Editor.blank with
    syn := some syntaxGo
    Rows := [mkRow 0 "a" "a" [0] true, mkRow 1 "x" "x" [2] true,
             mkRow 2 "*/" "*/" [2, 2] false, plainRow 3 "y"] }

/-! ## States for the window, the scan and the display -/

/-- The document of `exAbc` on a terminal of two lines, where `Init` sets `screenRows`
to `2 - 2 = 0`, the cursor on row 0 and the window one row below it, as the first
call of `scroll` leaves it. -/
def exTwoLines : Editor := { exAbc with cy := 0, screenRows := 0, rowOffset := 1 }

/-! ## Insert mode and the main loop -/

/-- Transcription of `Editor.ProcessKeyInsertMode` for the key `k` that `readKey`
returned: the editor afterwards and the error returned, which is always `nil`. -/
def ProcessKeyInsertMode (L : Lib) (e : Editor) (k : Key) :
    Except Fault (Editor × Option GoError) := do
  let e1 ← if k = KeyEnter then InsertNewline L e
    else if k = KeyBackspace then DeleteChar L e
    else if k = KeyDelete then do
      let atEnd ← if e.cy = (e.Rows.length : Int) - 1 then do
          let row ← index e.Rows e.cy
          pure (decide (e.cx = row.chars.length))
        else pure false
      if atEnd = true then pure e
      else do
        let e1 ← MoveCursor e KeyArrowRight
        DeleteChar L e1
    else if k = EscKey then SetMode e NormalMode
    else InsertChar L e (keyRune k)
  pure ({ e1 with quitCounter := 0 }, none)

/-- The main loop on keys that are read in Normal and Insert mode: before each key the
screen is rendered, which calls `scroll`, and `ProcessKey` dispatches on the mode.  The
loop ends at the first error returned, and when the mode is neither of the two: the
keys that follow are read by the prompt of Command mode.  What `Render` writes to the
terminal is left out. -/
def editKeys (L : Lib) (find : FindFn) : List Key → Editor → Except Fault Editor
  | [], e => .ok e
  | k :: ks, e => do
    let e0 ← scroll L e
    if e0.mode = NormalMode then do
      let (e1, err) ← ProcessKeyNormalMode L find e0 k
      match err with
      | some _ => pure e1
      | none => editKeys L find ks e1
    else if e0.mode = InsertMode then do
      let (e1, err) ← ProcessKeyInsertMode L e0 k
      match err with
      | some _ => pure e1
      | none => editKeys L find ks e1
    else pure e0

/-! ## The visible part of a row -/

/-- The function `runewidth.StringWidth` on a string whose grapheme clusters are single
runes: the sum of the widths of the runes. -/
def StringWidth (L : Lib) (s : Str) : Int := (s.map L.RuneWidth).sum

/-- The loop of `runewidth.Truncate` with an empty tail: the runes kept, from the
width `width` reached so far. -/
def truncateLoop (L : Lib) (w : Int) : Str → Int → Str
  | [], _ => []
  | r :: rest, width =>
    if width + L.RuneWidth r > w then []
    else r :: truncateLoop L w rest (width + L.RuneWidth r)

/-- The call `runewidth.Truncate(s, w, "")`. -/
def Truncate (L : Lib) (s : Str) (w : Int) : Str :=
  if StringWidth L s ≤ w then s else truncateLoop L w s 0

/-- Go's slice expression `s[lo:hi]` on a slice whose capacity is its length. -/
def sliceRange {α : Type} (s : List α) (lo hi : Int) : Except Fault (List α) :=
  if 0 ≤ lo ∧ lo ≤ hi ∧ hi ≤ s.length then .ok ((s.take hi.toNat).drop lo.toNat)
  else .error .indexOutOfRange

/-- Transcription of `tools.Utf8Slice`: `string([]rune(s)[start:end])`. -/
def Utf8Slice (s : Str) (start finish : Int) : Except Fault Str := sliceRange s start finish

/-- The first step of `drawRows` on a row of the window: the text and the highlight
classes from `colOffset` on, when the display width of the render exceeds `colOffset`,
and the empty text with the nil slice otherwise. -/
def visibleFrom (L : Lib) (e : Editor) (row : Row) : Except Fault (Str × List Nat) :=
  if StringWidth L row.render > e.colOffset then do
    let line ← Utf8Slice row.render e.colOffset row.render.length
    let hl ← sliceRange row.hl e.colOffset row.hl.length
    pure (line, hl)
  else pure ([], [])

/-- The second step: a text wider than `screenCols` is truncated, and the classes are
cut to the number of runes kept. -/
def visibleTo (L : Lib) (e : Editor) (line : Str) (hl : List Nat) :
    Except Fault (Str × List Nat) :=
  if StringWidth L line > e.screenCols then do
    let line1 := Truncate L line e.screenCols
    let hl1 ← sliceRange hl 0 line1.length
    pure (line1, hl1)
  else pure (line, hl)

/-- The part of `drawRows` that computes, for a row of the window, the visible text
`line` and its highlight classes `hl`. -/
def visibleRow (L : Lib) (e : Editor) (row : Row) : Except Fault (Str × List Nat) := do
  let (line, hl) ← visibleFrom L e row
  visibleTo L e line hl

/-- The library `stdLib` with the display width 2 that `runewidth.RuneWidth` gives to
the CJK unified ideographs U+4E00 to U+9FFF. -/
def cjkLib : Lib :=
  { stdLib with
    RuneWidth := fun c =>
      if 0x4E00 ≤ c.toNat ∧ c.toNat ≤ 0x9FFF then 2 else stdLib.RuneWidth c }

/-- No profile; the single row `"世界"`, two runes of display width 2. -/
def exCjk : Editor := { Editor.blank with Rows := [plainRow 0 "世界"] }

/-- No profile, a screen of 80 columns; a single row of 80 times the rune `世`, the
cursor at its end. -/
def exCjkLine : Editor :=
  { Editor.blank with
    Rows := [⟨0, List.replicate 80 '世', List.replicate 80 '世', List.replicate 80 HlNormal,
      false⟩]
    cx := 80 }

/-- No profile; the single row `"世界界"`. -/
def exCjkFind : Editor := { Editor.blank with Rows := [plainRow 0 "世界界"] }

/-! ## Predicates for the scan -/

/-- The state in which a pass of the loop body ends. -/
def Flow.state : Flow → Scan
  | .next s => s
  | .stop s => s

/-- The classes `hl1` are the classes `hl` with the cells from `a` to `b - 1` set to
the class `v`. -/
def Filled (hl hl1 : List Nat) (a b v : Nat) : Prop :=
  hl1.length = hl.length ∧ ∀ j, hl1[j]? = if a ≤ j ∧ j < b then some v else hl[j]?

/-- What one pass through the loop body does, by the part of the body that handles
the position: the end of the body, which writes no class; a comment, string or number
part, which writes one class to the cells it passes; the keyword part.  The
single-line comment ends the loop at the end of the row. -/
def StepShape (L : Lib) (sx : EditorSyntax) (runes : Str) (s : Scan) : Flow → Prop
  | .next s1 =>
    (∃ r, runes[s.idx]? = some r ∧
      s1 = { s with prevSep := IsSeparator L r, idx := s.idx + 1 }) ∨
    (∃ v, (v = HlMlComment ∨ v = HlString ∨ v = HlNumber) ∧
      Filled s.hl s1.hl s.idx s1.idx v ∧ s.idx < s1.idx ∧ s1.idx ≤ runes.length ∧
      (s1.prevSep = true → v ≠ HlNumber)) ∨
    (s.prevSep = true ∧ ∃ e cls, findKeyword L runes s.idx sx.Keywords = some (e, cls) ∧
      Filled s.hl s1.hl s.idx e cls ∧ s1.idx = e ∧ s1.prevSep = false)
  | .stop s1 =>
    Filled s.hl s1.hl s.idx runes.length HlComment ∧ s1.idx = runes.length

/-- The classes that the scan writes: all but the class of a search match. -/
def scanClasses : List Nat :=
  [HlNormal, HlComment, HlMlComment, HlKeyword1, HlKeyword2, HlString, HlNumber]

/-- The classes of a row are those of a scan of its render: one class for each rune,
and none of them the class of a search match. -/
def ScannedClasses (r : Row) : Prop :=
  r.hl.length = r.render.length ∧ ∀ c ∈ r.hl, c ∈ scanClasses

/-- The two keyword classes. -/
def IsKeywordClass (c : Nat) : Prop := c = HlKeyword1 ∨ c = HlKeyword2

/-- The cells from `a` to `b - 1` of `hl` are a maximal run of the class `c`: they
carry `c`, and neither the cell before `a` nor the cell `b` does. -/
def MaximalRun (hl : List Nat) (c a b : Nat) : Prop :=
  a < b ∧ b ≤ hl.length ∧ (∀ i, a ≤ i → i < b → hl[i]? = some c) ∧
  (a = 0 ∨ hl[a - 1]? ≠ some c) ∧ (b = hl.length ∨ hl[b]? ≠ some c)

/-- The runes from `a` to `b - 1` are the text of a keyword of the profile, of the
first class `c` for a keyword without the marker `|` and of the second class for a
keyword with it. -/
def KeywordAt (sx : EditorSyntax) (runes : Str) (c a b : Nat) : Prop :=
  ∃ kw ∈ sx.Keywords, (runes.drop a).take (b - a) = keywordText kw ∧
    c = (if isKeyword2 kw then HlKeyword2 else HlKeyword1)

/-- The rune at position `i` is a separator. -/
def SeparatorAt (L : Lib) (runes : Str) (i : Nat) : Prop :=
  ∃ r, runes[i]? = some r ∧ IsSeparator L r = true

/-- Where the scan lets a keyword begin: at the start of the row, after a separator,
and after a rune of the string class or of the multi-line comment class (the closing
quote of a string, the end marker of a comment). -/
def KeywordStart (L : Lib) (runes : Str) (hl : List Nat) (a : Nat) : Prop :=
  a = 0 ∨ SeparatorAt L runes (a - 1) ∨ hl[a - 1]? = some HlString ∨
    hl[a - 1]? = some HlMlComment

/-- Where the scan lets a keyword end: at the end of the row or before a separator. -/
def KeywordEnd (L : Lib) (runes : Str) (b : Nat) : Prop :=
  b = runes.length ∨ SeparatorAt L runes b

/-- The cells from `a` to `b - 1` were written by one match of the keyword part. -/
def KeywordBlock (L : Lib) (sx : EditorSyntax) (runes : Str) (hl : List Nat) (c a b : Nat) :
    Prop :=
  a < b ∧ b ≤ runes.length ∧ (∀ i, a ≤ i → i < b → hl[i]? = some c) ∧
  KeywordAt sx runes c a b ∧ KeywordStart L runes hl a ∧ KeywordEnd L runes b ∧
  (a = 0 ∨ ∃ v, hl[a - 1]? = some v ∧ ¬ IsKeywordClass v)

/-- Every cell of a keyword class before position `n` lies in a block; the cell after
a block has no keyword class, and while a block ends at `n` the flag `prevSep` is
false. -/
def KeywordBlocks (L : Lib) (sx : EditorSyntax) (runes : Str) (hl : List Nat) (n : Nat)
    (ps : Bool) : Prop :=
  ∀ i c, i < n → hl[i]? = some c → IsKeywordClass c →
    ∃ a b, a ≤ i ∧ i < b ∧ b ≤ n ∧ KeywordBlock L sx runes hl c a b ∧
      (b = n → ps = false ∨ n = runes.length) ∧
      (b < n → ∃ v, hl[b]? = some v ∧ ¬ IsKeywordClass v)

/-- The invariant of the scan loop for the keyword classes. -/
def KeywordInv (L : Lib) (sx : EditorSyntax) (runes : Str) (s : Scan) : Prop :=
  s.hl.length = runes.length ∧ s.idx ≤ runes.length ∧
  (∀ i, s.idx ≤ i → i < runes.length → s.hl[i]? = some HlNormal) ∧
  (s.prevSep = true → s.idx = 0 ∨
    ((∃ v, s.hl[s.idx - 1]? = some v ∧ ¬ IsKeywordClass v) ∧
      (SeparatorAt L runes (s.idx - 1) ∨ s.hl[s.idx - 1]? = some HlString ∨
        s.hl[s.idx - 1]? = some HlMlComment))) ∧
  KeywordBlocks L sx runes s.hl s.idx s.prevSep

/-- The keyword classes of `hl` stand on the render as the scan puts them: every
maximal run of a keyword class is the text of a keyword of the profile, of that class,
and begins and ends where the scan lets a keyword begin and end. -/
def KeywordRuns (L : Lib) (sx : EditorSyntax) (render : Str) (hl : List Nat) : Prop :=
  ∀ c a b, IsKeywordClass c → MaximalRun hl c a b →
    KeywordAt sx render c a b ∧ KeywordStart L render hl a ∧ KeywordEnd L render b

/-- The state in which the scan of a render of six runes begins, after a row that is
not inside a comment. -/
def exScanStart : Scan := ⟨0, List.replicate 6 HlNormal, true, '\x00', false⟩

/-! # Theorems -/

/-! ## Slices -/

theorem index_ok {α : Type} (xs : List α) (k : Nat) (h : k < xs.length) :
    index xs (k : Int) = .ok (xs[k]) := by
  simp [index, List.getElem?_eq_getElem h]

theorem index_ok_int {α : Type} (xs : List α) (i : Int) (h0 : 0 ≤ i) (h : i < xs.length) :
    ∃ x, index xs i = .ok x ∧ xs[i.toNat]? = some x := by
  obtain ⟨k, rfl⟩ := Int.eq_ofNat_of_zero_le h0
  have hk : k < xs.length := by omega
  exact ⟨xs[k], index_ok xs k hk, by simp [List.getElem?_eq_getElem hk]⟩

theorem split_at {α : Type} (R : List α) (k : Nat) (h : k < R.length) :
    R.take k ++ R[k] :: R.drop (k + 1) = R := by
  rw [List.getElem_cons_drop, List.take_append_drop]

theorem InsertToSlice_at_gap {α : Type} (A B : List α) (x : α) (k : Nat) (hk : A.length = k) :
    InsertToSlice (A ++ B) x (k : Int) = A ++ x :: B := by
  subst hk
  simp [InsertToSlice]

theorem map_content_decIdx (B : List Row) :
    (B.map Row.decIdx).map Row.content = B.map Row.content := by
  simp [Row.content, Row.decIdx]

/-! ## Cut and undo -/

theorem CutRow_ok (e : Editor) (k : Nat) (hk : e.cy = k) (hlt : k < e.Rows.length) :
    CutRow e = .ok { e with
      dirty := e.dirty + 1
      yankRegister := (e.Rows[k]).render
      undoPath := e.undoPath ++ [⟨.Cut, [e.Rows[k]], k, k⟩]
      Rows := e.Rows.take k ++ (e.Rows.drop (k + 1)).map Row.decIdx } := by
  simp only [CutRow, hk, index_ok e.Rows k hlt, Int.toNat_ofNat]
  rfl

/-- C1.  For every document and every cursor row `0 ≤ cy < len(rows)`, `CutRow`
followed by `Undo` succeeds and yields rows whose sequence of contents (characters,
render, highlight classes) is the original one, with the removed row back at
position `cy`, and the undo stack is what it was before the cut. -/
theorem cutRow_undo_restores (e : Editor) (h0 : 0 ≤ e.cy) (h1 : e.cy < e.Rows.length) :
    ∃ e1 e2, CutRow e = .ok e1 ∧ Undo e1 = .ok e2 ∧
      e2.Rows.map Row.content = e.Rows.map Row.content ∧
      e2.Rows[e.cy.toNat]? = e.Rows[e.cy.toNat]? ∧
      e2.undoPath = e.undoPath := by
  obtain ⟨k, hk⟩ := Int.eq_ofNat_of_zero_le h0
  have hlt : k < e.Rows.length := by omega
  have hlen : (e.Rows.take k).length = k := by simp; omega
  have hins := InsertToSlice_at_gap (e.Rows.take k) ((e.Rows.drop (k + 1)).map Row.decIdx)
    (e.Rows[k]) k hlen
  refine ⟨_, { e with
      dirty := e.dirty + 1
      yankRegister := (e.Rows[k]).render
      Rows := e.Rows.take k ++ e.Rows[k] :: (e.Rows.drop (k + 1)).map Row.decIdx },
    CutRow_ok e k hk hlt, ?_, ?_, ?_, ?_⟩
  · have h1 : ∀ (node : UndoNode) (rows : List Row), undoCut node 1 0 rows =
        (index node.beforeRows 0).bind fun r => .ok (InsertToSlice rows r (node.fromIdx + 0)) :=
      fun _ _ => rfl
    simp only [List.map_drop] at hins
    simp [Undo, h1, index, Except.bind, Bind.bind, pure, Except.pure, hins]
  · simp only [List.map_append, List.map_cons, map_content_decIdx]
    rw [← List.map_cons, ← List.map_append, split_at e.Rows k hlt]
  · rw [hk, Int.toNat_ofNat, List.getElem?_append_right (by omega), hlen]
    simp [List.getElem?_eq_getElem hlt]
  · rfl

/-- An instance: the document `["a","b","c"]` with the cursor on `"b"`. -/
theorem cutRow_undo_restores_witness :
    (0 ≤ exAbc.cy ∧ exAbc.cy < exAbc.Rows.length) ∧
    ∃ e1 e2, CutRow exAbc = .ok e1 ∧ Undo e1 = .ok e2 ∧
      e2.Rows.map Row.content = exAbc.Rows.map Row.content ∧
      e2.Rows[exAbc.cy.toNat]? = exAbc.Rows[exAbc.cy.toNat]? ∧
      e2.undoPath = exAbc.undoPath :=
  ⟨by decide, cutRow_undo_restores exAbc (by decide) (by decide)⟩

/-! ## Cursor movement -/

theorem clampCx_spec (e : Editor) (h0 : 0 ≤ e.cy) (h1 : e.cy ≤ e.Rows.length) (h2 : 0 ≤ e.cx) :
    ∃ e1, clampCx e = .ok e1 ∧ e1.Rows = e.Rows ∧ CursorOK e1 := by
  unfold clampCx
  by_cases hlt : e.cy < e.Rows.length
  · obtain ⟨r, hr, hr2⟩ := index_ok_int e.Rows e.cy h0 hlt
    simp only [hlt, if_true, hr, Except.map, Bind.bind, Except.bind, pure, Except.pure]
    refine ⟨_, rfl, ?_, ?_⟩
    · split <;> rfl
    · unfold CursorOK lineLen
      split
      · simp [hr2, h0, h1]
      · simp [hr2, h0, h1, h2]; omega
  · simp only [hlt, if_false, Bind.bind, Except.bind, pure, Except.pure]
    have hn : e.Rows[e.cy.toNat]? = none := by
      apply List.getElem?_eq_none; omega
    refine ⟨_, rfl, ?_, ?_⟩
    · split <;> rfl
    · unfold CursorOK lineLen
      split
      · simp [hn, h0, h1]
      · simp [hn, h0, h1, h2]; omega

theorem MoveCursor_spec (e : Editor) (k : Key) (h0 : 0 ≤ e.cy) (h1 : e.cy ≤ e.Rows.length)
    (h2 : 0 ≤ e.cx) :
    ∃ e1, MoveCursor e k = .ok e1 ∧ e1.Rows = e.Rows ∧ CursorOK e1 := by
  unfold MoveCursor
  split
  · split
    · exact clampCx_spec _ (by simp; omega) (by simp; omega) h2
    · exact clampCx_spec _ h0 h1 h2
  split
  · split
    · exact clampCx_spec _ (by simp; omega) (by simp; omega) h2
    · exact clampCx_spec _ h0 h1 h2
  split
  · split
    · exact clampCx_spec _ h0 h1 (by simp; omega)
    · split
      · rename_i hpos
        obtain ⟨r, hr, _⟩ := index_ok_int e.Rows (e.cy - 1) (by omega) (by omega)
        simp only [hr, Bind.bind, Except.bind]
        exact clampCx_spec _ (by simp; omega) (by simp; omega) (by simp)
      · exact clampCx_spec _ h0 h1 h2
  split
  · by_cases hlt : e.cy < e.Rows.length
    · obtain ⟨r, hr, _⟩ := index_ok_int e.Rows e.cy h0 hlt
      simp only [hlt, if_true, hr, Except.map, Bind.bind, Except.bind]
      split
      · exact clampCx_spec _ h0 h1 (by simp; omega)
      · split
        · exact clampCx_spec _ (by simp; omega) (by simp; omega) (by simp)
        · exact clampCx_spec _ h0 h1 h2
    · simp only [hlt, if_false, Bind.bind, Except.bind, pure, Except.pure]
      simp
      exact clampCx_spec _ h0 h1 h2
  · exact clampCx_spec _ h0 h1 h2

theorem jumpLoop_spec (k : Key) (target : List Row) :
    ∀ e : Editor, CursorOK e →
      ∃ e1, jumpLoop k target e = .ok e1 ∧ e1.Rows = e.Rows ∧ CursorOK e1 := by
  induction target with
  | nil => intro e h; exact ⟨e, rfl, rfl, h⟩
  | cons rowFinder rest ih =>
    intro e h
    obtain ⟨e1, he1, hr1, hc1⟩ := MoveCursor_spec e k h.1 h.2.1 h.2.2.1
    simp only [jumpLoop, he1, Bind.bind, Except.bind, pure, Except.pure]
    split
    · exact ⟨e1, rfl, hr1, hc1⟩
    · obtain ⟨e2, he2, hr2, hc2⟩ := ih e1 hc1
      exact ⟨e2, he2, hr2.trans hr1, hc2⟩

theorem JumpParagraph_spec (e : Editor) (k : Key) (h : CursorOK e) :
    ∃ e1, JumpParagraph e k = .ok e1 ∧ e1.Rows = e.Rows ∧ CursorOK e1 := by
  unfold JumpParagraph
  simp only
  split
  · exact ⟨e, rfl, rfl, h⟩
  split
  · rw [if_pos ⟨h.1, h.2.1⟩]
    exact jumpLoop_spec k _ e h
  split
  · rename_i h1 _ hk
    have hne : e.cy ≠ e.Rows.length := by
      intro hc; exact h1 (Or.inr ⟨hc, hk⟩)
    have := h.2.1
    have h0 := h.1
    rw [if_pos ⟨by omega, by omega⟩]
    exact jumpLoop_spec k _ e h
  · exact ⟨e, rfl, rfl, h⟩

/-- C6, as stated, fails: on the document `["ab"]` with the cursor at `(cx, cy) = (5, 0)`,
which satisfies `0 ≤ cy ≤ len(rows)` and `0 ≤ cx`, `JumpParagraph` with the key
`{` returns at its first guard and leaves `cx = 5`, past the end of the row. -/
theorem jumpParagraph_keeps_wide_cx :
    (0 ≤ exWide.cy ∧ exWide.cy ≤ exWide.Rows.length ∧ 0 ≤ exWide.cx) ∧
    JumpParagraph exWide NavKeyLeftCurly = .ok exWide ∧ ¬ CursorOK exWide := by
  refine ⟨by decide, by decide, ?_⟩
  intro h
  exact absurd h.2.2.2 (by decide)

/-- C6, amended.  For every document, every key and every cursor with
`0 ≤ cy ≤ len(rows)` and `0 ≤ cx`, `MoveCursor` accesses no row out of range and
leaves a cursor with `0 ≤ cy ≤ len(rows)` and `0 ≤ cx ≤ len(rows[cy].chars)`
(0 when `cy = len(rows)`); `JumpParagraph` does the same when, in addition,
`cx ≤ len(rows[cy].chars)` holds before the call. -/
theorem cursor_moves_keep_invariant (e : Editor) (k : Key) (h0 : 0 ≤ e.cy)
    (h1 : e.cy ≤ e.Rows.length) (h2 : 0 ≤ e.cx) :
    (∃ e1, MoveCursor e k = .ok e1 ∧ e1.Rows = e.Rows ∧ CursorOK e1) ∧
    (e.cx ≤ lineLen e → ∃ e1, JumpParagraph e k = .ok e1 ∧ e1.Rows = e.Rows ∧ CursorOK e1) :=
  ⟨MoveCursor_spec e k h0 h1 h2, fun h3 => JumpParagraph_spec e k ⟨h0, h1, h2, h3⟩⟩

/-- An instance: the document `["ab", "", "cd"]` with the cursor at the end of row 2,
and the key `{`. -/
theorem cursor_moves_keep_invariant_witness :
    (0 ≤ exPara.cy ∧ exPara.cy ≤ exPara.Rows.length ∧ 0 ≤ exPara.cx ∧
      exPara.cx ≤ lineLen exPara) ∧
    (∃ e1, MoveCursor exPara NavKeyLeftCurly = .ok e1 ∧ e1.Rows = exPara.Rows ∧ CursorOK e1) ∧
    (∃ e1, JumpParagraph exPara NavKeyLeftCurly = .ok e1 ∧ e1.Rows = exPara.Rows ∧
      CursorOK e1) :=
  ⟨by decide,
   (cursor_moves_keep_invariant exPara NavKeyLeftCurly (by decide) (by decide) (by decide)).1,
   (cursor_moves_keep_invariant exPara NavKeyLeftCurly (by decide) (by decide) (by decide)).2
     (by decide)⟩

/-! ## The scan cannot fail under a well-formed profile -/

theorem hlSet_ok (hl : List Nat) (i v : Nat) (h : i < hl.length) :
    hlSet hl i v = .ok (hl.set i v) := by
  simp [hlSet, h]

theorem markN_ok : ∀ (n idx : Nat) (hl : List Nat) (v : Nat), idx + n ≤ hl.length →
    ∃ hl1, markN n idx hl v = .ok (idx + n, hl1) ∧ hl1.length = hl.length := by
  intro n
  induction n with
  | zero => intro idx hl v _; exact ⟨hl, rfl, rfl⟩
  | succ n ih =>
    intro idx hl v h
    obtain ⟨hl1, h1, h2⟩ := ih (idx + 1) (hl.set idx v) v (by simp; omega)
    refine ⟨hl1, ?_, by simpa using h2⟩
    simp only [markN, hlSet_ok hl idx v (by omega), Bind.bind, Except.bind, h1]
    congr 2
    omega

theorem stageDefault_ok (L : Lib) (runes : Str) (r : Char) (s : Scan)
    (h1 : s.idx < runes.length) (h2 : s.hl.length = runes.length) :
    ∃ f, stageDefault L r s = .ok f ∧ Advances runes s f :=
  ⟨_, rfl, by simp [Advances]; omega⟩

theorem findKeyword_bounds (L : Lib) (runes : Str) (idx : Nat) :
    ∀ (kws : List Str),
      (∀ kw ∈ kws, keywordText kw ≠ []) →
      ∀ e cls, findKeyword L runes idx kws = some (e, cls) → idx < e ∧ e ≤ runes.length := by
  intro kws
  induction kws with
  | nil => intro _ e cls h; simp [findKeyword] at h
  | cons kw0 rest ih =>
    intro hk e cls h
    simp only [findKeyword] at h
    have hne := hk kw0 (by simp)
    have hpos : 0 < (keywordText kw0).length := List.length_pos.mpr hne
    by_cases hc : idx + (keywordText kw0).length ≤ runes.length ∧
        keywordText kw0 = (runes.drop idx).take (keywordText kw0).length ∧
        (idx + (keywordText kw0).length = runes.length ∨
          (runes[idx + (keywordText kw0).length]?.map (IsSeparator L)) = some true)
    · rw [if_pos hc] at h
      simp only [Option.some.injEq, Prod.mk.injEq] at h
      obtain ⟨he, _⟩ := h
      subst he
      exact ⟨by omega, hc.1⟩
    · rw [if_neg hc] at h
      exact ih (fun kw hkw => hk kw (by simp [hkw])) e cls h

theorem stageKeyword_ok (L : Lib) (sx : EditorSyntax) (runes : Str) (r : Char) (s : Scan)
    (hk : ∀ kw ∈ sx.Keywords, keywordText kw ≠ [])
    (h1 : s.idx < runes.length) (h2 : s.hl.length = runes.length) :
    ∃ f, stageKeyword L sx runes r s = .ok f ∧ Advances runes s f := by
  unfold stageKeyword
  split
  · split
    · rename_i e cls hf
      obtain ⟨hlt, hle⟩ := findKeyword_bounds L runes s.idx sx.Keywords hk e cls hf
      obtain ⟨hl1, hm, hlen⟩ := markN_ok (e - s.idx) s.idx s.hl cls (by omega)
      simp only [hm, Bind.bind, Except.bind, pure, Except.pure]
      refine ⟨_, rfl, ?_⟩
      simp only [Advances]
      omega
    · exact stageDefault_ok L runes r s h1 h2
  · exact stageDefault_ok L runes r s h1 h2

theorem stageNumber_ok (L : Lib) (sx : EditorSyntax) (runes : Str) (r : Char) (prevHl : Nat)
    (s : Scan)
    (hk : ∀ kw ∈ sx.Keywords, keywordText kw ≠ [])
    (h1 : s.idx < runes.length) (h2 : s.hl.length = runes.length) :
    ∃ f, stageNumber L sx runes r prevHl s = .ok f ∧ Advances runes s f := by
  unfold stageNumber
  split
  · simp only [hlSet_ok s.hl s.idx HlNumber (by omega), Bind.bind, Except.bind, pure, Except.pure]
    refine ⟨_, rfl, ?_⟩
    simp only [Advances, List.length_set]
    omega
  · exact stageKeyword_ok L sx runes r s hk h1 h2

theorem stageString_ok (L : Lib) (sx : EditorSyntax) (runes : Str) (r : Char) (prevHl : Nat)
    (s : Scan)
    (hk : ∀ kw ∈ sx.Keywords, keywordText kw ≠ [])
    (h1 : s.idx < runes.length) (h2 : s.hl.length = runes.length) :
    ∃ f, stageString L sx runes r prevHl s = .ok f ∧ Advances runes s f := by
  unfold stageString
  split
  · split
    · simp only [hlSet_ok s.hl s.idx HlString (by omega), Bind.bind, Except.bind, pure,
        Except.pure]
      split
      · rename_i hesc
        simp only [hlSet_ok (s.hl.set s.idx HlString) (s.idx + 1) HlString
          (by simp; omega)]
        refine ⟨_, rfl, ?_⟩
        simp only [Advances, List.length_set]
        omega
      · refine ⟨_, rfl, ?_⟩
        simp only [Advances, List.length_set]
        omega
    · split
      · simp only [hlSet_ok s.hl s.idx HlString (by omega), Bind.bind, Except.bind, pure,
          Except.pure]
        refine ⟨_, rfl, ?_⟩
        simp only [Advances, List.length_set]
        omega
      · exact stageNumber_ok L sx runes r prevHl s hk h1 h2
  · exact stageNumber_ok L sx runes r prevHl s hk h1 h2

theorem stageScs_ok (L : Lib) (sx : EditorSyntax) (runes : Str) (r : Char) (prevHl : Nat)
    (s : Scan)
    (hk : ∀ kw ∈ sx.Keywords, keywordText kw ≠ [])
    (h1 : s.idx < runes.length) (h2 : s.hl.length = runes.length) :
    ∃ f, stageScs L sx runes r prevHl s = .ok f ∧ Advances runes s f := by
  unfold stageScs
  split
  · obtain ⟨hl1, hm, hlen⟩ := markN_ok (runes.length - s.idx) s.idx s.hl HlComment (by omega)
    simp only [hm, Bind.bind, Except.bind, pure, Except.pure]
    refine ⟨_, rfl, ?_⟩
    simp only [Advances]
    omega
  · exact stageString_ok L sx runes r prevHl s hk h1 h2

theorem isPrefixOf_drop_length (p runes : Str) (idx : Nat)
    (h : p.isPrefixOf (runes.drop idx) = true) : idx + p.length ≤ runes.length ∨ p = [] := by
  have h1 := (List.isPrefixOf_iff_prefix.mp h).length_le
  simp only [List.length_drop] at h1
  by_cases hp : p = []
  · exact Or.inr hp
  · left
    have : 0 < p.length := List.length_pos.mpr hp
    omega

theorem stageMl_ok (L : Lib) (sx : EditorSyntax) (runes : Str) (r : Char) (prevHl : Nat)
    (s : Scan) (hp : ProfileOK sx)
    (h1 : s.idx < runes.length) (h2 : s.hl.length = runes.length) :
    ∃ f, stageMl L sx runes r prevHl s = .ok f ∧ Advances runes s f := by
  obtain ⟨hmcs, hmce, hk, _⟩ := hp
  unfold stageMl
  split
  · rename_i hc
    obtain ⟨hs, he, _⟩ := hc
    split
    · simp only [hlSet_ok s.hl s.idx HlMlComment (by omega), Bind.bind, Except.bind, pure,
        Except.pure]
      split
      · rename_i hpre
        have hb := (isPrefixOf_drop_length sx.Mce runes s.idx hpre).resolve_right he
        have hpos : 0 < sx.Mce.length := List.length_pos.mpr he
        obtain ⟨hl1, hm, hlen⟩ := markN_ok (byteLen sx.Mce) s.idx (s.hl.set s.idx HlMlComment)
          HlMlComment (by simp; omega)
        simp only [hm]
        refine ⟨_, rfl, ?_⟩
        simp only [Advances]
        simp at hlen
        omega
      · refine ⟨_, rfl, ?_⟩
        simp only [Advances, List.length_set]
        omega
    · split
      · rename_i hpre
        have hb := (isPrefixOf_drop_length sx.Mcs runes s.idx hpre).resolve_right hs
        have hpos : 0 < sx.Mcs.length := List.length_pos.mpr hs
        obtain ⟨hl1, hm, hlen⟩ := markN_ok (byteLen sx.Mcs) s.idx s.hl HlMlComment (by omega)
        simp only [hm, Bind.bind, Except.bind, pure, Except.pure]
        refine ⟨_, rfl, ?_⟩
        simp only [Advances]
        omega
      · exact stageScs_ok L sx runes r prevHl s hk h1 h2
  · exact stageScs_ok L sx runes r prevHl s hk h1 h2


theorem scanStep_ok (L : Lib) (sx : EditorSyntax) (runes : Str) (s : Scan) (hp : ProfileOK sx)
    (h1 : s.idx < runes.length) (h2 : s.hl.length = runes.length) :
    ∃ f, scanStep L sx runes s = .ok f ∧ Advances runes s f := by
  unfold scanStep
  simp only [index_ok runes s.idx h1, Bind.bind, Except.bind]
  by_cases h0 : s.idx > 0
  · obtain ⟨v, hv, _⟩ := index_ok_int s.hl ((s.idx : Int) - 1) (by omega) (by omega)
    simp only [h0, if_true, hv]
    exact stageMl_ok L sx runes _ _ s hp h1 h2
  · simp only [h0, if_false, pure, Except.pure]
    exact stageMl_ok L sx runes _ _ s hp h1 h2

theorem scanLoop_ok (L : Lib) (sx : EditorSyntax) (runes : Str) (hp : ProfileOK sx) :
    ∀ (fuel : Nat) (s : Scan), s.hl.length = runes.length → runes.length - s.idx ≤ fuel →
      ∃ s1, scanLoop L sx runes fuel s = .ok s1 := by
  intro fuel
  induction fuel with
  | zero =>
    intro s _ h
    have : ¬ s.idx < runes.length := by omega
    exact ⟨s, by simp [scanLoop, this]⟩
  | succ fuel ih =>
    intro s h2 h
    by_cases h1 : s.idx < runes.length
    · obtain ⟨f, hf, ha⟩ := scanStep_ok L sx runes s hp h1 h2
      simp only [scanLoop, h1, if_true, hf, Bind.bind, Except.bind]
      cases f with
      | next s1 =>
        simp only [Advances] at ha
        exact ih s1 ha.2.2 (by omega)
      | stop s1 => exact ⟨s1, rfl⟩
    · exact ⟨s, by simp [scanLoop, h1]⟩

theorem scanRender_ok (L : Lib) (sx : EditorSyntax) (hp : ProfileOK sx) (render : Str)
    (inComment : Bool) :
    ∃ hl flag, scanRender L sx render inComment = .ok (hl, flag) := by
  obtain ⟨s1, h⟩ := scanLoop_ok L sx render hp (2 * render.length + 2)
    { idx := 0, hl := List.replicate render.length HlNormal, prevSep := true,
      strQuote := '\x00', inComment := inComment } (by simp) (by simp; omega)
  exact ⟨s1.hl, s1.inComment, by simp [scanRender, h, Bind.bind, Except.bind, pure, Except.pure]⟩

theorem HLDB_ok : ∀ sx ∈ HLDB, ProfileOK sx := by
  intro sx h
  simp only [HLDB, List.mem_cons, List.mem_singleton, List.not_mem_nil, or_false] at h
  rcases h with rfl | rfl | rfl <;> (unfold ProfileOK; decide)

/-! ## The render loop cannot fail under a profile -/

theorem padLoop_steps (ts : Int) (hts : 0 < ts) :
    ∀ (k fuel : Nat) (col : Int) (b : Str), 0 ≤ col → (col + k) % ts = 0 → k < fuel →
      ∃ col1 b1, padLoop ts fuel col b = .ok (col1, b1) ∧ 0 ≤ col1 := by
  intro k
  induction k with
  | zero =>
    intro fuel col b h0 hm hf
    obtain ⟨fuel, rfl⟩ : ∃ n, fuel = n + 1 := ⟨fuel - 1, by omega⟩
    have : col.tmod ts = 0 := by
      rw [Int.tmod_eq_emod h0 (le_of_lt hts)]; simpa using hm
    exact ⟨col, b, by simp [padLoop, this], h0⟩
  | succ k ih =>
    intro fuel col b h0 hm hf
    obtain ⟨fuel, rfl⟩ : ∃ n, fuel = n + 1 := ⟨fuel - 1, by omega⟩
    by_cases hc : col.tmod ts ≠ 0
    · obtain ⟨col1, b1, h1, h2⟩ := ih fuel (col + 1) (b ++ [' ']) (by omega)
        (by rw [← hm]; congr 1; push_cast; ring) (by omega)
      exact ⟨col1, b1, by rw [padLoop, if_pos hc, h1], h2⟩
    · exact ⟨col, b, by rw [padLoop, if_neg hc], h0⟩

theorem padLoop_ok (ts : Int) (hts : 0 < ts) (col : Int) (b : Str) (h0 : 0 ≤ col) :
    ∃ col1 b1, padLoop ts (ts.natAbs + 1) col b = .ok (col1, b1) ∧ 0 ≤ col1 := by
  have hm0 : 0 ≤ col % ts := Int.emod_nonneg col (by omega)
  have hm1 : col % ts < ts := Int.emod_lt_of_pos col hts
  apply padLoop_steps ts hts (ts - col % ts).toNat (ts.natAbs + 1) col b h0
  · rw [Int.toNat_of_nonneg (by omega)]
    have h := Int.emod_add_ediv col ts
    have : col + (ts - col % ts) = ts * (col / ts + 1) := by
      have : col = col % ts + ts * (col / ts) := h.symm
      linarith
    rw [this]
    exact Int.mul_emod_right _ _
  · omega

theorem renderLoop_ok (sx : EditorSyntax) (hts : 0 ≤ sx.Tabstop) :
    ∀ (chars : Str) (col : Int) (b : Str), 0 ≤ col →
      ∃ r, renderLoop (some sx) chars col b = .ok r := by
  intro chars
  induction chars with
  | nil => intro col b _; exact ⟨b, rfl⟩
  | cons c rest ih =>
    intro col b h0
    by_cases hc : c = '\t'
    · have hpos : 0 < (if sx.Tabstop ≠ 0 then sx.Tabstop else tabstop) := by
        split
        · omega
        · decide
      obtain ⟨col1, b1, h1, h2⟩ := padLoop_ok _ hpos (col + 1) (b ++ [' ']) (by omega)
      obtain ⟨r, hr⟩ := ih col1 b1 h2
      refine ⟨r, ?_⟩
      simp only [renderLoop, hc, if_true, Bind.bind, Except.bind]
      rw [h1]
      exact hr
    · obtain ⟨r, hr⟩ := ih col (b ++ [c]) h0
      exact ⟨r, by simp only [renderLoop, hc, if_false, hr]⟩

theorem renderLoop_no_tab (syn : Option EditorSyntax) :
    ∀ (chars : Str) (col : Int) (b : Str), '\t' ∉ chars →
      renderLoop syn chars col b = .ok (b ++ chars) := by
  intro chars
  induction chars with
  | nil => intro col b _; simp [renderLoop]
  | cons c rest ih =>
    intro col b h
    have hc : c ≠ '\t' := fun hc => h (by simp [hc])
    have hr : '\t' ∉ rest := fun hr => h (by simp [hr])
    simp only [renderLoop, hc, if_false, ih col (b ++ [c]) hr]
    simp

/-- `updateRow` can compute the render string: a profile with a non-negative tab stop
is selected, or the characters hold no tab. -/
theorem renderOf_ok (syn : Option EditorSyntax) (chars : Str)
    (h : (∃ sx, syn = some sx ∧ 0 ≤ sx.Tabstop) ∨ '\t' ∉ chars) :
    ∃ r, renderOf syn chars = .ok r := by
  rcases h with ⟨sx, rfl, hts⟩ | h
  · exact renderLoop_ok sx hts chars 0 [] (le_refl 0)
  · exact ⟨_, renderLoop_no_tab syn chars 0 [] h⟩

/-! ## Highlight propagation -/

theorem index_eq_ok {α : Type} {xs : List α} {i : Int} {x : α} (h : index xs i = .ok x) :
    0 ≤ i ∧ xs[i.toNat]? = some x := by
  unfold index at h
  split at h
  · rename_i h0
    split at h
    · rename_i y hy
      cases h
      exact ⟨h0, hy⟩
    · cases h
  · cases h

theorem highlightRow_eq (L : Lib) (e : Editor) (row row1 : Row) (changed : Bool)
    (h : highlightRow L e row = .ok (row1, changed)) :
    row1.text = row.text ∧
    ((e.syn = none ∧ row1.hl = List.replicate row.render.length HlNormal ∧
        row1.hasUnclosedComment = row.hasUnclosedComment ∧ changed = false) ∨
     (∃ sx inc, e.syn = some sx ∧ incomingFlag e row = .ok inc ∧
        scanRender L sx row.render inc = .ok (row1.hl, row1.hasUnclosedComment) ∧
        changed = (row.hasUnclosedComment != row1.hasUnclosedComment))) := by
  unfold highlightRow at h
  split at h
  · rename_i hs
    simp only [Except.ok.injEq, Prod.mk.injEq] at h
    obtain ⟨h1, h2⟩ := h
    subst h1
    exact ⟨rfl, Or.inl ⟨hs, rfl, rfl, h2.symm⟩⟩
  · rename_i sx hs
    cases hinc : incomingFlag e row with
    | error f => simp [hinc, Bind.bind, Except.bind] at h
    | ok inc =>
      cases hres : scanRender L sx row.render inc with
      | error f => simp [hinc, hres, Bind.bind, Except.bind] at h
      | ok res =>
        obtain ⟨hl, f⟩ := res
        simp only [hinc, hres, Bind.bind, Except.bind, pure, Except.pure, Except.ok.injEq,
          Prod.mk.injEq] at h
        obtain ⟨h1, h2⟩ := h
        subst h1
        exact ⟨rfl, Or.inr ⟨sx, inc, hs, rfl, hres, h2.symm⟩⟩

/-- Highlighting a row again, with the same profile and the same incoming comment
state, changes nothing and reports no change of the flag. -/
theorem highlightRow_again (L : Lib) (e e1 : Editor) (row row1 : Row) (changed : Bool)
    (h : highlightRow L e row = .ok (row1, changed)) (hs : e1.syn = e.syn)
    (hin : incomingFlag e1 row1 = incomingFlag e row) :
    highlightRow L e1 row1 = .ok (row1, false) := by
  obtain ⟨ht, hcase⟩ := highlightRow_eq L e row row1 changed h
  have hre : row1.render = row.render := by
    have := congrArg (fun t => t.2.2) ht; simpa [Row.text] using this
  obtain ⟨i1, c1, r1, hl1, f1⟩ := row1
  simp only at hre
  subst hre
  rcases hcase with ⟨hn, hhl, _, _⟩ | ⟨sx, inc, hsx, hinc, hscan, _⟩
  · unfold highlightRow
    rw [hs, hn]
    simp only at hhl
    simp only [← hhl]
  · unfold highlightRow
    rw [hs, hsx]
    simp only at hscan
    simp only [hin, hinc, hscan, Bind.bind, Except.bind, pure, Except.pure]
    simp


theorem contiguous_set (rows : List Row) (p : Nat) (row row1 : Row) (hc : Contiguous rows)
    (hrow : rows[p]? = some row) (hi : row1.idx = row.idx) : Contiguous (rows.set p row1) := by
  intro i r h
  by_cases hip : p = i
  · subst hip
    have hlt : p < rows.length := by
      by_contra hh
      rw [List.getElem?_eq_none (by omega)] at hrow
      cases hrow
    rw [List.getElem?_set_self hlt] at h
    cases h
    rw [hi]
    exact hc p row hrow
  · rw [List.getElem?_set_ne hip] at h
    exact hc i r h

theorem map_text_set (rows : List Row) (p : Nat) (row row1 : Row)
    (hrow : rows[p]? = some row) (ht : row1.text = row.text) :
    (rows.set p row1).map Row.text = rows.map Row.text := by
  apply List.ext_getElem?
  intro i
  by_cases hip : p = i
  · subst hip
    have hlt : p < rows.length := by
      by_contra hh
      rw [List.getElem?_eq_none (by omega)] at hrow
      cases hrow
    simp only [List.map_set, ht]
    rw [List.getElem?_set_self (by simpa using hlt)]
    simp [List.getElem?_map, hrow]
  · simp [List.getElem?_map, List.getElem?_set_ne hip]

theorem flagBefore_set_ne (rows : List Row) (p i : Nat) (row1 : Row) (h : i ≠ p + 1) :
    flagBefore (rows.set p row1) i = flagBefore rows i := by
  unfold flagBefore
  by_cases hi : i = 0
  · simp [hi]
  · have : p ≠ i - 1 := by omega
    simp [hi, List.getElem?_set_ne this]

theorem flagBefore_set_succ (rows : List Row) (p : Nat) (row1 : Row) (h : p < rows.length) :
    flagBefore (rows.set p row1) (p + 1) = row1.hasUnclosedComment := by
  simp [flagBefore, List.getElem?_set_self h]

theorem flagBefore_succ (rows : List Row) (p : Nat) (row : Row) (h : rows[p]? = some row) :
    flagBefore rows (p + 1) = row.hasUnclosedComment := by
  simp [flagBefore, h]

theorem incomingFlag_eq (e : Editor) (row : Row) (p : Nat) (inc : Bool) (hi : row.idx = p)
    (h : incomingFlag e row = .ok inc) : inc = flagBefore e.Rows p := by
  unfold incomingFlag prevFlag at h
  unfold flagBefore
  by_cases hp : p = 0
  · subst hp
    simp [hi, pure, Except.pure] at h
    simp [h]
  · have hpos : row.idx > 0 := by omega
    rw [if_pos hpos] at h
    cases hx : index e.Rows (row.idx - 1) with
    | error f => simp [hx, Except.map] at h
    | ok r =>
      simp only [hx, Except.map, Except.ok.injEq] at h
      obtain ⟨_, hr⟩ := index_eq_ok hx
      have : (row.idx - 1).toNat = p - 1 := by omega
      rw [this] at hr
      simp [hp, hr, h]

theorem incomingFlag_ok (e : Editor) (row : Row) (p : Nat) (hi : row.idx = p)
    (hp : p ≤ e.Rows.length) : incomingFlag e row = .ok (flagBefore e.Rows p) := by
  unfold incomingFlag prevFlag flagBefore
  by_cases h0 : p = 0
  · subst h0
    simp [hi, pure, Except.pure]
  · have hpos : row.idx > 0 := by omega
    have hlt : p - 1 < e.Rows.length := by omega
    have hcast : row.idx - 1 = ((p - 1 : Nat) : Int) := by omega
    rw [if_pos hpos, hcast, index, if_pos (by omega)]
    simp [h0, List.getElem?_eq_getElem hlt, Except.map]

theorem getElem?_lt {α : Type} {xs : List α} {p : Nat} {x : α} (h : xs[p]? = some x) :
    p < xs.length := by
  by_contra hh
  rw [List.getElem?_eq_none (by omega)] at h
  cases h

/-- One call of `updateHighlight` on the row at position `p`, whose index is `p`. -/
theorem updateHighlightAt_unfold (L : Lib) (fuel : Nat) (e : Editor) (p : Nat)
    (row row1 : Row) (changed : Bool) (hrow : e.Rows[p]? = some row) (hidx : row.idx = p)
    (hh : highlightRow L e row = .ok (row1, changed)) :
    updateHighlightAt L (fuel + 1) e p =
      if changed = true ∧ p + 1 < e.Rows.length then
        updateHighlightAt L fuel { e with Rows := e.Rows.set p row1 } (p + 1)
      else .ok { e with Rows := e.Rows.set p row1 } := by
  have hlt := getElem?_lt hrow
  have hix : index e.Rows (p : Int) = .ok row := by
    rw [index_ok e.Rows p hlt]
    congr 1
    rw [List.getElem?_eq_getElem hlt] at hrow
    exact Option.some.inj hrow
  have ht := (highlightRow_eq L e row row1 changed hh).1
  have hi1 : row1.idx = p := by
    have := congrArg (fun t => t.1) ht
    simp only [Row.text] at this
    omega
  simp only [updateHighlightAt, hix, hh, Bind.bind, Except.bind, List.length_set, hi1]
  by_cases hc : changed = true ∧ p + 1 < e.Rows.length
  · have hc2 : changed = true ∧ (p : Int) + 1 < (e.Rows.length : Int) := ⟨hc.1, by omega⟩
    have h0 : (0 : Int) ≤ (p : Int) + 1 := by omega
    have hn : ((p : Int) + 1).toNat = p + 1 := by omega
    rw [if_pos hc, if_pos hc2, if_pos h0, hn]
  · have hc2 : ¬ (changed = true ∧ (p : Int) + 1 < (e.Rows.length : Int)) := by
      intro h; exact hc ⟨h.1, by omega⟩
    rw [if_neg hc, if_neg hc2]
    rfl

theorem updateHighlightAt_inv (L : Lib) (fuel : Nat) (e e1 : Editor) (p : Nat)
    (h : updateHighlightAt L fuel e p = .ok e1) :
    ∃ fuel1 row row1 changed, fuel = fuel1 + 1 ∧ e.Rows[p]? = some row ∧
      highlightRow L e row = .ok (row1, changed) := by
  cases fuel with
  | zero => simp [updateHighlightAt] at h
  | succ fuel =>
    cases hx : index e.Rows (p : Int) with
    | error f => simp [updateHighlightAt, hx, Bind.bind, Except.bind] at h
    | ok row =>
      cases hh : highlightRow L e row with
      | error f => simp [updateHighlightAt, hx, hh, Bind.bind, Except.bind] at h
      | ok res =>
        obtain ⟨row1, changed⟩ := res
        obtain ⟨_, hr⟩ := index_eq_ok hx
        exact ⟨fuel, row, row1, changed, rfl, by simpa using hr, hh⟩


/-- What a successful `updateHighlight` on position `p` leaves alone: every field but
`Rows`, the text of every row, and the rows before `p`; the row at `p` is the one
`highlightRow` computes. -/
theorem updateHighlightAt_frame (L : Lib) :
    ∀ (fuel : Nat) (e e1 : Editor) (p : Nat), Contiguous e.Rows →
      updateHighlightAt L fuel e p = .ok e1 →
      e1 = { e with Rows := e1.Rows } ∧ e1.Rows.map Row.text = e.Rows.map Row.text ∧
      (∀ i, i < p → e1.Rows[i]? = e.Rows[i]?) ∧
      ∃ row row1 changed, e.Rows[p]? = some row ∧
        highlightRow L e row = .ok (row1, changed) ∧ e1.Rows[p]? = some row1 := by
  intro fuel
  induction fuel with
  | zero => intro e e1 p _ h; simp [updateHighlightAt] at h
  | succ fuel ih =>
    intro e e1 p hc h
    obtain ⟨_, row, row1, changed, _, hrow, hh⟩ := updateHighlightAt_inv L _ e e1 p h
    have hidx := hc p row hrow
    have hlt := getElem?_lt hrow
    have ht := (highlightRow_eq L e row row1 changed hh).1
    have hi1 : row1.idx = row.idx := by
      have := congrArg (fun t => t.1) ht
      simpa [Row.text] using this
    rw [updateHighlightAt_unfold L fuel e p row row1 changed hrow hidx hh] at h
    split at h
    · obtain ⟨h1, h2, h3, _⟩ := ih _ e1 (p + 1) (contiguous_set e.Rows p row row1 hc hrow hi1) h
      refine ⟨?_, ?_, ?_, row, row1, changed, hrow, hh, ?_⟩
      · rw [h1]
      · rw [h2]
        exact map_text_set e.Rows p row row1 hrow ht
      · intro i hi
        rw [h3 i (by omega)]
        exact List.getElem?_set_ne (by omega)
      · rw [h3 p (by omega)]
        exact List.getElem?_set_self hlt
    · cases h
      exact ⟨rfl, map_text_set e.Rows p row row1 hrow ht,
        fun i hi => List.getElem?_set_ne (by omega), row, row1, changed, hrow, hh,
        List.getElem?_set_self hlt⟩

/-- Without a profile, or under a well-formed one, `updateHighlight` on a row of a
document with contiguous indices returns. -/
theorem updateHighlightAt_ok (L : Lib) (syn : Option EditorSyntax)
    (hp : ∀ sx, syn = some sx → ProfileOK sx) :
    ∀ (fuel : Nat) (e : Editor) (p : Nat), e.syn = syn → Contiguous e.Rows →
      p < e.Rows.length → e.Rows.length - p ≤ fuel →
      ∃ e1, updateHighlightAt L fuel e p = .ok e1 := by
  intro fuel
  induction fuel with
  | zero => intro e p _ _ h1 h2; omega
  | succ fuel ih =>
    intro e p hs hc hlt hf
    have hrow : e.Rows[p]? = some e.Rows[p] := List.getElem?_eq_getElem hlt
    have hidx := hc p _ hrow
    have hh : ∃ row1 changed, highlightRow L e e.Rows[p] = .ok (row1, changed) := by
      unfold highlightRow
      cases hsyn : e.syn with
      | none => exact ⟨_, _, rfl⟩
      | some sx =>
        obtain ⟨hl, f, hscan⟩ := scanRender_ok L sx (hp sx (by rw [← hs, hsyn]))
          (e.Rows[p]).render (flagBefore e.Rows p)
        simp only [incomingFlag_ok e _ p hidx (by omega), hscan, Bind.bind, Except.bind,
          pure, Except.pure]
        exact ⟨_, _, rfl⟩
    obtain ⟨row1, changed, hh⟩ := hh
    have ht := (highlightRow_eq L e _ row1 changed hh).1
    have hi1 : row1.idx = (e.Rows[p]).idx := by
      have := congrArg (fun t => t.1) ht
      simpa [Row.text] using this
    rw [updateHighlightAt_unfold L fuel e p _ row1 changed hrow hidx hh]
    split
    · rename_i hcond
      exact ih _ (p + 1) hs (contiguous_set e.Rows p _ row1 hc hrow hi1)
        (by simpa using hcond.2) (by simp; omega)
    · exact ⟨_, rfl⟩

/-- When every row but the one at `p` carries the classes and the flag of its scan,
a successful `updateHighlight` on `p` leaves the whole document highlight-consistent. -/
theorem updateHighlightAt_consistent (L : Lib) (sx : EditorSyntax) :
    ∀ (fuel : Nat) (e e1 : Editor) (p : Nat), e.syn = some sx → Contiguous e.Rows →
      updateHighlightAt L fuel e p = .ok e1 →
      (∀ i, i ≠ p → RowScanned L sx e.Rows i) → HighlightConsistent L sx e1.Rows := by
  intro fuel
  induction fuel with
  | zero => intro e e1 p _ _ h; simp [updateHighlightAt] at h
  | succ fuel ih =>
    intro e e1 p hs hc h hrest
    obtain ⟨_, row, row1, changed, _, hrow, hh⟩ := updateHighlightAt_inv L _ e e1 p h
    have hidx := hc p row hrow
    have hlt := getElem?_lt hrow
    obtain ⟨ht, hcase⟩ := highlightRow_eq L e row row1 changed hh
    have hi1 : row1.idx = row.idx := by
      have := congrArg (fun t => t.1) ht
      simpa [Row.text] using this
    have hre : row1.render = row.render := by
      have := congrArg (fun t => t.2.2) ht
      simpa [Row.text] using this
    rcases hcase with ⟨hn, _⟩ | ⟨sx1, inc, hsx, hinc, hscan, hch⟩
    · rw [hs] at hn; cases hn
    rw [hs] at hsx
    cases hsx
    have hincv := incomingFlag_eq e row p inc hidx hinc
    subst hincv
    -- the row at `p` is scanned, and so is every row that does not follow it
    have hp_ok : RowScanned L sx (e.Rows.set p row1) p := by
      intro r hr
      rw [List.getElem?_set_self hlt] at hr
      cases hr
      rw [flagBefore_set_ne e.Rows p p _ (by omega), hre]
      exact hscan
    have hother : ∀ i, i ≠ p → i ≠ p + 1 → RowScanned L sx (e.Rows.set p row1) i := by
      intro i h1 h2 r hr
      rw [List.getElem?_set_ne (by omega)] at hr
      rw [flagBefore_set_ne e.Rows p i _ h2]
      exact hrest i h1 r hr
    rw [updateHighlightAt_unfold L fuel e p row row1 changed hrow hidx hh] at h
    split at h
    · apply ih { e with Rows := e.Rows.set p row1 } e1 (p + 1) hs
        (contiguous_set e.Rows p row row1 hc hrow hi1) h
      intro i hi
      by_cases hip : i = p
      · subst hip; exact hp_ok
      · exact hother i hip hi
    · rename_i hcond
      cases h
      intro i
      by_cases hip : i = p
      · subst hip; exact hp_ok
      by_cases hip1 : i = p + 1
      · subst hip1
        intro r hr
        have hlt1 : p + 1 < e.Rows.length := by
          have := getElem?_lt hr
          simpa using this
        have hnc : changed = false := by
          cases hcv : changed with
          | false => rfl
          | true => exact absurd ⟨hcv, hlt1⟩ hcond
        have hfl : row.hasUnclosedComment = row1.hasUnclosedComment := by
          rw [hnc] at hch
          simpa using hch.symm
        simp only at hr
        rw [List.getElem?_set_ne (by omega)] at hr
        simp only
        rw [flagBefore_set_succ e.Rows p row1 hlt, ← hfl, ← flagBefore_succ e.Rows p row hrow]
        exact hrest (p + 1) (by omega) r hr
      · exact hother i hip hip1

/-! ## Idempotence and consistency of highlighting -/

theorem set_same {α : Type} (xs : List α) (p : Nat) (x : α) (h : xs[p]? = some x) :
    xs.set p x = xs := by
  apply List.ext_getElem?
  intro i
  by_cases hip : p = i
  · subst hip
    rw [List.getElem?_set_self (getElem?_lt h), h]
  · rw [List.getElem?_set_ne hip]

theorem index_congr {α : Type} (xs ys : List α) (i : Int) (h : xs[i.toNat]? = ys[i.toNat]?) :
    index xs i = index ys i := by
  unfold index
  rw [h]

theorem updateHighlight_twice (L : Lib) (e e1 : Editor) (p : Nat) (hc : Contiguous e.Rows)
    (h : updateHighlight L e p = .ok e1) : updateHighlight L e1 p = .ok e1 := by
  obtain ⟨h1, h2, h3, row, row1, changed, hrow, hh, hrow1⟩ :=
    updateHighlightAt_frame L _ e e1 p hc h
  have hidx := hc p row hrow
  have ht := (highlightRow_eq L e row row1 changed hh).1
  have hi1 : row1.idx = row.idx := by
    have := congrArg (fun t => t.1) ht
    simpa [Row.text] using this
  have hsyn : e1.syn = e.syn := by rw [h1]
  have hin : incomingFlag e1 row1 = incomingFlag e row := by
    unfold incomingFlag prevFlag
    rw [hi1]
    by_cases hpos : row.idx > 0
    · rw [if_pos hpos, if_pos hpos]
      rw [index_congr e1.Rows e.Rows (row.idx - 1) (by
        have : (row.idx - 1).toNat = p - 1 := by omega
        rw [this]
        exact h3 (p - 1) (by omega))]
    · rw [if_neg hpos, if_neg hpos]
  have hagain := highlightRow_again L e e1 row row1 changed hh hsyn hin
  unfold updateHighlight
  rw [updateHighlightAt_unfold L _ e1 p row1 row1 false hrow1 (by omega) hagain]
  simp only [Bool.false_eq_true, false_and, if_false, set_same e1.Rows p row1 hrow1]

/-- C5.  Highlighting is idempotent.  On a document with contiguous row indices, for
every profile or none: when `updateHighlight` on a row returns, a second call on the
same row returns the very same editor state, so every row keeps the highlight classes
and the unclosed-comment flag of the first call; and the first call does return when
no profile is selected or the profile is one of the built-in table. -/
theorem updateHighlight_idempotent (L : Lib) (e : Editor) (p : Nat) (hc : Contiguous e.Rows) :
    (∀ e1, updateHighlight L e p = .ok e1 → updateHighlight L e1 p = .ok e1) ∧
    (p < e.Rows.length → (∀ sx, e.syn = some sx → sx ∈ HLDB) →
      ∃ e1, updateHighlight L e p = .ok e1 ∧ updateHighlight L e1 p = .ok e1) := by
  refine ⟨fun e1 h => updateHighlight_twice L e e1 p hc h, fun hlt hs => ?_⟩
  obtain ⟨e1, h1⟩ := updateHighlightAt_ok L e.syn (fun sx h => HLDB_ok sx (hs sx h))
    (e.Rows.length + 1) e p rfl hc hlt (by omega)
  exact ⟨e1, h1, updateHighlight_twice L e e1 p hc h1⟩

theorem contiguousFrom_get : ∀ (rows : List Row) (k : Int), contiguousFrom k rows = true →
    ∀ (i : Nat) (r : Row), rows[i]? = some r → r.idx = k + i := by
  intro rows
  induction rows with
  | nil => intro k _ i r h; simp at h
  | cons r0 rest ih =>
    intro k hk i r h
    simp only [contiguousFrom, Bool.and_eq_true, decide_eq_true_eq] at hk
    cases i with
    | zero =>
      simp only [List.getElem?_cons_zero, Option.some.injEq] at h
      subst h
      simpa using hk.1
    | succ i =>
      simp only [List.getElem?_cons_succ] at h
      have := ih (k + 1) hk.2 i r h
      push_cast
      omega

theorem contiguous_of_check (rows : List Row) (h : contiguousFrom 0 rows = true) :
    Contiguous rows := by
  intro i r hr
  have := contiguousFrom_get rows 0 h i r hr
  omega

theorem contiguous_of_text (rows rows1 : List Row) (h : rows1.map Row.text = rows.map Row.text)
    (hc : Contiguous rows) : Contiguous rows1 := by
  intro i r hr
  have h1 : (rows1.map Row.text)[i]? = some r.text := by simp [List.getElem?_map, hr]
  rw [h, List.getElem?_map] at h1
  cases hx : rows[i]? with
  | none => simp [hx] at h1
  | some r0 =>
    simp only [hx, Option.map_some', Option.some.injEq] at h1
    have := congrArg (fun t => t.1) h1
    simp only [Row.text] at this
    rw [← this]
    exact hc i r0 hx

theorem rowScanned_set_other (L : Lib) (sx : EditorSyntax) (rows : List Row) (p i : Nat)
    (row row2 : Row) (hip : i ≠ p) (hrow : rows[p]? = some row)
    (hf : row2.hasUnclosedComment = row.hasUnclosedComment)
    (h : RowScanned L sx rows i) : RowScanned L sx (rows.set p row2) i := by
  intro r hr
  rw [List.getElem?_set_ne (by omega)] at hr
  by_cases h1 : i = p + 1
  · subst h1
    rw [flagBefore_set_succ rows p row2 (getElem?_lt hrow), hf, ← flagBefore_succ rows p row hrow]
    exact h r hr
  · rw [flagBefore_set_ne rows p i row2 h1]
    exact h r hr

/-- `updateRow` on the row at `p`, when every other row is scanned: the call returns
and the document is highlight-consistent. -/
theorem updateRow_consistent (L : Lib) (sx : EditorSyntax) (hp : ProfileOK sx) (e : Editor)
    (p : Nat) (hs : e.syn = some sx) (hc : Contiguous e.Rows) (hlt : p < e.Rows.length)
    (hrest : ∀ i, i ≠ p → RowScanned L sx e.Rows i) :
    ∃ e1, updateRow L e p = .ok e1 ∧ e1.syn = e.syn ∧ e1.cx = e.cx ∧ e1.dirty = e.dirty ∧
      HighlightConsistent L sx e1.Rows ∧ Contiguous e1.Rows := by
  have hrow : e.Rows[p]? = some e.Rows[p] := List.getElem?_eq_getElem hlt
  obtain ⟨render, hren⟩ := renderOf_ok e.syn (e.Rows[p]).chars (Or.inl ⟨sx, hs, hp.2.2.2⟩)
  obtain ⟨rowR, hR⟩ : ∃ r : Row, r = { e.Rows[p] with render := render } := ⟨_, rfl⟩
  obtain ⟨e2, hE⟩ : ∃ e2 : Editor, e2 = { e with Rows := e.Rows.set p rowR } := ⟨_, rfl⟩
  have hs2 : e2.syn = some sx := by rw [hE]; exact hs
  have hc2 : Contiguous e2.Rows := by
    rw [hE]; exact contiguous_set e.Rows p _ rowR hc hrow (by rw [hR])
  have hlen2 : e2.Rows.length = e.Rows.length := by rw [hE]; simp
  obtain ⟨e1, h1⟩ := updateHighlightAt_ok L (some sx) (fun sx1 h => by cases h; exact hp)
    (e2.Rows.length + 1) e2 p hs2 hc2 (by omega) (by omega)
  have hcons := updateHighlightAt_consistent L sx _ e2 e1 p hs2 hc2 h1
    (fun i hi => by
      rw [hE]
      exact rowScanned_set_other L sx e.Rows p i _ rowR hi hrow (by rw [hR]) (hrest i hi))
  obtain ⟨hf1, hf2, _, _⟩ := updateHighlightAt_frame L _ e2 e1 p hc2 h1
  refine ⟨e1, ?_, by rw [hf1, hE], by rw [hf1, hE], by rw [hf1, hE], hcons,
    contiguous_of_text _ _ hf2 hc2⟩
  simp only [updateRow, index_ok e.Rows p hlt, hren, Bind.bind, Except.bind]
  rw [← hR, ← hE]
  exact h1

/-- Replacing the characters of row `k` and calling `updateRow` on it keeps a
highlight-consistent document highlight-consistent. -/
theorem edit_then_updateRow (L : Lib) (sx : EditorSyntax) (hp : ProfileOK sx) (e : Editor)
    (k : Nat) (row2 : Row) (hs : e.syn = some sx) (hc : Contiguous e.Rows)
    (hlt : k < e.Rows.length) (hh : HighlightConsistent L sx e.Rows)
    (hi : row2.idx = (e.Rows[k]).idx)
    (hf : row2.hasUnclosedComment = (e.Rows[k]).hasUnclosedComment) :
    ∃ e1, updateRow L { e with Rows := e.Rows.set k row2 } k = .ok e1 ∧ e1.syn = e.syn ∧
      e1.cx = e.cx ∧ e1.dirty = e.dirty ∧
      HighlightConsistent L sx e1.Rows ∧ Contiguous e1.Rows := by
  have hrow : e.Rows[k]? = some e.Rows[k] := List.getElem?_eq_getElem hlt
  exact updateRow_consistent L sx hp { e with Rows := e.Rows.set k row2 } k hs
    (contiguous_set e.Rows k _ row2 hc hrow hi) (by simpa using hlt)
    (fun i hik => rowScanned_set_other L sx e.Rows k i _ row2 hik hrow hf (hh i))

/-- C4.  Under a built-in profile, on a document with contiguous row indices that is
highlight-consistent, `InsertChar` on a row `cy < len(rows)` and the in-row `DeleteChar`
(`cx > 0`) return and leave the document highlight-consistent (and its indices
contiguous): every later row whose incoming comment state changed has been
re-highlighted. -/
theorem edit_keeps_highlight_consistent (L : Lib) (e : Editor) (sx : EditorSyntax) (c : Char)
    (hs : e.syn = some sx) (hx : sx ∈ HLDB) (hc : Contiguous e.Rows)
    (hh : HighlightConsistent L sx e.Rows) (h0 : 0 ≤ e.cy) (h1 : e.cy < e.Rows.length) :
    (∃ e1, InsertChar L e c = .ok e1 ∧ HighlightConsistent L sx e1.Rows ∧
      Contiguous e1.Rows) ∧
    (0 < e.cx → ∃ e1, DeleteChar L e = .ok e1 ∧ HighlightConsistent L sx e1.Rows ∧
      Contiguous e1.Rows) := by
  obtain ⟨k, hk⟩ := Int.eq_ofNat_of_zero_le h0
  have hlt : k < e.Rows.length := by omega
  have hp := HLDB_ok sx hx
  have hne : ¬ e.cy = e.Rows.length := by omega
  have hix : index e.Rows e.cy = .ok e.Rows[k] := by rw [hk]; exact index_ok e.Rows k hlt
  have hkn : e.cy.toNat = k := by omega
  constructor
  · obtain ⟨e1, hu, _, _, _, hcons, hcont⟩ := edit_then_updateRow L sx hp e k
      ((e.Rows[k]).insertChar e.cx c) hs hc hlt hh rfl rfl
    refine ⟨{ e1 with cx := e1.cx + 1, dirty := e1.dirty + 1 }, ?_, hcons, hcont⟩
    simp only [InsertChar, hne, if_false, pure, Except.pure, Bind.bind, Except.bind, hix, hkn,
      hu]
  · intro hcx
    have hr1 : ((e.Rows[k]).deleteChar (e.cx - 1)).idx = (e.Rows[k]).idx := by
      unfold Row.deleteChar; split <;> rfl
    have hr2 : ((e.Rows[k]).deleteChar (e.cx - 1)).hasUnclosedComment =
        (e.Rows[k]).hasUnclosedComment := by
      unfold Row.deleteChar; split <;> rfl
    obtain ⟨e1, hu, _, _, _, hcons, hcont⟩ := edit_then_updateRow L sx hp e k
      ((e.Rows[k]).deleteChar (e.cx - 1)) hs hc hlt hh hr1 hr2
    refine ⟨{ e1 with cx := e1.cx - 1, dirty := e1.dirty + 1 }, ?_, hcons, hcont⟩
    have hn2 : ¬ (e.cx = 0 ∧ e.cy = 0) := by omega
    simp only [DeleteChar, hne, hn2, if_false, pure, Except.pure, Bind.bind, Except.bind, hix,
      hkn, hu, hcx, gt_iff_lt, if_true]

/-! ## Inserting rows, yank and paste -/

theorem highlightRow_ok (L : Lib) (e : Editor) (row : Row) (p : Nat)
    (hp : ∀ sx, e.syn = some sx → ProfileOK sx) (hi : row.idx = p) (hle : p ≤ e.Rows.length) :
    ∃ row1 changed, highlightRow L e row = .ok (row1, changed) := by
  unfold highlightRow
  cases hsyn : e.syn with
  | none => exact ⟨_, _, rfl⟩
  | some sx =>
    obtain ⟨hl, f, hscan⟩ := scanRender_ok L sx (hp sx hsyn) row.render (flagBefore e.Rows p)
    simp only [incomingFlag_ok e row p hi hle, hscan, Bind.bind, Except.bind, pure, Except.pure]
    exact ⟨_, _, rfl⟩

theorem updateHighlightNew_ok (L : Lib) (e : Editor) (row : Row) (p : Nat)
    (hp : ∀ sx, e.syn = some sx → ProfileOK sx) (hc : Contiguous e.Rows)
    (hi : row.idx = p) (hle : p ≤ e.Rows.length) :
    ∃ row1 e1, updateHighlightNew L e row = .ok (row1, e1) ∧ row1.text = row.text ∧
      e1 = { e with Rows := e1.Rows } ∧ e1.Rows.map Row.text = e.Rows.map Row.text := by
  obtain ⟨row1, changed, hh⟩ := highlightRow_ok L e row p hp hi hle
  have ht := (highlightRow_eq L e row row1 changed hh).1
  have hi1 : row1.idx = p := by
    have := congrArg (fun t => t.1) ht
    simp only [Row.text] at this
    omega
  unfold updateHighlightNew
  simp only [hh, Bind.bind, Except.bind, hi1]
  by_cases hcond : changed = true ∧ (p : Int) + 1 < e.Rows.length
  · have h0 : (0 : Int) ≤ (p : Int) + 1 := by omega
    have hn : ((p : Int) + 1).toNat = p + 1 := by omega
    rw [if_pos hcond, if_pos h0, hn]
    obtain ⟨e1, h1⟩ := updateHighlightAt_ok L e.syn hp (e.Rows.length + 1) e (p + 1) rfl hc
      (by omega) (by omega)
    obtain ⟨hf1, hf2, _, _⟩ := updateHighlightAt_frame L _ e e1 (p + 1) hc h1
    unfold updateHighlight
    rw [h1]
    exact ⟨row1, e1, rfl, ht, hf1, hf2⟩
  · rw [if_neg hcond]
    exact ⟨row1, e, rfl, ht, rfl, rfl⟩

/-- `InsertRow` at an index `k ≤ len(rows)` returns when the render of the new text can
be computed and the indices are contiguous: the new row, with index `k` and the given
characters, stands at position `k`; the rows before it keep their text, the rows after
it keep their characters and render and have their index increased by one. -/
theorem InsertRow_ok (L : Lib) (e : Editor) (i : Int) (k : Nat) (chars : Str)
    (hi : i = (k : Int)) (hk : k ≤ e.Rows.length) (hp : ∀ sx, e.syn = some sx → ProfileOK sx)
    (ht : e.syn = none → '\t' ∉ chars) (hc : Contiguous e.Rows) :
    ∃ (e1 : Editor) (row : Row) (rows1 : List Row), InsertRow L e i chars = .ok e1 ∧ e1 = { e with Rows := e1.Rows } ∧
      e1.Rows = rows1.take k ++ row :: (rows1.drop k).map Row.incIdx ∧
      rows1.map Row.text = e.Rows.map Row.text ∧ row.idx = (k : Int) ∧ row.chars = chars := by
  subst hi
  have hrange : ¬ ((k : Int) < 0 ∨ (k : Int) > e.Rows.length) := by omega
  have hflag : prevFlag e (k : Int) = .ok (flagBefore e.Rows k) :=
    incomingFlag_ok e { Row.zero with idx := k } k rfl hk
  have hren : ∃ render, renderOf e.syn chars = .ok render := by
    cases hsyn : e.syn with
    | none => exact renderOf_ok none chars (Or.inr (ht hsyn))
    | some sx => exact renderOf_ok (some sx) chars (Or.inl ⟨sx, rfl, (hp sx hsyn).2.2.2⟩)
  obtain ⟨render, hren⟩ := hren
  obtain ⟨row1, e1, hnew, htext, hf1, hf2⟩ := updateHighlightNew_ok L e
    { idx := k, chars := chars, render := render, hl := [], hasUnclosedComment := flagBefore e.Rows k } k
    hp hc rfl hk
  refine ⟨{ e1 with Rows := e1.Rows.take k ++ row1 :: (e1.Rows.drop k).map Row.incIdx },
    row1, e1.Rows, ?_, ?_, rfl, hf2, ?_, ?_⟩
  · simp only [InsertRow, hrange, if_false, hflag, updateRowNew, hren, hnew, Bind.bind,
      Except.bind, pure, Except.pure, Int.toNat_ofNat]
  · rw [hf1]
  · have := congrArg (fun t => t.1) htext
    simpa [Row.text] using this
  · have := congrArg (fun t => t.2.1) htext
    simpa [Row.text] using this

theorem map_chars_of_text (rows rows1 : List Row) (h : rows1.map Row.text = rows.map Row.text) :
    rows1.map Row.chars = rows.map Row.chars := by
  have h1 : ∀ rs : List Row, rs.map Row.chars = (rs.map Row.text).map fun t => t.2.1 := by
    intro rs; simp [Row.text, Function.comp_def]
  rw [h1 rows1, h1 rows, h]

theorem map_chars_incIdx (B : List Row) : (B.map Row.incIdx).map Row.chars = B.map Row.chars := by
  simp [Row.incIdx, Function.comp_def]

/-- C2, amended.  On a document with contiguous row indices, with no profile or a
built-in one, for every cursor row `cy` that is followed by another row,
`YankRow` followed by `PasteRow(cy+1)` returns and yields the original rows, their
characters and order unchanged, with exactly one new row at index `cy+1` whose
characters are the render string of row `cy` (its text with the tabs expanded).
Without a profile the render string must hold no tab, as every render string that
`updateRow` produced does. -/
theorem yank_paste_inserts_render (L : Lib) (e : Editor) (row : Row) (h0 : 0 ≤ e.cy)
    (h1 : e.cy + 1 < e.Rows.length) (hrow : e.Rows[e.cy.toNat]? = some row)
    (hs : ∀ sx, e.syn = some sx → sx ∈ HLDB) (ht : e.syn = none → '\t' ∉ row.render)
    (hc : Contiguous e.Rows) :
    ∃ e1 e2, YankRow e = .ok e1 ∧ PasteRow L e1 (e.cy + 1) = .ok e2 ∧
      e2.Rows.map Row.chars =
        (e.Rows.map Row.chars).take (e.cy.toNat + 1) ++
          row.render :: (e.Rows.map Row.chars).drop (e.cy.toNat + 1) := by
  obtain ⟨k, hk⟩ := Int.eq_ofNat_of_zero_le h0
  have hkn : e.cy.toNat = k := by omega
  rw [hkn] at hrow
  have hlt : k < e.Rows.length := by omega
  have hix : index e.Rows e.cy = .ok row := by
    rw [hk, index_ok e.Rows k hlt]
    rw [List.getElem?_eq_getElem hlt] at hrow
    exact congrArg Except.ok (Option.some.inj hrow)
  have hk1 : e.cy + 1 = ((k + 1 : Nat) : Int) := by omega
  obtain ⟨after, hafter, _⟩ := index_ok_int e.Rows (e.cy + 1) (by omega) h1
  obtain ⟨e2, rowN, rows1, hins, hfr, hrows, htext, _, hchars⟩ := InsertRow_ok L
    { e with dirty := e.dirty + 1 + 1, yankRegister := row.render,
             undoPath := e.undoPath ++ [⟨.Paste, [Row.zero], e.cy + 1, e.cy + 1⟩] }
    (e.cy + 1) (k + 1) row.render hk1 (by simpa using hlt) (fun sx h => HLDB_ok sx (hs sx h)) ht hc
  refine ⟨{ e with dirty := e.dirty + 1, yankRegister := row.render },
    { e2 with yankRegister := [] }, ?_, ?_, ?_⟩
  · simp only [YankRow, hix, Bind.bind, Except.bind, pure, Except.pure]
  · simp only [PasteRow, hafter, Bind.bind, Except.bind, pure, Except.pure]
    rw [hins]
  · simp only [hrows, List.map_append, List.map_cons, map_chars_incIdx, hchars, hkn,
      List.map_take, List.map_drop, map_chars_of_text _ _ htext]

/-! ## Boolean checks of the predicates -/

theorem forall_getElem?_iff_all {α : Type} (rows : List α) (P : α → Bool) :
    (∀ (i : Nat) (r : α), rows[i]? = some r → P r = true) ↔ rows.all P = true := by
  rw [List.all_eq_true]
  constructor
  · intro h r hr
    obtain ⟨i, hi⟩ := List.mem_iff_getElem?.mp hr
    exact h i r hi
  · intro h i r hr
    exact h r (List.getElem?_mem hr)

theorem scannedFrom_iff (L : Lib) (sx : EditorSyntax) :
    ∀ (rows : List Row) (f : Bool), scannedFrom L sx f rows = true ↔
      ∀ (i : Nat) (r : Row), rows[i]? = some r →
        scanRender L sx r.render (if i = 0 then f else flagBefore rows i) =
          .ok (r.hl, r.hasUnclosedComment) := by
  intro rows
  induction rows with
  | nil => intro f; simp [scannedFrom]
  | cons r0 rest ih =>
    intro f
    simp only [scannedFrom, Bool.and_eq_true, decide_eq_true_eq, ih]
    constructor
    · rintro ⟨h0, hrest⟩ i r hr
      cases i with
      | zero =>
        simp only [List.getElem?_cons_zero, Option.some.injEq] at hr
        subst hr
        simpa using h0
      | succ i =>
        simp only [List.getElem?_cons_succ] at hr
        have := hrest i r hr
        simp only [Nat.add_one_ne_zero, if_false]
        cases i with
        | zero => simpa [flagBefore] using this
        | succ i => simpa [flagBefore] using this
    · intro h
      refine ⟨by simpa using h 0 r0 (by simp), ?_⟩
      intro i r hr
      have := h (i + 1) r (by simpa using hr)
      simp only [Nat.add_one_ne_zero, if_false] at this
      cases i with
      | zero => simpa [flagBefore] using this
      | succ i => simpa [flagBefore] using this

theorem highlightConsistent_iff_check (L : Lib) (sx : EditorSyntax) (rows : List Row) :
    HighlightConsistent L sx rows ↔ scannedFrom L sx false rows = true := by
  rw [scannedFrom_iff]
  unfold HighlightConsistent RowScanned
  constructor
  · intro h i r hr
    have := h i r hr
    by_cases hi : i = 0
    · subst hi; simpa [flagBefore] using this
    · simpa [hi] using this
  · intro h i r hr
    have := h i r hr
    by_cases hi : i = 0
    · subst hi; simpa [flagBefore] using this
    · simpa [hi] using this

theorem consistent_iff_check (L : Lib) (e : Editor) :
    Consistent L e ↔ consistentCheck L e = true := by
  unfold Consistent consistentCheck
  rw [Bool.and_eq_true]
  apply and_congr
  · rw [← forall_getElem?_iff_all]
    simp
  · cases e.syn with
    | none =>
      simp only
      rw [← forall_getElem?_iff_all]
      simp
    | some sx => exact highlightConsistent_iff_check L sx e.Rows

/-! ## Evaluations on concrete states -/

/-- C2, as stated, fails.  Go profile, rows `["\t", "x"]`, cursor on row 0: `yy` then
`p` returns, and the new row at index 1 holds four spaces (the render of row 0), not
the tab of row 0. -/
theorem yank_paste_copies_render_not_content :
    (do
      let e1 ← YankRow exTabTwo
      let e2 ← PasteRow stdLib e1 (exTabTwo.cy + 1)
      pure (e2.Rows.map Row.chars)) =
      Except.ok ["\t".toList, "    ".toList, "x".toList] ∧
    "    ".toList ≠ "\t".toList := by
  decide

/-- An instance: the Go document `["\t", "x"]` with the cursor on row 0. -/
theorem yank_paste_inserts_render_witness :
    ∃ e1 e2, YankRow exTabTwo = .ok e1 ∧ PasteRow stdLib e1 (exTabTwo.cy + 1) = .ok e2 ∧
      e2.Rows.map Row.chars =
        (exTabTwo.Rows.map Row.chars).take (exTabTwo.cy.toNat + 1) ++
          (mkRow 0 "\t" "    " [0, 0, 0, 0] false).render ::
            (exTabTwo.Rows.map Row.chars).drop (exTabTwo.cy.toNat + 1) :=
  yank_paste_inserts_render stdLib exTabTwo (mkRow 0 "\t" "    " [0, 0, 0, 0] false)
    (by decide) (by decide) (by decide)
    (fun sx h => by cases h; decide) (fun h => by cases h)
    (contiguous_of_check _ (by decide))

/-- C3 at its failing input.  With no profile selected and the rows `["\t", "a"]`,
Backspace at column 0 of row 1 (`cx = 0`, `cy = 1 < len(rows)`) does not merge the
rows: `updateRow` on the merged row reads the tab stop through the nil profile. -/
theorem deleteChar_merge_nil_profile (L : Lib) :
    exTabNil.cx = 0 ∧ 1 ≤ exTabNil.cy ∧ exTabNil.cy < exTabNil.Rows.length ∧
    DeleteChar L exTabNil = .error .nilDereference :=
  ⟨rfl, by decide, by decide, rfl⟩

/-- An instance: the Go document `["a/", "cd", "*/"]`; typing `*` after the `/` of row 0
opens a comment that runs to row 2, and deleting the `/` changes no comment state. -/
theorem edit_keeps_highlight_consistent_witness :
    (∃ e1, InsertChar stdLib exSlash '*' = .ok e1 ∧
      HighlightConsistent stdLib syntaxGo e1.Rows ∧ Contiguous e1.Rows) ∧
    (∃ e1, DeleteChar stdLib exSlash = .ok e1 ∧
      HighlightConsistent stdLib syntaxGo e1.Rows ∧ Contiguous e1.Rows) :=
  ⟨(edit_keeps_highlight_consistent stdLib exSlash syntaxGo '*' rfl (by decide)
      (contiguous_of_check _ (by decide))
      ((highlightConsistent_iff_check _ _ _).mpr (by decide)) (by decide) (by decide)).1,
   (edit_keeps_highlight_consistent stdLib exSlash syntaxGo '*' rfl (by decide)
      (contiguous_of_check _ (by decide))
      ((highlightConsistent_iff_check _ _ _).mpr (by decide)) (by decide) (by decide)).2
      (by decide)⟩

/-- An instance: row 0 of the Go document `["/*", "x"]`. -/
theorem updateHighlight_idempotent_witness :
    ∃ e1, updateHighlight stdLib exComment 0 = .ok e1 ∧ updateHighlight stdLib e1 0 = .ok e1 :=
  (updateHighlight_idempotent stdLib exComment 0 (contiguous_of_check _ (by decide))).2
    (by decide) (fun sx h => by cases h; decide)

/-- C7 at its failing input.  The state after `dd` on `"b"` of `["a","b","c"]` has
contiguous indices; `Undo` of the cut returns rows whose indices are `0, 1, 1`: the
row `"c"` at position 2 keeps the index 1 that the cut gave it. -/
theorem undo_cut_leaves_stale_index :
    CutRow exAbc = .ok exCut ∧ Contiguous exCut.Rows ∧
    (Undo exCut).map (fun e => e.Rows.map fun r => (r.chars, r.idx)) =
      .ok [("a".toList, 0), ("b".toList, 1), ("c".toList, 1)] ∧
    ∀ e2, Undo exCut = .ok e2 → ¬ Contiguous e2.Rows := by
  refine ⟨by decide, contiguous_of_check _ (by decide), by decide, ?_⟩
  intro e2 h hc
  have h1 : Undo exCut = .ok { exCut with
      Rows := [plainRow 0 "a", plainRow 1 "b", plainRow 1 "c"], undoPath := [] } := by decide
  rw [h1] at h
  cases h
  exact absurd (hc 2 (plainRow 1 "c") rfl) (by decide)

/-- C8 at its failing input.  Go profile, rows `["/*", "x"]`, row-consistent (row 1 is
inside the comment); `dd` on row 0 leaves the row `"x"` with the comment class and
the unclosed-comment flag, which a recomputation from the top does not give it. -/
theorem cutRow_breaks_row_consistency :
    Consistent stdLib exComment ∧
    (CutRow exComment).map (fun e => e.Rows.map fun r => (r.chars, r.hl, r.hasUnclosedComment))
      = .ok [("x".toList, [HlMlComment], true)] ∧
    scanRender stdLib syntaxGo "x".toList false = .ok ([HlNormal], false) ∧
    ∀ e1, CutRow exComment = .ok e1 → ¬ Consistent stdLib e1 := by
  refine ⟨(consistent_iff_check _ _).mpr (by decide), by decide, by decide, ?_⟩
  intro e1 h hc
  have h1 : CutRow exComment = .ok { exComment with
      dirty := 1
      yankRegister := "/*".toList
      undoPath := [⟨.Cut, [mkRow 0 "/*" "/*" [2, 2] true], 0, 0⟩]
      Rows := [mkRow 0 "x" "x" [2] true] } := by decide
  rw [h1] at h
  cases h
  exact absurd ((consistent_iff_check _ _).mp hc) (by decide)

/-- C9 at its failing input.  Go profile, the single row `"a\tb"` with its render
`"a    b"`: the query `"b"` occurs in the render (at byte 5), and the search step
from no last match does not return: `rowRxToCx` reaches its `panic("unreachable")`,
because the display columns it adds up for `a`, tab, `b` are 1, 4, 5. -/
theorem search_step_reaches_unreachable :
    Consistent stdLib exTabGo ∧
    strIndex "b".toList "a    b".toList = 5 ∧
    searchStep stdLib "b".toList exTabGo ⟨-1, 1, -1, []⟩ = .error .unreachable :=
  ⟨(consistent_iff_check _ _).mpr (by decide), by decide, by decide⟩

/-! ## The quit commands -/

theorem SetMode_normal (e : Editor) :
    SetMode e NormalMode = .ok { e with mode := NormalMode, statusmsg := NormalMode.StatusMessage } := by
  have h : NormalMode ≠ InsertMode := by decide
  simp [SetMode, h, SetStatusMessage, pure, Except.pure]

theorem ExecuteCommand_q_dirty (L : Lib) (save : SaveFn) (e : Editor)
    (hc : e.command = "q".toList) (hd : 0 < e.dirty) :
    ExecuteCommand L save e = .ok ({ e with
      mode := NormalMode
      command := []
      statusmsg := "ERROR!!! File has unsaved changes".toList }, none) := by
  have hs : e.command.splitOn ' ' = ["q".toList] := by rw [hc]; decide
  have hw : ("q".toList = "w".toList) = False := by decide
  simp only [ExecuteCommand, hs, SetMode_normal, index, Bind.bind, Except.bind]
  simp [hw, hd, pure, Except.pure, SetStatusMessage]

theorem ExecuteCommand_q_clean (L : Lib) (save : SaveFn) (e : Editor)
    (hc : e.command = "q".toList) (hd : e.dirty ≤ 0) :
    ExecuteCommand L save e = .ok ({ e with mode := NormalMode, statusmsg := NormalMode.StatusMessage }, some .ErrQuitEditor) := by
  have hs : e.command.splitOn ' ' = ["q".toList] := by rw [hc]; decide
  have hw : ("q".toList = "w".toList) = False := by decide
  have hd2 : ¬ (0 < e.dirty) := by omega
  simp only [ExecuteCommand, hs, SetMode_normal, index, Bind.bind, Except.bind]
  simp [hw, hd2, pure, Except.pure]

theorem ExecuteCommand_q_bang (L : Lib) (save : SaveFn) (e : Editor)
    (hc : e.command = "q!".toList) :
    ExecuteCommand L save e = .ok ({ e with mode := NormalMode, statusmsg := NormalMode.StatusMessage }, some .ErrQuitEditor) := by
  have hs : e.command.splitOn ' ' = ["q!".toList] := by rw [hc]; decide
  have hw : ("q!".toList = "w".toList) = False := by decide
  have hq : ("q!".toList = "q".toList) = False := by decide
  simp only [ExecuteCommand, hs, SetMode_normal, index, Bind.bind, Except.bind]
  simp [hw, hq, pure, Except.pure]

/-- C10.  For every editor state: the command `q` with `dirty > 0` returns no error
(no quit signal), leaves the rows unchanged, leaves the mode Normal and sets the
status message; the command `q` with `dirty ≤ 0`, in particular `dirty = 0`, returns
the quit signal; the command `q!` returns the quit signal whatever `dirty` is. -/
theorem quit_command_respects_dirty (L : Lib) (save : SaveFn) (e : Editor) :
    (e.command = "q".toList → 0 < e.dirty →
      ∃ e1, ExecuteCommand L save e = .ok (e1, none) ∧ e1.Rows = e.Rows ∧
        e1.mode = NormalMode ∧ e1.statusmsg = "ERROR!!! File has unsaved changes".toList) ∧
    (e.command = "q".toList → e.dirty ≤ 0 →
      ∃ e1, ExecuteCommand L save e = .ok (e1, some .ErrQuitEditor)) ∧
    (e.command = "q!".toList →
      ∃ e1, ExecuteCommand L save e = .ok (e1, some .ErrQuitEditor)) :=
  ⟨fun hc hd => ⟨_, ExecuteCommand_q_dirty L save e hc hd, rfl, rfl, rfl⟩,
   fun hc hd => ⟨_, ExecuteCommand_q_clean L save e hc hd⟩,
   fun hc => ⟨_, ExecuteCommand_q_bang L save e hc⟩⟩

/-- Instances: `q` with unsaved changes, `q` without, and `q!` with unsaved changes. -/
theorem quit_command_respects_dirty_witness :
    (∃ e1, ExecuteCommand stdLib saveNothing exQuitDirty = .ok (e1, none) ∧
      e1.Rows = exQuitDirty.Rows ∧ e1.mode = NormalMode ∧
      e1.statusmsg = "ERROR!!! File has unsaved changes".toList) ∧
    (∃ e1, ExecuteCommand stdLib saveNothing exQuitClean = .ok (e1, some .ErrQuitEditor)) ∧
    (∃ e1, ExecuteCommand stdLib saveNothing exQuitBang = .ok (e1, some .ErrQuitEditor)) :=
  ⟨(quit_command_respects_dirty stdLib saveNothing exQuitDirty).1 rfl (by decide),
   (quit_command_respects_dirty stdLib saveNothing exQuitClean).2.1 rfl (by decide),
   (quit_command_respects_dirty stdLib saveNothing exQuitBang).2.2 rfl⟩

/-! ## Backspace at column 0 -/

theorem map_key_of_text (rows rows1 : List Row) (h : rows1.map Row.text = rows.map Row.text) :
    rows1.map Row.key = rows.map Row.key := by
  have h1 : ∀ rs : List Row, rs.map Row.key = (rs.map Row.text).map fun t => (t.1, t.2.1) := by
    intro rs; simp [Row.text, Row.key, Function.comp_def]
  rw [h1 rows1, h1 rows, h]

theorem map_key_set (rows : List Row) (p : Nat) (row row1 : Row)
    (hrow : rows[p]? = some row) (ht : row1.key = row.key) :
    (rows.set p row1).map Row.key = rows.map Row.key := by
  apply List.ext_getElem?
  intro i
  by_cases hip : p = i
  · subst hip
    have hlt := getElem?_lt hrow
    simp only [List.map_set, ht]
    rw [List.getElem?_set_self (by simpa using hlt)]
    simp [List.getElem?_map, hrow]
  · simp [List.getElem?_map, List.getElem?_set_ne hip]

/-- `updateRow` on a row of the store returns when the render can be computed and the
indices are contiguous; it changes the rows only, and no row's index or characters. -/
theorem updateRow_ok (L : Lib) (e : Editor) (p : Nat) (row : Row)
    (hrow : e.Rows[p]? = some row) (hp : ∀ sx, e.syn = some sx → ProfileOK sx)
    (ht : e.syn = none → '\t' ∉ row.chars) (hc : Contiguous e.Rows) :
    ∃ e1, updateRow L e p = .ok e1 ∧ e1 = { e with Rows := e1.Rows } ∧
      e1.Rows.map Row.key = e.Rows.map Row.key := by
  have hlt := getElem?_lt hrow
  have hix : index e.Rows (p : Int) = .ok row := by
    rw [index_ok e.Rows p hlt]
    rw [List.getElem?_eq_getElem hlt] at hrow
    exact congrArg Except.ok (Option.some.inj hrow)
  have hren : ∃ render, renderOf e.syn row.chars = .ok render := by
    cases hsyn : e.syn with
    | none => exact renderOf_ok none row.chars (Or.inr (ht hsyn))
    | some sx => exact renderOf_ok (some sx) row.chars (Or.inl ⟨sx, rfl, (hp sx hsyn).2.2.2⟩)
  obtain ⟨render, hren⟩ := hren
  obtain ⟨rowR, hR⟩ : ∃ r : Row, r = { row with render := render } := ⟨_, rfl⟩
  obtain ⟨e2, hE⟩ : ∃ e2 : Editor, e2 = { e with Rows := e.Rows.set p rowR } := ⟨_, rfl⟩
  have hc2 : Contiguous e2.Rows := by
    rw [hE]; exact contiguous_set e.Rows p row rowR hc hrow (by rw [hR])
  have hlen2 : e2.Rows.length = e.Rows.length := by rw [hE]; simp
  obtain ⟨e1, h1⟩ := updateHighlightAt_ok L e2.syn (fun sx h => hp sx (by rw [hE] at h; exact h))
    (e2.Rows.length + 1) e2 p rfl hc2 (by omega) (by omega)
  obtain ⟨hf1, hf2, _, _⟩ := updateHighlightAt_frame L _ e2 e1 p hc2 h1
  refine ⟨e1, ?_, by rw [hf1, hE], ?_⟩
  · simp only [updateRow, hix, hren, Bind.bind, Except.bind]
    rw [← hR, ← hE]
    exact h1
  · rw [map_key_of_text _ _ hf2, hE]
    exact map_key_set e.Rows p row rowR hrow (by rw [hR]; rfl)

theorem map_chars_of_key (rows rows1 : List Row) (h : rows1.map Row.key = rows.map Row.key) :
    rows1.map Row.chars = rows.map Row.chars := by
  have h1 : ∀ rs : List Row, rs.map Row.chars = (rs.map Row.key).map fun t => t.2 := by
    intro rs; simp [Row.key, Function.comp_def]
  rw [h1 rows1, h1 rows, h]

theorem map_chars_decIdx (B : List Row) : (B.map Row.decIdx).map Row.chars = B.map Row.chars := by
  simp [Row.decIdx, Function.comp_def]

theorem map_chars_set (rows : List Row) (p : Nat) (row1 : Row) :
    (rows.set p row1).map Row.chars = (rows.map Row.chars).set p row1.chars := by
  simp [List.map_set]

theorem take_drop_set {α : Type} (x : α) : ∀ (xs : List α) (k : Nat), k < xs.length →
    (xs.set k x).take (k + 1) ++ (xs.set k x).drop (k + 1 + 1) =
      xs.take k ++ x :: xs.drop (k + 2) := by
  intro xs
  induction xs with
  | nil => intro k h; simp at h
  | cons y ys ih =>
    intro k h
    cases k with
    | zero => simp
    | succ k =>
      have := ih k (by simpa using h)
      simpa using this

/-- Backspace at column 0 of a row `cy ≥ 1`, where `updateRow` can compute the render
of the merged row (a built-in profile is selected, or the two rows hold no tab) and
the indices are contiguous: rows `cy-1` and `cy` become one row holding the
characters of both, the other rows keep their characters and order, and the cursor
goes to the old end of row `cy-1`. -/
theorem DeleteChar_merge (L : Lib) (e : Editor) (k : Nat) (prev row : Row)
    (hcx : e.cx = 0) (hcy : e.cy = (k : Int) + 1)
    (hprev : e.Rows[k]? = some prev) (hrow : e.Rows[k + 1]? = some row)
    (hs : ∀ sx, e.syn = some sx → sx ∈ HLDB)
    (ht : e.syn = none → '\t' ∉ prev.chars ++ row.chars) (hc : Contiguous e.Rows) :
    ∃ e1, DeleteChar L e = .ok e1 ∧
      e1.Rows.map Row.chars =
        (e.Rows.map Row.chars).take k ++
          (prev.chars ++ row.chars) :: (e.Rows.map Row.chars).drop (k + 2) ∧
      e1.cx = prev.chars.length ∧ e1.cy = k := by
  have hlt1 := getElem?_lt hrow
  have hlt0 := getElem?_lt hprev
  have hix : index e.Rows e.cy = .ok row := by
    have : e.cy = ((k + 1 : Nat) : Int) := by omega
    rw [this, index_ok e.Rows (k + 1) hlt1]
    rw [List.getElem?_eq_getElem hlt1] at hrow
    exact congrArg Except.ok (Option.some.inj hrow)
  have hixp : index e.Rows (e.cy - 1) = .ok prev := by
    have : e.cy - 1 = (k : Int) := by omega
    rw [this, index_ok e.Rows k hlt0]
    rw [List.getElem?_eq_getElem hlt0] at hprev
    exact congrArg Except.ok (Option.some.inj hprev)
  have hkn : (e.cy - 1).toNat = k := by omega
  obtain ⟨e1, hE⟩ : ∃ e1 : Editor, e1 = { e with
      cx := prev.chars.length
      Rows := e.Rows.set k (prev.appendChars row.chars) } := ⟨_, rfl⟩
  have hrow1 : e1.Rows[k]? = some (prev.appendChars row.chars) := by
    rw [hE]; exact List.getElem?_set_self hlt0
  obtain ⟨e2, hu, hf, hkeys⟩ := updateRow_ok L e1 k (prev.appendChars row.chars) hrow1
    (fun sx h => HLDB_ok sx (hs sx (by rw [hE] at h; exact h)))
    (fun h => ht (by rw [hE] at h; exact h))
    (by rw [hE]; exact contiguous_set e.Rows k prev _ hc hprev rfl)
  have hlen2 : e2.Rows.length = e.Rows.length := by
    have := congrArg List.length hkeys
    simp only [List.length_map] at this
    rw [this, hE]
    simp
  have hcy2 : e2.cy = e.cy := by rw [hf, hE]
  have hchars2 : e2.Rows.map Row.chars = (e.Rows.map Row.chars).set k (prev.chars ++ row.chars) := by
    rw [map_chars_of_key _ _ hkeys, hE]
    exact map_chars_set e.Rows k _
  have hr : ¬ (e2.cy < 0 ∨ e2.cy ≥ e2.Rows.length) := by omega
  refine ⟨{ DeleteRow e2 e2.cy with cy := (DeleteRow e2 e2.cy).cy - 1 }, ?_, ?_, ?_, ?_⟩
  · have hn1 : ¬ e.cy = e.Rows.length := by omega
    have hn2 : ¬ (e.cx = 0 ∧ e.cy = 0) := by omega
    have hn3 : ¬ e.cx > 0 := by omega
    simp only [DeleteChar, hn1, hn2, hn3, if_false, hix, hixp, Bind.bind, Except.bind, pure,
      Except.pure, hkn]
    rw [← hE]
    rw [hu]
  · have hcn : e2.cy.toNat = k + 1 := by omega
    simp only [DeleteRow, hr, if_false, List.map_append, map_chars_decIdx, hcn]
    simp only [List.map_take, List.map_drop, hchars2]
    exact take_drop_set _ _ k (by simpa using hlt0)
  · simp only [DeleteRow, hr, if_false]
    rw [hf, hE]
  · simp only [DeleteRow, hr, if_false]
    omega

/-! ## The order of the search -/

/-- When the search loop returns, it stopped at the first visited row whose render
contains the query and put the cursor row and the last-match index there; when no
visited row contains the query it changed nothing. -/
theorem searchLoop_first (L : Lib) (query : Str) (d : Int) :
    ∀ (n : Nat) (current : Int) (e e1 : Editor) (st st1 : FindState),
      searchLoop L query d n current e st = .ok (e1, st1) →
      match (scanOrder e d n current).find? (rowMatches e query) with
      | none => e1 = e ∧ st1 = st
      | some c => e1.cy = c ∧ st1.lastMatchRowIndex = c ∧ e1.rowOffset = e.Rows.length := by
  intro n
  induction n with
  | zero =>
    intro current e e1 st st1 h
    simp only [searchLoop, Except.ok.injEq, Prod.mk.injEq] at h
    simp [scanOrder, h.1, h.2]
  | succ n ih =>
    intro current e e1 st st1 h
    simp only [searchLoop, Bind.bind, Except.bind] at h
    cases hrow : index e.Rows (nextRow e d current) with
    | error f => simp [hrow] at h
    | ok row =>
      simp only [hrow] at h
      by_cases hm : strIndex query row.render ≠ -1
      · rw [if_pos hm] at h
        have hmatch : rowMatches e query (nextRow e d current) = true := by
          simp [rowMatches, hrow, hm]
        simp only [scanOrder, List.find?_cons, hmatch]
        cases hcx : rowRxToCx L e row (strIndex query row.render) with
        | error f => simp [hcx] at h
        | ok cx =>
          simp only [hcx] at h
          cases hmk : markN query.length (strIndex query row.render).toNat row.hl HlMatch with
          | error f => simp [hmk] at h
          | ok res =>
            simp only [hmk, pure, Except.pure, Except.ok.injEq, Prod.mk.injEq] at h
            obtain ⟨h1, h2⟩ := h
            subst h1 h2
            exact ⟨rfl, rfl, rfl⟩
      · rw [if_neg hm] at h
        have hmatch : rowMatches e query (nextRow e d current) = false := by
          simp only [rowMatches, hrow]
          simpa using hm
        simp only [scanOrder, List.find?_cons, hmatch]
        exact ih _ e e1 st st1 h

theorem nextRow_range (e : Editor) (d current : Int) (hne : 0 < e.Rows.length)
    (hd : d = 1 ∨ d = -1) (h1 : -1 ≤ current) (h2 : current < e.Rows.length)
    (h3 : current = -1 → d = 1) :
    0 ≤ nextRow e d current ∧ nextRow e d current < e.Rows.length := by
  unfold nextRow
  simp only
  split
  · omega
  · split
    · omega
    · rcases hd with rfl | rfl <;> omega

/-- When no row contains the query, the search loop returns and changes nothing. -/
theorem searchLoop_none (L : Lib) (query : Str) (d : Int) (e : Editor) (st : FindState)
    (hne : 0 < e.Rows.length) (hd : d = 1 ∨ d = -1)
    (hno : ∀ r ∈ e.Rows, strIndex query r.render = -1) :
    ∀ (n : Nat) (current : Int), -1 ≤ current → current < e.Rows.length →
      (current = -1 → d = 1) → searchLoop L query d n current e st = .ok (e, st) := by
  intro n
  induction n with
  | zero => intro current _ _ _; rfl
  | succ n ih =>
    intro current h1 h2 h3
    obtain ⟨hr0, hr1⟩ := nextRow_range e d current hne hd h1 h2 h3
    obtain ⟨row, hrow, hget⟩ := index_ok_int e.Rows (nextRow e d current) hr0 hr1
    have hm : ¬ strIndex query row.render ≠ -1 := by
      have := hno row (List.getElem?_mem hget)
      simp [this]
    simp only [searchLoop, hrow, Bind.bind, Except.bind]
    rw [if_neg hm]
    exact ih _ (by omega) hr1 (by omega)

/-- The search step on a non-empty document, from a last match `m` in
`[-1, len(rows)-1]` and a direction `+1` or `-1`: when no row's render contains the
query the step returns and leaves the editor, its cursor included, unchanged; when
the step returns after a match, the cursor row is the first row containing the query
in the order the loop visits the rows. -/
theorem searchStep_order (L : Lib) (query : Str) (e : Editor) (st : FindState)
    (hne : 0 < e.Rows.length) (hm1 : -1 ≤ st.lastMatchRowIndex)
    (hm2 : st.lastMatchRowIndex < e.Rows.length)
    (hd : st.searchDirection = 1 ∨ st.searchDirection = -1) :
    ((∀ r ∈ e.Rows, strIndex query r.render = -1) →
      ∃ st1, searchStep L query e st = .ok (e, st1)) ∧
    (∀ e1 st1, searchStep L query e st = .ok (e1, st1) →
      ∀ c, (scanOrder e (if st.lastMatchRowIndex = -1 then 1 else st.searchDirection)
          e.Rows.length st.lastMatchRowIndex).find? (rowMatches e query) = some c →
        e1.cy = c) := by
  constructor
  · intro hno
    refine ⟨{ st with searchDirection :=
      if st.lastMatchRowIndex = -1 then 1 else st.searchDirection }, ?_⟩
    unfold searchStep
    simp only
    apply searchLoop_none L query _ e _ hne _ hno _ _ hm1 hm2
    · intro h; simp [h]
    · split
      · exact Or.inl rfl
      · exact hd
  · intro e1 st1 h c hc
    unfold searchStep at h
    simp only at h
    have := searchLoop_first L query _ _ _ e e1 _ st1 h
    rw [hc] at this
    exact this.1

/-! ## Renumbering -/

theorem contiguous_remove (rows : List Row) (k : Nat) (hc : Contiguous rows) :
    Contiguous (rows.take k ++ (rows.drop (k + 1)).map Row.decIdx) := by
  intro i r h
  by_cases hk : k ≤ rows.length
  · by_cases hi : i < k
    · rw [List.getElem?_append_left (by simp; omega)] at h
      rw [List.getElem?_take_of_lt hi] at h
      exact hc i r h
    · rw [List.getElem?_append_right (by simp; omega)] at h
      simp only [List.length_take, List.getElem?_map, List.getElem?_drop] at h
      have hmin : min k rows.length = k := by omega
      rw [hmin] at h
      cases hx : rows[k + 1 + (i - k)]? with
      | none => simp [hx] at h
      | some r0 =>
        simp only [hx, Option.map_some', Option.some.injEq] at h
        subst h
        have := hc _ r0 hx
        simp only [Row.decIdx]
        omega
  · have h1 : rows.take k = rows := List.take_of_length_le (by omega)
    have h2 : rows.drop (k + 1) = [] := List.drop_of_length_le (by omega)
    rw [h1, h2] at h
    simp only [List.map_nil, List.append_nil] at h
    exact hc i r h

theorem contiguous_insert (rows : List Row) (k : Nat) (row : Row) (hk : k ≤ rows.length)
    (hi : row.idx = k) (hc : Contiguous rows) :
    Contiguous (rows.take k ++ row :: (rows.drop k).map Row.incIdx) := by
  intro i r h
  by_cases hlt : i < k
  · rw [List.getElem?_append_left (by simp; omega)] at h
    rw [List.getElem?_take_of_lt hlt] at h
    exact hc i r h
  · rw [List.getElem?_append_right (by simp; omega)] at h
    simp only [List.length_take] at h
    have hmin : min k rows.length = k := by omega
    rw [hmin] at h
    by_cases heq : i = k
    · subst heq
      simp only [Nat.sub_self, List.getElem?_cons_zero, Option.some.injEq] at h
      subst h
      exact hi
    · obtain ⟨j, hj⟩ : ∃ j, i - k = j + 1 := ⟨i - k - 1, by omega⟩
      rw [hj] at h
      simp only [List.getElem?_cons_succ, List.getElem?_map, List.getElem?_drop] at h
      cases hx : rows[k + j]? with
      | none => simp [hx] at h
      | some r0 =>
        simp only [hx, Option.map_some', Option.some.injEq] at h
        subst h
        have := hc _ r0 hx
        simp only [Row.incIdx]
        omega

/-- The renumbering operations keep the index invariant: `DeleteRow` and `CutRow`
always, `InsertRow` whenever it returns under the conditions of `InsertRow_ok`. -/
theorem renumbering_keeps_contiguous (L : Lib) (e : Editor) (hc : Contiguous e.Rows) :
    (∀ i, Contiguous (DeleteRow e i).Rows) ∧
    (∀ e1, CutRow e = .ok e1 → Contiguous e1.Rows) ∧
    (∀ (k : Nat) (chars : Str), k ≤ e.Rows.length → (∀ sx, e.syn = some sx → ProfileOK sx) →
      (e.syn = none → '\t' ∉ chars) →
      ∃ e1, InsertRow L e k chars = .ok e1 ∧ Contiguous e1.Rows) := by
  refine ⟨?_, ?_, ?_⟩
  · intro i
    unfold DeleteRow
    split
    · exact hc
    · exact contiguous_remove e.Rows _ hc
  · intro e1 h
    unfold CutRow at h
    cases hx : index e.Rows e.cy with
    | error f => simp [hx, Bind.bind, Except.bind] at h
    | ok row =>
      simp only [hx, Bind.bind, Except.bind, pure, Except.pure, Except.ok.injEq] at h
      subst h
      exact contiguous_remove e.Rows _ hc
  · intro k chars hk hp ht
    obtain ⟨e1, row, rows1, h1, _, h3, h4, h5, _⟩ := InsertRow_ok L e k k chars rfl hk hp ht hc
    refine ⟨e1, h1, ?_⟩
    rw [h3]
    have hlen : rows1.length = e.Rows.length := by
      have := congrArg List.length h4
      simpa using this
    exact contiguous_insert rows1 k row (by omega) h5 (contiguous_of_text _ _ h4 hc)

/-! ## The snapshot of an Insert session -/

/-- `Undo` with an Edit node for the single index `i` on top of the stack puts the
row the node holds at position `i` and changes no other row. -/
theorem Undo_edit (e : Editor) (p : List UndoNode) (snap : Row) (i : Int) (k : Nat)
    (hi : i = (k : Int)) (hk : k < e.Rows.length)
    (hp : e.undoPath = p ++ [⟨.Edit, [snap], i, i⟩]) :
    Undo e = .ok { e with undoPath := p, Rows := e.Rows.set k snap } := by
  subst hi
  unfold Undo
  rw [hp]
  simp [undoEdit, index, hk, Bind.bind, Except.bind, pure, Except.pure]

/-- `Row.deleteChar` in memory, on a slice that starts its array: the runes after
position `i` move one place down inside the array.  The slice of the row shows the
content without the rune at `i`; a header of the old length on the same array (the
snapshot of `SetMode`) shows that new content followed by the old last rune. -/
theorem deleteChar_moves_shared_runes (grow : Nat → Nat) (arr : Str) (n i : Nat)
    (hn : n ≤ arr.length) (hi : i < n) :
    (Mem.deleteChar grow [arr] ⟨0, 0, n⟩ (i : Int)).2.runes
        (Mem.deleteChar grow [arr] ⟨0, 0, n⟩ (i : Int)).1 =
      arr.take i ++ (arr.drop (i + 1)).take (n - (i + 1)) ∧
    (⟨0, 0, n⟩ : RuneSlice).runes (Mem.deleteChar grow [arr] ⟨0, 0, n⟩ (i : Int)).1 =
      arr.take i ++ (arr.drop (i + 1)).take (n - (i + 1)) ++ (arr.drop (n - 1)).take 1 := by
  have hguard : ¬ ((i : Int) < 0 ∨ (i : Int) ≥ ((⟨0, 0, n⟩ : RuneSlice).len : Nat)) := by
    simp only [not_or, not_lt, ge_iff_le, not_le]
    constructor
    · omega
    · exact_mod_cast hi
  have hvs : ((arr.drop (i + 1)).take (n - (i + 1))).length = n - (i + 1) := by
    simp only [List.length_take, List.length_drop]
    omega
  have hfit : i + ((arr.drop (i + 1)).take (n - (i + 1))).length ≤ arr.length - 0 := by
    rw [hvs]; omega
  have hdel : Mem.deleteChar grow [arr] ⟨0, 0, n⟩ (i : Int) =
      ([arr.take i ++ (arr.drop (i + 1)).take (n - (i + 1)) ++ arr.drop (n - 1)],
        ⟨0, 0, n - 1⟩) := by
    unfold Mem.deleteChar
    rw [if_neg hguard]
    simp only [Int.toNat_ofNat, RuneSlice.take, RuneSlice.drop, RuneSlice.runes,
      RuneSlice.array, List.getD_cons_zero, Nat.zero_add, appendRunes, RuneSlice.cap]
    rw [if_pos hfit]
    simp only [writeRunes, List.getD_cons_zero, List.set_cons_zero, Nat.zero_add, hvs]
    have h1 : i + (n - (i + 1)) = n - 1 := by omega
    rw [h1]
  rw [hdel]
  simp only [RuneSlice.runes, RuneSlice.array, List.getD_cons_zero, List.drop_zero]
  have hlen : (arr.take i ++ (arr.drop (i + 1)).take (n - (i + 1))).length = n - 1 := by
    simp only [List.length_append, List.length_take, List.length_drop]
    omega
  constructor
  · rw [List.take_append_of_le_length (by omega), List.take_of_length_le (by omega)]
  · rw [List.take_append_eq_append_take, hlen, List.take_of_length_le (by omega)]
    have : n - (n - 1) = 1 := by omega
    rw [this]

/-- The rows after the edited one, in the value embedding (a snapshot that shares
nothing).  Go profile, rows `["a", "b"]`: typing `/*` at the start of row 0 in Insert
mode turns row 1 into comment text; `Undo` puts row 0 back and leaves row 1 with the
comment class and the flag, so the document is no longer row-consistent. -/
theorem undo_edit_keeps_propagated_highlight :
    Consistent stdLib exGoAB ∧
    (do
      let e1 ← SetMode exGoAB InsertMode
      let e2 ← InsertChar stdLib e1 '/'
      let e3 ← InsertChar stdLib e2 '*'
      let e4 ← Undo e3
      pure (e4.Rows.map fun r => (r.chars, r.hl, r.hasUnclosedComment),
            consistentCheck stdLib e4)) =
      Except.ok ([("a".toList, [HlNormal], false), ("b".toList, [HlMlComment], true)], false) :=
  ⟨(consistent_iff_check _ _).mpr (by decide), by decide⟩

/-- C11 at its failing input.  The row `"abc"`, cursor after the `a`: `SetMode(Insert)`
pushes a snapshot whose `chars` shows `"abc"`; Backspace (`DeleteChar` with `cx = 1`)
leaves the row `"bc"` and moves the runes inside the array that the snapshot shares,
so the snapshot now shows `"bcc"`; `Undo` puts the snapshot back: content `"bcc"`,
render `"abc"`.  With room for one more rune in the array, `InsertChar` overwrites
the snapshot in the same way (`"axb"` after typing `x`).  This holds for every
library and every growth policy of `append`. -/
theorem edit_undo_restores_overwritten_snapshot (L : Lib) (grow : Nat → Nat) :
    (do
      let m1 ← Mem.SetMode memAbc InsertMode
      let m2 ← Mem.DeleteChar L grow m1
      let m3 ← Mem.Undo m2
      pure (m1.value.undoPath.map (fun n => n.beforeRows.map Row.chars),
            m2.value.Rows.map Row.chars,
            m2.value.undoPath.map (fun n => n.beforeRows.map Row.chars),
            m3.value.Rows.map (fun r => (r.chars, r.render)))) =
      Except.ok ([["abc".toList]], ["bc".toList], [["bcc".toList]],
        [("bcc".toList, "abc".toList)]) ∧
    (do
      let m1 ← Mem.SetMode memAbcRoom InsertMode
      let m2 ← Mem.InsertChar L grow m1 'x'
      let m3 ← Mem.Undo m2
      pure (m2.value.Rows.map Row.chars, m3.value.Rows.map (fun r => (r.chars, r.render)))) =
      Except.ok (["axbc".toList], [("axb".toList, "abc".toList)]) :=
  ⟨rfl, rfl⟩

/-! ## Paste and its reversal -/

/-- A successful `updateHighlight` changes no field of the editor but `Rows`, and in
the rows nothing but the classes and the flags; no assumption on the indices. -/
theorem updateHighlightAt_text (L : Lib) :
    ∀ (fuel : Nat) (e e1 : Editor) (p : Nat), updateHighlightAt L fuel e p = .ok e1 →
      e1 = { e with Rows := e1.Rows } ∧ e1.Rows.map Row.text = e.Rows.map Row.text := by
  intro fuel
  induction fuel with
  | zero => intro e e1 p h; simp [updateHighlightAt] at h
  | succ fuel ih =>
    intro e e1 p h
    obtain ⟨_, row, row1, changed, _, hrow, hh⟩ := updateHighlightAt_inv L _ e e1 p h
    have hlt := getElem?_lt hrow
    have hx : index e.Rows (p : Int) = .ok row := by
      rw [index_ok e.Rows p hlt]
      rw [List.getElem?_eq_getElem hlt] at hrow
      exact congrArg Except.ok (Option.some.inj hrow)
    have ht := (highlightRow_eq L e row row1 changed hh).1
    simp only [updateHighlightAt, hx, hh, Bind.bind, Except.bind, pure, Except.pure] at h
    split at h
    · split at h
      · obtain ⟨h1, h2⟩ := ih _ e1 _ h
        refine ⟨?_, ?_⟩
        · rw [h1]
        · rw [h2]
          exact map_text_set e.Rows p row row1 hrow ht
      · cases h
    · cases h
      exact ⟨rfl, map_text_set e.Rows p row row1 hrow ht⟩

/-- A successful `updateHighlight` on a row outside the store keeps the text of that
row and of every row of the store. -/
theorem updateHighlightNew_text (L : Lib) (e e1 : Editor) (row row1 : Row)
    (h : updateHighlightNew L e row = .ok (row1, e1)) :
    row1.text = row.text ∧ e1 = { e with Rows := e1.Rows } ∧
      e1.Rows.map Row.text = e.Rows.map Row.text := by
  unfold updateHighlightNew at h
  cases hh : highlightRow L e row with
  | error f => simp [hh, Bind.bind, Except.bind] at h
  | ok res =>
    obtain ⟨r1, changed⟩ := res
    have ht := (highlightRow_eq L e row r1 changed hh).1
    simp only [hh, Bind.bind, Except.bind] at h
    by_cases hcond : changed = true ∧ r1.idx + 1 < e.Rows.length
    · rw [if_pos hcond] at h
      by_cases h0 : 0 ≤ r1.idx + 1
      · rw [if_pos h0] at h
        cases hu : updateHighlight L e (r1.idx + 1).toNat with
        | error f => simp [hu] at h
        | ok e2 =>
          simp only [hu, pure, Except.pure, Except.ok.injEq, Prod.mk.injEq] at h
          obtain ⟨hr, he⟩ := h
          subst hr he
          obtain ⟨h1, h2⟩ := updateHighlightAt_text L _ e e2 _ hu
          exact ⟨ht, h1, h2⟩
      · rw [if_neg h0] at h
        cases h
    · rw [if_neg hcond] at h
      simp only [pure, Except.pure, Except.ok.injEq, Prod.mk.injEq] at h
      obtain ⟨hr, he⟩ := h
      subst hr he
      exact ⟨ht, rfl, rfl⟩

/-- The shape of the result of `InsertRow` at an index `k ≤ len(rows)`, whenever it
returns; no assumption on the indices or on the profile. -/
theorem InsertRow_shape (L : Lib) (e e1 : Editor) (i : Int) (k : Nat) (chars : Str)
    (hi : i = (k : Int)) (hk : k ≤ e.Rows.length) (h : InsertRow L e i chars = .ok e1) :
    ∃ (row : Row) (rows1 : List Row), e1 = { e with Rows := e1.Rows } ∧
      e1.Rows = rows1.take k ++ row :: (rows1.drop k).map Row.incIdx ∧
      rows1.map Row.text = e.Rows.map Row.text ∧ row.idx = (k : Int) ∧ row.chars = chars := by
  subst hi
  have hrange : ¬ ((k : Int) < 0 ∨ (k : Int) > e.Rows.length) := by omega
  simp only [InsertRow, hrange, if_false] at h
  cases hflag : prevFlag e (k : Int) with
  | error f => simp [hflag, Bind.bind, Except.bind] at h
  | ok flag =>
    cases hren : renderOf e.syn chars with
    | error f => simp [hflag, updateRowNew, hren, Bind.bind, Except.bind] at h
    | ok render =>
      cases hnew : updateHighlightNew L e
          { idx := k, chars := chars, render := render, hl := [], hasUnclosedComment := flag } with
      | error f =>
        simp [hflag, updateRowNew, hren, hnew, Bind.bind, Except.bind] at h
      | ok res =>
        obtain ⟨row1, e2⟩ := res
        obtain ⟨ht, h1, h2⟩ := updateHighlightNew_text L e e2 _ row1 hnew
        have hidx : row1.idx = (k : Int) := by
          have := congrArg (fun t => t.1) ht
          simpa [Row.text] using this
        have hch : row1.chars = chars := by
          have := congrArg (fun t => t.2.1) ht
          simpa [Row.text] using this
        simp only [hflag, updateRowNew, hren, hnew, Bind.bind, Except.bind,
          pure, Except.pure, Int.toNat_ofNat, Except.ok.injEq] at h
        subst h
        refine ⟨row1, e2.Rows, ?_, rfl, h2, hidx, hch⟩
        rw [h1]

theorem map_render_of_text (rows rows1 : List Row) (h : rows1.map Row.text = rows.map Row.text) :
    rows1.map Row.render = rows.map Row.render := by
  have h1 : ∀ rs : List Row, rs.map Row.render = (rs.map Row.text).map fun t => t.2.2 := by
    intro rs; simp [Row.text, Function.comp_def]
  rw [h1 rows1, h1 rows, h]

theorem map_render_incIdx (B : List Row) :
    (B.map Row.incIdx).map Row.render = B.map Row.render := by
  simp [Row.incIdx, Function.comp_def]

theorem RemoveFromSlice_at_gap {α : Type} (A B : List α) (x : α) (k : Nat) (hk : A.length = k) :
    RemoveFromSlice (A ++ x :: B) (k : Int) = .ok (A ++ B) := by
  subst hk
  unfold RemoveFromSlice
  have h1 : (0 : Int) ≤ (A.length : Int) ∧ (A.length : Int) ≤ ((A ++ x :: B).length : Nat) := by
    simp; omega
  have h2 : ¬ (A ++ x :: B).length = 0 := by simp
  have h3 : ¬ (A.length : Int) = ((A ++ x :: B).length : Nat) := by simp; omega
  simp only [h1, and_self, if_true, h2, if_false, h3, Int.toNat_ofNat]
  congr 1
  rw [List.take_left, List.drop_append]
  rfl

/-- `Undo` with a Paste node for the single index `i` on top of the stack. -/
theorem Undo_paste (e : Editor) (p : List UndoNode) (b : List Row) (i : Int) (rows : List Row)
    (hp : e.undoPath = p ++ [⟨.Paste, b, i, i⟩]) (hr : RemoveFromSlice e.Rows i = .ok rows) :
    Undo e = .ok { e with undoPath := p, Rows := rows } := by
  unfold Undo
  rw [hp]
  simp [undoPaste, hr, Bind.bind, Except.bind, pure, Except.pure]

/-- `PasteRow(at)` followed by `Undo`, for `0 ≤ at < len(rows)`.  Whenever `PasteRow`
returns, `Undo` returns and the rows have their former contents and render strings,
in order, and the undo stack is the former one.  `PasteRow` returns on a document
with contiguous indices, under no profile or a built-in one, when the register holds
no tab while no profile is selected. -/
theorem pasteRow_undo_round_trip (L : Lib) (e : Editor) (i : Int) (h0 : 0 ≤ i)
    (h1 : i < e.Rows.length) :
    (∀ e1, PasteRow L e i = .ok e1 →
      ∃ e2, Undo e1 = .ok e2 ∧ e2.Rows.map Row.chars = e.Rows.map Row.chars ∧
        e2.Rows.map Row.render = e.Rows.map Row.render ∧ e2.undoPath = e.undoPath) ∧
    (Contiguous e.Rows → (∀ sx, e.syn = some sx → sx ∈ HLDB) →
      (e.syn = none → '\t' ∉ e.yankRegister) → ∃ e1, PasteRow L e i = .ok e1) := by
  obtain ⟨k, hk⟩ := Int.eq_ofNat_of_zero_le h0
  have hlt : k < e.Rows.length := by omega
  obtain ⟨after, hafter, _⟩ := index_ok_int e.Rows i h0 h1
  constructor
  · intro e1 h
    simp only [PasteRow, hafter, Bind.bind, Except.bind, pure, Except.pure] at h
    cases hins : InsertRow L { e with
        dirty := e.dirty + 1
        undoPath := e.undoPath ++ [⟨.Paste, [Row.zero], i, i⟩] } i e.yankRegister with
    | error f => simp [hins] at h
    | ok e2 =>
      simp only [hins] at h
      cases h
      obtain ⟨row, rows1, hfr, hrows, htext, _, _⟩ := InsertRow_shape L _ e2 i k e.yankRegister hk
        (by simpa using hlt.le) hins
      have hlen1 : rows1.length = e.Rows.length := by
        have := congrArg List.length htext
        simpa using this
      have hlenk : (rows1.take k).length = k := by simp; omega
      have hrem := RemoveFromSlice_at_gap (rows1.take k) ((rows1.drop k).map Row.incIdx) row k hlenk
      have hpath : e2.undoPath = e.undoPath ++ [⟨.Paste, [Row.zero], i, i⟩] := by rw [hfr]
      have hrows2 : ({ e2 with yankRegister := [] } : Editor).Rows =
          rows1.take k ++ row :: (rows1.drop k).map Row.incIdx := hrows
      refine ⟨_, Undo_paste { e2 with yankRegister := [] } e.undoPath [Row.zero] i _ hpath
        (by rw [hrows2, hk]; exact hrem), ?_, ?_, rfl⟩
      · simp only [List.map_append, map_chars_incIdx]
        rw [← List.map_append, List.take_append_drop, map_chars_of_text _ _ htext]
      · simp only [List.map_append, map_render_incIdx]
        rw [← List.map_append, List.take_append_drop, map_render_of_text _ _ htext]
  · intro hc hs ht
    obtain ⟨e2, _, _, hins, _⟩ := InsertRow_ok L
      { e with dirty := e.dirty + 1, undoPath := e.undoPath ++ [⟨.Paste, [Row.zero], i, i⟩] }
      i k e.yankRegister hk (by simpa using hlt.le) (fun sx h => HLDB_ok sx (hs sx h)) ht hc
    refine ⟨{ e2 with yankRegister := [] }, ?_⟩
    simp only [PasteRow, hafter, Bind.bind, Except.bind, pure, Except.pure]
    rw [hins]

/-- C12 at its failing input.  The Go document `["/*", "*/", "x"]` is row-consistent
and has contiguous indices.  The keys `j yy P u yy P u yy` lead to the same rows with
the indices 0, 3, 4: each `Undo` of a paste leaves the rows after it with the index
the paste gave them.  There `PasteRow(1)`, with `0 ≤ 1 < len(rows)`, does not
return: the new row `"*/"` closes the comment of row 0, its flag changes, and
`updateHighlight` on the row `"x"` reads `e.Rows[row.idx-1]` with `row.idx = 4`. -/
theorem pasteRow_fails_on_stale_index :
    Consistent stdLib exClose ∧ Contiguous exClose.Rows ∧
    normalKeys stdLib findCanceled
      [NavKeyJ, MotionKeyY, MotionKeyY, MotionKeyCapitalP, ModeKeyU,
       MotionKeyY, MotionKeyY, MotionKeyCapitalP, ModeKeyU, MotionKeyY, MotionKeyY] exClose
      = .ok exStale ∧
    (0 ≤ exStale.cy ∧ exStale.cy < exStale.Rows.length) ∧
    PasteRow stdLib exStale exStale.cy = .error .indexOutOfRange ∧
    ProcessKeyNormalMode stdLib findCanceled exStale MotionKeyCapitalP
      = .error .indexOutOfRange :=
  ⟨(consistent_iff_check _ _).mpr (by decide), contiguous_of_check _ (by decide), by decide,
    by decide, by decide, by decide⟩

/-! ## Tab expansion -/

theorem padLoop_exact (ts : Int) (hts : 0 < ts) :
    ∀ (k fuel : Nat) (col : Int) (b : Str), 0 ≤ col → k ≤ fuel → (col + k) % ts = 0 →
      (∀ j : Nat, j < k → (col + j) % ts ≠ 0) →
      padLoop ts fuel col b = .ok (col + k, b ++ List.replicate k ' ') := by
  intro k
  induction k with
  | zero =>
    intro fuel col b h0 _ hk _
    have hz : col.tmod ts = 0 := by
      rw [Int.tmod_eq_emod h0 (le_of_lt hts)]
      simpa using hk
    cases fuel with
    | zero => simp [padLoop, hz]
    | succ fuel => simp [padLoop, hz]
  | succ k ih =>
    intro fuel col b h0 hf hk hj
    have hnz : col.tmod ts ≠ 0 := by
      rw [Int.tmod_eq_emod h0 (le_of_lt hts)]
      simpa using hj 0 (by omega)
    cases fuel with
    | zero => omega
    | succ fuel =>
      rw [padLoop, if_pos hnz]
      rw [ih fuel (col + 1) (b ++ [' ']) (by omega) (by omega)
        (by rw [← hk]; congr 1; push_cast; ring)
        (by
          intro j hjk
          have := hj (j + 1) (by omega)
          intro h
          apply this
          rw [← h]; congr 1; push_cast; ring)]
      congr 1
      rw [List.replicate_succ]
      simp only [List.append_assoc, List.singleton_append, Prod.mk.injEq, and_true]
      push_cast
      ring

/-- What the loop of `updateRow` writes: the column it counts is a multiple of the
tab stop at every tab, so every tab becomes exactly `T` spaces. -/
theorem renderLoop_full_stops (sx : EditorSyntax) (T : Nat) (hT : 0 < T)
    (hts : (if sx.Tabstop ≠ 0 then sx.Tabstop else tabstop) = (T : Int)) :
    ∀ (chars : Str) (col : Int) (b : Str), 0 ≤ col → col % (T : Int) = 0 →
      renderLoop (some sx) chars col b =
        .ok (b ++ chars.flatMap fun c => if c = '\t' then List.replicate T ' ' else [c]) := by
  intro chars
  induction chars with
  | nil => intro col b _ _; simp [renderLoop]
  | cons r rest ih =>
    intro col b h0 hm
    by_cases hr : r = '\t'
    · subst hr
      have hpad := padLoop_exact (T : Int) (by exact_mod_cast hT) (T - 1) ((T : Int).natAbs + 1)
        (col + 1) (b ++ [' ']) (by omega) (by simp; omega)
        (by
          have : col + 1 + ((T - 1 : Nat) : Int) = col + T := by omega
          rw [this, Int.add_emod, hm]
          simp)
        (by
          intro j hj
          have h1 : (col + 1 + (j : Int)) % (T : Int) = (1 + (j : Int)) % (T : Int) := by
            rw [show col + 1 + (j : Int) = col + (1 + (j : Int)) by ring, Int.add_emod, hm]
            simp
          rw [h1, Int.emod_eq_of_lt (by omega) (by omega)]
          omega)
      simp only [renderLoop, if_true, hts, Bind.bind, Except.bind]
      rw [hpad]
      simp only []
      have hcol : col + 1 + ((T - 1 : Nat) : Int) = col + T := by omega
      rw [hcol, ih (col + T) _ (by omega) (by rw [Int.add_emod, hm]; simp)]
      congr 1
      simp only [List.flatMap_cons, if_true, List.append_assoc]
      congr 1
      rw [← List.append_assoc]
      congr 1
      have : T = (T - 1) + 1 := by omega
      conv_rhs => rw [this, List.replicate_succ]
      simp
    · simp only [renderLoop, hr, if_false]
      rw [ih col (b ++ [r]) h0 hm]
      simp [List.flatMap_cons, hr]

/-- The render string of `updateRow` under a profile with a positive tab stop `T` (the
constant 8 when the profile gives 0): every tab is replaced by `T` spaces, whatever
stands before it, and the other runes are copied in order. -/
theorem renderOf_full_stops (sx : EditorSyntax) (T : Nat) (hT : 0 < T)
    (hts : (if sx.Tabstop ≠ 0 then sx.Tabstop else tabstop) = (T : Int)) (chars : Str) :
    renderOf (some sx) chars =
      .ok (chars.flatMap fun c => if c = '\t' then List.replicate T ' ' else [c]) := by
  unfold renderOf
  rw [renderLoop_full_stops sx T hT hts chars 0 [] (le_refl _) (by simp)]
  simp

/-- C13 at its failing input.  Go profile (tab stop 4), content `"a\tb"`: `updateRow`
renders the tab as four spaces, `"a    b"`, because its column counter counts only
the spaces written for tabs; the claim asks for the three spaces that bring column 1
to column 4, `"a   b"`.  `rowCxToRx` puts the rune after the tab at display column 4,
where the render has a space.  Under this profile every tab of every content becomes
four spaces. -/
theorem updateRow_tab_width_ignores_column :
    renderOf (some syntaxGo) "a\tb".toList = .ok "a    b".toList ∧
    expandTabsSpec 4 "a\tb".toList 0 = "a   b".toList ∧
    (updateRow stdLib exTabGo 0).map (fun e => e.Rows.map Row.render) =
      .ok ["a    b".toList] ∧
    rowCxToRx stdLib exTabGo (mkRow 0 "a\tb" "a    b" [0, 0, 0, 0, 0, 0] false) 2 = .ok 4 ∧
    ∀ chars : Str, renderOf (some syntaxGo) chars =
      .ok (chars.flatMap fun c => if c = '\t' then List.replicate 4 ' ' else [c]) :=
  ⟨by decide, by decide, by decide, by decide,
    fun chars => renderOf_full_stops syntaxGo 4 (by decide) (by decide) chars⟩

/-! ## No profile selected -/

/-- Without a profile the loop of `updateRow` stops at the first tab: it reads the tab
stop through the nil profile. -/
theorem renderLoop_nil_tab :
    ∀ (chars : Str) (col : Int) (b : Str), '\t' ∈ chars →
      renderLoop none chars col b = .error .nilDereference := by
  intro chars
  induction chars with
  | nil => intro col b h; simp at h
  | cons r rest ih =>
    intro col b h
    by_cases hr : r = '\t'
    · simp [renderLoop, hr]
    · have hrest : '\t' ∈ rest := by
        rcases List.mem_cons.mp h with h1 | h1
        · exact absurd h1.symm hr
        · exact h1
      simp only [renderLoop, hr, if_false]
      exact ih col _ hrest

/-- Without a profile and without a tab, `updateRow` returns: the render string is the
content and every class is plain. -/
theorem updateRow_no_profile (L : Lib) (e : Editor) (p : Nat) (row : Row) (hs : e.syn = none)
    (hrow : e.Rows[p]? = some row) (ht : '\t' ∉ row.chars) :
    updateRow L e p = .ok { e with
      Rows := e.Rows.set p { row with
        render := row.chars
        hl := List.replicate row.chars.length HlNormal } } := by
  have hlt := getElem?_lt hrow
  have hx : index e.Rows (p : Int) = .ok row := by
    rw [index_ok e.Rows p hlt]
    rw [List.getElem?_eq_getElem hlt] at hrow
    exact congrArg Except.ok (Option.some.inj hrow)
  have hren : renderOf e.syn row.chars = .ok row.chars := by
    unfold renderOf
    rw [renderLoop_no_tab e.syn row.chars 0 [] ht]
    rfl
  have hx2 : index (e.Rows.set p { row with render := row.chars }) (p : Int) =
      .ok { row with render := row.chars } := by
    rw [index_ok _ p (by simpa using hlt)]
    simp
  simp only [updateRow, hx, hren, Bind.bind, Except.bind, updateHighlight, List.length_set]
  simp only [updateHighlightAt, hx2, highlightRow, hs, Bind.bind, Except.bind, pure, Except.pure,
    List.set_set]
  simp

/-- With no profile selected, `updateRow` on a row whose content holds a tab does not
complete, whatever the document. -/
theorem updateRow_nil_tab (L : Lib) (e : Editor) (p : Nat) (row : Row)
    (hs : e.syn = none) (hrow : e.Rows[p]? = some row) (ht : '\t' ∈ row.chars) :
    updateRow L e p = .error .nilDereference := by
  have hlt := getElem?_lt hrow
  have hx : index e.Rows (p : Int) = .ok row := by
    rw [index_ok e.Rows p hlt]
    rw [List.getElem?_eq_getElem hlt] at hrow
    exact congrArg Except.ok (Option.some.inj hrow)
  have hren : renderOf e.syn row.chars = .error .nilDereference := by
    unfold renderOf
    rw [hs]
    exact renderLoop_nil_tab row.chars 0 [] ht
  simp only [updateRow, hx, hren, Bind.bind, Except.bind]

/-- C14 at its failing input.  No profile selected, as in an editor started without a
file: typing a tab into the empty row, and `updateRow` on the row `"\t"`, end in the
nil dereference of `e.syntax.Tabstop`, for every library. -/
theorem updateRow_nil_profile_tab (L : Lib) :
    exOneEmpty.syn = none ∧ exTabTyped.syn = none ∧
    InsertChar L exOneEmpty '\t' = .error .nilDereference ∧
    updateRow L exTabTyped 0 = .error .nilDereference :=
  ⟨rfl, rfl, rfl, rfl⟩

/-! ## Scrolling -/

/-- The walk of `rowCxToRx` returns under a profile, and without one when the runes
hold no tab. -/
theorem cxToRxLoop_ok (L : Lib) (syn : Option EditorSyntax) :
    ∀ (chars : Str) (rx : Int), ((∃ sx, syn = some sx) ∨ '\t' ∉ chars) →
      ∃ w, cxToRxLoop L syn chars rx = .ok w := by
  intro chars
  induction chars with
  | nil => intro rx _; exact ⟨rx, rfl⟩
  | cons r rest ih =>
    intro rx h
    have hrest : (∃ sx, syn = some sx) ∨ '\t' ∉ rest := by
      rcases h with h | h
      · exact Or.inl h
      · exact Or.inr (fun hm => h (List.mem_cons_of_mem _ hm))
    have hadv : ∃ c, advance L syn rx r = .ok c := by
      unfold advance
      by_cases hr : r = '\t'
      · rcases h with ⟨sx, hsx⟩ | h
        · subst hsx
          simp only [hr, if_true]
          split <;> exact ⟨_, rfl⟩
        · exact absurd (hr ▸ List.mem_cons_self r rest) h
      · simp only [hr, if_false]
        exact ⟨_, rfl⟩
    obtain ⟨c, hc⟩ := hadv
    obtain ⟨w, hw⟩ := ih c hrest
    exact ⟨w, by simp only [cxToRxLoop, hc, Bind.bind, Except.bind]; exact hw⟩

/-- What `scroll` leaves: the cursor where it was, `rx` the display column of the
cursor (0 on the line after the last row), and the window around the cursor. -/
theorem scroll_window (L : Lib) (e : Editor) (hr : 1 ≤ e.screenRows) (hc : 1 ≤ e.screenCols) :
    (∀ e1, scroll L e = .ok e1 →
      e1.cx = e.cx ∧ e1.cy = e.cy ∧ e1.Rows = e.Rows ∧
      (∀ row, e.Rows[e.cy.toNat]? = some row → 0 ≤ e.cy → rowCxToRx L e row e.cx = .ok e1.rx) ∧
      e1.rowOffset ≤ e1.cy ∧ e1.cy < e1.rowOffset + e1.screenRows ∧
      e1.colOffset ≤ e1.rx ∧ e1.rx < e1.colOffset + e1.screenCols) ∧
    (0 ≤ e.cy → 0 ≤ e.cx → e.cx ≤ lineLen e →
      ((∃ sx, e.syn = some sx) ∨ ∀ row, e.Rows[e.cy.toNat]? = some row → '\t' ∉ row.chars) →
      ∃ e1, scroll L e = .ok e1) := by
  have key : ∀ (e0 : Editor), 1 ≤ e0.screenRows → 1 ≤ e0.screenCols →
      (scrollWindow e0).cx = e0.cx ∧ (scrollWindow e0).cy = e0.cy ∧
      (scrollWindow e0).Rows = e0.Rows ∧ (scrollWindow e0).rx = e0.rx ∧
      (scrollWindow e0).rowOffset ≤ (scrollWindow e0).cy ∧
      (scrollWindow e0).cy < (scrollWindow e0).rowOffset + (scrollWindow e0).screenRows ∧
      (scrollWindow e0).colOffset ≤ (scrollWindow e0).rx ∧
      (scrollWindow e0).rx < (scrollWindow e0).colOffset + (scrollWindow e0).screenCols := by
    intro e0 hr0 hc0
    unfold scrollWindow
    simp only
    split_ifs <;> refine ⟨rfl, rfl, rfl, rfl, ?_, ?_, ?_, ?_⟩ <;> simp only [] at * <;> omega
  constructor
  · intro e1 h
    unfold scroll at h
    by_cases hcy : e.cy < e.Rows.length
    · cases hx : index e.Rows e.cy with
      | error f => simp [hcy, hx, Bind.bind, Except.bind] at h
      | ok row =>
        cases hrx : rowCxToRx L { e with rx := 0 } row e.cx with
        | error f => simp [hcy, hx, hrx, Bind.bind, Except.bind] at h
        | ok rx =>
          simp only [hcy, if_true, hx, hrx, Bind.bind, Except.bind, pure, Except.pure,
            Except.ok.injEq] at h
          subst h
          obtain ⟨k1, k2, k3, k4, k5, k6, k7, k8⟩ := key { e with rx := rx } hr hc
          refine ⟨k1, k2, k3, ?_, k5, k6, k7, k8⟩
          intro row' hrow' _
          obtain ⟨_, hrow⟩ := index_eq_ok hx
          rw [hrow] at hrow'
          cases hrow'
          rw [k4]
          exact hrx
    · simp only [hcy, if_false, Bind.bind, Except.bind, pure, Except.pure, Except.ok.injEq] at h
      subst h
      obtain ⟨k1, k2, k3, k4, k5, k6, k7, k8⟩ := key { e with rx := 0 } hr hc
      refine ⟨k1, k2, k3, ?_, k5, k6, k7, k8⟩
      intro row hrow h0
      have := getElem?_lt hrow
      omega
  · intro h0 hx0 hx1 htab
    unfold scroll
    by_cases hcy : e.cy < e.Rows.length
    · obtain ⟨row, hx, hrow⟩ := index_ok_int e.Rows e.cy h0 hcy
      have hlen : lineLen e = row.chars.length := by
        unfold lineLen
        rw [hrow]
      have hrx : ∃ rx, rowCxToRx L { e with rx := 0 } row e.cx = .ok rx := by
        unfold rowCxToRx
        have h1 : ¬ (e.cx > row.chars.length) := by omega
        have h2 : ¬ (e.cx < 0) := by omega
        simp only [h1, if_false, h2]
        apply cxToRxLoop_ok
        rcases htab with h | h
        · exact Or.inl h
        · exact Or.inr (fun hm => h row hrow (List.mem_of_mem_take hm))
      obtain ⟨rx, hrx⟩ := hrx
      simp only [hcy, if_true, hx, hrx, Bind.bind, Except.bind, pure, Except.pure]
      exact ⟨_, rfl⟩
    · simp only [hcy, if_false, Bind.bind, Except.bind, pure, Except.pure]
      exact ⟨_, rfl⟩

/-- C15 at its failing input.  No profile, rows `["\t", "a"]`, cursor `(1, 0)` after the
tab, a 24 by 80 screen: the state satisfies the cursor invariant, and `scroll` does
not return, because `rowCxToRx` reads the tab stop through the nil profile. -/
theorem scroll_nil_profile_tab (L : Lib) :
    (1 ≤ exTabCursor.screenRows ∧ 1 ≤ exTabCursor.screenCols ∧ CursorOK exTabCursor) ∧
    scroll L exTabCursor = .error .nilDereference :=
  ⟨by decide, rfl⟩

/-! ## The two column mappings -/

theorem cxToRxLoop_append (L : Lib) (syn : Option EditorSyntax) :
    ∀ (a b : Str) (rx : Int),
      cxToRxLoop L syn (a ++ b) rx = (cxToRxLoop L syn a rx) >>= (cxToRxLoop L syn b) := by
  intro a
  induction a with
  | nil => intro b rx; rfl
  | cons r rest ih =>
    intro b rx
    simp only [List.cons_append, cxToRxLoop]
    cases advance L syn rx r with
    | error f => rfl
    | ok c => exact ih b c

theorem cxToRxLoop_snoc (L : Lib) (syn : Option EditorSyntax) (pre : Str) (r : Char)
    (cur c : Int) (hpre : cxToRxLoop L syn pre 0 = .ok cur) (hadv : advance L syn cur r = .ok c) :
    cxToRxLoop L syn (pre ++ [r]) 0 = .ok c := by
  rw [cxToRxLoop_append, hpre]
  show cxToRxLoop L syn [r] cur = .ok c
  simp only [cxToRxLoop, hadv, Bind.bind, Except.bind]

theorem rowCxToRx_take (L : Lib) (e : Editor) (row : Row) (n : Nat) (hn : n ≤ row.chars.length) :
    rowCxToRx L e row (n : Int) = cxToRxLoop L e.syn (row.chars.take n) 0 := by
  unfold rowCxToRx
  have h1 : ¬ ((n : Int) > row.chars.length) := by omega
  simp only [h1, if_false]
  have h2 : ¬ ((n : Int) < 0) := by omega
  simp only [h2, if_false, Int.toNat_ofNat]

theorem rxToCxLoop_least (L : Lib) (syn : Option EditorSyntax) (rx : Int) (h0 : 0 ≤ rx) :
    ∀ (suf pre : Str) (cur total : Int),
      cxToRxLoop L syn pre 0 = .ok cur →
      cxToRxLoop L syn suf cur = .ok total → rx < total →
      (∀ j, j < pre.length → ∃ w, cxToRxLoop L syn (pre.take (j + 1)) 0 = .ok w ∧ w ≤ rx) →
      ∃ i : Nat, rxToCxLoop L syn rx suf pre.length cur = .ok (i : Int) ∧
        i < pre.length + suf.length ∧
        (∃ w, cxToRxLoop L syn ((pre ++ suf).take (i + 1)) 0 = .ok w ∧ rx < w) ∧
        ∀ j, j < i → ∃ w, cxToRxLoop L syn ((pre ++ suf).take (j + 1)) 0 = .ok w ∧ w ≤ rx := by
  intro suf
  induction suf with
  | nil =>
    intro pre cur total hpre hsuf hlt hprev
    exfalso
    simp only [cxToRxLoop] at hsuf
    cases hsuf
    rcases Nat.eq_zero_or_pos pre.length with hz | hpos
    · have : pre = [] := List.length_eq_zero.mp hz
      subst this
      simp only [cxToRxLoop] at hpre
      cases hpre
      omega
    · obtain ⟨w, hw, hle⟩ := hprev (pre.length - 1) (by omega)
      have h1 : pre.length - 1 + 1 = pre.length := by omega
      rw [h1, List.take_length, hpre] at hw
      cases hw
      omega
  | cons r rest ih =>
    intro pre cur total hpre hsuf hlt hprev
    simp only [cxToRxLoop] at hsuf
    cases hadv : advance L syn cur r with
    | error f => rw [hadv] at hsuf; cases hsuf
    | ok c =>
      rw [hadv] at hsuf
      have hsuf1 : cxToRxLoop L syn rest c = .ok total := hsuf
      have hsnoc := cxToRxLoop_snoc L syn pre r cur c hpre hadv
      have htake : ∀ j, j < pre.length →
          (pre ++ r :: rest).take (j + 1) = pre.take (j + 1) := by
        intro j hj
        rw [List.take_append_of_le_length (by omega)]
      have htake1 : (pre ++ r :: rest).take (pre.length + 1) = pre ++ [r] := by
        rw [List.take_append_eq_append_take]
        simp
      by_cases hc : c > rx
      · refine ⟨pre.length, ?_, by simp, ⟨c, ?_, hc⟩, ?_⟩
        · simp only [rxToCxLoop, hadv, Bind.bind, Except.bind, hc, if_true, pure, Except.pure]
        · rw [htake1]; exact hsnoc
        · intro j hj
          rw [htake j hj]
          exact hprev j hj
      · have hprev1 : ∀ j, j < (pre ++ [r]).length →
            ∃ w, cxToRxLoop L syn ((pre ++ [r]).take (j + 1)) 0 = .ok w ∧ w ≤ rx := by
          intro j hj
          simp only [List.length_append, List.length_singleton] at hj
          by_cases hjp : j < pre.length
          · rw [List.take_append_of_le_length (by omega)]
            exact hprev j hjp
          · have hje : j = pre.length := by omega
            subst hje
            refine ⟨c, ?_, by omega⟩
            rw [List.take_of_length_le (by simp)]
            exact hsnoc
        obtain ⟨i, hi, hil, hw, hleast⟩ := ih (pre ++ [r]) c total hsnoc hsuf1 hlt hprev1
        have happ : pre ++ [r] ++ rest = pre ++ r :: rest := by simp
        rw [happ] at hw hleast
        refine ⟨i, ?_, ?_, hw, hleast⟩
        · simp only [rxToCxLoop, hadv, Bind.bind, Except.bind, hc, if_false]
          have hcast : ((pre.length : Int) + 1) = (((pre ++ [r]).length : Nat) : Int) := by
            simp
          rw [hcast]
          exact hi
        · simp only [List.length_append, List.length_cons, List.length_nil] at hil ⊢
          omega

/-- C16.  For every library, every profile or none, every row and every target `rx`
with `0 ≤ rx < rowCxToRx(row, len(chars))`: `rowRxToCx(row, rx)` returns, without
reaching its panic, the least index `i` with `rowCxToRx(row, i+1) > rx`. -/
theorem rowRxToCx_first_column_past_target (L : Lib) (e : Editor) (row : Row) (rx total : Int)
    (htot : rowCxToRx L e row row.chars.length = .ok total) (h0 : 0 ≤ rx) (h1 : rx < total) :
    ∃ i : Nat, rowRxToCx L e row rx = .ok (i : Int) ∧ i < row.chars.length ∧
      (∃ w, rowCxToRx L e row ((i : Int) + 1) = .ok w ∧ rx < w) ∧
      ∀ j : Nat, j < i → ∃ w, rowCxToRx L e row ((j : Int) + 1) = .ok w ∧ w ≤ rx := by
  rw [rowCxToRx_take L e row _ (le_refl _), List.take_length] at htot
  obtain ⟨i, hi, hil, hw, hleast⟩ := rxToCxLoop_least L e.syn rx h0 row.chars [] 0 total rfl htot h1
    (by intro j hj; simp at hj)
  simp only [List.nil_append, List.length_nil, Nat.zero_add] at hw hleast hil
  refine ⟨i, ?_, hil, ?_, ?_⟩
  · unfold rowRxToCx
    simpa using hi
  · have := rowCxToRx_take L e row (i + 1) (by omega)
    rw [Nat.cast_add, Nat.cast_one] at this
    rw [this]
    exact hw
  · intro j hj
    have := rowCxToRx_take L e row (j + 1) (by omega)
    rw [Nat.cast_add, Nat.cast_one] at this
    rw [this]
    exact hleast j hj

/-- An instance: the row `"a\tb"` under the Go profile, total width 5, target 2. -/
theorem rowRxToCx_first_column_past_target_witness :
    ∃ i : Nat, rowRxToCx stdLib exTabGo (mkRow 0 "a\tb" "a    b" [0, 0, 0, 0, 0, 0] false) 2
        = .ok (i : Int) ∧ i < (mkRow 0 "a\tb" "a    b" [0, 0, 0, 0, 0, 0] false).chars.length ∧
      (∃ w, rowCxToRx stdLib exTabGo (mkRow 0 "a\tb" "a    b" [0, 0, 0, 0, 0, 0] false)
        ((i : Int) + 1) = .ok w ∧ 2 < w) ∧
      ∀ j : Nat, j < i → ∃ w, rowCxToRx stdLib exTabGo
        (mkRow 0 "a\tb" "a    b" [0, 0, 0, 0, 0, 0] false) ((j : Int) + 1) = .ok w ∧ w ≤ 2 :=
  rowRxToCx_first_column_past_target stdLib exTabGo _ 2 5 (by decide) (by decide) (by decide)

/-! ## Inserting a row -/

/-- `updateHighlight` on a row outside the store, on a document with contiguous
indices: the row gets the classes and the flag of `highlightRow`, and the rows of the
store up to the index of the row are left as they are. -/
theorem updateHighlightNew_frame (L : Lib) (e : Editor) (row : Row) (p : Nat)
    (hp : ∀ sx, e.syn = some sx → ProfileOK sx) (hc : Contiguous e.Rows)
    (hi : row.idx = p) (hle : p ≤ e.Rows.length) :
    ∃ row1 e1 changed, updateHighlightNew L e row = .ok (row1, e1) ∧
      highlightRow L e row = .ok (row1, changed) ∧
      e1 = { e with Rows := e1.Rows } ∧ e1.Rows.map Row.text = e.Rows.map Row.text ∧
      ∀ j, j ≤ p → e1.Rows[j]? = e.Rows[j]? := by
  obtain ⟨row1, changed, hh⟩ := highlightRow_ok L e row p hp hi hle
  have ht := (highlightRow_eq L e row row1 changed hh).1
  have hi1 : row1.idx = p := by
    have := congrArg (fun t => t.1) ht
    simp only [Row.text] at this
    rw [this, hi]
  unfold updateHighlightNew
  simp only [hh, Bind.bind, Except.bind, hi1]
  by_cases hcond : changed = true ∧ (p : Int) + 1 < e.Rows.length
  · have h0 : (0 : Int) ≤ (p : Int) + 1 := by omega
    have hn : ((p : Int) + 1).toNat = p + 1 := by omega
    rw [if_pos hcond, if_pos h0, hn]
    obtain ⟨e1, h1⟩ := updateHighlightAt_ok L e.syn hp (e.Rows.length + 1) e (p + 1) rfl hc
      (by omega) (by omega)
    obtain ⟨hf1, hf2, hf3, _⟩ := updateHighlightAt_frame L _ e e1 (p + 1) hc h1
    unfold updateHighlight
    rw [h1]
    exact ⟨row1, e1, changed, rfl, rfl, hf1, hf2, fun j hj => hf3 j (by omega)⟩
  · rw [if_neg hcond]
    exact ⟨row1, e, changed, rfl, rfl, rfl, rfl, fun _ _ => rfl⟩

/-- What `InsertRow(at, text)` does.  Out of range it changes nothing.  In range, on a
document with contiguous indices where the render of the text can be computed (a
well-formed profile, or no profile and no tab in the text), it returns: one row more;
at index `at` a row with the text, index `at`, the render of the text, and the classes
and the flag of the scan that starts from the flag of row `at-1` (`false` for
`at = 0`); the rows before `at` as they were; the rows from `at` on one position
later, with their content and render and their index increased by one. -/
theorem InsertRow_spec (L : Lib) (e : Editor) (i : Int) (chars : Str) :
    ((i < 0 ∨ i > e.Rows.length) → InsertRow L e i chars = .ok e) ∧
    (∀ k : Nat, i = (k : Int) → k ≤ e.Rows.length → Contiguous e.Rows →
      (∀ sx, e.syn = some sx → ProfileOK sx) → (e.syn = none → '\t' ∉ chars) →
      ∃ e1 row, InsertRow L e i chars = .ok e1 ∧ e1 = { e with Rows := e1.Rows } ∧
        e1.Rows.length = e.Rows.length + 1 ∧
        e1.Rows[k]? = some row ∧ row.chars = chars ∧ row.idx = (k : Int) ∧
        renderOf e.syn chars = .ok row.render ∧
        (∀ sx, e.syn = some sx →
          scanRender L sx row.render (flagBefore e.Rows k) = .ok (row.hl, row.hasUnclosedComment)) ∧
        (∀ j, j < k → e1.Rows[j]? = e.Rows[j]?) ∧
        (∀ j r, k ≤ j → e.Rows[j]? = some r →
          ∃ r1, e1.Rows[j + 1]? = some r1 ∧ r1.chars = r.chars ∧ r1.render = r.render ∧
            r1.idx = r.idx + 1)) := by
  constructor
  · intro h
    simp [InsertRow, h]
  · intro k hi hk hc hp ht
    subst hi
    have hrange : ¬ ((k : Int) < 0 ∨ (k : Int) > e.Rows.length) := by omega
    have hflag : prevFlag e (k : Int) = .ok (flagBefore e.Rows k) :=
      incomingFlag_ok e { Row.zero with idx := k } k rfl hk
    have hren : ∃ render, renderOf e.syn chars = .ok render := by
      cases hsyn : e.syn with
      | none => exact renderOf_ok none chars (Or.inr (ht hsyn))
      | some sx => exact renderOf_ok (some sx) chars (Or.inl ⟨sx, rfl, (hp sx hsyn).2.2.2⟩)
    obtain ⟨render, hren⟩ := hren
    obtain ⟨row1, e1, changed, hnew, hh, hf1, hf2, hf3⟩ := updateHighlightNew_frame L e
      { idx := k, chars := chars, render := render, hl := [],
        hasUnclosedComment := flagBefore e.Rows k } k hp hc rfl hk
    obtain ⟨htext, hcase⟩ := highlightRow_eq L e _ row1 changed hh
    have hidx : row1.idx = (k : Int) := by
      have := congrArg (fun t => t.1) htext
      simpa [Row.text] using this
    have hch : row1.chars = chars := by
      have := congrArg (fun t => t.2.1) htext
      simpa [Row.text] using this
    have hrd : row1.render = render := by
      have := congrArg (fun t => t.2.2) htext
      simpa [Row.text] using this
    have hlen1 : e1.Rows.length = e.Rows.length := by
      have := congrArg List.length hf2
      simpa using this
    have hlenk : (e1.Rows.take k).length = k := by simp; omega
    refine ⟨{ e1 with Rows := e1.Rows.take k ++ row1 :: (e1.Rows.drop k).map Row.incIdx },
      row1, ?_, ?_, ?_, ?_, hch, hidx, ?_, ?_, ?_, ?_⟩
    · simp only [InsertRow, hrange, if_false, hflag, updateRowNew, hren, hnew, Bind.bind,
        Except.bind, pure, Except.pure, Int.toNat_ofNat]
    · rw [hf1]
    · simp only [List.length_append, List.length_cons, List.length_map, List.length_take,
        List.length_drop]
      omega
    · simp only
      rw [List.getElem?_append_right (by omega), hlenk]
      simp
    · rw [hrd]; exact hren
    · intro sx hsx
      rcases hcase with ⟨hnone, _⟩ | ⟨sx1, inc, hs1, hinc, hscan, _⟩
      · rw [hsx] at hnone; cases hnone
      · rw [hsx] at hs1
        cases hs1
        have := incomingFlag_eq e _ k inc rfl hinc
        rw [this] at hscan
        rw [hrd]
        exact hscan
    · intro j hj
      simp only
      rw [List.getElem?_append_left (by omega), List.getElem?_take_of_lt hj]
      exact hf3 j (by omega)
    · intro j r hkj hr
      have hjlt := getElem?_lt hr
      have htj : (e1.Rows.map Row.text)[j]? = (e.Rows.map Row.text)[j]? := by rw [hf2]
      simp only [List.getElem?_map, hr, Option.map_some'] at htj
      cases h1 : e1.Rows[j]? with
      | none => rw [h1] at htj; simp at htj
      | some r0 =>
        rw [h1] at htj
        simp only [Option.map_some', Option.some.injEq] at htj
        refine ⟨r0.incIdx, ?_, ?_, ?_, ?_⟩
        · simp only
          rw [List.getElem?_append_right (by omega), hlenk]
          have hsub : j + 1 - k = (j - k) + 1 := by omega
          rw [hsub, List.getElem?_cons_succ, List.getElem?_map, List.getElem?_drop]
          have hadd : k + (j - k) = j := by omega
          rw [hadd, h1]
          rfl
        · have := congrArg (fun t => t.2.1) htj
          simpa [Row.text, Row.incIdx] using this
        · have := congrArg (fun t => t.2.2) htj
          simpa [Row.text, Row.incIdx] using this
        · have := congrArg (fun t => t.1) htj
          simp only [Row.text] at this
          simp only [Row.incIdx, this]

/-- C17 at its failing input.  No profile and no rows, as when a file is opened whose
name matches no profile: `InsertRow(0, "\tx")`, with `0` in `[0, len(rows)]`, does
not return; `updateRow` on the new row reads the tab stop through the nil profile. -/
theorem insertRow_nil_profile_tab (L : Lib) :
    Editor.blank.syn = none ∧ (0 : Int) ≤ Editor.blank.Rows.length ∧
    InsertRow L Editor.blank 0 "\tx".toList = .error .nilDereference :=
  ⟨rfl, by decide, rfl⟩

/-! ## Splitting a row -/

theorem getElem?_of_map_text (rows rows1 : List Row) (h : rows1.map Row.text = rows.map Row.text)
    (j : Nat) (r : Row) (hr : rows[j]? = some r) :
    ∃ r1, rows1[j]? = some r1 ∧ r1.text = r.text := by
  have htj : (rows1.map Row.text)[j]? = (rows.map Row.text)[j]? := by rw [h]
  simp only [List.getElem?_map, hr, Option.map_some'] at htj
  cases h1 : rows1[j]? with
  | none => rw [h1] at htj; simp at htj
  | some r0 =>
    rw [h1] at htj
    simp only [Option.map_some', Option.some.injEq] at htj
    exact ⟨r0, rfl, htj⟩

theorem drop_eq_cons_of_getElem? {α : Type} (xs : List α) (k : Nat) (x : α)
    (h : xs[k]? = some x) : xs.drop k = x :: xs.drop (k + 1) := by
  have hlt : k < xs.length := by
    by_contra hn
    rw [List.getElem?_eq_none (by omega)] at h
    cases h
  rw [List.getElem?_eq_getElem hlt] at h
  cases h
  exact (List.getElem_cons_drop xs k hlt).symm

/-- What `InsertNewline` does on a row of a document with contiguous indices, where
the render strings can be computed (a built-in profile, or no profile and no tab in
the row): the row at `cy` is split at `cx`, the other rows keep their content and
order, and the cursor goes to `(0, cy+1)`. -/
theorem InsertNewline_split (L : Lib) (e : Editor) (k : Nat) (row : Row)
    (hcy : e.cy = (k : Int)) (hrow : e.Rows[k]? = some row) (h0 : 0 ≤ e.cx)
    (h1 : e.cx ≤ row.chars.length) (hc : Contiguous e.Rows)
    (hs : ∀ sx, e.syn = some sx → sx ∈ HLDB) (ht : e.syn = none → '\t' ∉ row.chars) :
    ∃ e1, InsertNewline L e = .ok e1 ∧
      e1.Rows.map Row.chars =
        (e.Rows.map Row.chars).take k ++
          row.chars.take e.cx.toNat :: row.chars.drop e.cx.toNat ::
            (e.Rows.map Row.chars).drop (k + 1) ∧
      e1.cx = 0 ∧ e1.cy = (k : Int) + 1 ∧ e1.dirty = e.dirty + 1 := by
  have hlt := getElem?_lt hrow
  have hp : ∀ sx, e.syn = some sx → ProfileOK sx := fun sx h => HLDB_ok sx (hs sx h)
  have hdropk : (e.Rows.map Row.chars).drop k = row.chars :: (e.Rows.map Row.chars).drop (k + 1) :=
    drop_eq_cons_of_getElem? _ k _ (by simp [List.getElem?_map, hrow])
  obtain ⟨e0, hE0⟩ : ∃ e0 : Editor, e0 = { e with dirty := e.dirty + 1 } := ⟨_, rfl⟩
  have hRows0 : e0.Rows = e.Rows := by rw [hE0]
  have hsyn0 : e0.syn = e.syn := by rw [hE0]
  by_cases hcx : e.cx = 0
  · obtain ⟨e1, rowN, rows1, hins, hfr, hrows, htext, _, hchars⟩ := InsertRow_ok L e0 e.cy k []
      hcy (by rw [hRows0]; omega) (by rw [hsyn0]; exact hp)
      (fun _ => by simp) (by rw [hRows0]; exact hc)
    refine ⟨{ e1 with cy := e1.cy + 1, cx := 0 }, ?_, ?_, rfl, ?_, ?_⟩
    · simp only [InsertNewline, ← hE0, Bind.bind, Except.bind, pure, Except.pure]
      simp only [hcx, if_true, hins]
    · simp only [hrows, List.map_append, List.map_cons, map_chars_incIdx, hchars,
        List.map_take, List.map_drop, map_chars_of_text _ _ htext, hRows0, hcx]
      rw [hdropk]
      simp
    · simp only
      rw [hfr, hE0]
      simp only
      omega
    · simp only
      rw [hfr, hE0]
  · have hcxpos : 0 < e.cx := by omega
    have hix : index e.Rows e.cy = .ok row := by
      rw [hcy, index_ok e.Rows k hlt]
      rw [List.getElem?_eq_getElem hlt] at hrow
      exact congrArg Except.ok (Option.some.inj hrow)
    have htd : e.syn = none → '\t' ∉ row.chars.drop e.cx.toNat :=
      fun h hm => ht h (List.mem_of_mem_drop hm)
    obtain ⟨e1, rowN, rows1, hins, hfr, hrows, htext, hidxN, hchars⟩ := InsertRow_ok L e0
      (e.cy + 1) (k + 1) (row.chars.drop e.cx.toNat)
      (by omega) (by rw [hRows0]; omega) (by rw [hsyn0]; exact hp)
      (by rw [hsyn0]; exact htd) (by rw [hRows0]; exact hc)
    have hlen1 : rows1.length = e.Rows.length := by
      have := congrArg List.length htext
      simpa [hRows0] using this
    obtain ⟨row1, hrow1, htext1⟩ := getElem?_of_map_text e.Rows rows1 (by rw [← hRows0]; exact htext)
      k row hrow
    have hcy1 : e1.cy = (k : Int) := by rw [hfr, hE0]; exact hcy
    have hcx1 : e1.cx = e.cx := by rw [hfr, hE0]
    have hsyn1 : e1.syn = e.syn := by rw [hfr, hE0]
    have hdirty1 : e1.dirty = e.dirty + 1 := by rw [hfr, hE0]
    have hcont1 : Contiguous e1.Rows := by
      rw [hrows]
      exact contiguous_insert rows1 (k + 1) rowN (by omega) hidxN
        (contiguous_of_text e.Rows rows1 (by rw [← hRows0]; exact htext) hc)
    have hrow1' : e1.Rows[k]? = some row1 := by
      rw [hrows, List.getElem?_append_left (by simp; omega), List.getElem?_take_of_lt (by omega)]
      exact hrow1
    have hlt1 := getElem?_lt hrow1'
    have hix1 : index e1.Rows e1.cy = .ok row1 := by
      rw [hcy1, index_ok e1.Rows k hlt1]
      rw [List.getElem?_eq_getElem hlt1] at hrow1'
      exact congrArg Except.ok (Option.some.inj hrow1')
    have hch1 : row1.chars = row.chars := by
      have := congrArg (fun t => t.2.1) htext1
      simpa [Row.text] using this
    obtain ⟨rowT, hT⟩ : ∃ r : Row, r = { row1 with chars := row1.chars.take e1.cx.toNat } :=
      ⟨_, rfl⟩
    obtain ⟨e2, hE2⟩ : ∃ e2 : Editor, e2 = { e1 with Rows := e1.Rows.set e1.cy.toNat rowT } :=
      ⟨_, rfl⟩
    have hkn : e1.cy.toNat = k := by omega
    have hrow2 : e2.Rows[k]? = some rowT := by
      rw [hE2, hkn]; exact List.getElem?_set_self hlt1
    obtain ⟨e3, hu, hf3, hkeys⟩ := updateRow_ok L e2 k rowT hrow2
      (fun sx h => hp sx (by rw [hE2] at h; simp only at h; rw [hsyn1] at h; exact h))
      (fun h hm => ht (by rw [hE2] at h; simp only at h; rw [hsyn1] at h; exact h)
        (by rw [hT, hch1] at hm; exact List.mem_of_mem_take hm))
      (by rw [hE2, hkn]; exact contiguous_set e1.Rows k row1 _ hcont1 hrow1' (by rw [hT]))
    refine ⟨{ e3 with cy := e3.cy + 1, cx := 0 }, ?_, ?_, rfl, ?_, ?_⟩
    · have hguard : ¬ (e.cx < 0 ∨ e.cx > row.chars.length) := by omega
      simp only [InsertNewline, ← hE0, Bind.bind, Except.bind, pure, Except.pure]
      simp only [hcx, if_false, hix, hguard, hins, hix1]
      rw [← hT, ← hE2, hkn, hu]
    · simp only
      rw [map_chars_of_key _ _ hkeys, hE2, hkn]
      simp only
      rw [map_chars_set, hrows]
      simp only [List.map_append, List.map_cons, map_chars_incIdx, hchars,
        List.map_take, List.map_drop, map_chars_of_text _ _ htext, hRows0]
      rw [hT]
      simp only [hch1, hcx1]
      have htk : (e.Rows.map Row.chars).take (k + 1) =
          (e.Rows.map Row.chars).take k ++ [row.chars] := by
        rw [List.take_succ]
        simp [List.getElem?_map, hrow]
      rw [htk, List.append_assoc, List.singleton_append]
      rw [List.set_append_right _ _ (by simp)]
      simp only [List.length_take, List.length_map]
      have : k - min k e.Rows.length = 0 := by omega
      rw [this, List.set_cons_zero]
    · simp only
      rw [hf3, hE2]
      simp only
      omega
    · simp only
      rw [hf3, hE2]
      exact hdirty1

/-- C18 at its failing input.  No profile, the single row `"a\t"`, cursor `(1, 0)`
between the `a` and the tab (`cy < len(rows)`, `0 ≤ cx ≤ len(chars)`):
`InsertNewline` does not return; `InsertRow(1, "\t")` reads the tab stop through the
nil profile. -/
theorem insertNewline_nil_profile_tab (L : Lib) :
    (exSplitNil.syn = none ∧ Contiguous exSplitNil.Rows ∧ CursorOK exSplitNil ∧
      exSplitNil.cy < exSplitNil.Rows.length) ∧
    InsertNewline L exSplitNil = .error .nilDereference :=
  ⟨⟨rfl, contiguous_of_check _ (by decide), by decide, by decide⟩, rfl⟩

/-! ## Normal mode: the cursor and the row under it -/

/-- C19 at its failing input.  The document `["", "abc", ""]`, cursor `(3, 1)`, which
satisfies the cursor invariant.  After `g` the cursor is `(3, 0)`, after `G` it is
`(3, 2)`, after `dd` it is `(3, 1)` on the rows `["", ""]`: each time `cx = 3` on a
row of length 0.  On the empty document that `dd` leaves of a single row, `G` sets
`cy = -1`.  After `g` the next `scroll` slices `row.chars[:-1]`. -/
theorem normal_g_G_dd_leave_cursor_past_row_end (L : Lib) (find : FindFn) :
    CursorOK exRagged ∧
    (ProcessKeyNormalMode L find exRagged NavKeyGg).map
        (fun r => (r.1.cx, r.1.cy, lineLen r.1)) = .ok (3, 0, 0) ∧
    (ProcessKeyNormalMode L find exRagged NavKeyCapitalG).map
        (fun r => (r.1.cx, r.1.cy, lineLen r.1)) = .ok (3, 2, 0) ∧
    (do
      let r1 ← ProcessKeyNormalMode L find exRagged MotionKeyD
      let r2 ← ProcessKeyNormalMode L find r1.1 MotionKeyD
      pure (r2.1.Rows.map Row.chars, r2.1.cx, r2.1.cy, lineLen r2.1)) =
      Except.ok ([[], []], 3, 1, 0) ∧
    (do
      let r1 ← ProcessKeyNormalMode L find exOneEmpty MotionKeyD
      let r2 ← ProcessKeyNormalMode L find r1.1 MotionKeyD
      let r3 ← ProcessKeyNormalMode L find r2.1 NavKeyCapitalG
      pure (r2.1.Rows.length, r3.1.cy)) = Except.ok (0, -1) ∧
    (do
      let r1 ← ProcessKeyNormalMode L find exRagged NavKeyGg
      scroll L r1.1) = .error .indexOutOfRange :=
  ⟨by decide, rfl, rfl, rfl, rfl, rfl⟩

/-- C20 at its failing input.  The document `["a","b","c"]` has contiguous indices.
With the cursor on the line after the last row (`cy = len(rows)`, where `j` takes
it), the keys `i`, `a`, `A`, `o`, `p`, `P` and the motions `dd`, `yy` end in an
access to `e.Rows[e.cy]` (or `e.Rows[e.cy+1]`) out of range; with the cursor on the
last row, `p` does. -/
theorem normal_keys_index_row_past_last (L : Lib) (find : FindFn) :
    (Contiguous exPastEnd.Rows ∧ CursorOK exPastEnd ∧ exPastEnd.cy = exPastEnd.Rows.length) ∧
    (∀ k ∈ [ModeKeyI, ModeKeySmallA, ModeKeyCapitalA, ModeKeySmallO, MotionKeySmallP,
        MotionKeyCapitalP],
      ProcessKeyNormalMode L find exPastEnd k = .error .indexOutOfRange) ∧
    (∀ k ∈ [MotionKeyD, MotionKeyY],
      (do
        let r1 ← ProcessKeyNormalMode L find exPastEnd k
        ProcessKeyNormalMode L find r1.1 k) = .error .indexOutOfRange) ∧
    (CursorOK exLastRow ∧ exLastRow.cy + 1 = exLastRow.Rows.length) ∧
    ProcessKeyNormalMode L find exLastRow MotionKeySmallP = .error .indexOutOfRange := by
  refine ⟨⟨contiguous_of_check _ (by decide), by decide, by decide⟩, ?_, ?_,
    ⟨by decide, by decide⟩, rfl⟩
  · intro k hk
    simp only [List.mem_cons, List.mem_singleton, List.not_mem_nil, or_false] at hk
    rcases hk with rfl | rfl | rfl | rfl | rfl | rfl <;> rfl
  · intro k hk
    simp only [List.mem_cons, List.mem_singleton, List.not_mem_nil, or_false] at hk
    rcases hk with rfl | rfl <;> rfl

/-! ## Fields that the operations leave alone -/

/-- A sequence of two steps returns when both do. -/
theorem bind_eq_ok {α β : Type} {x : Except Fault α} {f : α → Except Fault β} {b : β}
    (h : (x >>= f) = .ok b) : ∃ a, x = .ok a ∧ f a = .ok b := by
  cases x with
  | error err => simp [Bind.bind, Except.bind] at h
  | ok a => exact ⟨a, rfl, h⟩

/-- `updateHighlight` changes no field of the editor but `Rows`. -/
theorem updateHighlightAt_fields (L : Lib) : ∀ (fuel : Nat) (e e1 : Editor) (p : Nat),
    updateHighlightAt L fuel e p = .ok e1 → e1 = { e with Rows := e1.Rows } := by
  intro fuel
  induction fuel with
  | zero => intro e e1 p h; simp [updateHighlightAt] at h
  | succ fuel ih =>
    intro e e1 p h
    unfold updateHighlightAt at h
    obtain ⟨row, _, h⟩ := bind_eq_ok h
    obtain ⟨⟨row1, changed⟩, _, h⟩ := bind_eq_ok h
    dsimp only at h
    split at h
    · split at h
      · have := ih _ e1 _ h
        rw [this]
      · cases h
    · cases h
      rfl

/-- `updateHighlight` keeps the number of rows. -/
theorem updateHighlightAt_length (L : Lib) : ∀ (fuel : Nat) (e e1 : Editor) (p : Nat),
    updateHighlightAt L fuel e p = .ok e1 → e1.Rows.length = e.Rows.length := by
  intro fuel
  induction fuel with
  | zero => intro e e1 p h; simp [updateHighlightAt] at h
  | succ fuel ih =>
    intro e e1 p h
    unfold updateHighlightAt at h
    obtain ⟨row, _, h⟩ := bind_eq_ok h
    obtain ⟨⟨row1, changed⟩, _, h⟩ := bind_eq_ok h
    dsimp only at h
    split at h
    · split at h
      · have := ih _ e1 _ h
        simpa using this
      · cases h
    · cases h
      simp

theorem updateRow_length (L : Lib) (e e1 : Editor) (p : Nat) (h : updateRow L e p = .ok e1) :
    e1.Rows.length = e.Rows.length := by
  unfold updateRow at h
  obtain ⟨row, _, h⟩ := bind_eq_ok h
  obtain ⟨render, _, h⟩ := bind_eq_ok h
  have := updateHighlightAt_length L _ _ e1 _ h
  simpa using this

theorem updateHighlightNew_fields (L : Lib) (e e1 : Editor) (row row1 : Row)
    (h : updateHighlightNew L e row = .ok (row1, e1)) : e1 = { e with Rows := e1.Rows } := by
  unfold updateHighlightNew at h
  obtain ⟨⟨r1, changed⟩, _, h⟩ := bind_eq_ok h
  dsimp only at h
  split at h
  · split at h
    · obtain ⟨e2, hu, h⟩ := bind_eq_ok h
      cases h
      exact updateHighlightAt_fields L _ e e1 _ hu
    · cases h
  · cases h
    rfl

theorem updateRow_fields (L : Lib) (e e1 : Editor) (p : Nat) (h : updateRow L e p = .ok e1) :
    e1 = { e with Rows := e1.Rows } := by
  unfold updateRow at h
  obtain ⟨row, _, h⟩ := bind_eq_ok h
  obtain ⟨render, _, h⟩ := bind_eq_ok h
  have := updateHighlightAt_fields L _ _ e1 _ h
  rw [this]

theorem InsertRow_fields (L : Lib) (e e1 : Editor) (i : Int) (chars : Str)
    (h : InsertRow L e i chars = .ok e1) : e1 = { e with Rows := e1.Rows } := by
  unfold InsertRow at h
  split at h
  · cases h; rfl
  · obtain ⟨flag, _, h⟩ := bind_eq_ok h
    obtain ⟨⟨row, e2⟩, hu, h⟩ := bind_eq_ok h
    unfold updateRowNew at hu
    obtain ⟨render, _, hu⟩ := bind_eq_ok hu
    cases h
    have := updateHighlightNew_fields L e e2 _ row hu
    rw [this]

theorem InsertNewline_fields (L : Lib) (e e1 : Editor) (h : InsertNewline L e = .ok e1) :
    e1 = { e with Rows := e1.Rows, cx := 0, cy := e.cy + 1, dirty := e.dirty + 1 } := by
  unfold InsertNewline at h
  dsimp only at h
  split at h
  · obtain ⟨e3, h3, h⟩ := bind_eq_ok h
    cases h
    have := InsertRow_fields L _ e3 _ _ h3
    rw [this]
  · obtain ⟨row, _, h⟩ := bind_eq_ok h
    split at h
    · obtain ⟨_, ht, _⟩ := bind_eq_ok h
      cases ht
    · obtain ⟨_, _, h⟩ := bind_eq_ok h
      obtain ⟨e1', hi, h⟩ := bind_eq_ok h
      obtain ⟨row1, _, h⟩ := bind_eq_ok h
      obtain ⟨e3, hu, h⟩ := bind_eq_ok h
      cases h
      have h1 := InsertRow_fields L _ e1' _ _ hi
      have h2 := updateRow_fields L _ e3 _ hu
      rw [h2, h1]

theorem InsertChar_fields (L : Lib) (e e1 : Editor) (c : Char) (h : InsertChar L e c = .ok e1) :
    e1 = { e with Rows := e1.Rows, cx := e.cx + 1, dirty := e.dirty + 1 } := by
  unfold InsertChar at h
  dsimp only at h
  have key : ∀ e0 : Editor, e0 = { e with Rows := e0.Rows } →
      ∀ e3, updateRow L e0 e0.cy.toNat = .ok e3 →
        ({ e3 with cx := e3.cx + 1, dirty := e3.dirty + 1 } : Editor) =
          { e with Rows := e3.Rows, cx := e.cx + 1, dirty := e.dirty + 1 } := by
    intro e0 h0 e3 hu
    have h2 := updateRow_fields L _ e3 _ hu
    rw [h2, h0]
  split at h
  · obtain ⟨e0, h0, h⟩ := bind_eq_ok h
    obtain ⟨row, _, h⟩ := bind_eq_ok h
    obtain ⟨e3, hu, h⟩ := bind_eq_ok h
    cases h
    have h1 := InsertRow_fields L e e0 _ _ h0
    exact key _ (by rw [h1]) e3 hu
  · obtain ⟨e0, h0, h⟩ := bind_eq_ok h
    cases h0
    obtain ⟨row, _, h⟩ := bind_eq_ok h
    obtain ⟨e3, hu, h⟩ := bind_eq_ok h
    cases h
    exact key _ rfl e3 hu

theorem DeleteRow_fields (e : Editor) (i : Int) :
    DeleteRow e i = e ∨
      DeleteRow e i = { e with Rows := (DeleteRow e i).Rows, dirty := e.dirty + 1 } := by
  unfold DeleteRow
  split
  · exact Or.inl rfl
  · exact Or.inr rfl

theorem DeleteChar_fields (L : Lib) (e e1 : Editor) (h : DeleteChar L e = .ok e1) :
    e1 = e ∨ e1 = { e with Rows := e1.Rows, cx := e1.cx, cy := e1.cy, dirty := e.dirty + 1 } := by
  unfold DeleteChar at h
  split at h
  · cases h; exact Or.inl rfl
  split at h
  · cases h; exact Or.inl rfl
  obtain ⟨row, hx, h⟩ := bind_eq_ok h
  split at h
  · obtain ⟨e2, hu, h⟩ := bind_eq_ok h
    cases h
    have h2 := updateRow_fields L _ e2 _ hu
    right
    rw [h2]
  · obtain ⟨prevRow, hp, h⟩ := bind_eq_ok h
    obtain ⟨e2, hu, h⟩ := bind_eq_ok h
    cases h
    have h2 := updateRow_fields L _ e2 _ hu
    have hlen : e2.Rows.length = e.Rows.length := by
      have := updateRow_length L _ e2 _ hu
      simpa using this
    have hcy : e2.cy = e.cy := by rw [h2]
    obtain ⟨_, hget⟩ := index_eq_ok hx
    have hlt := getElem?_lt hget
    right
    unfold DeleteRow
    rw [if_neg (by rw [hcy, hlen]; omega)]
    dsimp only
    rw [h2]

theorem clampCx_fields (e e1 : Editor) (h : clampCx e = .ok e1) :
    e1 = { e with cx := e1.cx } := by
  unfold clampCx at h
  dsimp only at h
  split at h
  · obtain ⟨linelen, _, h⟩ := bind_eq_ok h
    cases h
    split <;> rfl
  · obtain ⟨linelen, _, h⟩ := bind_eq_ok h
    cases h
    split <;> rfl

theorem MoveCursor_fields (e e1 : Editor) (k : Key) (h : MoveCursor e k = .ok e1) :
    e1 = { e with cx := e1.cx, cy := e1.cy } := by
  have key : ∀ e0 : Editor, e0 = { e with cx := e0.cx, cy := e0.cy } → clampCx e0 = .ok e1 →
      e1 = { e with cx := e1.cx, cy := e1.cy } := by
    intro e0 h0 hc
    have := clampCx_fields e0 e1 hc
    rw [this, h0]
  unfold MoveCursor at h
  split at h
  · split at h
    · exact key _ rfl h
    · exact key _ rfl h
  split at h
  · split at h
    · exact key _ rfl h
    · exact key _ rfl h
  split at h
  · split at h
    · exact key _ rfl h
    · split at h
      · obtain ⟨r, _, h⟩ := bind_eq_ok h
        exact key _ rfl h
      · exact key _ rfl h
  split at h
  · dsimp only at h
    split at h
    · obtain ⟨linelen, _, h⟩ := bind_eq_ok h
      split at h
      · exact key _ rfl h
      · split at h
        · exact key _ rfl h
        · exact key _ rfl h
    · obtain ⟨linelen, _, h⟩ := bind_eq_ok h
      split at h
      · exact key _ rfl h
      · split at h
        · exact key _ rfl h
        · exact key _ rfl h
  · exact key _ rfl h

theorem jumpLoop_fields (k : Key) : ∀ (target : List Row) (e e1 : Editor),
    jumpLoop k target e = .ok e1 → e1 = { e with cx := e1.cx, cy := e1.cy } := by
  intro target
  induction target with
  | nil => intro e e1 h; cases h; rfl
  | cons rowFinder rest ih =>
    intro e e1 h
    unfold jumpLoop at h
    obtain ⟨e0, hm, h⟩ := bind_eq_ok h
    have h0 := MoveCursor_fields e e0 k hm
    split at h
    · cases h
      exact h0
    · have := ih e0 e1 h
      rw [this, h0]

theorem JumpParagraph_fields (e e1 : Editor) (k : Key) (h : JumpParagraph e k = .ok e1) :
    e1 = { e with cx := e1.cx, cy := e1.cy } := by
  unfold JumpParagraph at h
  dsimp only at h
  split at h
  · cases h; rfl
  split at h
  · split at h
    · exact jumpLoop_fields k _ e e1 h
    · cases h
  split at h
  · split at h
    · exact jumpLoop_fields k _ e e1 h
    · cases h
  · cases h; rfl

theorem SetMode_fields (e e1 : Editor) (mode : Mode) (h : SetMode e mode = .ok e1) :
    e1 = { e with mode := mode, statusmsg := mode.StatusMessage, undoPath := e1.undoPath } := by
  unfold SetMode at h
  dsimp only at h
  split at h
  · obtain ⟨newRow, _, h⟩ := bind_eq_ok h
    cases h
    rfl
  · cases h
    rfl

theorem Undo_fields (e e1 : Editor) (h : Undo e = .ok e1) :
    e1 = { e with Rows := e1.Rows, undoPath := e1.undoPath, statusmsg := e1.statusmsg } := by
  unfold Undo at h
  split at h
  · cases h; rfl
  · dsimp only at h
    split at h
    · obtain ⟨rows, _, h⟩ := bind_eq_ok h
      cases h; rfl
    · obtain ⟨rows, _, h⟩ := bind_eq_ok h
      cases h; rfl
    · obtain ⟨_, _, h⟩ := bind_eq_ok h
      obtain ⟨rows, _, h⟩ := bind_eq_ok h
      cases h; rfl

theorem CutRow_fields (e e1 : Editor) (h : CutRow e = .ok e1) :
    e1 = { e with Rows := e1.Rows, undoPath := e1.undoPath, yankRegister := e1.yankRegister,
                  dirty := e.dirty + 1 } := by
  unfold CutRow at h
  obtain ⟨row, _, h⟩ := bind_eq_ok h
  cases h; rfl

theorem YankRow_fields (e e1 : Editor) (h : YankRow e = .ok e1) :
    e1 = { e with yankRegister := e1.yankRegister, dirty := e.dirty + 1 } := by
  unfold YankRow at h
  obtain ⟨row, _, h⟩ := bind_eq_ok h
  cases h; rfl

theorem PasteRow_fields (L : Lib) (e e1 : Editor) (i : Int) (h : PasteRow L e i = .ok e1) :
    e1 = { e with Rows := e1.Rows, undoPath := e1.undoPath, yankRegister := [],
                  dirty := e.dirty + 1 } := by
  unfold PasteRow at h
  obtain ⟨_, _, h⟩ := bind_eq_ok h
  obtain ⟨e2, hi, h⟩ := bind_eq_ok h
  cases h
  have := InsertRow_fields L _ e2 _ _ hi
  rw [this]

theorem scrollWindow_fields (e : Editor) :
    scrollWindow e = { e with rowOffset := (scrollWindow e).rowOffset,
                              colOffset := (scrollWindow e).colOffset } := by
  unfold scrollWindow
  dsimp only
  split_ifs <;> rfl

theorem scroll_fields (L : Lib) (e e1 : Editor) (h : scroll L e = .ok e1) :
    e1 = { e with rx := e1.rx, rowOffset := e1.rowOffset, colOffset := e1.colOffset } := by
  unfold scroll at h
  dsimp only at h
  split at h
  · obtain ⟨row, _, h⟩ := bind_eq_ok h
    obtain ⟨rx, _, h⟩ := bind_eq_ok h
    obtain ⟨e0, h0, h⟩ := bind_eq_ok h
    cases h0
    cases h
    rw [scrollWindow_fields]
  · obtain ⟨e0, h0, h⟩ := bind_eq_ok h
    cases h0
    cases h
    rw [scrollWindow_fields]

/-- Whether `scroll` returns depends on the cursor, the rows and the profile only. -/
theorem scroll_ok_congr (L : Lib) (e e' : Editor) (hx : e'.cx = e.cx) (hy : e'.cy = e.cy)
    (hr : e'.Rows = e.Rows) (hs : e'.syn = e.syn) (h : ∃ a, scroll L e = .ok a) :
    ∃ a, scroll L e' = .ok a := by
  obtain ⟨a, h⟩ := h
  unfold scroll at h ⊢
  dsimp only at h ⊢
  rw [hy, hr, hx]
  by_cases hlt : e.cy < e.Rows.length
  · rw [if_pos hlt] at h ⊢
    obtain ⟨row, hrow, h⟩ := bind_eq_ok h
    obtain ⟨rx, hrx, h⟩ := bind_eq_ok h
    have hrx' : rowCxToRx L { e' with cx := e.cx, cy := e.cy, Rows := e.Rows, rx := 0 } row e.cx
        = .ok rx := by
      unfold rowCxToRx at hrx ⊢
      dsimp only at hrx ⊢
      rw [hs]
      exact hrx
    rw [hrow]
    simp only [Bind.bind, Except.bind]
    rw [hrx']
    exact ⟨_, rfl⟩
  · rw [if_neg hlt]
    exact ⟨_, rfl⟩

/-! ## Escape at the command prompt -/

/-- The prompt without a callback, on keys that hold neither Escape nor Enter and are
followed by Escape: when `scroll` returns on the editor, the prompt reads all of them
and returns the cancellation error; the status message is emptied, `scroll` has set
`rx` and the offsets, and nothing else has changed. -/
theorem Prompt_escape (L : Lib) (U : Unicode) (pre post : Str) (rest : List Key) :
    ∀ (ks : List Key) (b : Str) (e : Editor), (27 : Key) ∉ ks → KeyEnter ∉ ks →
      (∃ a, scroll L e = .ok a) →
      ∃ e1, Prompt L U pre post (none : Option (PromptCb Unit)) (ks ++ 27 :: rest) b e ()
          = .ok (e1, (), [], some .ErrPromptCanceled, rest) ∧
        e1 = { e with statusmsg := [], rx := e1.rx, rowOffset := e1.rowOffset,
                      colOffset := e1.colOffset } := by
  intro ks
  induction ks with
  | nil =>
    intro b e _ _ hs
    obtain ⟨e0, h0⟩ := scroll_ok_congr L e (SetStatusMessage e (pre ++ b ++ post))
      rfl rfl rfl rfl hs
    have hf := scroll_fields L _ e0 h0
    refine ⟨SetStatusMessage e0 [], ?_, ?_⟩
    · simp only [List.nil_append, Prompt, h0, Bind.bind, Except.bind, callCb, pure, Except.pure]
      rfl
    · rw [hf]
      rfl
  | cons k ks ih =>
    intro b e h27 hent hs
    have hk27 : k ≠ 27 := fun hc => h27 (by rw [hc]; exact List.mem_cons_self _ _)
    have hkent : k ≠ KeyEnter := fun hc => hent (by rw [hc]; exact List.mem_cons_self _ _)
    have h27' : (27 : Key) ∉ ks := fun hc => h27 (List.mem_cons_of_mem _ hc)
    have hent' : KeyEnter ∉ ks := fun hc => hent (List.mem_cons_of_mem _ hc)
    obtain ⟨e0, h0⟩ := scroll_ok_congr L e (SetStatusMessage e (pre ++ b ++ post))
      rfl rfl rfl rfl hs
    have hf := scroll_fields L _ e0 h0
    have hs0 : ∃ a, scroll L e0 = .ok a :=
      scroll_ok_congr L e e0 (by rw [hf]; rfl) (by rw [hf]; rfl) (by rw [hf]; rfl)
        (by rw [hf]; rfl) hs
    have step : ∀ b1, ∃ e1, Prompt L U pre post (none : Option (PromptCb Unit))
          (ks ++ 27 :: rest) b1 e0 () = .ok (e1, (), [], some .ErrPromptCanceled, rest) ∧
        e1 = { e with statusmsg := [], rx := e1.rx, rowOffset := e1.rowOffset,
                      colOffset := e1.colOffset } := by
      intro b1
      obtain ⟨e1, h1, h2⟩ := ih b1 e0 h27' hent' hs0
      refine ⟨e1, h1, ?_⟩
      rw [h2, hf]
      rfl
    simp only [List.cons_append, Prompt, h0, Bind.bind, Except.bind, callCb]
    split
    · exact step _
    · exact step _

/-- Escape at the command prompt: for every state on which `scroll` returns and every
keys without Escape and Enter typed before it, `ProcessKeyCommandMode` returns the
cancellation error of `Prompt`; the rows and the mode are as before. -/
theorem ProcessKeyCommandMode_escape (L : Lib) (U : Unicode) (save : SaveFn) (ks : List Key)
    (e : Editor) (h27 : (27 : Key) ∉ ks) (hent : KeyEnter ∉ ks) (hs : ∃ a, scroll L e = .ok a) :
    ∃ e1, ProcessKeyCommandMode L U save (ks ++ [27]) e = .ok (e1, some .ErrPromptCanceled) ∧
      e1.Rows = e.Rows ∧ e1.mode = e.mode ∧ e1.command = [] := by
  obtain ⟨e1, h1, h2⟩ := Prompt_escape L U ":".toList [] [] ks [] e h27 hent hs
  refine ⟨{ e1 with command := [] }, ?_, ?_, ?_, rfl⟩
  · unfold ProcessKeyCommandMode
    rw [h1]
    rfl
  · rw [h2]
  · rw [h2]

/-- C21 (as stated, fails).  On the document `["a","b","c"]` the key `:` in Normal mode
puts the editor in Command mode; there Escape, typed at once or after `w`, makes
`ProcessKeyCommandMode` return the cancellation error of `Prompt`, which the loop of
`main` hands to `Die`, and the mode is still Command mode. -/
theorem command_prompt_escape_returns_error (L : Lib) (U : Unicode) (find : FindFn)
    (save : SaveFn) :
    ProcessKeyNormalMode L find exAbc ModeKeyCol = .ok (exColon, none) ∧
    ProcessKeyCommandMode L U save [EscKey] exColon = .ok (exColon, some .ErrPromptCanceled) ∧
    ProcessKeyCommandMode L stdUnicode save [119, EscKey] exColon
      = .ok (exColon, some .ErrPromptCanceled) ∧
    loopAction (some .ErrPromptCanceled) = .die .ErrPromptCanceled ∧
    exColon.mode = CommandMode ∧ CommandMode ≠ NormalMode :=
  ⟨rfl, rfl, rfl, rfl, rfl, by decide⟩

/-! ## Commands: `syntax` and `wq` -/

/-- C22 (as stated, fails).  For every editor state, the command `syntax` without an
argument makes `ExecuteCommand` read `commandParts[1]` of a slice of length 1: the
index is out of range.  So it is when the command is typed at the prompt, with the keys
`s y n t a x` and Enter. -/
theorem syntax_command_without_argument (L : Lib) (save : SaveFn) (e : Editor) :
    ExecuteCommand L save { e with command := "syntax".toList } = .error .indexOutOfRange ∧
    "syntax".toList.splitOn ' ' = ["syntax".toList] ∧
    ProcessKeyCommandMode L stdUnicode save [115, 121, 110, 116, 97, 120, KeyEnter] exColon
      = .error .indexOutOfRange := by
  refine ⟨rfl, by decide, rfl⟩

/-- `strings.Split` returns at least one part. -/
theorem splitOn_head (s : Str) : ∃ word rest, s.splitOn ' ' = word :: rest := by
  cases h : s.splitOn ' ' with
  | nil => exact absurd h (List.splitOnP_ne_nil _ s)
  | cons w r => exact ⟨w, r, rfl⟩

/-- A command whose first word is none of `w`, `q`, `q!`, `wq`, `syntax`: for every
state `ExecuteCommand` returns `nil`, the mode is Normal, the status message is the
unknown-command text, the command is emptied and nothing else changes. -/
theorem ExecuteCommand_unknown (L : Lib) (save : SaveFn) (e : Editor) (word : Str)
    (rest : List Str) (hw : e.command.splitOn ' ' = word :: rest)
    (h : word ∉ ["w".toList, "q".toList, "q!".toList, "wq".toList, "syntax".toList]) :
    ExecuteCommand L save e =
      .ok ({ e with mode := NormalMode, statusmsg := "unknown command".toList, command := [] },
        none) := by
  simp only [List.mem_cons, List.mem_singleton, List.not_mem_nil, or_false, not_or] at h
  obtain ⟨h1, h2, h3, h4, h5⟩ := h
  unfold ExecuteCommand
  rw [hw]
  have hm : SetMode e NormalMode
      = .ok { e with mode := NormalMode, statusmsg := "-- NORMAL --".toList } := rfl
  simp only [hm, index, Bind.bind, Except.bind]
  simp only [le_refl, if_true, Int.toNat_zero, List.getElem?_cons_zero]
  rw [if_neg h1, if_neg h2, if_neg h3, if_neg h4, if_neg h5]
  rfl

/-- The command `wq`, for every `Save`: when `Save` returns an error, `ExecuteCommand`
puts the error into the status message and returns `ErrQuitEditor` all the same. -/
theorem wq_returns_quit (L : Lib) (save : SaveFn) (e e2 : Editor) (n : Int)
    (err : Option GoError) (hc : e.command = "wq".toList)
    (hs : save { e with mode := NormalMode, statusmsg := "-- NORMAL --".toList } []
      = .ok (e2, n, err)) :
    ExecuteCommand L save e = .ok (SetStatusMessage e2 (saveMessage n err), some .ErrQuitEditor) := by
  unfold ExecuteCommand
  rw [hc]
  have hm : SetMode e NormalMode
      = .ok { e with mode := NormalMode, statusmsg := "-- NORMAL --".toList } := rfl
  have hsp : "wq".toList.splitOn ' ' = ["wq".toList] := by decide
  simp only [hm, hsp, index, Bind.bind, Except.bind]
  simp only [le_refl, if_true, Int.toNat_zero, List.getElem?_cons_zero]
  rw [hs]
  rfl

/-- C23 (as stated, fails).  On the document `["a","b","c"]` with unsaved changes and no
file name, the command `wq` opens the Save-as prompt; Escape there makes `Save` return
the cancellation error; `ExecuteCommand` sets the status message `Save aborted` and
returns `ErrQuitEditor`, on which the loop of `main` ends: the changes are lost.  So it
is when the command is typed at the prompt, with the keys `w q` and Enter, and when the
file cannot be opened. -/
theorem wq_quits_after_failed_save (L : Lib) (U : Unicode) (write : WriteFn) :
    ExecuteCommand L (Save L U write [EscKey]) { exAbc with command := "wq".toList, dirty := 1 }
      = .ok ({ exAbc with dirty := 1, command := "wq".toList,
                          statusmsg := "Save aborted".toList }, some .ErrQuitEditor) ∧
    ProcessKeyCommandMode L stdUnicode (Save L U write [EscKey]) [119, 113, KeyEnter]
        { exColon with dirty := 1 }
      = .ok ({ exAbc with dirty := 1, command := "wq".toList,
                          statusmsg := "Save aborted".toList }, some .ErrQuitEditor) ∧
    ExecuteCommand L (Save L U writeDenied [])
        { exAbc with command := "wq".toList, dirty := 1, filename := "f".toList }
      = .ok ({ exAbc with dirty := 1, command := "wq".toList, filename := "f".toList,
                          statusmsg := "Can't save! I/O error: permission denied".toList },
          some .ErrQuitEditor) ∧
    loopAction (some .ErrQuitEditor) = .quit :=
  ⟨rfl, rfl, rfl, rfl⟩

/-- The loop that highlights every row again returns on a document with contiguous
indices, without a profile or under one on which the scan cannot fail; it changes the
highlight classes and the flags only. -/
theorem highlightAll_ok (L : Lib) : ∀ (n pos : Nat) (e : Editor),
    (∀ sx, e.syn = some sx → ProfileOK sx) → Contiguous e.Rows → pos + n ≤ e.Rows.length →
    ∃ e1, highlightAll L n pos e = .ok e1 ∧ e1 = { e with Rows := e1.Rows } ∧
      e1.Rows.map Row.text = e.Rows.map Row.text := by
  intro n
  induction n with
  | zero => intro pos e _ _ _; exact ⟨e, rfl, rfl, rfl⟩
  | succ n ih =>
    intro pos e hp hc hlen
    obtain ⟨e0, h0⟩ := updateHighlightAt_ok L e.syn hp (e.Rows.length + 1) e pos rfl hc
      (by omega) (by omega)
    obtain ⟨hf, ht, _, _⟩ := updateHighlightAt_frame L _ e e0 pos hc h0
    have hc0 : Contiguous e0.Rows := contiguous_of_text e.Rows e0.Rows ht hc
    have hl0 : e0.Rows.length = e.Rows.length := updateHighlightAt_length L _ e e0 pos h0
    have hs0 : e0.syn = e.syn := by rw [hf]
    obtain ⟨e1, h1, hf1, ht1⟩ := ih (pos + 1) e0 (by rw [hs0]; exact hp) hc0
      (by rw [hl0]; omega)
    refine ⟨e1, ?_, ?_, ht1.trans ht⟩
    · unfold highlightAll
      unfold updateHighlight
      rw [h0]
      exact h1
    · rw [hf1, hf]

/-- The loop over the profiles of the command `syntax`, when the command has an
argument: it returns on a document with contiguous indices. -/
theorem selectByName_ok (L : Lib) (word arg : Str) (rest : List Str) :
    ∀ (profiles : List EditorSyntax) (e : Editor), (∀ sx ∈ profiles, ProfileOK sx) →
      (∀ sx, e.syn = some sx → ProfileOK sx) → Contiguous e.Rows →
      ∃ e1, selectByName L (word :: arg :: rest) profiles e = .ok e1 ∧
        e1 = { e with Rows := e1.Rows, syn := e1.syn } ∧
        e1.Rows.map Row.text = e.Rows.map Row.text := by
  intro profiles
  induction profiles with
  | nil => intro e _ _ _; exact ⟨e, rfl, rfl, rfl⟩
  | cons sx ps ih =>
    intro e hps hp hc
    have hix : index (word :: arg :: rest) 1 = .ok arg := by simp [index]
    unfold selectByName
    rw [hix]
    simp only [Bind.bind, Except.bind]
    by_cases hm : sx.Filetype = arg
    · rw [if_pos hm]
      obtain ⟨e0, h0, hf0, ht0⟩ := highlightAll_ok L e.Rows.length 0 { e with syn := some sx }
        (by
          intro sx' hs
          cases hs
          exact hps sx (List.mem_cons_self _ _)) hc (by simp)
      have hc0 : Contiguous e0.Rows := contiguous_of_text _ e0.Rows ht0 hc
      have hs0 : e0.syn = some sx := by rw [hf0]
      obtain ⟨e1, h1, hf1, ht1⟩ := ih e0 (fun s hs => hps s (List.mem_cons_of_mem _ hs))
        (by
          intro sx' hs
          rw [hs0] at hs
          cases hs
          exact hps sx (List.mem_cons_self _ _)) hc0
      refine ⟨e1, ?_, ?_, ht1.trans ht0⟩
      · rw [h0]
        exact h1
      · rw [hf1, hf0]
    · rw [if_neg hm]
      simp only [pure, Except.pure]
      exact ih e (fun s hs => hps s (List.mem_cons_of_mem _ hs)) hp hc

/-- The command `syntax` with an argument, on a document with contiguous indices and
without a profile or under a built-in one: `ExecuteCommand` returns `nil`, the mode is
Normal, and the text of every row is as before. -/
theorem ExecuteCommand_syntax_arg (L : Lib) (save : SaveFn) (e : Editor) (arg : Str)
    (rest : List Str) (hw : e.command.splitOn ' ' = "syntax".toList :: arg :: rest)
    (hp : ∀ sx, e.syn = some sx → sx ∈ HLDB) (hc : Contiguous e.Rows) :
    ∃ e1, ExecuteCommand L save e = .ok (e1, none) ∧ e1.mode = NormalMode ∧
      e1.Rows.map Row.text = e.Rows.map Row.text := by
  obtain ⟨e2, h2, hf2, ht2⟩ := selectByName_ok L "syntax".toList arg rest HLDB
    { e with mode := NormalMode, statusmsg := "-- NORMAL --".toList } HLDB_ok
    (fun sx hs => HLDB_ok sx (hp sx hs)) hc
  refine ⟨{ e2 with command := [] }, ?_, ?_, ht2⟩
  · unfold ExecuteCommand
    rw [hw]
    have hm : SetMode e NormalMode
        = .ok { e with mode := NormalMode, statusmsg := "-- NORMAL --".toList } := rfl
    simp only [hm, index, Bind.bind, Except.bind]
    simp only [le_refl, if_true, Int.toNat_zero, List.getElem?_cons_zero]
    rw [h2]
    rfl
  · show e2.mode = NormalMode
    rw [hf2]

/-! ## Cancelling a search -/

theorem markN_length : ∀ (n idx : Nat) (hl : List Nat) (v i : Nat) (hl1 : List Nat),
    markN n idx hl v = .ok (i, hl1) → hl1.length = hl.length := by
  intro n
  induction n with
  | zero => intro idx hl v i hl1 h; cases h; rfl
  | succ n ih =>
    intro idx hl v i hl1 h
    unfold markN at h
    obtain ⟨hl0, h0, h⟩ := bind_eq_ok h
    unfold hlSet at h0
    split at h0
    · cases h0
      have := ih _ _ _ _ _ h
      simpa using this
    · cases h0

/-- The two ways the search loop returns: nothing found and nothing changed, or the
cursor on a row `c` whose classes are marked, with the classes it had saved. -/
theorem searchLoop_shape (L : Lib) (query : Str) (d : Int) :
    ∀ (n : Nat) (current : Int) (e e1 : Editor) (st st1 : FindState),
      searchLoop L query d n current e st = .ok (e1, st1) →
      (e1 = e ∧ st1 = st) ∨
      ∃ (c : Int) (row : Row) (cx : Int) (hl1 : List Nat), 0 ≤ c ∧
        e.Rows[c.toNat]? = some row ∧ hl1.length = row.hl.length ∧
        e1 = { e with cy := c, cx := cx, rowOffset := e.Rows.length,
                      Rows := e.Rows.set c.toNat { row with hl := hl1 } } ∧
        st1 = { st with lastMatchRowIndex := c, savedHlRowIndex := c, savedHl := row.hl } := by
  intro n
  induction n with
  | zero => intro current e e1 st st1 h; cases h; exact Or.inl ⟨rfl, rfl⟩
  | succ n ih =>
    intro current e e1 st st1 h
    unfold searchLoop at h
    dsimp only at h
    obtain ⟨row, hrow, h⟩ := bind_eq_ok h
    split at h
    · obtain ⟨cx, _, h⟩ := bind_eq_ok h
      obtain ⟨⟨i, hl1⟩, hm, h⟩ := bind_eq_ok h
      cases h
      obtain ⟨h0, hget⟩ := index_eq_ok hrow
      exact Or.inr ⟨_, row, cx, hl1, h0, hget, markN_length _ _ _ _ _ _ hm, rfl, rfl⟩
    · exact ih _ e e1 st st1 h

theorem copySlice_same_length {α : Type} (dst src : List α) (h : dst.length = src.length) :
    copySlice dst src = src := by
  unfold copySlice
  rw [h, List.take_length, List.drop_eq_nil_of_le (by omega)]
  simp

/-- The search step keeps the rows as they will be once the saved classes are copied
back. -/
theorem searchStep_restorable (L : Lib) (query : Str) (e e1 : Editor) (st st1 : FindState)
    (hs : st.savedHl = []) (h : searchStep L query e st = .ok (e1, st1)) :
    restoreHl e1.Rows st1 = .ok e.Rows ∧
    e1 = { e with cy := e1.cy, cx := e1.cx, rowOffset := e1.rowOffset, Rows := e1.Rows } := by
  unfold searchStep at h
  dsimp only at h
  rcases searchLoop_shape L query _ _ _ e e1 _ st1 h with
    ⟨h1, h2⟩ | ⟨c, row, cx, hl1, h0, hget, hlen, h1, h2⟩
  · subst h1 h2
    exact ⟨by simp [restoreHl, hs, pure, Except.pure], rfl⟩
  · subst h1 h2
    refine ⟨?_, rfl⟩
    have hlt := getElem?_lt hget
    unfold restoreHl
    dsimp only
    by_cases hz : row.hl.length > 0
    · rw [if_pos hz]
      have hix : index (e.Rows.set c.toNat { row with hl := hl1 }) c
          = .ok { row with hl := hl1 } := by
        unfold index
        rw [if_pos h0]
        simp [hlt]
      rw [hix]
      simp only [Bind.bind, Except.bind, pure, Except.pure, List.set_set]
      rw [copySlice_same_length _ _ hlen]
      congr 1
      exact set_same e.Rows c.toNat row hget
    · rw [if_neg hz]
      have hnil : row.hl = [] := List.length_eq_zero.mp (by omega)
      have hnil1 : hl1 = [] := List.length_eq_zero.mp (by rw [hlen, hnil]; rfl)
      simp only [pure, Except.pure]
      congr 1
      rw [hnil1, ← hnil]
      exact set_same e.Rows c.toNat row hget

/-- The first step of `onKeyPress` is the copy of the saved classes: with the rows
`rows` after it, the call continues from those rows with nothing saved. -/
theorem onKeyPress_eq (L : Lib) (query : Str) (k : Key) (e : Editor) (st : FindState)
    (rows : List Row) (hr : restoreHl e.Rows st = .ok rows) :
    onKeyPress L query k e st =
      if k = KeyEnter ∨ k = 27 then
        .ok ({ e with Rows := rows },
          { st with savedHl := [], lastMatchRowIndex := -1, searchDirection := 1 })
      else if k = KeyArrowRight ∨ k = KeyArrowDown then
        searchStep L query { e with Rows := rows } { st with savedHl := [], searchDirection := 1 }
      else if k = KeyArrowLeft ∨ k = KeyArrowUp then
        searchStep L query { e with Rows := rows } { st with savedHl := [], searchDirection := -1 }
      else searchStep L query { e with Rows := rows }
        { st with savedHl := [], lastMatchRowIndex := -1, searchDirection := 1 } := by
  unfold onKeyPress
  unfold restoreHl at hr
  dsimp only
  by_cases hz : st.savedHl.length > 0
  · rw [if_pos hz] at hr ⊢
    obtain ⟨row, hrow, hr⟩ := bind_eq_ok hr
    cases hr
    rw [hrow]
    rfl
  · rw [if_neg hz] at hr ⊢
    cases hr
    have hnil : st.savedHl = [] := List.length_eq_zero.mp (by omega)
    simp only [Bind.bind, Except.bind, pure, Except.pure, hnil]

/-- Every call of `onKeyPress` first copies the saved classes back: when the rows are
`rows` after that copy, they are `rows` again after the copy that the next call will
make, and when the key is Enter or Escape they are `rows` at once. -/
theorem onKeyPress_restorable (L : Lib) (query : Str) (k : Key) (e e1 : Editor)
    (st st1 : FindState) (rows : List Row) (hr : restoreHl e.Rows st = .ok rows)
    (h : onKeyPress L query k e st = .ok (e1, st1)) :
    restoreHl e1.Rows st1 = .ok rows ∧
    e1 = { e with cy := e1.cy, cx := e1.cx, rowOffset := e1.rowOffset, Rows := e1.Rows } ∧
    (k = KeyEnter ∨ k = 27 → e1.Rows = rows ∧ e1.cx = e.cx ∧ e1.cy = e.cy ∧
      e1.rowOffset = e.rowOffset) := by
  rw [onKeyPress_eq L query k e st rows hr] at h
  have key : ∀ st', st'.savedHl = [] →
      searchStep L query { e with Rows := rows } st' = .ok (e1, st1) →
      restoreHl e1.Rows st1 = .ok rows ∧
      e1 = { e with cy := e1.cy, cx := e1.cx, rowOffset := e1.rowOffset, Rows := e1.Rows } := by
    intro st' hs' hstep
    obtain ⟨h1, h2⟩ := searchStep_restorable L query _ e1 st' st1 hs' hstep
    refine ⟨h1, ?_⟩
    rw [h2]
  split at h
  · cases h
    exact ⟨by simp [restoreHl, pure, Except.pure], rfl, fun _ => ⟨rfl, rfl, rfl, rfl⟩⟩
  · rename_i hk
    split at h
    · obtain ⟨h1, h2⟩ := key _ rfl h
      exact ⟨h1, h2, fun hc => absurd hc hk⟩
    · split at h
      · obtain ⟨h1, h2⟩ := key _ rfl h
        exact ⟨h1, h2, fun hc => absurd hc hk⟩
      · obtain ⟨h1, h2⟩ := key _ rfl h
        exact ⟨h1, h2, fun hc => absurd hc hk⟩

/-- An invariant of the loop of `Prompt`: a property that `scroll`, the status message
and every call of the callback keep holds when `Prompt` returns, in the form `Q` that
the call for Enter or Escape gives it. -/
theorem Prompt_inv {σ : Type} (L : Lib) (U : Unicode) (pre post : Str)
    (cb : Option (PromptCb σ)) (P Q : Editor → σ → Prop)
    (hscroll : ∀ e s msg e1, P e s → scroll L (SetStatusMessage e msg) = .ok e1 → P e1 s)
    (hmsg : ∀ e s, P e s → P (SetStatusMessage e []) s)
    (hcb : ∀ b k e s e1 s1, P e s → callCb cb b k e s = .ok (e1, s1) → P e1 s1)
    (hfin : ∀ b k e s e1 s1, k = KeyEnter ∨ k = 27 → P e s →
      callCb cb b k e s = .ok (e1, s1) → Q e1 s1) :
    ∀ (keys : List Key) (b : Str) (e : Editor) (s : σ) (e1 : Editor) (s1 : σ) (str : Str)
      (err : Option GoError) (rest : List Key), P e s →
      Prompt L U pre post cb keys b e s = .ok (e1, s1, str, err, rest) → Q e1 s1 := by
  intro keys
  induction keys with
  | nil =>
    intro b e s e1 s1 str err rest _ h
    unfold Prompt at h
    obtain ⟨_, _, h⟩ := bind_eq_ok h
    cases h
  | cons k ks ih =>
    intro b e s e1 s1 str err rest hP h
    unfold Prompt at h
    obtain ⟨e0, hsc, h⟩ := bind_eq_ok h
    have hP0 := hscroll e s _ e0 hP hsc
    split at h
    · dsimp only at h
      obtain ⟨⟨e2, s2⟩, hc, h⟩ := bind_eq_ok h
      exact ih _ e2 s2 e1 s1 str err rest (hcb _ _ _ _ _ _ hP0 hc) h
    split at h
    · rename_i hk
      obtain ⟨⟨e2, s2⟩, hc, h⟩ := bind_eq_ok h
      cases h
      exact hfin _ _ _ _ _ _ (Or.inr hk) (hmsg _ _ hP0) hc
    split at h
    · rename_i hk
      split at h
      · obtain ⟨⟨e2, s2⟩, hc, h⟩ := bind_eq_ok h
        cases h
        exact hfin _ _ _ _ _ _ (Or.inl hk) (hmsg _ _ hP0) hc
      · obtain ⟨⟨e2, s2⟩, hc, h⟩ := bind_eq_ok h
        exact ih _ e2 s2 e1 s1 str err rest (hcb _ _ _ _ _ _ hP0 hc) h
    · dsimp only at h
      obtain ⟨⟨e2, s2⟩, hc, h⟩ := bind_eq_ok h
      exact ih _ e2 s2 e1 s1 str err rest (hcb _ _ _ _ _ _ hP0 hc) h

/-- C24.  Cancelling a search restores the view.  For every document, every library and
every list of keys typed at the prompt of `Find`: when `Find` returns the
cancellation error, which it does when the prompt reads Escape and no step before it
has failed, the cursor `(cx, cy)`, `rowOffset` and `colOffset` have the values they had
when `Find` was called and the rows are the rows of before, highlight classes
included: no search-match class remains. -/
theorem find_cancel_restores_view (L : Lib) (U : Unicode) (keys : List Key) (e e1 : Editor)
    (h : Find L U keys e = .ok (e1, some .ErrPromptCanceled)) :
    e1.cx = e.cx ∧ e1.cy = e.cy ∧ e1.rowOffset = e.rowOffset ∧ e1.colOffset = e.colOffset ∧
    e1.Rows = e.Rows ∧ e1.Rows.map Row.hl = e.Rows.map Row.hl := by
  unfold Find at h
  obtain ⟨⟨e2, s2, str, err, rest⟩, hp, h⟩ := bind_eq_ok h
  have hrows : e2.Rows = e.Rows := by
    refine Prompt_inv L U _ _ (some (onKeyPress L))
      (fun a s => restoreHl a.Rows s = .ok e.Rows) (fun a _ => a.Rows = e.Rows)
      ?_ ?_ ?_ ?_ keys [] e _ e2 s2 str err rest ?_ hp
    · intro a s msg a1 hP hs
      have := scroll_fields L _ a1 hs
      have hr : a1.Rows = a.Rows := by rw [this]; rfl
      rw [hr]
      exact hP
    · intro a s hP
      exact hP
    · intro b k a s a1 s1 hP hc
      exact (onKeyPress_restorable L b k a a1 s s1 e.Rows hP hc).1
    · intro b k a s a1 s1 hk hP hc
      exact ((onKeyPress_restorable L b k a a1 s s1 e.Rows hP hc).2.2 hk).1
    · rfl
  dsimp only at h
  split at h
  · cases h
    exact ⟨rfl, rfl, rfl, rfl, hrows, by rw [hrows]⟩
  · rename_i hne
    simp only [pure, Except.pure, Except.ok.injEq, Prod.mk.injEq] at h
    exact absurd h.2 (by intro hc; exact hne hc)

/-- An instance: on the document `["a","b","c"]` with the cursor on row 1 and the status
message of Normal mode, the keys `c`, ArrowRight, Escape; confirmed with Enter, the
search leaves the cursor on row 2. -/
theorem find_cancel_restores_view_witness :
    Find stdLib stdUnicode [99, KeyArrowRight, 27] (SetStatusMessage exAbc "-- NORMAL --".toList)
        = .ok (exAbc, some .ErrPromptCanceled) ∧
      (Find stdLib stdUnicode [99, 10] (SetStatusMessage exAbc "-- NORMAL --".toList)).map
        (fun r => r.1.cy) = .ok 2 ∧
      exAbc.cx = (SetStatusMessage exAbc "-- NORMAL --".toList).cx ∧
      exAbc.cy = (SetStatusMessage exAbc "-- NORMAL --".toList).cy ∧
      exAbc.rowOffset = (SetStatusMessage exAbc "-- NORMAL --".toList).rowOffset ∧
      exAbc.colOffset = (SetStatusMessage exAbc "-- NORMAL --".toList).colOffset ∧
      exAbc.Rows = (SetStatusMessage exAbc "-- NORMAL --".toList).Rows ∧
      exAbc.Rows.map Row.hl = (SetStatusMessage exAbc "-- NORMAL --".toList).Rows.map Row.hl :=
  ⟨by decide, by decide,
    find_cancel_restores_view stdLib stdUnicode [99, KeyArrowRight, 27]
      (SetStatusMessage exAbc "-- NORMAL --".toList) exAbc (by decide)⟩

/-- A sequence of two steps fails where the first fails, or the second after it. -/
theorem bind_eq_error {α β : Type} {x : Except Fault α} {f : α → Except Fault β} {err : Fault}
    (h : (x >>= f) = .error err) : x = .error err ∨ ∃ a, x = .ok a ∧ f a = .error err := by
  cases x with
  | error e0 =>
    left
    simpa [Bind.bind, Except.bind] using h
  | ok a => exact Or.inr ⟨a, rfl, h⟩

theorem index_not_blocked {α : Type} (xs : List α) (i : Int) :
    index xs i ≠ .error .outOfFuel := by
  unfold index
  split
  · split <;> simp
  · simp

theorem cxToRxLoop_not_blocked (L : Lib) (syn : Option EditorSyntax) :
    ∀ (s : Str) (rx : Int), cxToRxLoop L syn s rx ≠ .error .outOfFuel := by
  intro s
  induction s with
  | nil => intro rx; simp [cxToRxLoop]
  | cons r rest ih =>
    intro rx h
    unfold cxToRxLoop at h
    rcases bind_eq_error h with h1 | ⟨a, _, h1⟩
    · unfold advance at h1
      split at h1
      · split at h1
        · cases h1
        · split at h1 <;> cases h1
      · cases h1
    · exact ih a h1

theorem rowCxToRx_not_blocked (L : Lib) (e : Editor) (row : Row) (cx : Int) :
    rowCxToRx L e row cx ≠ .error .outOfFuel := by
  intro h
  unfold rowCxToRx at h
  dsimp only at h
  by_cases hc : cx > (row.chars.length : Int)
  · rw [if_pos hc] at h
    split at h
    · cases h
    · exact cxToRxLoop_not_blocked L _ _ _ h
  · rw [if_neg hc] at h
    split at h
    · cases h
    · exact cxToRxLoop_not_blocked L _ _ _ h

theorem scroll_not_blocked (L : Lib) (e : Editor) : scroll L e ≠ .error .outOfFuel := by
  intro h
  unfold scroll at h
  dsimp only at h
  split at h
  · rcases bind_eq_error h with h1 | ⟨row, _, h⟩
    · exact index_not_blocked _ _ h1
    rcases bind_eq_error h with h1 | ⟨rx, _, h⟩
    · exact rowCxToRx_not_blocked L _ _ _ h1
    · cases h
  · cases h

theorem rxToCxLoop_not_blocked (L : Lib) (syn : Option EditorSyntax) (rx : Int) :
    ∀ (s : Str) (i c : Int), rxToCxLoop L syn rx s i c ≠ .error .outOfFuel := by
  intro s
  induction s with
  | nil => intro i c; simp [rxToCxLoop]
  | cons r rest ih =>
    intro i c h
    unfold rxToCxLoop at h
    rcases bind_eq_error h with h1 | ⟨a, _, h1⟩
    · unfold advance at h1
      split at h1
      · split at h1
        · cases h1
        · split at h1 <;> cases h1
      · cases h1
    · split at h1
      · cases h1
      · exact ih _ _ h1

theorem markN_not_blocked : ∀ (n idx : Nat) (hl : List Nat) (v : Nat),
    markN n idx hl v ≠ .error .outOfFuel := by
  intro n
  induction n with
  | zero => intro idx hl v; simp [markN]
  | succ n ih =>
    intro idx hl v h
    unfold markN at h
    rcases bind_eq_error h with h1 | ⟨a, _, h1⟩
    · unfold hlSet at h1
      split at h1 <;> cases h1
    · exact ih _ _ _ h1

theorem searchLoop_not_blocked (L : Lib) (query : Str) (d : Int) :
    ∀ (n : Nat) (current : Int) (e : Editor) (st : FindState),
      searchLoop L query d n current e st ≠ .error .outOfFuel := by
  intro n
  induction n with
  | zero => intro current e st; simp [searchLoop]
  | succ n ih =>
    intro current e st h
    unfold searchLoop at h
    dsimp only at h
    rcases bind_eq_error h with h1 | ⟨row, _, h⟩
    · exact index_not_blocked _ _ h1
    split at h
    · rcases bind_eq_error h with h1 | ⟨cx, _, h⟩
      · exact rxToCxLoop_not_blocked L _ _ _ _ _ h1
      rcases bind_eq_error h with h1 | ⟨res, _, h⟩
      · exact markN_not_blocked _ _ _ _ h1
      · cases h
    · exact ih _ _ _ h

theorem onKeyPress_not_blocked (L : Lib) (query : Str) (k : Key) (e : Editor) (st : FindState) :
    onKeyPress L query k e st ≠ .error .outOfFuel := by
  intro h
  cases hr : restoreHl e.Rows st with
  | error f =>
    unfold onKeyPress at h
    unfold restoreHl at hr
    dsimp only at h
    split at hr
    · rename_i hz
      rw [if_pos hz] at h
      rcases bind_eq_error hr with h1 | ⟨row, _, h2⟩
      · rw [h1] at h
        cases h
        exact index_not_blocked _ _ h1
      · cases h2
    · cases hr
  | ok rows =>
    rw [onKeyPress_eq L query k e st rows hr] at h
    unfold searchStep at h
    split at h
    · cases h
    · split at h
      · exact searchLoop_not_blocked L _ _ _ _ _ _ h
      · split at h
        · exact searchLoop_not_blocked L _ _ _ _ _ _ h
        · exact searchLoop_not_blocked L _ _ _ _ _ _ h

/-- With an Escape among the keys the prompt is not left waiting for a key: the run
ends by a return or by a failure of the program, for every callback that does. -/
theorem Prompt_not_blocked {σ : Type} (L : Lib) (U : Unicode) (pre post : Str)
    (cb : Option (PromptCb σ))
    (hcb : ∀ b k e s, callCb cb b k e s ≠ .error .outOfFuel) :
    ∀ (keys : List Key) (b : Str) (e : Editor) (s : σ), (27 : Key) ∈ keys →
      Prompt L U pre post cb keys b e s ≠ .error .outOfFuel := by
  intro keys
  induction keys with
  | nil => intro b e s h; simp at h
  | cons k ks ih =>
    intro b e s hmem h
    unfold Prompt at h
    rcases bind_eq_error h with h1 | ⟨e0, _, h⟩
    · exact scroll_not_blocked L _ h1
    have hrec : ∀ b1 e2 s2, k ≠ 27 →
        Prompt L U pre post cb ks b1 e2 s2 ≠ .error .outOfFuel := by
      intro b1 e2 s2 hk
      apply ih
      rcases List.mem_cons.mp hmem with hm | hm
      · exact absurd hm.symm hk
      · exact hm
    split at h
    · rename_i hk
      have hk27 : k ≠ 27 := by
        intro hc
        subst hc
        revert hk
        decide
      dsimp only at h
      rcases bind_eq_error h with h1 | ⟨r, _, h⟩
      · exact hcb _ _ _ _ h1
      · exact hrec _ _ _ hk27 h
    split at h
    · rcases bind_eq_error h with h1 | ⟨r, _, h⟩
      · exact hcb _ _ _ _ h1
      · cases h
    rename_i hk27
    split at h
    · split at h
      · rcases bind_eq_error h with h1 | ⟨r, _, h⟩
        · exact hcb _ _ _ _ h1
        · cases h
      · rcases bind_eq_error h with h1 | ⟨r, _, h⟩
        · exact hcb _ _ _ _ h1
        · exact hrec _ _ _ hk27 h
    · dsimp only at h
      rcases bind_eq_error h with h1 | ⟨r, _, h⟩
      · exact hcb _ _ _ _ h1
      · exact hrec _ _ _ hk27 h

/-- With an Escape among the keys, `Find` returns or the program fails: the keys do not
run out. -/
theorem Find_not_blocked (L : Lib) (U : Unicode) (keys : List Key) (e : Editor)
    (h27 : (27 : Key) ∈ keys) : Find L U keys e ≠ .error .outOfFuel := by
  intro h
  unfold Find at h
  rcases bind_eq_error h with h1 | ⟨r, _, h⟩
  · exact Prompt_not_blocked L U _ _ (some (onKeyPress L))
      (fun b k a s => onKeyPress_not_blocked L b k a s) keys [] e _ h27 h1
  · obtain ⟨e1, s1, str, err, rest⟩ := r
    dsimp only at h
    split at h <;> cases h

/-! ## The column of a search match -/

/-- C25 (as stated, fails).  On the row `"öab"` the query `a` occurs at character column
1; `strings.Index` returns the byte offset 2, and the search step sets `cx = 2` and
gives the search-match class to the class of index 2, those of `b`.  On the row
`"a\tbcd"` under the Go profile, rendered `"a    bcd"`, the query `b` occurs at
character column 2 and render position 5; the step marks the class of index 5 and sets
`cx = 3`, the column of `c`. -/
theorem search_match_column_is_byte_offset :
    (searchStep stdLib "a".toList exUmlaut ⟨-1, 1, -1, []⟩).map
        (fun r => (r.1.cy, r.1.cx, r.1.Rows.map Row.hl)) = .ok (0, 2, [[0, 0, HlMatch]]) ∧
    (Find stdLib stdUnicode [97, KeyEnter] exUmlaut).map (fun r => (r.1.cy, r.1.cx, r.2))
      = .ok (0, 2, none) ∧
    (strIndex "a".toList "öab".toList = 2 ∧ "öab".toList.drop 1 = "ab".toList ∧
      stdLib.RuneWidth 'ö' = 1) ∧
    (searchStep stdLib "b".toList exTabWord ⟨-1, 1, -1, []⟩).map
        (fun r => (r.1.cy, r.1.cx, r.1.Rows.map Row.hl))
      = .ok (0, 3, [[0, 0, 0, 0, 0, HlMatch, 0, 0]]) ∧
    (renderOf (some syntaxGo) "a\tbcd".toList = .ok "a    bcd".toList ∧
      "a\tbcd".toList.drop 2 = "bcd".toList ∧ "a    bcd".toList.drop 5 = "bcd".toList) := by
  refine ⟨by decide, by decide, by decide, by decide, by decide⟩

/-- On a string of one-byte runes `strings.Index` returns the index of the first suffix
that begins with the query, or `-1` when there is none. -/
theorem strIndex_one_byte (q : Str) : ∀ s : Str, (∀ c ∈ s, c.utf8Size = 1) →
    (strIndex q s = -1 ∧ ∀ j : Nat, j ≤ s.length → q.isPrefixOf (s.drop j) = false) ∨
    ∃ k : Nat, strIndex q s = k ∧ k ≤ s.length ∧ q.isPrefixOf (s.drop k) = true ∧
      ∀ j : Nat, j < k → q.isPrefixOf (s.drop j) = false := by
  intro s
  induction s with
  | nil =>
    intro _
    unfold strIndex
    by_cases hq : q = []
    · rw [if_pos hq]
      exact Or.inr ⟨0, rfl, by simp, by simp [hq], fun j hj => by omega⟩
    · rw [if_neg hq]
      refine Or.inl ⟨rfl, fun j _ => ?_⟩
      cases q with
      | nil => exact absurd rfl hq
      | cons a t => simp [List.isPrefixOf]
  | cons c t ih =>
    intro hb
    have hc : c.utf8Size = 1 := hb c (List.mem_cons_self _ _)
    have ht : ∀ x ∈ t, x.utf8Size = 1 := fun x hx => hb x (List.mem_cons_of_mem _ hx)
    unfold strIndex
    by_cases hp : q.isPrefixOf (c :: t) = true
    · rw [if_pos hp]
      exact Or.inr ⟨0, rfl, by simp, hp, fun j hj => by omega⟩
    · rw [if_neg hp]
      have hp' : q.isPrefixOf (c :: t) = false := Bool.eq_false_iff.mpr hp
      dsimp only
      rcases ih ht with ⟨h1, h2⟩ | ⟨k, h1, h2, h3, h4⟩
      · rw [if_pos h1]
        refine Or.inl ⟨rfl, fun j hj => ?_⟩
        cases j with
        | zero => exact hp'
        | succ j =>
          simp only [List.drop_succ_cons]
          exact h2 j (by simpa using hj)
      · rw [if_neg (by rw [h1]; omega), h1, hc]
        refine Or.inr ⟨k + 1, by push_cast; rfl, by simpa using h2, by simpa using h3, ?_⟩
        intro j hj
        cases j with
        | zero => exact hp'
        | succ j =>
          simp only [List.drop_succ_cons]
          exact h4 j (by omega)

/-- On runes of width 1 other than the tab, the walk of `rowRxToCx` returns the index
that lies `rx - curRx` runes ahead. -/
theorem rxToCxLoop_width_one (L : Lib) (syn : Option EditorSyntax) (rx : Int) :
    ∀ (s : Str) (i c : Int), (∀ ch ∈ s, ch ≠ '\t' ∧ L.RuneWidth ch = 1) → c ≤ rx →
      rx - c < s.length → rxToCxLoop L syn rx s i c = .ok (i + (rx - c)) := by
  intro s
  induction s with
  | nil => intro i c _ h1 h2; simp at h2; omega
  | cons ch t ih =>
    intro i c hw h1 h2
    obtain ⟨hnt, hw1⟩ := hw ch (List.mem_cons_self _ _)
    have hadv : advance L syn c ch = .ok (c + 1) := by
      unfold advance
      rw [if_neg hnt, hw1]
    unfold rxToCxLoop
    rw [hadv]
    simp only [Bind.bind, Except.bind]
    by_cases hgt : c + 1 > rx
    · rw [if_pos hgt]
      have : rx - c = 0 := by omega
      rw [this]
      simp [pure, Except.pure]
    · rw [if_neg hgt]
      simp only [List.length_cons, Nat.cast_add, Nat.cast_one] at h2
      rw [ih (i + 1) (c + 1) (fun x hx => hw x (List.mem_cons_of_mem _ hx)) (by omega) (by omega)]
      congr 1
      omega

/-- A run of `n` assignments behind the entries `pre` replaces the `n` entries `mid`. -/
theorem markN_append : ∀ (n : Nat) (pre mid post : List Nat) (v : Nat), mid.length = n →
    markN n pre.length (pre ++ mid ++ post) v
      = .ok (pre.length + n, pre ++ List.replicate n v ++ post) := by
  intro n
  induction n with
  | zero =>
    intro pre mid post v hm
    have : mid = [] := List.length_eq_zero.mp hm
    subst this
    simp [markN]
  | succ n ih =>
    intro pre mid post v hm
    cases mid with
    | nil => simp at hm
    | cons x mid' =>
      simp only [List.length_cons, Nat.add_right_cancel_iff] at hm
      unfold markN
      have hset : hlSet (pre ++ (x :: mid') ++ post) pre.length v
          = .ok ((pre ++ [v]) ++ mid' ++ post) := by
        rw [hlSet_ok _ _ _ (by simp)]
        congr 1
        simp
      rw [hset]
      simp only [Bind.bind, Except.bind]
      have hl : pre.length + 1 = (pre ++ [v]).length := by simp
      rw [hl, ih (pre ++ [v]) mid' post v hm]
      congr 2
      · simp
        omega
      · simp [List.replicate_succ]

/-- A run of `n` assignments from index `idx` within the slice sets exactly the entries
from `idx` to `idx + n - 1`. -/
theorem markN_exact (n idx : Nat) (hl : List Nat) (v : Nat) (h : idx + n ≤ hl.length) :
    markN n idx hl v
      = .ok (idx + n, hl.take idx ++ List.replicate n v ++ hl.drop (idx + n)) := by
  have hsplit : hl = hl.take idx ++ (hl.drop idx).take n ++ hl.drop (idx + n) := by
    rw [List.append_assoc, ← List.drop_drop, List.take_append_drop, List.take_append_drop]
  have hlen : (hl.take idx).length = idx := by
    rw [List.length_take]
    omega
  have := markN_append n (hl.take idx) ((hl.drop idx).take n) (hl.drop (idx + n)) v (by
    rw [List.length_take, List.length_drop]
    omega)
  rw [← hsplit, hlen] at this
  exact this

/-- The match branch of the search on a row of one-byte runes of width 1 without a tab,
whose render is its characters: `strings.Index` returns the character column of the
first occurrence of the query, `rowRxToCx` returns that column, and the search-match
class is written to the classes of the occurrence and to no other. -/
theorem search_match_one_byte (L : Lib) (e : Editor) (row : Row) (query : Str)
    (hq : query ≠ []) (hr : row.render = row.chars) (hhl : row.hl.length = row.render.length)
    (hrunes : ∀ c ∈ row.chars, c.utf8Size = 1 ∧ c ≠ '\t' ∧ L.RuneWidth c = 1)
    (hfound : strIndex query row.render ≠ -1) :
    ∃ n : Nat, strIndex query row.render = n ∧
      query.isPrefixOf (row.chars.drop n) = true ∧
      (∀ j : Nat, j < n → query.isPrefixOf (row.chars.drop j) = false) ∧
      rowRxToCx L e row n = .ok n ∧
      markN query.length n row.hl HlMatch
        = .ok (n + query.length,
            row.hl.take n ++ List.replicate query.length HlMatch ++
              row.hl.drop (n + query.length)) := by
  rcases strIndex_one_byte query row.render (by
      intro c hc
      rw [hr] at hc
      exact (hrunes c hc).1) with ⟨h1, _⟩ | ⟨n, h1, h2, h3, h4⟩
  · exact absurd h1 hfound
  have hpre : query.length ≤ (row.render.drop n).length :=
    (List.isPrefixOf_iff_prefix.mp h3).length_le
  rw [List.length_drop] at hpre
  have hqpos : 0 < query.length := List.length_pos.mpr hq
  refine ⟨n, h1, by rw [← hr]; exact h3, by rw [← hr]; exact h4, ?_, ?_⟩
  · unfold rowRxToCx
    rw [rxToCxLoop_width_one L e.syn n row.chars 0 0
      (fun c hc => ⟨(hrunes c hc).2.1, (hrunes c hc).2.2⟩) (by omega)
      (by rw [← hr]; omega)]
    congr 1
    omega
  · exact markN_exact _ _ _ _ (by rw [hhl]; omega)

/-! ## The motion register -/

/-- The `default` case of the `switch` of `ProcessKeyNormalMode`. -/
theorem normalKey_default (L : Lib) (find : FindFn) (e : Editor) (k : Key)
    (hk : handledKey k = false) :
    normalKey L find e k = (do
      let (e1, err) ← ExecuteMotion L { e with motionRegister := e.motionRegister ++ [k] }
      match err with
      | some err => pure (SetStatusMessage e1 err.Error, none)
      | none => pure (e1, none)) := by
  simp only [handledKey, List.mem_cons, List.mem_singleton, List.not_mem_nil, or_false,
    decide_eq_false_iff_not, not_or] at hk
  obtain ⟨h1, h2, h3, h4, h5, h6, h7, h8, h9, h10, h11, h12, h13, h14, h15, h16, h17, h18⟩ := hk
  unfold normalKey
  rw [if_neg (by simp [h1, h2, h3, h4]), if_neg (by simp [h5, h6]), if_neg h7, if_neg h8,
    if_neg h9, if_neg h10, if_neg h11, if_neg h12, if_neg h13, if_neg h14, if_neg h15,
    if_neg h16, if_neg h17, if_neg h18]

/-- `ExecuteMotion` on a register that holds no recognised sequence: beyond three keys
the register is emptied and the unknown-motion error returned, otherwise nothing
happens. -/
theorem ExecuteMotion_unmatched (L : Lib) (e : Editor) (h : recognised e.motionRegister = false) :
    ExecuteMotion L e =
      if e.motionRegister.length > 3 then
        .ok ({ e with motionRegister := [] }, some .ErrUnkownMotion)
      else .ok (e, none) := by
  simp only [recognised, List.mem_cons, List.mem_singleton, List.not_mem_nil, or_false,
    decide_eq_false_iff_not, not_or] at h
  obtain ⟨h1, h2, h3, h4⟩ := h
  unfold ExecuteMotion
  split
  · rfl
  · simp only [KeySequenceEqual, decide_eq_true_eq]
    rw [if_neg h1, if_neg h2, if_neg h3, if_neg h4]

/-- `ExecuteMotion` empties the register whenever it returns after a recognised
sequence, and never leaves more than three keys in it. -/
theorem ExecuteMotion_register (L : Lib) (e e1 : Editor) (err : Option GoError)
    (h : ExecuteMotion L e = .ok (e1, err)) :
    (recognised e.motionRegister = true ∨ e.motionRegister.length > 3 → e1.motionRegister = []) ∧
    (recognised e.motionRegister = false → e.motionRegister.length ≤ 3 → e1 = e ∧ err = none) := by
  unfold ExecuteMotion at h
  split at h
  · rename_i hlen
    cases h
    exact ⟨fun _ => rfl, fun _ hle => by omega⟩
  rename_i hlen
  split at h
  · rename_i hm
    obtain ⟨e2, _, h⟩ := bind_eq_ok h
    cases h
    refine ⟨fun _ => rfl, fun hr _ => ?_⟩
    simp only [KeySequenceEqual, decide_eq_true_eq] at hm
    rw [hm] at hr
    exact absurd hr (by decide)
  split at h
  · rename_i hm
    obtain ⟨e2, _, h⟩ := bind_eq_ok h
    cases h
    refine ⟨fun _ => rfl, fun hr _ => ?_⟩
    simp only [KeySequenceEqual, decide_eq_true_eq] at hm
    rw [hm] at hr
    exact absurd hr (by decide)
  split at h
  · rename_i hm
    obtain ⟨e2, _, h⟩ := bind_eq_ok h
    cases h
    refine ⟨fun _ => rfl, fun hr _ => ?_⟩
    simp only [KeySequenceEqual, decide_eq_true_eq] at hm
    rw [hm] at hr
    exact absurd hr (by decide)
  split at h
  · rename_i hm
    obtain ⟨e2, _, h⟩ := bind_eq_ok h
    cases h
    refine ⟨fun _ => rfl, fun hr _ => ?_⟩
    simp only [KeySequenceEqual, decide_eq_true_eq] at hm
    rw [hm] at hr
    exact absurd hr (by decide)
  · cases h
    rename_i h1 h2 h3 h4
    refine ⟨fun hr => ?_, fun _ _ => ⟨rfl, rfl⟩⟩
    rcases hr with hr | hr
    · simp only [recognised, List.mem_cons, List.mem_singleton, List.not_mem_nil, or_false,
        decide_eq_true_eq] at hr
      simp only [KeySequenceEqual, decide_eq_true_eq] at h1 h2 h3 h4
      rcases hr with hr | hr | hr | hr
      · exact absurd hr h1
      · exact absurd hr h2
      · exact absurd hr h3
      · exact absurd hr h4
    · omega

/-- A key with a case of its own, other than Escape, leaves the motion register as it
is, for every `Find` that does. -/
theorem normalKey_handled (L : Lib) (find : FindFn) (e e1 : Editor) (k : Key)
    (err : Option GoError)
    (hfind : ∀ a a1 er, find a = .ok (a1, er) → a1.motionRegister = a.motionRegister)
    (hk : handledKey k = true) (hesc : k ≠ EscKey)
    (h : normalKey L find e k = .ok (e1, err)) : e1.motionRegister = e.motionRegister := by
  have hmove : ∀ k', (MoveCursor e k' >>= fun a => pure (a, (none : Option GoError)))
      = .ok (e1, err) → e1.motionRegister = e.motionRegister := by
    intro k' h'
    obtain ⟨e2, hm, h'⟩ := bind_eq_ok h'
    cases h'
    rw [MoveCursor_fields e e1 k' hm]
  have hjump : ∀ k', (JumpParagraph e k' >>= fun a => pure (a, (none : Option GoError)))
      = .ok (e1, err) → e1.motionRegister = e.motionRegister := by
    intro k' h'
    obtain ⟨e2, hm, h'⟩ := bind_eq_ok h'
    cases h'
    rw [JumpParagraph_fields e e1 k' hm]
  have hend : ∀ e2, cxToLineEnd e = .ok e2 → e2.motionRegister = e.motionRegister := by
    intro e2 hm
    unfold cxToLineEnd at hm
    split at hm
    · obtain ⟨row, _, hm⟩ := bind_eq_ok hm
      cases hm; rfl
    · cases hm; rfl
  simp only [handledKey, List.mem_cons, List.mem_singleton, List.not_mem_nil, or_false,
    decide_eq_true_eq] at hk
  rcases hk with rfl | rfl | rfl | rfl | rfl | rfl | rfl | rfl | rfl | rfl | rfl | rfl | rfl |
    rfl | rfl | rfl | rfl | rfl
  · exact hmove NavKeyH h
  · exact hmove NavKeyJ h
  · exact hmove NavKeyK h
  · exact hmove NavKeyL h
  · exact hjump NavKeyLeftCurly h
  · exact hjump NavKeyRightCurly h
  · cases h; rfl
  · cases h; rfl
  · change (SetMode e InsertMode >>= fun a => pure (a, (none : Option GoError))) = _ at h
    obtain ⟨e2, hm, h⟩ := bind_eq_ok h
    cases h
    rw [SetMode_fields e e1 _ hm]
  · cases h; rfl
  · change (MoveCursor e NavKeyL >>= fun a => SetMode a InsertMode >>= fun b =>
      pure (b, (none : Option GoError))) = _ at h
    obtain ⟨e2, hm, h⟩ := bind_eq_ok h
    obtain ⟨e3, hs, h⟩ := bind_eq_ok h
    cases h
    rw [SetMode_fields e2 e1 _ hs, MoveCursor_fields e e2 _ hm]
  · change (cxToLineEnd e >>= fun a => SetMode a InsertMode >>= fun b =>
      pure (b, (none : Option GoError))) = _ at h
    obtain ⟨e2, hm, h⟩ := bind_eq_ok h
    obtain ⟨e3, hs, h⟩ := bind_eq_ok h
    cases h
    rw [SetMode_fields e2 e1 _ hs]
    exact hend e2 hm
  · change (cxToLineEnd e >>= fun a => InsertNewline L a >>= fun b =>
      SetMode b InsertMode >>= fun c => pure (c, (none : Option GoError))) = _ at h
    obtain ⟨e2, hm, h⟩ := bind_eq_ok h
    obtain ⟨e3, hn, h⟩ := bind_eq_ok h
    obtain ⟨e4, hs, h⟩ := bind_eq_ok h
    cases h
    rw [SetMode_fields e3 e1 _ hs, InsertNewline_fields L e2 e3 hn]
    exact hend e2 hm
  · change (InsertNewline L (if e.cy < e.Rows.length then { e with cx := 0 } else e) >>=
      fun a => MoveCursor a NavKeyK >>= fun b => SetMode b InsertMode >>= fun c =>
        pure (c, (none : Option GoError))) = _ at h
    obtain ⟨e2, hn, h⟩ := bind_eq_ok h
    obtain ⟨e3, hm, h⟩ := bind_eq_ok h
    obtain ⟨e4, hs, h⟩ := bind_eq_ok h
    cases h
    rw [SetMode_fields e3 e1 _ hs, MoveCursor_fields e2 e3 _ hm, InsertNewline_fields L _ e2 hn]
    dsimp only
    split <;> rfl
  · change (find e >>= fun r => match r.2 with
      | none => pure (r.1, none)
      | some .ErrPromptCanceled => pure (SetStatusMessage r.1 [], none)
      | some er => pure (r.1, some er)) = _ at h
    obtain ⟨⟨e2, er⟩, hf, h⟩ := bind_eq_ok h
    have h2 := hfind e e2 er hf
    dsimp only at h
    split at h
    · cases h; exact h2
    · cases h; exact h2
    · cases h; exact h2
  · change (Undo e >>= fun a => pure (a, (none : Option GoError))) = _ at h
    obtain ⟨e2, hu, h⟩ := bind_eq_ok h
    cases h
    rw [Undo_fields e e1 hu]
  · have hx : ∀ atEnd : Bool, (if atEnd = true then pure (e, (none : Option GoError))
        else MoveCursor e KeyArrowRight >>= fun a => DeleteChar L a >>= fun b => pure (b, none))
        = .ok (e1, err) → e1.motionRegister = e.motionRegister := by
      intro atEnd h'
      split at h'
      · cases h'; rfl
      · obtain ⟨e2, hm, h'⟩ := bind_eq_ok h'
        obtain ⟨e3, hd, h'⟩ := bind_eq_ok h'
        cases h'
        have h2 := MoveCursor_fields e e2 _ hm
        rcases DeleteChar_fields L e2 e1 hd with h3 | h3
        · rw [h3, h2]
        · rw [h3, h2]
    change (if e.cy = (e.Rows.length : Int) - 1 then
        index e.Rows e.cy >>= fun row => pure (decide (e.cx = row.chars.length)) >>=
          fun atEnd => if atEnd = true then pure (e, (none : Option GoError))
            else MoveCursor e KeyArrowRight >>= fun a => DeleteChar L a >>= fun b => pure (b, none)
      else pure false >>= fun atEnd => if atEnd = true then pure (e, (none : Option GoError))
        else MoveCursor e KeyArrowRight >>= fun a => DeleteChar L a >>= fun b => pure (b, none))
      = _ at h
    split at h
    · obtain ⟨row, _, h⟩ := bind_eq_ok h
      obtain ⟨atEnd, _, h⟩ := bind_eq_ok h
      exact hx atEnd h
    · obtain ⟨atEnd, _, h⟩ := bind_eq_ok h
      exact hx atEnd h
  · exact absurd rfl hesc

/-- What `Find` can change: the cursor, `rx`, the offsets, the status message and the
highlight classes of the rows. -/
theorem Find_fields (L : Lib) (U : Unicode) (keys : List Key) (e e1 : Editor)
    (err : Option GoError) (h : Find L U keys e = .ok (e1, err)) :
    e1 = { e with cx := e1.cx, cy := e1.cy, rx := e1.rx, rowOffset := e1.rowOffset,
                  colOffset := e1.colOffset, statusmsg := e1.statusmsg, Rows := e1.Rows } := by
  unfold Find at h
  obtain ⟨⟨e2, s2, str, err2, rest⟩, hp, h⟩ := bind_eq_ok h
  have h2 : e2 = { e with cx := e2.cx, cy := e2.cy, rx := e2.rx, rowOffset := e2.rowOffset,
                          colOffset := e2.colOffset, statusmsg := e2.statusmsg,
                          Rows := e2.Rows } := by
    have := Prompt_inv L U _ _ (some (onKeyPress L))
      (fun a s => restoreHl a.Rows s = .ok e.Rows ∧
        a = { e with cx := a.cx, cy := a.cy, rx := a.rx, rowOffset := a.rowOffset,
                     colOffset := a.colOffset, statusmsg := a.statusmsg, Rows := a.Rows })
      (fun a _ => a = { e with cx := a.cx, cy := a.cy, rx := a.rx, rowOffset := a.rowOffset,
                               colOffset := a.colOffset, statusmsg := a.statusmsg,
                               Rows := a.Rows })
      ?_ ?_ ?_ ?_ keys [] e (⟨-1, 1, -1, []⟩ : FindState) e2 s2 str err2 rest ⟨rfl, rfl⟩ hp
    · exact this
    · intro a s msg a1 hP hs
      have hf := scroll_fields L _ a1 hs
      have hr : a1.Rows = a.Rows := by rw [hf]; rfl
      refine ⟨by rw [hr]; exact hP.1, ?_⟩
      rw [hf, hP.2]
      rfl
    · intro a s hP
      refine ⟨hP.1, ?_⟩
      have := hP.2
      unfold SetStatusMessage
      rw [this]
    · intro b k a s a1 s1 hP hc
      obtain ⟨r1, r2, _⟩ := onKeyPress_restorable L b k a a1 s s1 e.Rows hP.1 hc
      refine ⟨r1, ?_⟩
      rw [r2, hP.2]
    · intro b k a s a1 s1 _ hP hc
      obtain ⟨_, r2, _⟩ := onKeyPress_restorable L b k a a1 s s1 e.Rows hP.1 hc
      rw [r2, hP.2]
  dsimp only at h
  split at h
  · cases h
    rw [h2]
  · cases h
    exact h2

/-- The editor after one key in Normal mode:  `Escape` empties the motion register, a
key with a case of its own leaves it alone, and any other key is appended and
`ExecuteMotion` run.  The register is the same at the return of
`ProcessKeyNormalMode`. -/
theorem ProcessKeyNormalMode_register (L : Lib) (find : FindFn) (e e1 : Editor) (k : Key)
    (err : Option GoError)
    (h : ProcessKeyNormalMode L find e k = .ok (e1, err)) :
    ∃ e0 er, normalKey L find (SetStatusMessage e "-- NORMAL --".toList) k = .ok (e0, er) ∧
      e1.motionRegister = e0.motionRegister ∧ e1.Rows = e0.Rows ∧ e1.statusmsg = e0.statusmsg ∧
      err = er := by
  unfold ProcessKeyNormalMode at h
  obtain ⟨⟨e0, er⟩, h0, h⟩ := bind_eq_ok h
  refine ⟨e0, er, h0, ?_⟩
  dsimp only at h
  split at h
  · cases h; exact ⟨rfl, rfl, rfl, rfl⟩
  · cases h; exact ⟨rfl, rfl, rfl, rfl⟩

/-- The keys that complete `dd` or `yy`, with the cursor on a row of the document:
`ProcessKeyNormalMode` returns, without error and with the register empty. -/
theorem dd_yy_return (L : Lib) (find : FindFn) (e : Editor) (k : Key)
    (hseq : e.motionRegister ++ [k] = [MotionKeyD, MotionKeyD] ∨
      e.motionRegister ++ [k] = [MotionKeyY, MotionKeyY])
    (h0 : 0 ≤ e.cy) (h1 : e.cy < e.Rows.length) :
    ∃ e1, ProcessKeyNormalMode L find e k = .ok (e1, none) ∧ e1.motionRegister = [] := by
  obtain ⟨row, hrow, _⟩ := index_ok_int e.Rows e.cy h0 h1
  have hlast : ∀ ys : List Key, e.motionRegister ++ [k] = ys → ys.getLast? = some k := by
    intro ys hxy
    rw [← hxy]
    simp
  unfold ProcessKeyNormalMode
  rcases hseq with hs | hs
  · have hk := hlast _ hs
    simp only [List.getLast?_cons_cons, List.getLast?_singleton, Option.some.injEq] at hk
    subst hk
    rw [normalKey_default L find _ MotionKeyD (by decide)]
    simp only [SetStatusMessage, hs, ExecuteMotion, CutRow, hrow, Bind.bind, Except.bind,
      pure, Except.pure]
    exact ⟨_, rfl, rfl⟩
  · have hk := hlast _ hs
    simp only [List.getLast?_cons_cons, List.getLast?_singleton, Option.some.injEq] at hk
    subst hk
    rw [normalKey_default L find _ MotionKeyY (by decide)]
    simp only [SetStatusMessage, hs, ExecuteMotion, YankRow, hrow, Bind.bind, Except.bind,
      pure, Except.pure]
    exact ⟨_, rfl, rfl⟩

/-- C28.  The motion register between key events.  For every state, every key and every
keys typed at the prompt of a search:
when `ProcessKeyNormalMode` returns, a register of at most 3 keys before the key is a
register of at most 3 keys after it, and the register is empty after Escape and after
a key that completes one of `dd`, `yy`, `p`, `P`;
a key without a case of its own that finds 3 keys in the register always returns, with
the register empty, the unknown-motion text as status message, no error and the rows
unchanged; Escape always returns, and so does the key that completes `dd` or `yy`
while the cursor is on a row of the document. -/
theorem motion_register_at_most_three (L : Lib) (U : Unicode) (ks : List Key) (e : Editor)
    (k : Key) :
    (∀ e1 err, ProcessKeyNormalMode L (Find L U ks) e k = .ok (e1, err) →
      (e.motionRegister.length ≤ 3 → e1.motionRegister.length ≤ 3) ∧
      (k = EscKey → e1.motionRegister = []) ∧
      (recognised (e.motionRegister ++ [k]) = true → e1.motionRegister = [])) ∧
    (handledKey k = false → e.motionRegister.length = 3 →
      (ExecuteMotion L { e with motionRegister := e.motionRegister ++ [k] }).map Prod.snd
        = .ok (some .ErrUnkownMotion) ∧
      ∃ e1, ProcessKeyNormalMode L (Find L U ks) e k = .ok (e1, none) ∧
        e1.motionRegister = [] ∧ e1.statusmsg = GoError.ErrUnkownMotion.Error ∧
        e1.Rows = e.Rows) ∧
    (k = EscKey → ∃ e1, ProcessKeyNormalMode L (Find L U ks) e k = .ok (e1, none) ∧
      e1.motionRegister = [] ∧ e1.Rows = e.Rows) ∧
    ((e.motionRegister ++ [k] = [MotionKeyD, MotionKeyD] ∨
        e.motionRegister ++ [k] = [MotionKeyY, MotionKeyY]) →
      0 ≤ e.cy → e.cy < e.Rows.length →
      ∃ e1, ProcessKeyNormalMode L (Find L U ks) e k = .ok (e1, none) ∧
        e1.motionRegister = []) := by
  have hfind : ∀ a a1 er, Find L U ks a = .ok (a1, er) →
      a1.motionRegister = a.motionRegister := by
    intro a a1 er hf
    rw [Find_fields L U ks a a1 er hf]
  have hrec : ∀ k', recognised (e.motionRegister ++ [k']) = true → handledKey k' = false := by
    intro k' hr
    simp only [recognised, List.mem_cons, List.mem_singleton, List.not_mem_nil, or_false,
      decide_eq_true_eq] at hr
    have hlast : ∀ (xs ys : List Key), xs ++ [k'] = ys → ys.getLast? = some k' := by
      intro xs ys hxy
      rw [← hxy]
      simp
    rcases hr with hr | hr | hr | hr
    · have := hlast _ _ hr
      simp only [List.getLast?_cons_cons, List.getLast?_singleton, Option.some.injEq] at this
      subst this
      decide
    · have := hlast _ _ hr
      simp only [List.getLast?_singleton, Option.some.injEq] at this
      subst this
      decide
    · have := hlast _ _ hr
      simp only [List.getLast?_singleton, Option.some.injEq] at this
      subst this
      decide
    · have := hlast _ _ hr
      simp only [List.getLast?_cons_cons, List.getLast?_singleton, Option.some.injEq] at this
      subst this
      decide
  refine ⟨?_, ?_, ?_, fun hseq h0 h1 => dd_yy_return L _ e k hseq h0 h1⟩
  · intro e1 err h
    obtain ⟨e0, er, h0, hreg, _, _, _⟩ := ProcessKeyNormalMode_register L _ e e1 k err h
    rw [hreg]
    by_cases hesc : k = EscKey
    · subst hesc
      cases h0
      exact ⟨fun _ => by simp, fun _ => rfl, fun _ => rfl⟩
    by_cases hk : handledKey k = true
    · have hsame := normalKey_handled L _ _ e0 k er hfind hk hesc h0
      refine ⟨fun hle => ?_, fun hc => absurd hc hesc, fun hr => ?_⟩
      · rw [hsame]
        exact hle
      · have := hrec k hr
        rw [hk] at this
        cases this
    · have hk' : handledKey k = false := by simpa using hk
      rw [normalKey_default L _ _ k hk'] at h0
      obtain ⟨⟨e2, er2⟩, hm, h0⟩ := bind_eq_ok h0
      obtain ⟨m1, m2⟩ := ExecuteMotion_register L _ e2 er2 hm
      have hreg0 : e0.motionRegister = e2.motionRegister := by
        dsimp only at h0
        split at h0
        · cases h0; rfl
        · cases h0; rfl
      rw [hreg0]
      refine ⟨fun hle => ?_, fun hc => absurd hc hesc, fun hr => m1 (Or.inl hr)⟩
      by_cases hr : recognised (e.motionRegister ++ [k]) = true
      · rw [m1 (Or.inl hr)]
        simp
      · have hr' : recognised (e.motionRegister ++ [k]) = false := by simpa using hr
        by_cases hlen : e.motionRegister.length = 3
        · rw [m1 (Or.inr (by simp [SetStatusMessage]; omega))]
          simp
        · have := (m2 hr' (by simp [SetStatusMessage]; omega)).1
          rw [this]
          simp [SetStatusMessage]
          omega
  · intro hk hlen
    have hr' : recognised (e.motionRegister ++ [k]) = false := by
      cases hrc : recognised (e.motionRegister ++ [k]) with
      | false => rfl
      | true =>
        simp only [recognised, List.mem_cons, List.mem_singleton, List.not_mem_nil, or_false,
          decide_eq_true_eq] at hrc
        have hl : (e.motionRegister ++ [k]).length = 4 := by simp [hlen]
        rcases hrc with hrc | hrc | hrc | hrc <;> rw [hrc] at hl <;> simp at hl
    refine ⟨?_, { e with statusmsg := GoError.ErrUnkownMotion.Error, motionRegister := [],
                         quitCounter := 0 }, ?_, rfl, rfl, rfl⟩
    · rw [ExecuteMotion_unmatched L _ hr', if_pos (by simp [hlen])]
      rfl
    unfold ProcessKeyNormalMode
    rw [normalKey_default L _ _ k hk, ExecuteMotion_unmatched L _ hr']
    rw [if_pos (by simp [SetStatusMessage, hlen])]
    rfl
  · intro hesc
    subst hesc
    exact ⟨_, rfl, rfl, rfl⟩

/-- Instances: on `["a","b","c"]` the key `d` after a `d`, the key `z` after three `z`,
and Escape. -/
theorem motion_register_at_most_three_witness :
    (∃ e1 err, ProcessKeyNormalMode stdLib (Find stdLib stdUnicode []) exOneD MotionKeyD
        = .ok (e1, err) ∧ e1.motionRegister = [] ∧ e1.Rows.map Row.chars = ["a".toList, "c".toList]) ∧
    (∃ e1, ProcessKeyNormalMode stdLib (Find stdLib stdUnicode []) exThreeZ 122 = .ok (e1, none) ∧
        e1.motionRegister = [] ∧ e1.statusmsg = "unknown motion".toList ∧
        e1.Rows = exThreeZ.Rows) ∧
    (∃ e1, ProcessKeyNormalMode stdLib (Find stdLib stdUnicode []) exThreeZ EscKey
        = .ok (e1, none) ∧ e1.motionRegister = [] ∧ e1.Rows = exThreeZ.Rows) :=
  ⟨⟨_, _, rfl,
      ((motion_register_at_most_three stdLib stdUnicode [] exOneD MotionKeyD).1 _ _ rfl).2.2
        (by decide), rfl⟩,
    ((motion_register_at_most_three stdLib stdUnicode [] exThreeZ 122).2.1 (by decide)
      (by decide)).2,
    (motion_register_at_most_three stdLib stdUnicode [] exThreeZ EscKey).2.2.1 rfl⟩

/-- C26 (as stated, fails).  On the document `["a","b","c"]` with the cursor on row 1 the
key `j` moves the cursor to row 2 and leaves the motion register empty; ArrowDown
leaves the cursor on row 1 and is put into the motion register. -/
theorem arrow_down_is_not_j :
    (ProcessKeyNormalMode stdLib findCanceled exAbc NavKeyJ).map
        (fun r => (r.1.cx, r.1.cy, r.1.motionRegister)) = .ok (0, 2, []) ∧
    (ProcessKeyNormalMode stdLib findCanceled exAbc KeyArrowDown).map
        (fun r => (r.1.cx, r.1.cy, r.1.motionRegister)) = .ok (0, 1, [KeyArrowDown]) :=
  ⟨rfl, rfl⟩

/-- C26, amended.  `MoveCursor` treats each arrow key as the letter key of the same
direction, for every state.  `ProcessKeyNormalMode` does not pass the arrow keys to
`MoveCursor`: for every state an arrow key is appended to the motion register and
changes nothing else than the status message and the quit counter; when the register
holds 3 keys already it is emptied and the status message is the unknown-motion
text. -/
theorem normal_mode_arrow_keys (L : Lib) (find : FindFn) (e : Editor) (k : Key)
    (hk : IsArrowKey k = true) :
    ProcessKeyNormalMode L find e k = .ok (
      (if e.motionRegister.length ≥ 3 then
        { e with statusmsg := "unknown motion".toList, motionRegister := [], quitCounter := 0 }
      else { e with statusmsg := "-- NORMAL --".toList,
                    motionRegister := e.motionRegister ++ [k], quitCounter := 0 }), none) ∧
    MoveCursor e KeyArrowLeft = MoveCursor e NavKeyH ∧
    MoveCursor e KeyArrowDown = MoveCursor e NavKeyJ ∧
    MoveCursor e KeyArrowUp = MoveCursor e NavKeyK ∧
    MoveCursor e KeyArrowRight = MoveCursor e NavKeyL := by
  refine ⟨?_, rfl, rfl, rfl, rfl⟩
  have hh : handledKey k = false := by
    simp only [IsArrowKey, decide_eq_true_eq] at hk
    rcases hk with rfl | rfl | rfl | rfl <;> decide
  have hr : recognised (e.motionRegister ++ [k]) = false := by
    cases hrc : recognised (e.motionRegister ++ [k]) with
    | false => rfl
    | true =>
      exfalso
      simp only [recognised, List.mem_cons, List.mem_singleton, List.not_mem_nil, or_false,
        decide_eq_true_eq] at hrc
      have hlast : ∀ ys : List Key, e.motionRegister ++ [k] = ys → ys.getLast? = some k := by
        intro ys hxy
        rw [← hxy]
        simp
      simp only [IsArrowKey, decide_eq_true_eq] at hk
      rcases hrc with hrc | hrc | hrc | hrc <;> have hl := hlast _ hrc <;>
        simp only [List.getLast?_cons_cons, List.getLast?_singleton, Option.some.injEq] at hl <;>
        subst hl <;> revert hk <;> decide
  unfold ProcessKeyNormalMode
  rw [normalKey_default L find _ k hh, ExecuteMotion_unmatched L _ hr]
  by_cases hlen : e.motionRegister.length ≥ 3
  · rw [if_pos (by simp [SetStatusMessage]; omega), if_pos hlen]
    rfl
  · rw [if_neg (by simp [SetStatusMessage]; omega), if_neg hlen]
    rfl

/-- An instance: ArrowLeft on `["a","b","c"]`. -/
theorem normal_mode_arrow_keys_witness :
    IsArrowKey KeyArrowLeft = true ∧
    ProcessKeyNormalMode stdLib findCanceled exAbc KeyArrowLeft = .ok (
      { exAbc with statusmsg := "-- NORMAL --".toList, motionRegister := [KeyArrowLeft] }, none) ∧
    MoveCursor exAbc KeyArrowLeft = MoveCursor exAbc NavKeyH :=
  ⟨rfl, (normal_mode_arrow_keys stdLib findCanceled exAbc KeyArrowLeft rfl).1,
    (normal_mode_arrow_keys stdLib findCanceled exAbc KeyArrowLeft rfl).2.1⟩

/-! ## The paragraph jump -/

/-- The closing clamp of `MoveCursor` returns for every cursor row that is not negative,
and leaves the cursor row and the rows alone. -/
theorem clampCx_ok (e : Editor) (h0 : 0 ≤ e.cy) :
    ∃ e1, clampCx e = .ok e1 ∧ e1.cy = e.cy ∧ e1.Rows = e.Rows := by
  unfold clampCx
  dsimp only
  by_cases hlt : e.cy < e.Rows.length
  · rw [if_pos hlt]
    obtain ⟨r, hr, _⟩ := index_ok_int e.Rows e.cy h0 hlt
    rw [hr]
    refine ⟨_, rfl, ?_, ?_⟩ <;> split <;> rfl
  · rw [if_neg hlt]
    refine ⟨_, rfl, ?_, ?_⟩ <;> split <;> rfl

/-- The loop of `JumpParagraph` for `}` over rows that all lie before the end of the
document: the cursor row advances by one per row visited, up to and including the
first row with an empty render. -/
theorem jumpLoop_down : ∀ (target : List Row) (e : Editor), 0 ≤ e.cy →
    e.cy + target.length < e.Rows.length →
    ∃ e1, jumpLoop NavKeyRightCurly target e = .ok e1 ∧ e1.Rows = e.Rows ∧
      ((∃ t : Nat, (∃ r, target[t]? = some r ∧ r.render = []) ∧
          (∀ s : Nat, s < t → ∀ r, target[s]? = some r → r.render ≠ []) ∧
          e1.cy = e.cy + t + 1) ∨
        ((∀ (s : Nat) (r : Row), target[s]? = some r → r.render ≠ []) ∧
          e1.cy = e.cy + target.length)) := by
  intro target
  induction target with
  | nil =>
    intro e _ _
    exact ⟨e, rfl, rfl, Or.inr ⟨fun s r h => by simp at h, by simp⟩⟩
  | cons row rest ih =>
    intro e h0 hlen
    simp only [List.length_cons, Nat.cast_add, Nat.cast_one] at hlen
    have hm : MoveCursor e NavKeyRightCurly = clampCx { e with cy := e.cy + 1 } := by
      have : MoveCursor e NavKeyRightCurly
          = clampCx (if e.cy < e.Rows.length then { e with cy := e.cy + 1 } else e) := rfl
      rw [this, if_pos (by omega)]
    obtain ⟨e0, hc, hcy, hrows⟩ := clampCx_ok { e with cy := e.cy + 1 } (by simp; omega)
    simp only at hcy hrows
    unfold jumpLoop
    rw [hm, hc]
    simp only [Bind.bind, Except.bind]
    by_cases hb : row.render = []
    · rw [if_pos hb]
      refine ⟨e0, rfl, hrows,
        Or.inl ⟨0, ⟨row, List.getElem?_cons_zero, hb⟩, fun s hs => by omega, ?_⟩⟩
      rw [hcy]
      simp
    · rw [if_neg hb]
      obtain ⟨e1, h1, hr1, hcase⟩ := ih e0 (by omega) (by rw [hcy, hrows]; omega)
      refine ⟨e1, h1, hr1.trans hrows, ?_⟩
      rcases hcase with ⟨t, hblank, hbefore, hcy1⟩ | ⟨hall, hcy1⟩
      · refine Or.inl ⟨t + 1, by simpa using hblank, ?_, ?_⟩
        · intro s hs r hr
          cases s with
          | zero =>
            simp only [List.getElem?_cons_zero, Option.some.injEq] at hr
            subst hr
            exact hb
          | succ s =>
            simp only [List.getElem?_cons_succ] at hr
            exact hbefore s (by omega) r hr
        · rw [hcy1, hcy]
          push_cast
          omega
      · refine Or.inr ⟨?_, ?_⟩
        · intro s r hr
          cases s with
          | zero =>
            simp only [List.getElem?_cons_zero, Option.some.injEq] at hr
            subst hr
            exact hb
          | succ s =>
            simp only [List.getElem?_cons_succ] at hr
            exact hall s r hr
        · rw [hcy1, hcy]
          simp only [List.length_cons]
          push_cast
          omega

/-- The loop of `JumpParagraph` for `{` over no more rows than lie before the cursor:
the cursor row goes back by one per row visited, up to and including the first row
with an empty render. -/
theorem jumpLoop_up : ∀ (target : List Row) (e : Editor), (target.length : Int) ≤ e.cy →
    ∃ e1, jumpLoop NavKeyLeftCurly target e = .ok e1 ∧ e1.Rows = e.Rows ∧
      ((∃ t : Nat, (∃ r, target[t]? = some r ∧ r.render = []) ∧
          (∀ s : Nat, s < t → ∀ r, target[s]? = some r → r.render ≠ []) ∧
          e1.cy = e.cy - t - 1) ∨
        ((∀ (s : Nat) (r : Row), target[s]? = some r → r.render ≠ []) ∧
          e1.cy = e.cy - target.length)) := by
  intro target
  induction target with
  | nil =>
    intro e _
    exact ⟨e, rfl, rfl, Or.inr ⟨fun s r h => by simp at h, by simp⟩⟩
  | cons row rest ih =>
    intro e hlen
    simp only [List.length_cons, Nat.cast_add, Nat.cast_one] at hlen
    have hm : MoveCursor e NavKeyLeftCurly = clampCx { e with cy := e.cy - 1 } := by
      have : MoveCursor e NavKeyLeftCurly
          = clampCx (if e.cy ≠ 0 then { e with cy := e.cy - 1 } else e) := rfl
      rw [this, if_pos (by omega)]
    obtain ⟨e0, hc, hcy, hrows⟩ := clampCx_ok { e with cy := e.cy - 1 } (by simp; omega)
    simp only at hcy hrows
    unfold jumpLoop
    rw [hm, hc]
    simp only [Bind.bind, Except.bind]
    by_cases hb : row.render = []
    · rw [if_pos hb]
      refine ⟨e0, rfl, hrows,
        Or.inl ⟨0, ⟨row, List.getElem?_cons_zero, hb⟩, fun s hs => by omega, ?_⟩⟩
      rw [hcy]
      simp
    · rw [if_neg hb]
      obtain ⟨e1, h1, hr1, hcase⟩ := ih e0 (by omega)
      refine ⟨e1, h1, hr1.trans hrows, ?_⟩
      rcases hcase with ⟨t, hblank, hbefore, hcy1⟩ | ⟨hall, hcy1⟩
      · refine Or.inl ⟨t + 1, by simpa using hblank, ?_, ?_⟩
        · intro s hs r hr
          cases s with
          | zero =>
            simp only [List.getElem?_cons_zero, Option.some.injEq] at hr
            subst hr
            exact hb
          | succ s =>
            simp only [List.getElem?_cons_succ] at hr
            exact hbefore s (by omega) r hr
        · rw [hcy1, hcy]
          push_cast
          omega
      · refine Or.inr ⟨?_, ?_⟩
        · intro s r hr
          cases s with
          | zero =>
            simp only [List.getElem?_cons_zero, Option.some.injEq] at hr
            subst hr
            exact hb
          | succ s =>
            simp only [List.getElem?_cons_succ] at hr
            exact hall s r hr
        · rw [hcy1, hcy]
          simp only [List.length_cons]
          push_cast
          omega

/-- The paragraph jump with the cursor within the document.  For every document and
every cursor row `cy` with `0 ≤ cy ≤ len(rows)`: `JumpParagraph` with `}` and `cy < len(rows)` returns with `cy` the
smallest `j > cy` whose render is empty, or `len(rows) - 1` when no later row has an
empty render; with `{` and `cy > 0` it returns with `cy` the largest `j < cy` whose
render is empty, or 0 when no earlier row has an empty render; with `{` at `cy = 0` and
with `}` at `cy = len(rows)` it returns the editor unchanged. -/
theorem jumpParagraph_lands_on_blank_or_edge (e : Editor) (h0 : 0 ≤ e.cy)
    (h1 : e.cy ≤ e.Rows.length) :
    (e.cy < e.Rows.length →
      ∃ e1, JumpParagraph e NavKeyRightCurly = .ok e1 ∧ e1.Rows = e.Rows ∧
        ((∃ j : Nat, e.cy < j ∧ e1.cy = j ∧ BlankRow e.Rows j ∧
            ∀ i : Nat, e.cy < i → i < j → ¬ BlankRow e.Rows i) ∨
          (e1.cy = (e.Rows.length : Int) - 1 ∧ ∀ i : Nat, e.cy < i → ¬ BlankRow e.Rows i))) ∧
    (0 < e.cy →
      ∃ e1, JumpParagraph e NavKeyLeftCurly = .ok e1 ∧ e1.Rows = e.Rows ∧
        ((∃ j : Nat, (j : Int) < e.cy ∧ e1.cy = j ∧ BlankRow e.Rows j ∧
            ∀ i : Nat, j < i → (i : Int) < e.cy → ¬ BlankRow e.Rows i) ∨
          (e1.cy = 0 ∧ ∀ i : Nat, (i : Int) < e.cy → ¬ BlankRow e.Rows i))) ∧
    (e.cy = 0 → JumpParagraph e NavKeyLeftCurly = .ok e) ∧
    (e.cy = e.Rows.length → JumpParagraph e NavKeyRightCurly = .ok e) := by
  refine ⟨?_, ?_, ?_, ?_⟩
  · intro hlt
    have hj : JumpParagraph e NavKeyRightCurly
        = jumpLoop NavKeyRightCurly (e.Rows.drop (e.cy + 1).toNat) e := by
      unfold JumpParagraph
      dsimp only
      rw [if_neg (by
        intro hc
        rcases hc with ⟨_, hc⟩ | ⟨hc, _⟩
        · exact absurd hc (by decide)
        · omega), if_neg (by decide), if_pos rfl, if_pos ⟨by omega, by omega⟩]
    have hn : (e.cy + 1).toNat = e.cy.toNat + 1 := by omega
    have hlen : ((e.Rows.drop (e.cy + 1).toNat).length : Int) = e.Rows.length - e.cy - 1 := by
      rw [List.length_drop]
      omega
    obtain ⟨e1, hl, hr, hcase⟩ := jumpLoop_down (e.Rows.drop (e.cy + 1).toNat) e h0
      (by rw [hlen]; omega)
    refine ⟨e1, by rw [hj]; exact hl, hr, ?_⟩
    rcases hcase with ⟨t, ⟨r, hget, hb⟩, hbefore, hcy⟩ | ⟨hall, hcy⟩
    · rw [List.getElem?_drop] at hget
      refine Or.inl ⟨(e.cy + 1).toNat + t, by omega, by rw [hcy]; omega, ⟨r, hget, hb⟩, ?_⟩
      intro i hi1 hi2 hblank
      obtain ⟨r', hr', hb'⟩ := hblank
      have hs : i = (e.cy + 1).toNat + (i - (e.cy + 1).toNat) := by omega
      rw [hs, ← List.getElem?_drop] at hr'
      exact hbefore _ (by omega) r' hr' hb'
    · refine Or.inr ⟨by rw [hcy, hlen]; omega, ?_⟩
      intro i hi hblank
      obtain ⟨r', hr', hb'⟩ := hblank
      have hs : i = (e.cy + 1).toNat + (i - (e.cy + 1).toNat) := by omega
      rw [hs, ← List.getElem?_drop] at hr'
      exact hall _ r' hr' hb'
  · intro hpos
    have hj : JumpParagraph e NavKeyLeftCurly
        = jumpLoop NavKeyLeftCurly (e.Rows.take e.cy.toNat).reverse e := by
      unfold JumpParagraph
      dsimp only
      rw [if_neg (by
        intro hc
        rcases hc with ⟨hc, _⟩ | ⟨_, hc⟩
        · omega
        · exact absurd hc (by decide)), if_pos rfl, if_pos ⟨h0, h1⟩]
    have hlen : (e.Rows.take e.cy.toNat).reverse.length = e.cy.toNat := by
      rw [List.length_reverse, List.length_take]
      omega
    have hget : ∀ s : Nat, s < e.cy.toNat →
        (e.Rows.take e.cy.toNat).reverse[s]? = e.Rows[e.cy.toNat - 1 - s]? := by
      intro s hs
      rw [List.getElem?_reverse (by rw [List.length_take]; omega), List.length_take,
        List.getElem?_take_of_lt (by omega)]
      congr 1
      omega
    obtain ⟨e1, hl, hr, hcase⟩ := jumpLoop_up (e.Rows.take e.cy.toNat).reverse e
      (by rw [hlen]; omega)
    refine ⟨e1, by rw [hj]; exact hl, hr, ?_⟩
    rcases hcase with ⟨t, ⟨r, hgt, hb⟩, hbefore, hcy⟩ | ⟨hall, hcy⟩
    · have ht : t < e.cy.toNat := by
        have := getElem?_lt hgt
        rw [hlen] at this
        exact this
      rw [hget t ht] at hgt
      refine Or.inl ⟨e.cy.toNat - 1 - t, by omega, by rw [hcy]; omega, ⟨r, hgt, hb⟩, ?_⟩
      intro i hi1 hi2 hblank
      obtain ⟨r', hr', hb'⟩ := hblank
      have hs : i = e.cy.toNat - 1 - (e.cy.toNat - 1 - i) := by omega
      rw [hs, ← hget _ (by omega)] at hr'
      exact hbefore _ (by omega) r' hr' hb'
    · refine Or.inr ⟨by rw [hcy, hlen]; omega, ?_⟩
      intro i hi hblank
      obtain ⟨r', hr', hb'⟩ := hblank
      have hs : i = e.cy.toNat - 1 - (e.cy.toNat - 1 - i) := by omega
      rw [hs, ← hget _ (by omega)] at hr'
      exact hall _ r' hr' hb'
  · intro hz
    unfold JumpParagraph
    dsimp only
    rw [if_pos (Or.inl ⟨hz, rfl⟩)]
  · intro hz
    unfold JumpParagraph
    dsimp only
    rw [if_pos (Or.inr ⟨hz, rfl⟩)]

/-- An instance: the document `["ab", "", "cd"]`, from row 2 with `{` to the empty row 1,
and from row 0 with `}` to the same row. -/
theorem jumpParagraph_lands_on_blank_or_edge_witness :
    (0 ≤ exPara.cy ∧ exPara.cy ≤ exPara.Rows.length ∧ 0 < exPara.cy) ∧
    (JumpParagraph exPara NavKeyLeftCurly).map (fun e => e.cy) = .ok 1 ∧
    (JumpParagraph { exPara with cy := 0 } NavKeyRightCurly).map (fun e => e.cy) = .ok 1 ∧
    (∃ e1, JumpParagraph exPara NavKeyLeftCurly = .ok e1 ∧ e1.Rows = exPara.Rows ∧
        ((∃ j : Nat, (j : Int) < exPara.cy ∧ e1.cy = j ∧ BlankRow exPara.Rows j ∧
            ∀ i : Nat, j < i → (i : Int) < exPara.cy → ¬ BlankRow exPara.Rows i) ∨
          (e1.cy = 0 ∧ ∀ i : Nat, (i : Int) < exPara.cy → ¬ BlankRow exPara.Rows i))) :=
  ⟨by decide, by decide, by decide,
    (jumpParagraph_lands_on_blank_or_edge exPara (by decide) (by decide)).2.1 (by decide)⟩

/-- C27 at its failing input.  Document `["a","b","c"]`, cursor on row 1, Normal mode.
The keys `P j j j u` paste an empty row, move the cursor down to row 4, the line after
the last of the four rows, and undo the paste: `Undo` removes the row and leaves the
cursor, so `cy = 4 > 0` on a document of three rows.  There `JumpParagraph` with `{`
evaluates the slice expression `e.Rows[:cy]` past the end of `e.Rows` and does not
return, as does the run of the six keys `P j j j u {`. -/
theorem jumpParagraph_slices_past_document :
    (normalKeys stdLib findCanceled
        [MotionKeyCapitalP, NavKeyJ, NavKeyJ, NavKeyJ, ModeKeyU] exAbc).map
      (fun e => (e.cy, e.Rows.map Row.chars))
      = .ok (4, ["a".toList, "b".toList, "c".toList]) ∧
    (normalKeys stdLib findCanceled
        [MotionKeyCapitalP, NavKeyJ, NavKeyJ, NavKeyJ, ModeKeyU] exAbc >>=
      fun e => JumpParagraph e NavKeyLeftCurly) = .error .indexOutOfRange ∧
    normalKeys stdLib findCanceled
        [MotionKeyCapitalP, NavKeyJ, NavKeyJ, NavKeyJ, ModeKeyU, NavKeyLeftCurly] exAbc
      = .error .indexOutOfRange := by
  refine ⟨?_, ?_, ?_⟩ <;> decide

/-! ## The counter `dirty` -/

/-- The six editing operations and the counter `dirty`: for every state, each of
`InsertChar`, `InsertNewline`, `CutRow` and `PasteRow` that returns has added 1 to
`dirty`, and each of `DeleteChar` and `DeleteRow` has either added 1 or changed
nothing at all. -/
theorem edits_increment_dirty (L : Lib) (e e1 : Editor) (c : Char) (i : Int) :
    (InsertChar L e c = .ok e1 → e1.dirty = e.dirty + 1) ∧
    (DeleteChar L e = .ok e1 → e1 = e ∨ e1.dirty = e.dirty + 1) ∧
    (InsertNewline L e = .ok e1 → e1.dirty = e.dirty + 1) ∧
    (DeleteRow e i = e ∨ (DeleteRow e i).dirty = e.dirty + 1) ∧
    (CutRow e = .ok e1 → e1.dirty = e.dirty + 1) ∧
    (PasteRow L e i = .ok e1 → e1.dirty = e.dirty + 1) := by
  refine ⟨?_, ?_, ?_, ?_, ?_, ?_⟩
  · intro h
    rw [InsertChar_fields L e e1 c h]
  · intro h
    rcases DeleteChar_fields L e e1 h with h1 | h1
    · exact Or.inl h1
    · right
      rw [h1]
  · intro h
    rw [InsertNewline_fields L e e1 h]
  · rcases DeleteRow_fields e i with h1 | h1
    · exact Or.inl h1
    · right
      rw [h1]
  · intro h
    rw [CutRow_fields e e1 h]
  · intro h
    rw [PasteRow_fields L e e1 i h]

/-- `Undo` leaves `dirty` as it is, whatever it restores. -/
theorem Undo_keeps_dirty (e e1 : Editor) (h : Undo e = .ok e1) : e1.dirty = e.dirty := by
  rw [Undo_fields e e1 h]

/-- C29 (as stated, fails).  On the document `["a","b","c"]` with the cursor on `"b"`, the
keys `d d` cut the row and leave `dirty = 1`; the key `u` then puts the row back, so the
sequence of row contents changes from `["a","c"]` to `["a","b","c"]`, and `dirty` is
still 1. -/
theorem undo_changes_rows_not_dirty (L : Lib) (find : FindFn) :
    (normalKeys L find [MotionKeyD, MotionKeyD] exAbc).map
        (fun e => (e.Rows.map Row.chars, e.dirty, e.undoPath.length))
      = .ok (["a".toList, "c".toList], 1, 1) ∧
    (normalKeys L find [MotionKeyD, MotionKeyD, ModeKeyU] exAbc).map
        (fun e => (e.Rows.map Row.chars, e.dirty, e.undoPath.length))
      = .ok (["a".toList, "b".toList, "c".toList], 1, 0) ∧
    (Undo exCut).map (fun e => (e.Rows.map Row.chars, e.dirty))
      = .ok (["a".toList, "b".toList, "c".toList], exCut.dirty) ∧
    exCut.Rows.map Row.chars = ["a".toList, "c".toList] :=
  ⟨rfl, rfl, rfl, rfl⟩

/-! ## The end of the propagation -/

/-- Where `updateHighlight` stops: once a row from `p` on has the flag it had before,
no row after it has changed. -/
theorem updateHighlightAt_bounded (L : Lib) :
    ∀ (fuel : Nat) (e e1 : Editor) (p : Nat), Contiguous e.Rows →
      updateHighlightAt L fuel e p = .ok e1 →
      ∀ j, p ≤ j →
        (∀ r r1, e.Rows[j]? = some r → e1.Rows[j]? = some r1 →
          r1.hasUnclosedComment = r.hasUnclosedComment) →
        ∀ i, j < i → e1.Rows[i]? = e.Rows[i]? := by
  intro fuel
  induction fuel with
  | zero => intro e e1 p _ h; simp [updateHighlightAt] at h
  | succ fuel ih =>
    intro e e1 p hc h j hpj hflag i hji
    obtain ⟨_, row, row1, changed, _, hrow, hh⟩ := updateHighlightAt_inv L _ e e1 p h
    have hidx := hc p row hrow
    have hlt := getElem?_lt hrow
    obtain ⟨ht, hcases⟩ := highlightRow_eq L e row row1 changed hh
    have hi1 : row1.idx = row.idx := by
      have := congrArg (fun t => t.1) ht
      simpa [Row.text] using this
    rw [updateHighlightAt_unfold L fuel e p row row1 changed hrow hidx hh] at h
    split at h
    · rename_i hcond
      have hc' := contiguous_set e.Rows p row row1 hc hrow hi1
      obtain ⟨_, _, hbefore, _⟩ := updateHighlightAt_frame L fuel _ e1 (p + 1) hc' h
      by_cases hjp : j = p
      · subst hjp
        exfalso
        have h1 : e1.Rows[j]? = some row1 := by
          rw [hbefore j (by omega)]
          exact List.getElem?_set_self hlt
        have hsame := hflag row row1 hrow h1
        rcases hcases with ⟨_, _, _, hch⟩ | ⟨sx, inc, _, _, _, hch⟩
        · rw [hch] at hcond
          exact absurd hcond.1 (by decide)
        · rw [hch, hsame] at hcond
          simp at hcond
      · have := ih _ e1 (p + 1) hc' h j (by omega) (by
          intro r r1 hr hr1
          rw [List.getElem?_set_ne (by omega)] at hr
          exact hflag r r1 hr hr1) i hji
        rw [this]
        exact List.getElem?_set_ne (by omega)
    · cases h
      exact List.getElem?_set_ne (by omega)

/-- C30.  Propagation of the comment state.  For every document with contiguous
indices, every profile or none, and every row `k`: whenever `updateHighlight` on row
`k` returns, the rows before `k` are as they were, and if a row `j ≥ k` has the flag it
had before, then every row after `j` is as it was, highlight classes and flag
included; this holds in particular for the first row from `k` on whose flag the
recomputation does not change.  Without a profile, or under one on which the scan
cannot fail, `updateHighlight` returns. -/
theorem highlight_propagation_is_bounded (L : Lib) (e : Editor) (k : Nat)
    (hc : Contiguous e.Rows) (hk : k < e.Rows.length) :
    (∀ e1, updateHighlight L e k = .ok e1 →
      e1.Rows.length = e.Rows.length ∧
      (∀ i, i < k → e1.Rows[i]? = e.Rows[i]?) ∧
      ∀ j, k ≤ j →
        (∀ r r1, e.Rows[j]? = some r → e1.Rows[j]? = some r1 →
          r1.hasUnclosedComment = r.hasUnclosedComment) →
        ∀ i, j < i → e1.Rows[i]? = e.Rows[i]?) ∧
    ((∀ sx, e.syn = some sx → ProfileOK sx) → ∃ e1, updateHighlight L e k = .ok e1) := by
  constructor
  · intro e1 h
    unfold updateHighlight at h
    refine ⟨updateHighlightAt_length L _ e e1 k h, ?_, ?_⟩
    · exact (updateHighlightAt_frame L _ e e1 k hc h).2.2.1
    · exact updateHighlightAt_bounded L _ e e1 k hc h
  · intro hp
    exact updateHighlightAt_ok L e.syn hp (e.Rows.length + 1) e k rfl hc hk (by omega)

/-- An instance: under the Go profile the rows `["a", "x", "*/", "y"]` with the flags of
a comment opened on row 0.  `updateHighlight` on row 0 changes the flags of rows 0 and
1, finds the flag of row 2 unchanged and leaves row 3 alone. -/
theorem highlight_propagation_is_bounded_witness :
    Contiguous exStaleFlag.Rows ∧
    (updateHighlight stdLib exStaleFlag 0).map
        (fun e => e.Rows.map fun r => (r.hl, r.hasUnclosedComment))
      = .ok [([0], false), ([0], false), ([0, 0], false), ([0], false)] ∧
    (∀ e1, updateHighlight stdLib exStaleFlag 0 = .ok e1 →
      ∀ i, 2 < i → e1.Rows[i]? = exStaleFlag.Rows[i]?) ∧
    ∃ e1, updateHighlight stdLib exStaleFlag 0 = .ok e1 :=
  ⟨contiguous_of_check _ (by decide), by decide,
    fun e1 h => ((highlight_propagation_is_bounded stdLib exStaleFlag 0
      (contiguous_of_check _ (by decide)) (by decide)).1 e1 h).2.2 2 (by decide) (by
        intro r r1 hr hr1
        have hv : (updateHighlight stdLib exStaleFlag 0).map
            (fun e => (e.Rows[2]?).map Row.hasUnclosedComment) = .ok (some false) := by decide
        rw [h] at hv
        simp only [Except.map, Except.ok.injEq] at hv
        rw [hr1] at hv
        have hr' : exStaleFlag.Rows[2]? = some (mkRow 2 "*/" "*/" [2, 2] false) := rfl
        rw [hr'] at hr
        cases hr
        simpa using hv),
    (highlight_propagation_is_bounded stdLib exStaleFlag 0
      (contiguous_of_check _ (by decide)) (by decide)).2 (by
        intro sx hs
        cases hs
        exact HLDB_ok syntaxGo (by decide))⟩

/-! ## The window after `scroll` -/

/-- What `scroll` computes: the window of the state with the new `rx`; the same `rx`
is computed from every state with the same cursor, rows and profile. -/
theorem scroll_eq (L : Lib) (e e1 : Editor) (h : scroll L e = .ok e1) :
    ∃ rx : Int, e1 = scrollWindow { e with rx := rx } ∧
      ∀ e2 : Editor, e2.cx = e.cx → e2.cy = e.cy → e2.Rows = e.Rows → e2.syn = e.syn →
        scroll L e2 = .ok (scrollWindow { e2 with rx := rx }) := by
  unfold scroll at h
  dsimp only at h
  by_cases hlt : e.cy < e.Rows.length
  · rw [if_pos hlt] at h
    obtain ⟨row, hrow, h⟩ := bind_eq_ok h
    obtain ⟨rx, hrx, h⟩ := bind_eq_ok h
    cases h
    refine ⟨rx, rfl, ?_⟩
    intro e2 hx hy hr hs
    unfold scroll
    dsimp only
    rw [hy, hr, hx, if_pos hlt, hrow]
    have hrx2 : rowCxToRx L { e2 with cx := e.cx, cy := e.cy, Rows := e.Rows, rx := 0 } row e.cx
        = .ok rx := by
      unfold rowCxToRx at hrx ⊢
      dsimp only at hrx ⊢
      rw [hs]
      exact hrx
    simp only [Bind.bind, Except.bind]
    rw [hrx2]
    rfl
  · rw [if_neg hlt] at h
    cases h
    refine ⟨0, rfl, ?_⟩
    intro e2 hx hy hr hs
    unfold scroll
    dsimp only
    rw [hy, hr, if_neg hlt]
    rfl

/-- The window after the four `if`s, on a screen of at least one row and column. -/
theorem scrollWindow_cases (e : Editor) (hr : 1 ≤ e.screenRows) (hc : 1 ≤ e.screenCols) :
    (e.rowOffset ≤ e.cy ∧ e.cy < e.rowOffset + e.screenRows →
      (scrollWindow e).rowOffset = e.rowOffset) ∧
    (e.cy < e.rowOffset → (scrollWindow e).rowOffset = e.cy) ∧
    (e.cy ≥ e.rowOffset + e.screenRows →
      (scrollWindow e).rowOffset = e.cy - e.screenRows + 1) ∧
    (e.colOffset ≤ e.rx ∧ e.rx < e.colOffset + e.screenCols →
      (scrollWindow e).colOffset = e.colOffset) ∧
    (e.rx < e.colOffset → (scrollWindow e).colOffset = e.rx) ∧
    (e.rx ≥ e.colOffset + e.screenCols →
      (scrollWindow e).colOffset = e.rx - e.screenCols + 1) := by
  unfold scrollWindow
  dsimp only
  split_ifs <;> refine ⟨?_, ?_, ?_, ?_, ?_, ?_⟩ <;> intro h <;> simp only [] at * <;> omega

theorem scrollWindow_offsets (e : Editor) :
    (scrollWindow e).rowOffset =
      (if e.cy ≥ (if e.cy < e.rowOffset then e.cy else e.rowOffset) + e.screenRows then
        e.cy - e.screenRows + 1
      else (if e.cy < e.rowOffset then e.cy else e.rowOffset)) ∧
    (scrollWindow e).colOffset =
      (if e.rx ≥ (if e.rx < e.colOffset then e.rx else e.colOffset) + e.screenCols then
        e.rx - e.screenCols + 1
      else (if e.rx < e.colOffset then e.rx else e.colOffset)) ∧
    (scrollWindow e).cy = e.cy ∧ (scrollWindow e).rx = e.rx ∧
    (scrollWindow e).screenRows = e.screenRows ∧ (scrollWindow e).screenCols = e.screenCols := by
  unfold scrollWindow
  dsimp only
  split_ifs <;> exact ⟨rfl, rfl, rfl, rfl, rfl, rfl⟩

/-- The four `if`s applied twice give what they give once, on every screen. -/
theorem scrollWindow_twice (e : Editor) : scrollWindow (scrollWindow e) = scrollWindow e := by
  obtain ⟨h1, h2, h3, h4, h5, h6⟩ := scrollWindow_offsets (scrollWindow e)
  obtain ⟨k1, k2, k3, k4, k5, k6⟩ := scrollWindow_offsets e
  rw [k3, k5] at h1
  rw [k4, k6] at h2
  have hr : (scrollWindow (scrollWindow e)).rowOffset = (scrollWindow e).rowOffset := by
    rw [h1, k1]
    split_ifs <;> omega
  have hc : (scrollWindow (scrollWindow e)).colOffset = (scrollWindow e).colOffset := by
    rw [h2, k2]
    split_ifs <;> omega
  rw [scrollWindow_fields (scrollWindow e), hr, hc]

/-- C31, counterexample.  On a terminal of two lines `screenRows` is 0.  With the
cursor on row 0 and the window at row 1 the cursor is above the window, and `scroll`
leaves the window at row 1, not at the cursor row: the second `if` fires after the
first. -/
theorem scroll_zero_rows_window_past_cursor :
    exTwoLines.cy < exTwoLines.rowOffset ∧
    (scroll stdLib exTwoLines).map (fun e => (e.cy, e.rowOffset)) = .ok (0, 1) :=
  ⟨by decide, by decide⟩

/-- C31, amended.  For every library and every state on which `scroll` returns: on a
screen of at least one row and one column the row offset is unchanged when the cursor
row is inside the window, is `cy` when the cursor is above it, and is
`cy - screenRows + 1` when the cursor is below it, and the same holds for the column
offset with the new `rx` and `screenCols`; and on every screen a second call of
`scroll` returns the state that the first one returned. -/
theorem scroll_moves_window_by_deficit (L : Lib) (e e1 : Editor) (h : scroll L e = .ok e1) :
    (1 ≤ e.screenRows → 1 ≤ e.screenCols →
      (e.rowOffset ≤ e.cy ∧ e.cy < e.rowOffset + e.screenRows → e1.rowOffset = e.rowOffset) ∧
      (e.cy < e.rowOffset → e1.rowOffset = e.cy) ∧
      (e.cy ≥ e.rowOffset + e.screenRows → e1.rowOffset = e.cy - e.screenRows + 1) ∧
      (e.colOffset ≤ e1.rx ∧ e1.rx < e.colOffset + e.screenCols → e1.colOffset = e.colOffset) ∧
      (e1.rx < e.colOffset → e1.colOffset = e1.rx) ∧
      (e1.rx ≥ e.colOffset + e.screenCols → e1.colOffset = e1.rx - e.screenCols + 1)) ∧
    scroll L e1 = .ok e1 := by
  obtain ⟨rx, h1, h2⟩ := scroll_eq L e e1 h
  have hf := scrollWindow_fields { e with rx := rx }
  have hrx : e1.rx = rx := by rw [h1, hf]
  constructor
  · intro hr hc
    have := scrollWindow_cases { e with rx := rx } hr hc
    rw [hrx, h1]
    exact this
  · have hx : e1.cx = e.cx := by rw [h1, hf]
    have hy : e1.cy = e.cy := by rw [h1, hf]
    have hrows : e1.Rows = e.Rows := by rw [h1, hf]
    have hs : e1.syn = e.syn := by rw [h1, hf]
    rw [h2 e1 hx hy hrows hs]
    have he : { e1 with rx := rx } = e1 := by rw [← hrx]
    rw [he, h1, scrollWindow_twice]

/-- An instance: `exAbc`, cursor on row 1, with the window at row 2: the window moves
up to row 1 and stays there. -/
theorem scroll_moves_window_by_deficit_witness :
    scroll stdLib { exAbc with rowOffset := 2 } = .ok { exAbc with rowOffset := 1 } ∧
    scroll stdLib { exAbc with rowOffset := 1 } = .ok { exAbc with rowOffset := 1 } :=
  ⟨by decide, (scroll_moves_window_by_deficit stdLib { exAbc with rowOffset := 2 }
    { exAbc with rowOffset := 1 } (by decide)).2⟩

/-! ## The column mappings on the start of a rune -/

/-- Under a profile with a positive tab stop a rune that is a tab or has a width of at
least 1 moves the display column to the right. -/
theorem advance_grows (L : Lib) (sx : EditorSyntax) (hT : 0 < sx.Tabstop) (rx : Int) (r : Char)
    (hw : r ≠ '\t' → 1 ≤ L.RuneWidth r) :
    ∃ c, advance L (some sx) rx r = .ok c ∧ rx < c := by
  unfold advance
  by_cases hr : r = '\t'
  · have hne : sx.Tabstop ≠ 0 := by omega
    simp only [hr, if_true, hne, ne_eq, not_false_eq_true]
    refine ⟨_, rfl, ?_⟩
    have := Int.tmod_lt_of_pos rx hT
    omega
  · simp only [hr, if_false]
    refine ⟨_, rfl, ?_⟩
    have := hw hr
    omega

theorem cxToRxLoop_grows (L : Lib) (sx : EditorSyntax) (hT : 0 < sx.Tabstop) :
    ∀ (chars : Str) (rx : Int), (∀ c ∈ chars, c ≠ '\t' → 1 ≤ L.RuneWidth c) →
      ∃ w, cxToRxLoop L (some sx) chars rx = .ok w ∧ rx ≤ w := by
  intro chars
  induction chars with
  | nil => intro rx _; exact ⟨rx, rfl, le_refl _⟩
  | cons r rest ih =>
    intro rx hw
    obtain ⟨c, hc, hlt⟩ := advance_grows L sx hT rx r (hw r (List.mem_cons_self _ _))
    obtain ⟨w, hw1, hle⟩ := ih c (fun x hx => hw x (List.mem_cons_of_mem _ hx))
    refine ⟨w, ?_, by omega⟩
    simp only [cxToRxLoop, hc, Bind.bind, Except.bind]
    exact hw1

/-- The walk of `rowRxToCx` towards the display column of the start of a rune stops at
that rune. -/
theorem rxToCxLoop_at_start (L : Lib) (sx : EditorSyntax) (hT : 0 < sx.Tabstop) :
    ∀ (a : Str) (r : Char) (b : Str) (i cur : Int),
      (∀ c ∈ a ++ r :: b, c ≠ '\t' → 1 ≤ L.RuneWidth c) →
      ∃ w, cxToRxLoop L (some sx) a cur = .ok w ∧
        rxToCxLoop L (some sx) w (a ++ r :: b) i cur = .ok (i + a.length) := by
  intro a
  induction a with
  | nil =>
    intro r b i cur hw
    obtain ⟨c, hc, hlt⟩ := advance_grows L sx hT cur r (hw r (by simp))
    refine ⟨cur, rfl, ?_⟩
    simp only [List.nil_append, rxToCxLoop, hc, Bind.bind, Except.bind, gt_iff_lt, hlt, if_true,
      pure, Except.pure, List.length_nil, Nat.cast_zero, add_zero]
  | cons x rest ih =>
    intro r b i cur hw
    obtain ⟨c, hc, hlt⟩ := advance_grows L sx hT cur x (hw x (by simp))
    have hw1 : ∀ y ∈ rest ++ r :: b, y ≠ '\t' → 1 ≤ L.RuneWidth y :=
      fun y hy => hw y (by simp at hy ⊢; tauto)
    obtain ⟨w, hw2, hrec⟩ := ih r b (i + 1) c hw1
    obtain ⟨w', hw3, hle⟩ := cxToRxLoop_grows L sx hT rest c
      (fun y hy => hw1 y (List.mem_append_left _ hy))
    rw [hw2] at hw3
    cases hw3
    refine ⟨w, ?_, ?_⟩
    · simp only [cxToRxLoop, hc, Bind.bind, Except.bind]
      exact hw2
    · have hnot : ¬ c > w := by omega
      simp only [List.cons_append, rxToCxLoop, hc, Bind.bind, Except.bind, hnot, if_false]
      show rxToCxLoop L (some sx) w (rest ++ r :: b) (i + 1) c = _
      rw [hrec]
      simp only [List.length_cons, Nat.cast_add, Nat.cast_one]
      congr 1
      omega

/-- C40.  For every library, every profile with a tab stop `T > 0`, every row whose
runes other than the tab have a display width of at least 1, and every `cx` with
`0 ≤ cx < len(chars)`: `rowCxToRx(row, cx)` returns a column `rx`, and
`rowRxToCx(row, rx)` returns `cx`. -/
theorem column_mappings_inverse_on_starts (L : Lib) (e : Editor) (sx : EditorSyntax) (row : Row)
    (cx : Int) (hs : e.syn = some sx) (hT : 0 < sx.Tabstop)
    (hw : ∀ c ∈ row.chars, c ≠ '\t' → 1 ≤ L.RuneWidth c)
    (h0 : 0 ≤ cx) (h1 : cx < row.chars.length) :
    ∃ rx, rowCxToRx L e row cx = .ok rx ∧ rowRxToCx L e row rx = .ok cx := by
  obtain ⟨n, rfl⟩ := Int.eq_ofNat_of_zero_le h0
  have hn : n < row.chars.length := by omega
  obtain ⟨r, hr⟩ : ∃ r, row.chars[n]? = some r := ⟨row.chars[n], List.getElem?_eq_getElem hn⟩
  have hsplit : row.chars = row.chars.take n ++ r :: row.chars.drop (n + 1) := by
    have := List.take_append_drop n row.chars
    rw [drop_eq_cons_of_getElem? _ _ _ hr] at this
    exact this.symm
  have hw1 : ∀ c ∈ row.chars.take n ++ r :: row.chars.drop (n + 1),
      c ≠ '\t' → 1 ≤ L.RuneWidth c := by
    rw [← hsplit]
    exact hw
  obtain ⟨w, hw2, hrec⟩ := rxToCxLoop_at_start L sx hT (row.chars.take n) r
    (row.chars.drop (n + 1)) 0 0 hw1
  refine ⟨w, ?_, ?_⟩
  · rw [rowCxToRx_take L e row n (by omega), hs]
    exact hw2
  · unfold rowRxToCx
    rw [hs, hsplit, hrec]
    simp only [List.length_take, zero_add]
    congr 2
    omega

/-- An instance: the row `"a\tb"` under the Go profile, `cx = 1`, the tab. -/
theorem column_mappings_inverse_on_starts_witness :
    ∃ rx, rowCxToRx stdLib exTabGo (mkRow 0 "a\tb" "a    b" [0, 0, 0, 0, 0, 0] false) 1 = .ok rx ∧
      rowRxToCx stdLib exTabGo (mkRow 0 "a\tb" "a    b" [0, 0, 0, 0, 0, 0] false) rx = .ok 1 :=
  column_mappings_inverse_on_starts stdLib exTabGo syntaxGo _ 1 rfl (by decide) (by decide)
    (by decide) (by decide)

/-! ## The display column and the width of the render -/

theorem StringWidth_append (L : Lib) (a b : Str) :
    StringWidth L (a ++ b) = StringWidth L a + StringWidth L b := by
  simp [StringWidth]

theorem cxToRxLoop_no_tab (L : Lib) (syn : Option EditorSyntax) :
    ∀ (s : Str) (rx : Int), '\t' ∉ s → cxToRxLoop L syn s rx = .ok (rx + StringWidth L s) := by
  intro s
  induction s with
  | nil => intro rx _; simp [cxToRxLoop, StringWidth]
  | cons r rest ih =>
    intro rx h
    have hr : r ≠ '\t' := fun hr => h (hr ▸ List.mem_cons_self _ _)
    have hrest : '\t' ∉ rest := fun hm => h (List.mem_cons_of_mem _ hm)
    simp only [cxToRxLoop, advance, hr, if_false, Bind.bind, Except.bind]
    rw [ih _ hrest]
    simp only [StringWidth, List.map_cons, List.sum_cons]
    congr 1
    omega

theorem cxToRxLoop_tabs (L : Lib) (sx : EditorSyntax) (T : Nat) (hT : 0 < T)
    (hts : sx.Tabstop = T) :
    ∀ (k m : Nat), cxToRxLoop L (some sx) (List.replicate k '\t') ((m : Int) * T)
      = .ok (((m + k : Nat) : Int) * T) := by
  intro k
  induction k with
  | zero => intro m; simp [cxToRxLoop]
  | succ k ih =>
    intro m
    have hne : sx.Tabstop ≠ 0 := by omega
    have hmod : ((m : Int) * (T : Int)).tmod (T : Int) = 0 := Int.mul_tmod_left _ _
    have hadv : advance L (some sx) ((m : Int) * T) '\t' = .ok (((m + 1 : Nat) : Int) * T) := by
      unfold advance
      rw [if_pos rfl]
      dsimp only
      rw [if_pos hne, hts, hmod]
      congr 1
      push_cast
      ring
    simp only [List.replicate_succ, cxToRxLoop, hadv, Bind.bind, Except.bind]
    rw [ih (m + 1)]
    congr 2
    push_cast
    ring

theorem flatMap_no_tab (T : Nat) : ∀ s : Str, '\t' ∉ s →
    (s.flatMap fun c => if c = '\t' then List.replicate T ' ' else [c]) = s := by
  intro s
  induction s with
  | nil => intro _; rfl
  | cons r rest ih =>
    intro h
    have hr : r ≠ '\t' := fun hr => h (hr ▸ List.mem_cons_self _ _)
    have hrest : '\t' ∉ rest := fun hm => h (List.mem_cons_of_mem _ hm)
    simp only [List.flatMap_cons, hr, if_false, ih hrest, List.singleton_append]

theorem StringWidth_tabs (L : Lib) (T : Nat) (hsp : L.RuneWidth ' ' = 1) : ∀ k : Nat,
    StringWidth L ((List.replicate k '\t').flatMap
      fun c => if c = '\t' then List.replicate T ' ' else [c]) = ((k : Nat) : Int) * T := by
  intro k
  induction k with
  | zero => simp [StringWidth]
  | succ k ih =>
    rw [List.replicate_succ, List.flatMap_cons, StringWidth_append, ih]
    simp only [if_true, StringWidth, List.map_replicate, List.sum_replicate, hsp, smul_eq_mul,
      mul_one]
    push_cast
    ring

/-- Where the display column of the cursor is the width of the render: on a row whose
tabs all stand at its start, under a profile with a positive tab stop and a library
in which the space has width 1. -/
theorem rowCxToRx_leading_tabs (L : Lib) (e : Editor) (sx : EditorSyntax) (row : Row)
    (T k : Nat) (rest : Str) (hs : e.syn = some sx) (hT : 0 < T) (hts : sx.Tabstop = T)
    (hsp : L.RuneWidth ' ' = 1) (hrow : row.chars = List.replicate k '\t' ++ rest)
    (hrest : '\t' ∉ rest) (cx : Nat) (hcx : cx ≤ row.chars.length) :
    ∃ render, renderOf e.syn (row.chars.take cx) = .ok render ∧
      rowCxToRx L e row cx = .ok (StringWidth L render) := by
  have htake : row.chars.take cx = List.replicate (min cx k) '\t' ++ rest.take (cx - k) := by
    rw [hrow, List.take_append_eq_append_take, List.take_replicate, List.length_replicate]
  have hrest1 : '\t' ∉ rest.take (cx - k) := fun hm => hrest (List.mem_of_mem_take hm)
  have hts1 : (if sx.Tabstop ≠ 0 then sx.Tabstop else tabstop) = (T : Int) := by
    have : sx.Tabstop ≠ 0 := by omega
    rw [if_pos this, hts]
  refine ⟨_, by rw [hs]; exact renderOf_full_stops sx T hT hts1 _, ?_⟩
  rw [rowCxToRx_take L e row cx hcx, hs, htake, cxToRxLoop_append]
  have h0 := cxToRxLoop_tabs L sx T hT hts (min cx k) 0
  simp only [Nat.cast_zero, zero_mul, zero_add] at h0
  rw [h0]
  show cxToRxLoop L (some sx) (rest.take (cx - k)) _ = _
  rw [cxToRxLoop_no_tab L _ _ _ hrest1, List.flatMap_append, StringWidth_append,
    StringWidth_tabs L T hsp, flatMap_no_tab T _ hrest1]

/-- C35 at its failing input.  Go profile (tab stop 4), the row `"a\tb"` with the
render `"a    b"` that `updateRow` computes.  For `cx = 2`, after the tab,
`rowCxToRx` gives the display column 4, and the render that `updateRow` makes of the
first two characters, `"a    "`, has the display width 5; for `cx = len(chars) = 3`
`rowCxToRx` gives 5 and the render of the row has the display width 6. -/
theorem cursor_column_is_not_render_width :
    (updateRow stdLib exTabGo 0).map (fun e => e.Rows.map Row.render) = .ok ["a    b".toList] ∧
    rowCxToRx stdLib exTabGo (mkRow 0 "a\tb" "a    b" [0, 0, 0, 0, 0, 0] false) 2 = .ok 4 ∧
    (renderOf (some syntaxGo) ("a\tb".toList.take 2)).map (StringWidth stdLib) = .ok 5 ∧
    rowCxToRx stdLib exTabGo (mkRow 0 "a\tb" "a    b" [0, 0, 0, 0, 0, 0] false) 3 = .ok 5 ∧
    StringWidth stdLib "a    b".toList = 6 := by
  refine ⟨?_, ?_, ?_, ?_, ?_⟩ <;> decide

/-! ## Undo after a join of rows -/

/-- C36 at its failing input.  Go profile, rows `["a", "b"]` with the indices 0 and 1,
cursor `(0, 0)`, Normal mode, empty undo stack.  The keys `j i Backspace Esc` move to
row 1, enter Insert mode, which records an edit of row 1, join row 1 to row 0, which
records nothing, and return to Normal mode: one row is left and the undo stack holds
the edit of row 1.  The key `u` then calls `Undo`, which assigns to `e.Rows[1]`. -/
theorem undo_edit_after_join_is_out_of_range :
    (exGoAB.Rows.map Row.idx = [0, 1] ∧ (exGoAB.cx, exGoAB.cy) = (0, 0) ∧
      exGoAB.mode = NormalMode ∧ exGoAB.undoPath.length = 0) ∧
    (editKeys stdLib findCanceled [NavKeyJ, ModeKeyI, KeyBackspace, EscKey] exGoAB).map
      (fun e => (e.Rows.map Row.chars, e.undoPath.map fun n => (n.fromIdx, n.toIdx), e.mode))
      = .ok (["ab".toList], [(1, 1)], NormalMode) ∧
    (editKeys stdLib findCanceled [NavKeyJ, ModeKeyI, KeyBackspace, EscKey] exGoAB >>= Undo)
      = .error .indexOutOfRange ∧
    editKeys stdLib findCanceled [NavKeyJ, ModeKeyI, KeyBackspace, EscKey, ModeKeyU] exGoAB
      = .error .indexOutOfRange := by
  refine ⟨by decide, ?_, ?_, ?_⟩ <;> decide

/-! ## The search with the empty query -/

/-- Where the empty query is harmless: on a row that begins with a rune other than the
tab, of positive width, `rowRxToCx(row, 0)` returns 0. -/
theorem rowRxToCx_zero (L : Lib) (e : Editor) (row : Row) (c : Char) (rest : Str)
    (hrow : row.chars = c :: rest) (hc : c ≠ '\t') (hw : 0 < L.RuneWidth c) :
    strIndex [] row.render = 0 ∧ rowRxToCx L e row 0 = .ok 0 := by
  constructor
  · cases row.render <;> simp [strIndex]
  · unfold rowRxToCx
    rw [hrow]
    simp only [rxToCxLoop, advance, hc, if_false, Bind.bind, Except.bind, zero_add, gt_iff_lt, hw,
      if_true, pure, Except.pure]

/-- C37 at its failing input.  The editor as `main` leaves it without a file: one
empty row, as `updateRow` renders it.  The key `/` opens the search, and the first key
at its prompt, Backspace, calls the callback with the empty query: `strings.Index`
finds it at offset 0 of the empty render, and `rowRxToCx(row, 0)` walks over no rune
and reaches `panic("unreachable")`; 0 is not less than the total width 0.  With the
widths of `runewidth` for CJK ideographs, the query `"界"` on the row `"世界界"` is
found at byte offset 3, which `rowRxToCx` accepts, and the write to `row.hl[3]` is out
of range of the three classes. -/
theorem find_empty_query_on_empty_row (L : Lib) (U : Unicode) :
    (updateRow L exOneEmpty 0 = .ok exOneEmpty ∧ strIndex [] [] = 0) ∧
    Find L U [KeyBackspace] exOneEmpty = .error .unreachable ∧
    ProcessKeyNormalMode L (Find L U [KeyBackspace]) exOneEmpty ModeKeySearch
      = .error .unreachable ∧
    ((updateRow cjkLib exCjkFind 0 = .ok exCjkFind ∧
      strIndex "界".toList "世界界".toList = 3 ∧
      (index exCjkFind.Rows 0 >>= fun row => rowRxToCx cjkLib exCjkFind row 3) = .ok 1 ∧
      exCjkFind.Rows.map (fun row => row.hl.length) = [3]) ∧
     searchStep cjkLib "界".toList exCjkFind ⟨-1, 1, -1, []⟩ = .error .indexOutOfRange) :=
  ⟨⟨rfl, rfl⟩, rfl, rfl, ⟨by decide, by decide, by decide, by decide⟩, by decide⟩

/-! ## The visible part of a row -/

theorem StringWidth_le_length (L : Lib) :
    ∀ s : Str, (∀ c ∈ s, L.RuneWidth c ≤ 1) → StringWidth L s ≤ s.length := by
  intro s
  induction s with
  | nil => intro _; simp [StringWidth]
  | cons r rest ih =>
    intro h
    have h1 := h r (List.mem_cons_self _ _)
    have h2 := ih (fun c hc => h c (List.mem_cons_of_mem _ hc))
    simp only [StringWidth, List.map_cons, List.sum_cons, List.length_cons, Nat.cast_add,
      Nat.cast_one] at h2 ⊢
    omega

theorem truncateLoop_length (L : Lib) (w : Int) :
    ∀ (s : Str) (width : Int), (truncateLoop L w s width).length ≤ s.length := by
  intro s
  induction s with
  | nil => intro _; simp [truncateLoop]
  | cons r rest ih =>
    intro width
    simp only [truncateLoop]
    split
    · simp
    · simp only [List.length_cons]
      have := ih (width + L.RuneWidth r)
      omega

theorem Truncate_length (L : Lib) (s : Str) (w : Int) : (Truncate L s w).length ≤ s.length := by
  unfold Truncate
  split
  · exact le_refl _
  · exact truncateLoop_length L w s 0

theorem sliceRange_ok {α : Type} (s : List α) (lo hi : Nat) (h1 : lo ≤ hi) (h2 : hi ≤ s.length) :
    ∃ t, sliceRange s (lo : Int) (hi : Int) = .ok t ∧ t.length = hi - lo := by
  refine ⟨(s.take hi).drop lo, ?_, ?_⟩
  · unfold sliceRange
    have : 0 ≤ (lo : Int) ∧ (lo : Int) ≤ hi ∧ (hi : Int) ≤ s.length := by omega
    rw [if_pos this]
    simp
  · simp only [List.length_drop, List.length_take]
    omega

/-- Where `drawRows` stays within bounds: on a row in which no rune is wider than one
column, with as many classes as the render has runes, and with `colOffset ≥ 0`, the
visible text and its classes are computed and have the same number of entries. -/
theorem visibleRow_single_width (L : Lib) (e : Editor) (row : Row)
    (hlen : row.hl.length = row.render.length) (h0 : 0 ≤ e.colOffset)
    (hw : ∀ c ∈ row.render, L.RuneWidth c ≤ 1) :
    ∃ line hl, visibleRow L e row = .ok (line, hl) ∧ line.length = hl.length := by
  have hfrom : ∃ line hl, visibleFrom L e row = .ok (line, hl) ∧ line.length = hl.length := by
    unfold visibleFrom
    by_cases hgt : StringWidth L row.render > e.colOffset
    · rw [if_pos hgt]
      have hle := StringWidth_le_length L row.render hw
      obtain ⟨n, hn⟩ := Int.eq_ofNat_of_zero_le h0
      rw [hn] at hgt ⊢
      obtain ⟨line, h1, h2⟩ := sliceRange_ok row.render n row.render.length (by omega)
        (le_refl _)
      obtain ⟨hl, h3, h4⟩ := sliceRange_ok row.hl n row.hl.length (by omega) (le_refl _)
      refine ⟨line, hl, ?_, by omega⟩
      simp only [Utf8Slice, h1, h3, Bind.bind, Except.bind, pure, Except.pure]
    · rw [if_neg hgt]
      exact ⟨[], [], rfl, rfl⟩
  obtain ⟨line, hl, h1, h2⟩ := hfrom
  have hto : ∃ line1 hl1, visibleTo L e line hl = .ok (line1, hl1) ∧
      line1.length = hl1.length := by
    unfold visibleTo
    split
    · have hle := Truncate_length L line e.screenCols
      obtain ⟨hl1, h3, h4⟩ := sliceRange_ok hl 0 (Truncate L line e.screenCols).length
        (Nat.zero_le _) (by omega)
      refine ⟨Truncate L line e.screenCols, hl1, ?_, by omega⟩
      dsimp only
      simp only [Nat.cast_zero] at h3
      simp only [h3, Bind.bind, Except.bind, pure, Except.pure]
    · exact ⟨line, hl, rfl, h2⟩
  obtain ⟨line1, hl1, h3, h4⟩ := hto
  refine ⟨line1, hl1, ?_, h4⟩
  unfold visibleRow
  simp only [h1, Bind.bind, Except.bind]
  exact h3

/-- C38 at its failing input.  With the widths of `runewidth` for CJK ideographs: the
row `"世界"` has two runes, two classes and the display width 4.  With `colOffset = 3`
the test `StringWidth(render) > colOffset` of `drawRows` holds, and `Utf8Slice` slices
the two runes from index 3.  A screen of 80 columns reaches such a state on a row of 80
times `世` with the cursor at its end: `scroll` sets `colOffset` to
`160 - 80 + 1 = 81`, past the 80 runes of the row. -/
theorem drawRows_slices_runes_by_display_column :
    ((index exCjk.Rows 0).map fun row => (row.hl.length, row.render.length,
      StringWidth cjkLib row.render)) = .ok (2, 2, 4) ∧
    (index exCjk.Rows 0 >>= visibleRow cjkLib { exCjk with colOffset := 3 })
      = .error .indexOutOfRange ∧
    (scroll cjkLib exCjkLine).map (fun e => (e.colOffset, e.screenCols)) = .ok (81, 80) ∧
    (scroll cjkLib exCjkLine >>= fun e => index e.Rows 0 >>= visibleRow cjkLib e)
      = .error .indexOutOfRange := by
  set_option maxRecDepth 100000 in
  refine ⟨?_, ?_, ?_, ?_⟩ <;> decide

/-! ## An insertion and a backspace -/

theorem take_insert_drop {α : Type} (xs : List α) (n : Nat) (c : α) (h : n ≤ xs.length) :
    (xs.take n ++ c :: xs.drop n).take n ++ (xs.take n ++ c :: xs.drop n).drop (n + 1) = xs := by
  have hl : (xs.take n).length = n := by simp [h]
  rw [List.take_append_of_le_length (by omega), List.take_of_length_le (by omega)]
  rw [List.drop_append_eq_append_drop]
  simp only [hl, List.drop_of_length_le (show (xs.take n).length ≤ n + 1 by omega)]
  simp

/-- Where a backspace takes back an insertion: on a document with contiguous indices,
under a well-formed profile, or under no profile when neither the row nor the rune
holds a tab, with the cursor on a row and within it, `InsertChar(c)` and `DeleteChar`
return, every row has its index and characters back, the cursor is where it was and
`dirty` is 2 higher. -/
theorem insertChar_deleteChar_restores (L : Lib) (e : Editor) (c : Char)
    (hp : ∀ sx, e.syn = some sx → ProfileOK sx)
    (ht : e.syn = none → c ≠ '\t' ∧ ∀ row, e.Rows[e.cy.toNat]? = some row → '\t' ∉ row.chars)
    (hc : Contiguous e.Rows)
    (hy0 : 0 ≤ e.cy) (hy : e.cy < e.Rows.length) (hx0 : 0 ≤ e.cx) (hx : e.cx ≤ lineLen e) :
    ∃ e1 e2, InsertChar L e c = .ok e1 ∧ DeleteChar L e1 = .ok e2 ∧
      e2.Rows.map Row.key = e.Rows.map Row.key ∧ e2.cx = e.cx ∧ e2.cy = e.cy ∧
      e2.dirty = e.dirty + 2 := by
  obtain ⟨row, hix, hrow⟩ := index_ok_int e.Rows e.cy hy0 hy
  have hlen : lineLen e = row.chars.length := by unfold lineLen; rw [hrow]
  have hplt : e.cy.toNat < e.Rows.length := by omega
  obtain ⟨n, hn⟩ := Int.eq_ofNat_of_zero_le hx0
  have hnle : n ≤ row.chars.length := by omega
  -- the insertion
  have hins : (row.insertChar e.cx c).chars = row.chars.take n ++ c :: row.chars.drop n := by
    unfold Row.insertChar
    rw [hn]
    have : ¬ ((n : Int) < 0 ∨ (n : Int) > row.chars.length) := by omega
    simp only [this, if_false, Int.toNat_ofNat]
  let eA : Editor := { e with Rows := e.Rows.set e.cy.toNat (row.insertChar e.cx c) }
  have hrowA : eA.Rows[e.cy.toNat]? = some (row.insertChar e.cx c) := by
    show (e.Rows.set e.cy.toNat _)[e.cy.toNat]? = _
    rw [List.getElem?_set_self hplt]
  have htA : eA.syn = none → '\t' ∉ (row.insertChar e.cx c).chars := by
    intro hs
    obtain ⟨h1, h2⟩ := ht hs
    rw [hins]
    intro hm
    rcases List.mem_append.mp hm with hm | hm
    · exact h2 row hrow (List.mem_of_mem_take hm)
    · rcases List.mem_cons.mp hm with hm | hm
      · exact h1 hm.symm
      · exact h2 row hrow (List.mem_of_mem_drop hm)
  have hcA : Contiguous eA.Rows := contiguous_set e.Rows e.cy.toNat row _ hc hrow rfl
  obtain ⟨eB, hupB, hfB, hkB⟩ := updateRow_ok L eA e.cy.toNat _ hrowA hp htA hcA
  have hkA : eA.Rows.map Row.key = (e.Rows.map Row.key).set e.cy.toNat (row.insertChar e.cx c).key := by
    show (e.Rows.set _ _).map Row.key = _
    rw [List.map_set]
  let e1 : Editor := { eB with cx := eB.cx + 1, dirty := eB.dirty + 1 }
  have h1 : InsertChar L e c = .ok e1 := by
    unfold InsertChar
    have hne : ¬ (e.cy = e.Rows.length) := by omega
    simp only [hne, if_false, pure, Except.pure, Bind.bind, Except.bind, hix]
    have hA := hupB
    simp only [eA] at hA
    rw [hA]
  -- the state after the insertion
  have hBcx : eB.cx = e.cx := by rw [hfB]
  have hBcy : eB.cy = e.cy := by rw [hfB]
  have hBdirty : eB.dirty = e.dirty := by rw [hfB]
  have hBsyn : eB.syn = e.syn := by rw [hfB]
  have hBlen : eB.Rows.length = e.Rows.length := by
    have := congrArg List.length hkB
    simpa [eA] using this
  have hcB : Contiguous eB.Rows := by
    intro i r hr
    have h1 : (eB.Rows.map Row.key)[i]? = some r.key := by simp [hr]
    rw [hkB] at h1
    simp only [List.getElem?_map, Option.map_eq_some'] at h1
    obtain ⟨r0, hr0, hk0⟩ := h1
    have := hcA i r0 hr0
    simp only [Row.key, Prod.mk.injEq] at hk0
    rw [← hk0.1]
    exact this
  obtain ⟨rowB, hixB, hrowB⟩ := index_ok_int eB.Rows e.cy hy0 (by omega)
  have hkeyB : rowB.key = (row.insertChar e.cx c).key := by
    have h1 : (eB.Rows.map Row.key)[e.cy.toNat]? = some rowB.key := by simp [hrowB]
    rw [hkB] at h1
    simp only [List.getElem?_map, hrowA, Option.map_some', Option.some.injEq] at h1
    exact h1.symm
  have hcharsB : rowB.chars = row.chars.take n ++ c :: row.chars.drop n := by
    have := congrArg Prod.snd hkeyB
    simp only [Row.key] at this
    rw [this, hins]
  have hdel : (rowB.deleteChar (e1.cx - 1)).chars = row.chars := by
    unfold Row.deleteChar
    have hcx1 : e1.cx - 1 = (n : Int) := by
      show eB.cx + 1 - 1 = _
      rw [hBcx, hn]; omega
    rw [hcx1]
    have hlenB : rowB.chars.length = row.chars.length + 1 := by
      rw [hcharsB]
      simp only [List.length_append, List.length_cons, List.length_take, List.length_drop]
      omega
    have : ¬ ((n : Int) < 0 ∨ (n : Int) ≥ rowB.chars.length) := by omega
    simp only [this, if_false, Int.toNat_ofNat]
    rw [hcharsB]
    exact take_insert_drop row.chars n c hnle
  let eC : Editor := { e1 with Rows := e1.Rows.set e1.cy.toNat (rowB.deleteChar (e1.cx - 1)) }
  have hrowC : eC.Rows[e.cy.toNat]? = some (rowB.deleteChar (e1.cx - 1)) := by
    show (eB.Rows.set eB.cy.toNat _)[e.cy.toNat]? = _
    rw [hBcy, List.getElem?_set_self (by omega)]
  have htC : eC.syn = none → '\t' ∉ (rowB.deleteChar (e1.cx - 1)).chars := by
    intro hs
    rw [hdel]
    exact (ht (by rw [← hBsyn]; exact hs)).2 row hrow
  have hidxC : (rowB.deleteChar (e1.cx - 1)).idx = rowB.idx := by
    unfold Row.deleteChar
    split <;> rfl
  have hcC : Contiguous eC.Rows := by
    show Contiguous (eB.Rows.set eB.cy.toNat _)
    rw [hBcy]
    exact contiguous_set eB.Rows e.cy.toNat rowB _ hcB hrowB hidxC
  have hpC : ∀ sx, eC.syn = some sx → ProfileOK sx := by
    intro sx hs
    exact hp sx (by rw [← hBsyn]; exact hs)
  have hrowC1 : eC.Rows[eB.cy.toNat]? = some (rowB.deleteChar (e1.cx - 1)) := by
    rw [hBcy]; exact hrowC
  obtain ⟨eD, hupD, hfD, hkD⟩ := updateRow_ok L eC eB.cy.toNat _ hrowC1 hpC htC hcC
  let e2 : Editor := { eD with cx := eD.cx - 1, dirty := eD.dirty + 1 }
  have h2 : DeleteChar L e1 = .ok e2 := by
    unfold DeleteChar
    have hne : ¬ (e1.cy = e1.Rows.length) := by
      show ¬ (eB.cy = eB.Rows.length)
      rw [hBcy, hBlen]; omega
    have hne2 : ¬ (e1.cx = 0 ∧ e1.cy = 0) := by
      show ¬ (eB.cx + 1 = 0 ∧ eB.cy = 0)
      rw [hBcx]; omega
    have hpos : e1.cx > 0 := by
      show eB.cx + 1 > 0
      rw [hBcx]; omega
    have hix1 : index e1.Rows e1.cy = .ok rowB := by
      show index eB.Rows eB.cy = _
      rw [hBcy]; exact hixB
    simp only [hne, hne2, if_false, hix1, hpos, if_true, Bind.bind, Except.bind, pure,
      Except.pure]
    have hD := hupD
    simp only [eC, e1] at hD
    rw [hD]
  refine ⟨e1, e2, h1, h2, ?_, ?_, ?_, ?_⟩
  · show eD.Rows.map Row.key = _
    rw [hkD]
    show (eB.Rows.set eB.cy.toNat _).map Row.key = _
    rw [hBcy, List.map_set, hkB, hkA, List.set_set]
    have hk : (rowB.deleteChar (e1.cx - 1)).key = row.key := by
      simp only [Row.key, hidxC, hdel, Prod.mk.injEq, and_true]
      have := congrArg Prod.fst hkeyB
      simp only [Row.key] at this
      rw [this]
      unfold Row.insertChar
      rfl
    rw [hk]
    apply List.ext_getElem?
    intro i
    by_cases hi : i = e.cy.toNat
    · subst hi
      rw [List.getElem?_set_self (by simpa using hplt)]
      simp [hrow]
    · rw [List.getElem?_set_ne (Ne.symm hi)]
  · show eD.cx - 1 = e.cx
    rw [hfD]
    show eB.cx + 1 - 1 = e.cx
    rw [hBcx]; omega
  · show eD.cy = e.cy
    rw [hfD]
    exact hBcy
  · show eD.dirty + 1 = e.dirty + 2
    rw [hfD]
    show eB.dirty + 1 + 1 = e.dirty + 2
    rw [hBdirty]; omega

/-- C39 at its failing input.  The editor as `main` leaves it without a file: one
empty row, no profile, the cursor at `(0, 0)`, which is on a row and within it.  In
Insert mode the key Tab calls `InsertChar('\t')`: `updateRow` reads the tab stop
through the nil profile and does not return, so no `DeleteChar` follows. -/
theorem insertChar_tab_without_profile (L : Lib) (find : FindFn) :
    (exOneEmpty.cy < exOneEmpty.Rows.length ∧ 0 ≤ exOneEmpty.cx ∧
      exOneEmpty.cx ≤ lineLen exOneEmpty) ∧
    (InsertChar L exOneEmpty '\t' >>= DeleteChar L) = .error .nilDereference ∧
    editKeys L find [ModeKeyI, 9] exOneEmpty = .error .nilDereference :=
  ⟨by decide, rfl, rfl⟩

/-! ## The shape of a pass of the scan -/

theorem Filled.refl_empty (hl : List Nat) (a v : Nat) : Filled hl hl a a v :=
  ⟨rfl, fun j => by
    have : ¬ (a ≤ j ∧ j < a) := by omega
    rw [if_neg this]⟩

theorem hlSet_filled (hl hl1 : List Nat) (i v : Nat) (h : hlSet hl i v = .ok hl1) :
    i < hl.length ∧ Filled hl hl1 i (i + 1) v := by
  unfold hlSet at h
  split at h
  · rename_i hlt
    cases h
    refine ⟨hlt, by simp, ?_⟩
    intro j
    by_cases hj : i = j
    · subst hj
      have : i ≤ i ∧ i < i + 1 := by omega
      rw [if_pos this, List.getElem?_set_self hlt]
    · have : ¬ (i ≤ j ∧ j < i + 1) := by omega
      rw [if_neg this, List.getElem?_set_ne hj]
  · cases h

theorem Filled.trans {hl hl1 hl2 : List Nat} {a b c v : Nat} (h1 : Filled hl hl1 a b v)
    (h2 : Filled hl1 hl2 b c v) (hab : a ≤ b) (hbc : b ≤ c) : Filled hl hl2 a c v := by
  refine ⟨h2.1.trans h1.1, ?_⟩
  intro j
  rw [h2.2 j, h1.2 j]
  by_cases hj1 : b ≤ j ∧ j < c
  · have : a ≤ j ∧ j < c := by omega
    rw [if_pos hj1, if_pos this]
  · rw [if_neg hj1]
    by_cases hj2 : a ≤ j ∧ j < b
    · have : a ≤ j ∧ j < c := by omega
      rw [if_pos hj2, if_pos this]
    · have : ¬ (a ≤ j ∧ j < c) := by omega
      rw [if_neg hj2, if_neg this]

theorem Filled.again {hl hl1 hl2 : List Nat} {a b c v : Nat} (h1 : Filled hl hl1 a b v)
    (h2 : Filled hl1 hl2 a c v) (hbc : b ≤ c) : Filled hl hl2 a c v := by
  refine ⟨h2.1.trans h1.1, ?_⟩
  intro j
  rw [h2.2 j]
  by_cases hj1 : a ≤ j ∧ j < c
  · rw [if_pos hj1, if_pos hj1]
  · have : ¬ (a ≤ j ∧ j < b) := by omega
    rw [if_neg hj1, if_neg hj1, h1.2 j, if_neg this]


theorem markN_filled : ∀ (n idx : Nat) (hl : List Nat) (v i : Nat) (hl1 : List Nat),
    markN n idx hl v = .ok (i, hl1) →
      i = idx + n ∧ (0 < n → idx + n ≤ hl.length) ∧ Filled hl hl1 idx (idx + n) v := by
  intro n
  induction n with
  | zero =>
    intro idx hl v i hl1 h
    simp only [markN, Except.ok.injEq, Prod.mk.injEq] at h
    obtain ⟨rfl, rfl⟩ := h
    exact ⟨rfl, fun h0 => absurd h0 (by omega), Filled.refl_empty _ _ _⟩
  | succ n ih =>
    intro idx hl v i hl1 h
    simp only [markN] at h
    obtain ⟨hl0, h0, h⟩ := bind_eq_ok h
    obtain ⟨hlt, hf0⟩ := hlSet_filled hl hl0 idx v h0
    obtain ⟨hi, hle, hf1⟩ := ih (idx + 1) hl0 v i hl1 h
    refine ⟨by omega, ?_, ?_⟩
    · intro _
      by_cases hn : 0 < n
      · have := hle hn
        rw [hf0.1] at this
        omega
      · omega
    · have := Filled.trans hf0 hf1 (by omega) (by omega)
      have he : idx + 1 + n = idx + (n + 1) := by omega
      rw [he] at this
      exact this

theorem byteLen_pos (s : Str) (h : s ≠ []) : 0 < byteLen s := by
  cases s with
  | nil => exact absurd rfl h
  | cons c rest =>
    simp only [byteLen, List.map_cons, List.sum_cons]
    have : 0 < c.utf8Size := Char.utf8Size_pos c
    omega

theorem findKeyword_spec (L : Lib) (runes : Str) (idx : Nat) :
    ∀ (kws : List Str) (e cls : Nat), findKeyword L runes idx kws = some (e, cls) →
      ∃ kw ∈ kws, e = idx + (keywordText kw).length ∧ e ≤ runes.length ∧
        (runes.drop idx).take (e - idx) = keywordText kw ∧
        (e = runes.length ∨ ∃ r, runes[e]? = some r ∧ IsSeparator L r = true) ∧
        cls = (if isKeyword2 kw then HlKeyword2 else HlKeyword1) := by
  intro kws
  induction kws with
  | nil => intro e cls h; simp [findKeyword] at h
  | cons kw0 rest ih =>
    intro e cls h
    simp only [findKeyword] at h
    by_cases hc : idx + (keywordText kw0).length ≤ runes.length ∧
        keywordText kw0 = (runes.drop idx).take (keywordText kw0).length ∧
        (idx + (keywordText kw0).length = runes.length ∨
          (runes[idx + (keywordText kw0).length]?.map (IsSeparator L)) = some true)
    · rw [if_pos hc] at h
      simp only [Option.some.injEq, Prod.mk.injEq] at h
      obtain ⟨he, hcls⟩ := h
      subst he
      refine ⟨kw0, List.mem_cons_self _ _, rfl, hc.1, ?_, ?_, hcls.symm⟩
      · rw [Nat.add_sub_cancel_left]
        exact hc.2.1.symm
      · rcases hc.2.2 with h1 | h1
        · exact Or.inl h1
        · right
          simp only [Option.map_eq_some'] at h1
          exact h1
    · rw [if_neg hc] at h
      obtain ⟨kw, hkw, rest1⟩ := ih e cls h
      exact ⟨kw, List.mem_cons_of_mem _ hkw, rest1⟩

theorem stageDefault_shape (L : Lib) (sx : EditorSyntax) (runes : Str) (r : Char) (s : Scan)
    (f : Flow) (hr : runes[s.idx]? = some r) (h : stageDefault L r s = .ok f) :
    StepShape L sx runes s f := by
  unfold stageDefault at h
  cases h
  exact Or.inl ⟨r, hr, rfl⟩

theorem stageKeyword_shape (L : Lib) (sx : EditorSyntax) (runes : Str) (r : Char) (s : Scan)
    (f : Flow) (hr : runes[s.idx]? = some r) (h : stageKeyword L sx runes r s = .ok f) :
    StepShape L sx runes s f := by
  unfold stageKeyword at h
  split at h
  · rename_i hsep
    split at h
    · rename_i e cls hf
      obtain ⟨p, hm, h⟩ := bind_eq_ok h
      obtain ⟨i, hl1⟩ := p
      cases h
      obtain ⟨kw, _, he, _, _, _, _⟩ := findKeyword_spec L runes s.idx sx.Keywords e cls hf
      obtain ⟨hi, _, hfill⟩ := markN_filled _ _ _ _ _ _ hm
      have hie : i = e := by omega
      subst hie
      refine Or.inr (Or.inr ⟨hsep, i, cls, hf, ?_, rfl, rfl⟩)
      have : s.idx + (i - s.idx) = i := by omega
      rw [this] at hfill
      exact hfill
    · exact stageDefault_shape L sx runes r s f hr h
  · exact stageDefault_shape L sx runes r s f hr h

theorem stageNumber_shape (L : Lib) (sx : EditorSyntax) (runes : Str) (r : Char) (prevHl : Nat)
    (s : Scan) (f : Flow) (hr : runes[s.idx]? = some r) (hlen : s.hl.length = runes.length)
    (h : stageNumber L sx runes r prevHl s = .ok f) :
    StepShape L sx runes s f := by
  unfold stageNumber at h
  split at h
  · obtain ⟨hl1, h1, h⟩ := bind_eq_ok h
    cases h
    obtain ⟨hlt, hfill⟩ := hlSet_filled _ _ _ _ h1
    refine Or.inr (Or.inl ⟨HlNumber, Or.inr (Or.inr rfl), hfill, ?_, ?_, ?_⟩)
    · show s.idx < s.idx + 1
      omega
    · show s.idx + 1 ≤ runes.length
      omega
    · intro hps
      cases hps
  · exact stageKeyword_shape L sx runes r s f hr h

theorem stageString_shape (L : Lib) (sx : EditorSyntax) (runes : Str) (r : Char) (prevHl : Nat)
    (s : Scan) (f : Flow) (hr : runes[s.idx]? = some r) (hlen : s.hl.length = runes.length)
    (h : stageString L sx runes r prevHl s = .ok f) :
    StepShape L sx runes s f := by
  unfold stageString at h
  split at h
  · split at h
    · obtain ⟨hl1, h1, h⟩ := bind_eq_ok h
      obtain ⟨hlt, hfill⟩ := hlSet_filled _ _ _ _ h1
      split at h
      · rename_i hesc
        obtain ⟨hl2, h2, h⟩ := bind_eq_ok h
        cases h
        obtain ⟨_, hfill2⟩ := hlSet_filled _ _ _ _ h2
        have := Filled.trans hfill hfill2 (by omega) (by omega)
        refine Or.inr (Or.inl ⟨HlString, Or.inr (Or.inl rfl), this, ?_, ?_, ?_⟩)
        · show s.idx < s.idx + 2
          omega
        · show s.idx + 2 ≤ runes.length
          omega
        · intro _ hv
          cases hv
      · cases h
        refine Or.inr (Or.inl ⟨HlString, Or.inr (Or.inl rfl), hfill, ?_, ?_, ?_⟩)
        · show s.idx < s.idx + 1
          omega
        · show s.idx + 1 ≤ runes.length
          omega
        · intro _ hv
          cases hv
    · split at h
      · obtain ⟨hl1, h1, h⟩ := bind_eq_ok h
        obtain ⟨hlt, hfill⟩ := hlSet_filled _ _ _ _ h1
        cases h
        refine Or.inr (Or.inl ⟨HlString, Or.inr (Or.inl rfl), hfill, ?_, ?_, ?_⟩)
        · show s.idx < s.idx + 1
          omega
        · show s.idx + 1 ≤ runes.length
          omega
        · intro _ hv
          cases hv
      · exact stageNumber_shape L sx runes r prevHl s f hr hlen h
  · exact stageNumber_shape L sx runes r prevHl s f hr hlen h

theorem stageScs_shape (L : Lib) (sx : EditorSyntax) (runes : Str) (r : Char) (prevHl : Nat)
    (s : Scan) (f : Flow) (hr : runes[s.idx]? = some r) (hlen : s.hl.length = runes.length)
    (h : stageScs L sx runes r prevHl s = .ok f) :
    StepShape L sx runes s f := by
  have hlt : s.idx < runes.length := getElem?_lt hr
  unfold stageScs at h
  split at h
  · obtain ⟨p, hm, h⟩ := bind_eq_ok h
    obtain ⟨i, hl1⟩ := p
    cases h
    obtain ⟨hi, _, hfill⟩ := markN_filled _ _ _ _ _ _ hm
    have he : s.idx + (runes.length - s.idx) = runes.length := by omega
    rw [he] at hfill hi
    exact ⟨hfill, hi⟩
  · exact stageString_shape L sx runes r prevHl s f hr hlen h

theorem stageMl_shape (L : Lib) (sx : EditorSyntax) (runes : Str) (r : Char) (prevHl : Nat)
    (s : Scan) (f : Flow) (hr : runes[s.idx]? = some r) (hlen : s.hl.length = runes.length)
    (h : stageMl L sx runes r prevHl s = .ok f) :
    StepShape L sx runes s f := by
  have hlt : s.idx < runes.length := getElem?_lt hr
  unfold stageMl at h
  split at h
  · rename_i hc
    obtain ⟨hs, he, _⟩ := hc
    split at h
    · obtain ⟨hl1, h1, h⟩ := bind_eq_ok h
      obtain ⟨_, hfill⟩ := hlSet_filled _ _ _ _ h1
      split at h
      · obtain ⟨p, hm, h⟩ := bind_eq_ok h
        obtain ⟨i, hl2⟩ := p
        cases h
        obtain ⟨hi, hle, hfill2⟩ := markN_filled _ _ _ _ _ _ hm
        have hpos := byteLen_pos sx.Mce he
        have hle1 := hle hpos
        rw [hfill.1] at hle1
        have := Filled.again hfill hfill2 (by omega)
        rw [← hi] at this
        refine Or.inr (Or.inl ⟨HlMlComment, Or.inl rfl, this, ?_, ?_, ?_⟩)
        · show s.idx < i
          omega
        · show i ≤ runes.length
          omega
        · intro _ hv
          cases hv
      · cases h
        refine Or.inr (Or.inl ⟨HlMlComment, Or.inl rfl, hfill, ?_, ?_, ?_⟩)
        · show s.idx < s.idx + 1
          omega
        · show s.idx + 1 ≤ runes.length
          omega
        · intro _ hv
          cases hv
    · split at h
      · obtain ⟨p, hm, h⟩ := bind_eq_ok h
        obtain ⟨i, hl1⟩ := p
        cases h
        obtain ⟨hi, hle, hfill⟩ := markN_filled _ _ _ _ _ _ hm
        have hpos := byteLen_pos sx.Mcs hs
        have hle1 := hle hpos
        rw [← hi] at hfill
        refine Or.inr (Or.inl ⟨HlMlComment, Or.inl rfl, hfill, ?_, ?_, ?_⟩)
        · show s.idx < i
          omega
        · show i ≤ runes.length
          omega
        · intro _ hv
          cases hv
      · exact stageScs_shape L sx runes r prevHl s f hr hlen h
  · exact stageScs_shape L sx runes r prevHl s f hr hlen h

/-- Every pass through the loop body has one of the shapes of `StepShape`. -/
theorem scanStep_shape (L : Lib) (sx : EditorSyntax) (runes : Str) (s : Scan) (f : Flow)
    (hlen : s.hl.length = runes.length) (h : scanStep L sx runes s = .ok f) :
    StepShape L sx runes s f := by
  unfold scanStep at h
  obtain ⟨r, hr, h⟩ := bind_eq_ok h
  have hr1 := (index_eq_ok hr).2
  simp only [Int.toNat_ofNat] at hr1
  dsimp only at h
  split at h
  · obtain ⟨prevHl, _, h⟩ := bind_eq_ok h
    exact stageMl_shape L sx runes r prevHl s f hr1 hlen h
  · exact stageMl_shape L sx runes r HlNormal s f hr1 hlen h

/-! ## The classes of a scanned row -/

/-- A property that every pass of the loop body keeps holds when the loop ends. -/
theorem scanLoop_inv (L : Lib) (sx : EditorSyntax) (runes : Str) (P Q : Scan → Prop)
    (hnext : ∀ s s1, P s → s.idx < runes.length →
      scanStep L sx runes s = .ok (.next s1) → P s1)
    (hstop : ∀ s s1, P s → s.idx < runes.length →
      scanStep L sx runes s = .ok (.stop s1) → Q s1)
    (hend : ∀ s, P s → ¬ s.idx < runes.length → Q s) :
    ∀ (fuel : Nat) (s s1 : Scan), P s → scanLoop L sx runes fuel s = .ok s1 → Q s1 := by
  intro fuel
  induction fuel with
  | zero =>
    intro s s1 hP h
    simp only [scanLoop] at h
    split at h
    · cases h
    · rename_i hlt
      cases h
      exact hend s hP hlt
  | succ fuel ih =>
    intro s s1 hP h
    simp only [scanLoop] at h
    split at h
    · rename_i hlt
      obtain ⟨f, hf, h⟩ := bind_eq_ok h
      cases f with
      | next s2 => exact ih s2 s1 (hnext s s2 hP hlt hf) h
      | stop s2 =>
        have h2 : s2 = s1 := by cases h; rfl
        rw [← h2]
        exact hstop s s2 hP hlt hf
    · rename_i hlt
      cases h
      exact hend s hP hlt

theorem Filled.mem {hl hl1 : List Nat} {a b v c : Nat} (h : Filled hl hl1 a b v)
    (hc : c ∈ hl1) : c = v ∨ c ∈ hl := by
  obtain ⟨j, hj⟩ := List.mem_iff_getElem?.mp hc
  rw [h.2 j] at hj
  split at hj
  · left
    exact (Option.some.inj hj).symm
  · right
    exact List.mem_iff_getElem?.mpr ⟨j, hj⟩

/-- A pass of the loop body keeps the number of classes and writes classes of the scan
only. -/
theorem scanStep_classes (L : Lib) (sx : EditorSyntax) (runes : Str) (s : Scan) (f : Flow)
    (h : scanStep L sx runes s = .ok f)
    (hP : s.hl.length = runes.length ∧ ∀ c ∈ s.hl, c ∈ scanClasses) :
    f.state.hl.length = runes.length ∧ ∀ c ∈ f.state.hl, c ∈ scanClasses := by
  have hshape := scanStep_shape L sx runes s f hP.1 h
  cases f with
  | next s1 =>
    rcases hshape with ⟨r, _, rfl⟩ | ⟨v, hv, hfill, _, _, _⟩ | ⟨_, e, cls, hf, hfill, _, _⟩
    · exact hP
    · refine ⟨hfill.1.trans hP.1, ?_⟩
      intro c hc
      rcases hfill.mem hc with rfl | hc
      · rcases hv with rfl | rfl | rfl <;> decide
      · exact hP.2 c hc
    · refine ⟨hfill.1.trans hP.1, ?_⟩
      intro c hc
      rcases hfill.mem hc with rfl | hc
      · obtain ⟨kw, _, _, _, _, _, hcls⟩ := findKeyword_spec L runes s.idx sx.Keywords e c hf
        rw [hcls]
        split <;> decide
      · exact hP.2 c hc
  | stop s1 =>
    obtain ⟨hfill, _⟩ := hshape
    refine ⟨hfill.1.trans hP.1, ?_⟩
    intro c hc
    rcases hfill.mem hc with rfl | hc
    · decide
    · exact hP.2 c hc

/-- The scan of a render returns one class for each rune, and classes of the scan
only, under every profile. -/
theorem scanRender_classes (L : Lib) (sx : EditorSyntax) (render : Str) (inc : Bool)
    (hl : List Nat) (flag : Bool) (h : scanRender L sx render inc = .ok (hl, flag)) :
    hl.length = render.length ∧ ∀ c ∈ hl, c ∈ scanClasses := by
  unfold scanRender at h
  obtain ⟨s1, hs1, h⟩ := bind_eq_ok h
  cases h
  refine scanLoop_inv L sx render
    (fun s => s.hl.length = render.length ∧ ∀ c ∈ s.hl, c ∈ scanClasses)
    (fun s => s.hl.length = render.length ∧ ∀ c ∈ s.hl, c ∈ scanClasses)
    (fun s s2 hP _ hstep => scanStep_classes L sx render s _ hstep hP)
    (fun s s2 hP _ hstep => scanStep_classes L sx render s _ hstep hP)
    (fun s hP _ => hP) _ _ s1 ?_ hs1
  refine ⟨by simp, ?_⟩
  intro c hc
  rw [List.eq_of_mem_replicate hc]
  decide

theorem highlightRow_classes (L : Lib) (e : Editor) (row row1 : Row) (changed : Bool)
    (h : highlightRow L e row = .ok (row1, changed)) : ScannedClasses row1 := by
  obtain ⟨ht, hcase⟩ := highlightRow_eq L e row row1 changed h
  have hren : row1.render = row.render := by
    have := congrArg (fun t => t.2.2) ht
    simpa [Row.text] using this
  unfold ScannedClasses
  rw [hren]
  rcases hcase with ⟨_, hhl, _, _⟩ | ⟨sx, inc, _, _, hscan, _⟩
  · rw [hhl]
    refine ⟨by simp, ?_⟩
    intro c hc
    rw [List.eq_of_mem_replicate hc]
    decide
  · exact scanRender_classes L sx row.render inc _ _ hscan

/-- After `updateHighlight` on the row at `pos`, that row has the classes of a scan,
and so has every row that had them before. -/
theorem updateHighlightAt_classes (L : Lib) : ∀ (fuel : Nat) (e e1 : Editor) (pos : Nat),
    updateHighlightAt L fuel e pos = .ok e1 →
    ∀ q : Nat, (q = pos ∨ ∃ r, e.Rows[q]? = some r ∧ ScannedClasses r) →
      ∃ r, e1.Rows[q]? = some r ∧ ScannedClasses r := by
  intro fuel
  induction fuel with
  | zero => intro e e1 pos h; simp [updateHighlightAt] at h
  | succ fuel ih =>
    intro e e1 pos h q hq
    simp only [updateHighlightAt] at h
    obtain ⟨row, hrow, h⟩ := bind_eq_ok h
    obtain ⟨p, hp, h⟩ := bind_eq_ok h
    obtain ⟨row1, changed⟩ := p
    have hgood := highlightRow_classes L e row row1 changed hp
    have hrow1 := (index_eq_ok hrow).2
    simp only [Int.toNat_ofNat] at hrow1
    have hlt := getElem?_lt hrow1
    have hq1 : ∃ r, (e.Rows.set pos row1)[q]? = some r ∧ ScannedClasses r := by
      by_cases hqp : q = pos
      · subst hqp
        exact ⟨row1, List.getElem?_set_self hlt, hgood⟩
      · rcases hq with hq | ⟨r, hr, hg⟩
        · exact absurd hq hqp
        · exact ⟨r, by rw [List.getElem?_set_ne (Ne.symm hqp)]; exact hr, hg⟩
    dsimp only at h
    split at h
    · split at h
      · exact ih _ e1 _ h q (Or.inr hq1)
      · cases h
    · cases h
      exact hq1

/-- C32.  For every library, every profile or none, every document and every row
position: whenever `updateRow` or `updateHighlight` on the row returns, the row has as
many highlight classes as its render string has runes, and each class is one of the
seven classes that the scan writes, never the class of a search match.
`updateHighlight` returns for every row of a document with contiguous indices under a
well-formed profile or none, and so does `updateRow` unless no profile is selected and
the row holds a tab. -/
theorem highlight_classes_match_render (L : Lib) (e : Editor) (pos : Nat) :
    (∀ e1, updateRow L e pos = .ok e1 ∨ updateHighlight L e pos = .ok e1 →
      ∃ row, e1.Rows[pos]? = some row ∧ row.hl.length = row.render.length ∧
        ∀ c ∈ row.hl, c ∈ scanClasses) ∧
    (pos < e.Rows.length → (∀ sx, e.syn = some sx → ProfileOK sx) → Contiguous e.Rows →
      (∃ e1, updateHighlight L e pos = .ok e1) ∧
      ((e.syn = none → ∀ row, e.Rows[pos]? = some row → '\t' ∉ row.chars) →
        ∃ e1, updateRow L e pos = .ok e1)) := by
  constructor
  · intro e1 h
    rcases h with h | h
    · unfold updateRow at h
      obtain ⟨row, _, h⟩ := bind_eq_ok h
      obtain ⟨render, _, h⟩ := bind_eq_ok h
      exact updateHighlightAt_classes L _ _ e1 pos h pos (Or.inl rfl)
    · exact updateHighlightAt_classes L _ _ e1 pos h pos (Or.inl rfl)
  · intro hlt hp hc
    constructor
    · exact updateHighlightAt_ok L e.syn hp _ e pos rfl hc hlt (by omega)
    · intro ht
      obtain ⟨row, hrow⟩ : ∃ row, e.Rows[pos]? = some row :=
        ⟨e.Rows[pos], List.getElem?_eq_getElem hlt⟩
      obtain ⟨e1, h1, _⟩ := updateRow_ok L e pos row hrow hp (fun hs => ht hs row hrow) hc
      exact ⟨e1, h1⟩

/-- An instance: Go profile, rows `["/*", "x"]`; `updateHighlight` on row 0 returns
the document as it is, and row 0 has two classes for the two runes of its render. -/
theorem highlight_classes_match_render_witness :
    updateHighlight stdLib exComment 0 = .ok exComment ∧
    ∃ row, exComment.Rows[0]? = some row ∧ row.hl.length = row.render.length ∧
      ∀ c ∈ row.hl, c ∈ scanClasses :=
  ⟨by decide, (highlight_classes_match_render stdLib exComment 0).1 exComment
    (Or.inr (by decide))⟩

/-! ## The start of a multi-line comment -/

/-- The passes of the loop leave the classes before the position of the scan alone. -/
theorem scanLoop_keeps_below (L : Lib) (sx : EditorSyntax) (runes : Str) (fuel : Nat)
    (s sf : Scan) (hlen : s.hl.length = runes.length)
    (h : scanLoop L sx runes fuel s = .ok sf) :
    ∀ i, i < s.idx → sf.hl[i]? = s.hl[i]? := by
  have key := scanLoop_inv L sx runes
    (fun t => t.hl.length = runes.length ∧ s.idx ≤ t.idx ∧ ∀ i, i < s.idx → t.hl[i]? = s.hl[i]?)
    (fun t => ∀ i, i < s.idx → t.hl[i]? = s.hl[i]?)
    (by
      intro t t1 hP _ hstep
      obtain ⟨hl1, hle, hkeep⟩ := hP
      have hshape := scanStep_shape L sx runes t _ hl1 hstep
      rcases hshape with ⟨r, _, rfl⟩ | ⟨v, _, hfill, hlt, _, _⟩ | ⟨_, e, cls, hf, hfill, hidx, _⟩
      · exact ⟨hl1, by show s.idx ≤ t.idx + 1; omega, hkeep⟩
      · refine ⟨hfill.1.trans hl1, by omega, ?_⟩
        intro i hi
        rw [hfill.2 i, if_neg (by omega)]
        exact hkeep i hi
      · obtain ⟨kw, _, he, _, _, _, _⟩ := findKeyword_spec L runes t.idx sx.Keywords e cls hf
        refine ⟨hfill.1.trans hl1, by omega, ?_⟩
        intro i hi
        rw [hfill.2 i, if_neg (by omega)]
        exact hkeep i hi)
    (by
      intro t t1 hP _ hstep
      obtain ⟨hl1, hle, hkeep⟩ := hP
      obtain ⟨hfill, _⟩ := scanStep_shape L sx runes t _ hl1 hstep
      intro i hi
      rw [hfill.2 i, if_neg (by omega)]
      exact hkeep i hi)
    (fun t hP _ => hP.2.2) fuel s sf ⟨hlen, le_refl _, fun _ _ => rfl⟩ h
  exact key

/-- The pass of the loop body at a position outside strings and comments where the
start marker of the multi-line comment matches. -/
theorem scanStep_ml_start (L : Lib) (sx : EditorSyntax) (runes : Str) (s : Scan)
    (hb : byteLen sx.Mcs = sx.Mcs.length) (hmcs : sx.Mcs ≠ []) (hmce : sx.Mce ≠ [])
    (hlen : s.hl.length = runes.length) (hq : s.strQuote = '\x00') (hc : s.inComment = false)
    (hm : sx.Mcs.isPrefixOf (runes.drop s.idx) = true) :
    ∃ hl1, scanStep L sx runes s
        = .ok (.next { s with idx := s.idx + sx.Mcs.length, hl := hl1, inComment := true }) ∧
      Filled s.hl hl1 s.idx (s.idx + sx.Mcs.length) HlMlComment ∧
      s.idx < s.idx + sx.Mcs.length ∧ s.idx + sx.Mcs.length ≤ runes.length := by
  have hle := (isPrefixOf_drop_length sx.Mcs runes s.idx hm).resolve_right hmcs
  have hpos : 0 < sx.Mcs.length := List.length_pos.mpr hmcs
  have h1 : s.idx < runes.length := by omega
  obtain ⟨hl1, hmark, _⟩ := markN_ok sx.Mcs.length s.idx s.hl HlMlComment (by omega)
  obtain ⟨_, _, hfill⟩ := markN_filled _ _ _ _ _ _ hmark
  have hstage : ∀ (r : Char) (prevHl : Nat), stageMl L sx runes r prevHl s
      = .ok (.next { s with idx := s.idx + sx.Mcs.length, hl := hl1, inComment := true }) := by
    intro r prevHl
    unfold stageMl
    rw [if_pos ⟨hmcs, hmce, hq⟩, hc]
    simp only [Bool.false_eq_true, if_false]
    rw [if_pos hm, hb, hmark]
    rfl
  refine ⟨hl1, ?_, hfill, by omega, hle⟩
  unfold scanStep
  simp only [index_ok runes s.idx h1, Bind.bind, Except.bind]
  by_cases h0 : s.idx > 0
  · obtain ⟨v, hv, _⟩ := index_ok_int s.hl ((s.idx : Int) - 1) (by omega) (by omega)
    simp only [h0, if_true, hv]
    exact hstage _ _
  · simp only [h0, if_false, pure, Except.pure]
    exact hstage _ _

/-- Inside a multi-line comment, with no end marker from the position on, the scan
runs to the end of the row and stays inside the comment. -/
theorem scanLoop_in_comment (L : Lib) (sx : EditorSyntax) (runes : Str)
    (hmcs : sx.Mcs ≠ []) (hmce : sx.Mce ≠ []) :
    ∀ (fuel : Nat) (s : Scan), s.hl.length = runes.length → s.strQuote = '\x00' →
      s.inComment = true → runes.length - s.idx ≤ fuel →
      (∀ j, s.idx ≤ j → sx.Mce.isPrefixOf (runes.drop j) = false) →
      ∃ sf, scanLoop L sx runes fuel s = .ok sf ∧ sf.inComment = true ∧
        ∀ i, s.idx ≤ i → i < runes.length → sf.hl[i]? = some HlMlComment := by
  intro fuel
  induction fuel with
  | zero =>
    intro s _ _ hc hf _
    have : ¬ s.idx < runes.length := by omega
    exact ⟨s, by simp [scanLoop, this], hc, fun i h1 h2 => absurd h2 (by omega)⟩
  | succ fuel ih =>
    intro s hlen hq hc hf hno
    by_cases h1 : s.idx < runes.length
    · have hstage : ∀ (r : Char) (prevHl : Nat), stageMl L sx runes r prevHl s
          = .ok (.next { s with hl := s.hl.set s.idx HlMlComment, idx := s.idx + 1 }) := by
        intro r prevHl
        unfold stageMl
        rw [if_pos ⟨hmcs, hmce, hq⟩, hc]
        simp only [if_true, hlSet_ok s.hl s.idx HlMlComment (by omega), Bind.bind, Except.bind,
          hno s.idx (le_refl _), Bool.false_eq_true, if_false, pure, Except.pure]
      have hstep : scanStep L sx runes s
          = .ok (.next { s with hl := s.hl.set s.idx HlMlComment, idx := s.idx + 1 }) := by
        unfold scanStep
        simp only [index_ok runes s.idx h1, Bind.bind, Except.bind]
        by_cases h0 : s.idx > 0
        · obtain ⟨v, hv, _⟩ := index_ok_int s.hl ((s.idx : Int) - 1) (by omega) (by omega)
          simp only [h0, if_true, hv]
          exact hstage _ _
        · simp only [h0, if_false, pure, Except.pure]
          exact hstage _ _
      obtain ⟨sf, hsf, hflag, hcells⟩ := ih
        { s with hl := s.hl.set s.idx HlMlComment, idx := s.idx + 1 }
        (by simpa using hlen) hq hc (by show runes.length - (s.idx + 1) ≤ fuel; omega)
        (fun j hj => hno j (by have : s.idx + 1 ≤ j := hj; omega))
      refine ⟨sf, ?_, hflag, ?_⟩
      · simp only [scanLoop, h1, if_true, hstep, Bind.bind, Except.bind]
        exact hsf
      · intro i hi1 hi2
        by_cases hi : i = s.idx
        · subst hi
          have hkeep := scanLoop_keeps_below L sx runes fuel _ sf (by simpa using hlen) hsf
            s.idx (by show s.idx < s.idx + 1; omega)
          rw [hkeep]
          show (s.hl.set s.idx HlMlComment)[s.idx]? = _
          rw [List.getElem?_set_self (by omega)]
        · exact hcells i (by show s.idx + 1 ≤ i; omega) hi2
    · exact ⟨s, by simp [scanLoop, h1], hc, fun i h2 h3 => absurd h3 (by omega)⟩

/-- C34.  For every library, every well-formed profile with non-empty multi-line
markers, every render and every state of the scan at a position outside strings and
comments where the multi-line start marker and the single-line marker both match: the
pass of the loop body writes the multi-line comment class to the runes of the start
marker and continues after them inside a multi-line comment; the scan of the rest of
the row returns and leaves these classes as they are; and when the end marker occurs
nowhere after the start marker, the scan ends inside the comment, which is the flag of
the row, with every class from the start marker on the multi-line comment class. -/
theorem ml_comment_start_before_single_line (L : Lib) (sx : EditorSyntax) (runes : Str)
    (s : Scan) (fuel : Nat) (hp : ProfileOK sx) (hmcs : sx.Mcs ≠ []) (hmce : sx.Mce ≠ [])
    (hlen : s.hl.length = runes.length) (hq : s.strQuote = '\x00') (hc : s.inComment = false)
    (hm : sx.Mcs.isPrefixOf (runes.drop s.idx) = true)
    (_hs : sx.Scs.isPrefixOf (runes.drop s.idx) = true)
    (hfuel : runes.length - s.idx ≤ fuel) :
    (∃ s1, scanStep L sx runes s = .ok (.next s1) ∧ s1.idx = s.idx + sx.Mcs.length ∧
      s1.inComment = true ∧ s1.strQuote = '\x00' ∧
      ∀ i, s.idx ≤ i → i < s.idx + sx.Mcs.length → s1.hl[i]? = some HlMlComment) ∧
    ∃ sf, scanLoop L sx runes fuel s = .ok sf ∧
      (∀ i, s.idx ≤ i → i < s.idx + sx.Mcs.length → sf.hl[i]? = some HlMlComment) ∧
      ((∀ j, s.idx + sx.Mcs.length ≤ j → sx.Mce.isPrefixOf (runes.drop j) = false) →
        sf.inComment = true ∧
        ∀ i, s.idx ≤ i → i < runes.length → sf.hl[i]? = some HlMlComment) := by
  obtain ⟨hl1, hstep, hfill, hlt, hle⟩ :=
    scanStep_ml_start L sx runes s hp.1 hmcs hmce hlen hq hc hm
  have hcells1 : ∀ i, s.idx ≤ i → i < s.idx + sx.Mcs.length → hl1[i]? = some HlMlComment := by
    intro i h1 h2
    rw [hfill.2 i, if_pos ⟨h1, h2⟩]
  have hlen1 : hl1.length = runes.length := hfill.1.trans hlen
  constructor
  · exact ⟨_, hstep, rfl, rfl, hq, hcells1⟩
  · have h1 : s.idx < runes.length := by omega
    obtain ⟨fuel1, rfl⟩ : ∃ k, fuel = k + 1 := ⟨fuel - 1, by omega⟩
    obtain ⟨sf, hsf⟩ := scanLoop_ok L sx runes hp fuel1
      { s with idx := s.idx + sx.Mcs.length, hl := hl1, inComment := true } hlen1
      (by show runes.length - (s.idx + sx.Mcs.length) ≤ fuel1; omega)
    have hkeep := scanLoop_keeps_below L sx runes fuel1 _ sf hlen1 hsf
    have hmark : ∀ i, s.idx ≤ i → i < s.idx + sx.Mcs.length → sf.hl[i]? = some HlMlComment := by
      intro i hi1 hi2
      rw [hkeep i hi2]
      exact hcells1 i hi1 hi2
    refine ⟨sf, ?_, hmark, ?_⟩
    · simp only [scanLoop, h1, if_true, hstep, Bind.bind, Except.bind]
      exact hsf
    · intro hno
      obtain ⟨sf1, hsf1, hflag, hcells⟩ := scanLoop_in_comment L sx runes hmcs hmce fuel1
        { s with idx := s.idx + sx.Mcs.length, hl := hl1, inComment := true } hlen1 hq rfl
        (by show runes.length - (s.idx + sx.Mcs.length) ≤ fuel1; omega) hno
      rw [hsf] at hsf1
      cases hsf1
      refine ⟨hflag, ?_⟩
      intro i hi1 hi2
      by_cases hi : i < s.idx + sx.Mcs.length
      · exact hmark i hi1 hi
      · exact hcells i (by show s.idx + sx.Mcs.length ≤ i; omega) hi2

/-- An instance: Lua profile, the render `--[[ x`, where `--[[` and `--` both match at
position 0: the scan gives every rune the multi-line comment class and ends inside the
comment. -/
theorem ml_comment_start_before_single_line_witness :
    (syntaxLua.Mcs.isPrefixOf ("--[[ x".toList.drop exScanStart.idx) = true ∧
      syntaxLua.Scs.isPrefixOf ("--[[ x".toList.drop exScanStart.idx) = true) ∧
    scanRender stdLib syntaxLua "--[[ x".toList false
      = .ok (List.replicate 6 HlMlComment, true) ∧
    ∃ sf, scanLoop stdLib syntaxLua "--[[ x".toList 14 exScanStart = .ok sf ∧
      (∀ i, exScanStart.idx ≤ i → i < exScanStart.idx + syntaxLua.Mcs.length →
        sf.hl[i]? = some HlMlComment) ∧
      ((∀ j, exScanStart.idx + syntaxLua.Mcs.length ≤ j →
          syntaxLua.Mce.isPrefixOf ("--[[ x".toList.drop j) = false) →
        sf.inComment = true ∧
        ∀ i, exScanStart.idx ≤ i → i < "--[[ x".toList.length →
          sf.hl[i]? = some HlMlComment) :=
  ⟨⟨by decide, by decide⟩, by decide,
    (ml_comment_start_before_single_line stdLib syntaxLua "--[[ x".toList exScanStart 14
      (HLDB_ok _ (by decide)) (by decide) (by decide) (by decide) rfl rfl (by decide)
      (by decide) (by decide)).2⟩

/-! ## Keywords and the boundaries of the scan -/

theorem KeywordBlock.congr {L : Lib} {sx : EditorSyntax} {runes : Str} {hl hl1 : List Nat}
    {c a b : Nat} (h : KeywordBlock L sx runes hl c a b)
    (hag : ∀ i, i < b → hl1[i]? = hl[i]?) : KeywordBlock L sx runes hl1 c a b := by
  obtain ⟨h1, h2, h3, h4, h5, h6, h7⟩ := h
  refine ⟨h1, h2, ?_, h4, ?_, h6, ?_⟩
  · intro i hi1 hi2
    rw [hag i hi2]
    exact h3 i hi1 hi2
  · rcases h5 with h | h | h | h
    · exact Or.inl h
    · exact Or.inr (Or.inl h)
    · exact Or.inr (Or.inr (Or.inl (by rw [hag (a - 1) (by omega)]; exact h)))
    · exact Or.inr (Or.inr (Or.inr (by rw [hag (a - 1) (by omega)]; exact h)))
  · rcases h7 with h | ⟨v, hv, hk⟩
    · exact Or.inl h
    · exact Or.inr ⟨v, by rw [hag (a - 1) (by omega)]; exact hv, hk⟩

theorem keywordBlocks_fill {L : Lib} {sx : EditorSyntax} {runes : Str} {hl hl1 : List Nat}
    {n j v : Nat} {ps : Bool} (hb : KeywordBlocks L sx runes hl n ps)
    (hfill : Filled hl hl1 n j v) (hlt : n < j) (hv : ¬ IsKeywordClass v) (ps1 : Bool) :
    KeywordBlocks L sx runes hl1 j ps1 := by
  intro i c hi hc hk
  rw [hfill.2 i] at hc
  by_cases hin : n ≤ i ∧ i < j
  · rw [if_pos hin] at hc
    cases hc
    exact absurd hk hv
  · rw [if_neg hin] at hc
    have hi1 : i < n := by omega
    obtain ⟨a, b, ha, hb1, hb2, hblock, _, hright⟩ := hb i c hi1 hc hk
    refine ⟨a, b, ha, hb1, by omega,
      hblock.congr (fun k hk => by rw [hfill.2 k, if_neg (by omega)]),
      fun h => absurd h (by omega), ?_⟩
    intro _
    by_cases hbn : b < n
    · obtain ⟨w, hw, hkw⟩ := hright hbn
      exact ⟨w, by rw [hfill.2 b, if_neg (by omega)]; exact hw, hkw⟩
    · exact ⟨v, by rw [hfill.2 b, if_pos (by omega)], hv⟩

theorem keywordInv_fill {L : Lib} {sx : EditorSyntax} {runes : Str} (s s1 : Scan) (v : Nat)
    (hinv : KeywordInv L sx runes s) (hfill : Filled s.hl s1.hl s.idx s1.idx v)
    (hlt : s.idx < s1.idx) (hle : s1.idx ≤ runes.length) (hv : ¬ IsKeywordClass v)
    (hps : s1.prevSep = true →
      v = HlString ∨ v = HlMlComment ∨ SeparatorAt L runes (s1.idx - 1)) :
    KeywordInv L sx runes s1 := by
  obtain ⟨h1, h2, h3, h4, h5⟩ := hinv
  refine ⟨hfill.1.trans h1, hle, ?_, ?_, keywordBlocks_fill h5 hfill hlt hv _⟩
  · intro i hi1 hi2
    rw [hfill.2 i, if_neg (by omega)]
    exact h3 i (by omega) hi2
  · intro hp
    right
    have hcell : s1.hl[s1.idx - 1]? = some v := by rw [hfill.2, if_pos (by omega)]
    refine ⟨⟨v, hcell, hv⟩, ?_⟩
    rcases hps hp with h | h | h
    · exact Or.inr (Or.inl (by rw [hcell, h]))
    · exact Or.inr (Or.inr (by rw [hcell, h]))
    · exact Or.inl h

theorem keywordInv_keyword {L : Lib} {sx : EditorSyntax} {runes : Str} (s s1 : Scan)
    (hinv : KeywordInv L sx runes s) (hlt : s.idx < runes.length) (hsep : s.prevSep = true)
    (e cls : Nat) (hf : findKeyword L runes s.idx sx.Keywords = some (e, cls))
    (hfill : Filled s.hl s1.hl s.idx e cls) (hidx : s1.idx = e) (hps : s1.prevSep = false) :
    KeywordInv L sx runes s1 := by
  obtain ⟨h1, h2, h3, h4, h5⟩ := hinv
  obtain ⟨kw, hkw, he, hle, htext, hend, hcls⟩ :=
    findKeyword_spec L runes s.idx sx.Keywords e cls hf
  have hge : s.idx ≤ e := by omega
  refine ⟨hfill.1.trans h1, by omega, ?_, ?_, ?_⟩
  · intro i hi1 hi2
    rw [hfill.2 i, if_neg (by omega)]
    exact h3 i (by omega) hi2
  · intro hp
    rw [hps] at hp
    cases hp
  · intro i c hi hc hk
    rw [hfill.2 i] at hc
    by_cases hin : s.idx ≤ i ∧ i < e
    · rw [if_pos hin] at hc
      cases hc
      refine ⟨s.idx, e, hin.1, hin.2, by omega, ?_, fun _ => Or.inl hps,
        fun h => absurd h (by omega)⟩
      have hkeep : ∀ k, k < s.idx → s1.hl[k]? = s.hl[k]? := by
        intro k hk
        rw [hfill.2 k, if_neg (by omega)]
      refine ⟨by omega, hle, ?_, ⟨kw, hkw, htext, hcls⟩, ?_, hend, ?_⟩
      · intro k hk1 hk2
        rw [hfill.2 k, if_pos ⟨hk1, hk2⟩]
      · rcases h4 hsep with h0 | ⟨_, h | h | h⟩
        · exact Or.inl h0
        · exact Or.inr (Or.inl h)
        · by_cases h0 : s.idx = 0
          · exact Or.inl h0
          · exact Or.inr (Or.inr (Or.inl (by rw [hkeep _ (by omega)]; exact h)))
        · by_cases h0 : s.idx = 0
          · exact Or.inl h0
          · exact Or.inr (Or.inr (Or.inr (by rw [hkeep _ (by omega)]; exact h)))
      · rcases h4 hsep with h0 | ⟨⟨w, hw, hkw1⟩, _⟩
        · exact Or.inl h0
        · by_cases h0 : s.idx = 0
          · exact Or.inl h0
          · exact Or.inr ⟨w, by rw [hkeep _ (by omega)]; exact hw, hkw1⟩
    · rw [if_neg hin] at hc
      have hi1 : i < s.idx := by omega
      obtain ⟨a, b, ha, hb1, hb2, hblock, hpend, hright⟩ := h5 i c hi1 hc hk
      refine ⟨a, b, ha, hb1, by omega,
        hblock.congr (fun k hk => by rw [hfill.2 k, if_neg (by omega)]),
        fun _ => Or.inl hps, ?_⟩
      intro _
      by_cases hbn : b < s.idx
      · obtain ⟨w, hw, hkw1⟩ := hright hbn
        exact ⟨w, by rw [hfill.2 b, if_neg (by omega)]; exact hw, hkw1⟩
      · exfalso
        rcases hpend (by omega) with h | h
        · rw [hsep] at h
          cases h
        · omega

/-- A pass of the loop body keeps the invariant of the keyword classes. -/
theorem scanStep_keywordInv (L : Lib) (sx : EditorSyntax) (runes : Str) (s : Scan) (f : Flow)
    (hinv : KeywordInv L sx runes s) (hlt : s.idx < runes.length)
    (h : scanStep L sx runes s = .ok f) :
    match f with
    | .next s1 => KeywordInv L sx runes s1
    | .stop s1 => s1.hl.length = runes.length ∧
        KeywordBlocks L sx runes s1.hl runes.length s1.prevSep := by
  have hshape := scanStep_shape L sx runes s f hinv.1 h
  cases f with
  | next s1 =>
    rcases hshape with ⟨r, hr, rfl⟩ | ⟨v, hv, hfill, hlt1, hle, hps⟩ |
      ⟨hsep, e, cls, hf, hfill, hidx, hps⟩
    · have hcell := hinv.2.2.1 s.idx (le_refl _) hlt
      have hfill : Filled s.hl s.hl s.idx (s.idx + 1) HlNormal := by
        refine ⟨rfl, ?_⟩
        intro j
        by_cases hj : s.idx ≤ j ∧ j < s.idx + 1
        · have : j = s.idx := by omega
          rw [if_pos hj, this, hcell]
        · rw [if_neg hj]
      refine keywordInv_fill s _ HlNormal hinv hfill (by show s.idx < s.idx + 1; omega)
        (by show s.idx + 1 ≤ runes.length; omega) (by unfold IsKeywordClass; decide) ?_
      intro hp
      exact Or.inr (Or.inr ⟨r, hr, hp⟩)
    · refine keywordInv_fill s s1 v hinv hfill hlt1 hle ?_ ?_
      · rcases hv with rfl | rfl | rfl <;> (unfold IsKeywordClass; decide)
      · intro hp
        rcases hv with h | h | h
        · exact Or.inr (Or.inl h)
        · exact Or.inl h
        · exact absurd h (hps hp)
    · exact keywordInv_keyword s s1 hinv hlt hsep e cls hf hfill hidx hps
  | stop s1 =>
    obtain ⟨hfill, _⟩ := hshape
    exact ⟨hfill.1.trans hinv.1,
      keywordBlocks_fill hinv.2.2.2.2 hfill hlt (by unfold IsKeywordClass; decide) _⟩

/-- The classes that the scan of a render returns: every cell of a keyword class lies
in a block that one match of the keyword part wrote. -/
theorem scanRender_keywordBlocks (L : Lib) (sx : EditorSyntax) (render : Str) (inc : Bool)
    (hl : List Nat) (flag : Bool) (h : scanRender L sx render inc = .ok (hl, flag)) :
    hl.length = render.length ∧ ∃ ps, KeywordBlocks L sx render hl render.length ps := by
  unfold scanRender at h
  obtain ⟨s1, hs1, h⟩ := bind_eq_ok h
  cases h
  have key := scanLoop_inv L sx render (KeywordInv L sx render)
    (fun s => s.hl.length = render.length ∧
      KeywordBlocks L sx render s.hl render.length s.prevSep)
    (fun s s2 hP hlt hstep => scanStep_keywordInv L sx render s _ hP hlt hstep)
    (fun s s2 hP hlt hstep => scanStep_keywordInv L sx render s _ hP hlt hstep)
    (by
      intro s hP hlt
      obtain ⟨h1, h2, _, _, h5⟩ := hP
      have : s.idx = render.length := by omega
      rw [this] at h5
      exact ⟨h1, h5⟩)
    _ _ s1 ?_ hs1
  · exact ⟨key.1, s1.prevSep, key.2⟩
  · refine ⟨by simp, Nat.zero_le _, ?_, fun _ => Or.inl rfl, ?_⟩
    · intro i _ hi
      simp [List.getElem?_replicate, hi]
    · intro i c hi
      exact absurd hi (by show ¬ i < 0; omega)

/-- C33, counterexample.  Python profile, the render `"a"if c`: the scan gives the
string class to `"a"` and the first keyword class to `if`.  The run of keyword cells
at positions 3 and 4 is maximal and is the keyword `if`; it does not begin at the
start of the row, and the rune before it, the closing quote, is no separator. -/
theorem keyword_after_closing_quote :
    scanRender stdLib syntaxPython "\"a\"if c".toList false
      = .ok ([HlString, HlString, HlString, HlKeyword1, HlKeyword1, HlNormal, HlNormal],
          false) ∧
    MaximalRun [HlString, HlString, HlString, HlKeyword1, HlKeyword1, HlNormal, HlNormal]
      HlKeyword1 3 5 ∧
    "\"a\"if c".toList[2]? = some '"' ∧ IsSeparator stdLib '"' = false := by
  refine ⟨by decide, ⟨by decide, by decide, ?_, Or.inr (by decide), Or.inr (by decide)⟩,
    by decide, by decide⟩
  intro i h1 h2
  interval_cases i <;> rfl

/-- A property that `updateHighlight` gives to each row it highlights holds, when the
call returns, for the row at `pos` and for every row that had it before. -/
theorem updateHighlightAt_establishes (L : Lib) (P : Row → Prop) (syn : Option EditorSyntax)
    (hP : ∀ (e : Editor) (row row1 : Row) (changed : Bool), e.syn = syn →
      highlightRow L e row = .ok (row1, changed) → P row1) :
    ∀ (fuel : Nat) (e e1 : Editor) (pos : Nat), e.syn = syn →
      updateHighlightAt L fuel e pos = .ok e1 →
      ∀ q : Nat, (q = pos ∨ ∃ r, e.Rows[q]? = some r ∧ P r) →
        ∃ r, e1.Rows[q]? = some r ∧ P r := by
  intro fuel
  induction fuel with
  | zero => intro e e1 pos _ h; simp [updateHighlightAt] at h
  | succ fuel ih =>
    intro e e1 pos hs h q hq
    simp only [updateHighlightAt] at h
    obtain ⟨row, hrow, h⟩ := bind_eq_ok h
    obtain ⟨p, hp, h⟩ := bind_eq_ok h
    obtain ⟨row1, changed⟩ := p
    have hgood := hP e row row1 changed hs hp
    have hrow1 := (index_eq_ok hrow).2
    simp only [Int.toNat_ofNat] at hrow1
    have hlt := getElem?_lt hrow1
    have hq1 : ∃ r, (e.Rows.set pos row1)[q]? = some r ∧ P r := by
      by_cases hqp : q = pos
      · subst hqp
        exact ⟨row1, List.getElem?_set_self hlt, hgood⟩
      · rcases hq with hq | ⟨r, hr, hg⟩
        · exact absurd hq hqp
        · exact ⟨r, by rw [List.getElem?_set_ne (Ne.symm hqp)]; exact hr, hg⟩
    dsimp only at h
    split at h
    · split at h
      · exact ih { e with Rows := e.Rows.set pos row1 } e1 _ hs h q (Or.inr hq1)
      · cases h
    · cases h
      exact hq1

theorem scanRender_keywordRuns (L : Lib) (sx : EditorSyntax) (render : Str) (inc : Bool)
    (hl : List Nat) (flag : Bool) (h : scanRender L sx render inc = .ok (hl, flag)) :
    KeywordRuns L sx render hl := by
  intro c a b hc hrun
  obtain ⟨hlen, ps, hblocks⟩ := scanRender_keywordBlocks L sx render inc hl flag h
  obtain ⟨hab, hb, hcells, hleft, hright⟩ := hrun
  obtain ⟨a1, b1, ha1, hb1, hb2, hblock, _, hnext⟩ :=
    hblocks a c (by omega) (hcells a (le_refl _) hab) hc
  obtain ⟨k1, k2, k3, k4, k5, k6, k7⟩ := hblock
  have haa : a1 = a := by
    by_contra hne
    have hlt : a1 < a := by omega
    rcases hleft with h0 | h0
    · omega
    · exact h0 (k3 (a - 1) (by omega) (by omega))
  have hbb : b1 = b := by
    by_contra hne
    rcases Nat.lt_or_gt_of_ne hne with hlt | hgt
    · obtain ⟨v, hv, hkv⟩ := hnext (by omega)
      rw [hcells b1 (by omega) hlt] at hv
      cases hv
      exact hkv hc
    · rcases hright with h0 | h0
      · omega
      · exact h0 (k3 b (by omega) hgt)
  subst haa
  subst hbb
  exact ⟨k4, k5, k6⟩

/-- C33, amended.  For every library and every profile: under a well-formed profile
the scan of a render returns; whenever it returns, each maximal run of cells of the
first (resp. second) keyword class is the text of a keyword of the profile without
(resp. with) the marker `|`, the marker stripped, the run begins at the start of the
row, after a separator, or after a rune of the string class or of the multi-line
comment class, and it ends at the end of the row or before a separator; and whenever
`updateRow` or `updateHighlight` on a row of a document returns, the classes of that
row stand on its render in this way. -/
theorem keyword_runs_at_scan_boundaries (L : Lib) (sx : EditorSyntax) :
    (∀ render inc, ProfileOK sx → ∃ hl flag, scanRender L sx render inc = .ok (hl, flag)) ∧
    (∀ render inc hl flag, scanRender L sx render inc = .ok (hl, flag) →
      KeywordRuns L sx render hl) ∧
    (∀ (e e1 : Editor) (pos : Nat), e.syn = some sx →
      updateRow L e pos = .ok e1 ∨ updateHighlight L e pos = .ok e1 →
      ∃ row, e1.Rows[pos]? = some row ∧ KeywordRuns L sx row.render row.hl) := by
  refine ⟨fun render inc hp => scanRender_ok L sx hp render inc,
    fun render inc hl flag h => scanRender_keywordRuns L sx render inc hl flag h, ?_⟩
  intro e e1 pos hs h
  have hP : ∀ (e0 : Editor) (row row1 : Row) (changed : Bool), e0.syn = some sx →
      highlightRow L e0 row = .ok (row1, changed) → KeywordRuns L sx row1.render row1.hl := by
    intro e0 row row1 changed hs0 hh
    obtain ⟨ht, hcase⟩ := highlightRow_eq L e0 row row1 changed hh
    have hren : row1.render = row.render := by
      have := congrArg (fun t => t.2.2) ht
      simpa [Row.text] using this
    rcases hcase with ⟨hn, _⟩ | ⟨sx1, inc, hs1, _, hscan, _⟩
    · rw [hs0] at hn
      cases hn
    · rw [hs0] at hs1
      cases hs1
      rw [hren]
      exact scanRender_keywordRuns L sx row.render inc _ _ hscan
  rcases h with h | h
  · unfold updateRow at h
    obtain ⟨row, _, h⟩ := bind_eq_ok h
    obtain ⟨render, _, h⟩ := bind_eq_ok h
    exact updateHighlightAt_establishes L (fun r => KeywordRuns L sx r.render r.hl) (some sx) hP
      _ { e with Rows := e.Rows.set pos { row with render := render } } e1 pos hs h pos
      (Or.inl rfl)
  · exact updateHighlightAt_establishes L (fun r => KeywordRuns L sx r.render r.hl) (some sx) hP
      _ e e1 pos hs h pos (Or.inl rfl)

/-- An instance: Go profile, the render `if x`; the run of the first keyword class at
positions 0 and 1 is the keyword `if`, at the start of the row and before a space. -/
theorem keyword_runs_at_scan_boundaries_witness :
    scanRender stdLib syntaxGo "if x".toList false
      = .ok ([HlKeyword1, HlKeyword1, HlNormal, HlNormal], false) ∧
    KeywordAt syntaxGo "if x".toList HlKeyword1 0 2 ∧
    KeywordStart stdLib "if x".toList [HlKeyword1, HlKeyword1, HlNormal, HlNormal] 0 ∧
    KeywordEnd stdLib "if x".toList 2 :=
  ⟨by decide,
    (keyword_runs_at_scan_boundaries stdLib syntaxGo).2.1 "if x".toList false _ false
      (by decide) HlKeyword1 0 2 (Or.inl rfl)
      ⟨by decide, by decide, fun i h1 h2 => by interval_cases i <;> rfl, Or.inl rfl,
        Or.inr (by decide)⟩⟩

end Virayeshgar
